import Mathlib

/-!
# Verification of the encrypted-tensor layout engine of the OpenFHE Python bindings

Shallow embedding of the integer utilities (`src/utils/rotate_utils.cpp`), the mask
generators (`src/ckks/utils.cpp`), the ciphertext operators
(`src/ckks/CKKS_ciphertext_extension.cpp`), the rotation-key generation
(`src/ckks/CKKS_key_operations.cpp`) and the CNN layers (`src/ckks/cnn/*.cpp`),
followed by the theorems that settle the specification claims about them.

Conventions of the embedding:
* Sizes and loop indices are `Nat`. The layout arithmetic of the masks and of the
  convolution, pooling and upsampling layers is on mathematical integers (`Int`, `Nat`), and
  `1 << p` is `2 ^ p` there. Where the source computes on an `int` or `long int` argument
  that nothing bounds (`po2Decompose`, `CKKSMultiplySingletonIntDoubleAndAdd`, `linear`), the
  width is kept: signed arithmetic is two's complement, every result is reduced by
  `wrapInt32` or `wrapInt64`.
* A recursion of the source that need not end is embedded with a bound on the number of
  nested calls and returns an `Option`: `none` says that the call has not returned within the
  bound.
* `double` values are rationals (`ℚ`), i.e. exact arithmetic, as are the slots of a
  ciphertext. The one `double` division on an argument of the caller, `1.0 / n` in `linear`,
  is rounded to binary64 (`doubleReciprocal`).
* A C++ exception is an `Except.error`: the error names the `throw` site that the run
  executes, and the run returns no value. Several `throw` sites lie in the body of an OpenMP
  `parallel for`. The embedding records that the `throw` is executed and that nothing is
  returned; it does not say what becomes of an exception that leaves a parallel region.
* A `for` loop over `0 .. n-1` is a map or fold over `List.range n`; OpenMP parallel loops
  write disjoint cells and are embedded as the sequential loop.
-/

namespace pyOpenFHE

/-! ## Integer utilities (`src/utils/rotate_utils.cpp`) -/

/-- Positive power-of-two decomposition, `sumOfPo2s(15) = {8, 4, 2, 1}`:
`while (num > 0) { po2 = log2(num); po2s.push_back(1 << po2); num -= (1 << po2); }`. -/
def sumOfPo2s (num : Int) : List Int :=
  if h : 0 < num then
    let po2 := Nat.log2 num.toNat
    (2 ^ po2 : Int) :: sumOfPo2s (num - 2 ^ po2)
  else []
termination_by num.toNat
decreasing_by
  have h2 : 2 ^ Nat.log2 num.toNat ≤ num.toNat := Nat.log2_self_le (by omega)
  have h3 : 0 < 2 ^ Nat.log2 num.toNat := Nat.pos_pow_of_pos _ (by norm_num)
  have h4 : ((2 ^ Nat.log2 num.toNat : Nat) : Int) = 2 ^ Nat.log2 num.toNat := by push_cast; rfl
  omega

/-- Source: `((num & (num - 1)) == 0) and num != 0`. -/
def is_power_of_two (num : Int) : Bool := (Int.land num (num - 1) == 0) && (num != 0)

/-- Source: `exponent = 1; while (num >>= 1) exponent++; return exponent;`.
The argument is a `Nat`: the callers only pass positive values. -/
def num_bits (num : Nat) : Nat :=
  if num / 2 = 0 then 1 else num_bits (num / 2) + 1
termination_by num
decreasing_by omega

/-- Source: `1 << (num_bits(num) - 1)`. -/
def last_power_of_two (num : Int) : Int := 2 ^ (num_bits num.toNat - 1)

/-- Source: `1 << num_bits(num)`, on mathematical integers (`next_power_of_two_int32` keeps
the width of `int`). -/
def next_power_of_two (num : Int) : Int := 2 ^ (num_bits num.toNat)

/-! Facts about `num_bits` and `is_power_of_two` that the termination argument of
`po2Decompose` rests on. -/

theorem num_bits_pos (n : Nat) : 1 ≤ num_bits n := by
  rw [num_bits]; split <;> omega

theorem num_bits_bounds (n : Nat) (hn : 1 ≤ n) :
    2 ^ (num_bits n - 1) ≤ n ∧ n < 2 ^ (num_bits n) := by
  induction n using Nat.strong_induction_on with
  | _ n ih =>
    rw [num_bits]
    split
    · rename_i h
      have : n = 1 := by omega
      subst this; simp
    · rename_i h
      have h1 : 1 ≤ n / 2 := by omega
      obtain ⟨ihl, ihu⟩ := ih (n / 2) (by omega) h1
      have hp := num_bits_pos (n / 2)
      have e : num_bits (n / 2) + 1 - 1 = (num_bits (n / 2) - 1) + 1 := by omega
      rw [e, pow_succ, pow_succ]
      constructor <;> omega

theorem land_pred_two_pow (k : Nat) : (2 ^ k) &&& (2 ^ k - 1) = 0 := by
  rw [Nat.and_pow_two_sub_one_eq_mod]; simp

theorem is_power_of_two_two_pow (k : Nat) : is_power_of_two ((2 : Int) ^ k) = true := by
  have h : ((2 : Int) ^ k) = ((2 ^ k : Nat) : Int) := by push_cast; rfl
  have h1 : ((2 : Int) ^ k) - 1 = ((2 ^ k - 1 : Nat) : Int) := by
    have := @Nat.one_le_two_pow k
    push_cast [Nat.cast_sub this]; rfl
  unfold is_power_of_two
  rw [h1, h]
  simp only [Int.land]
  rw [land_pred_two_pow]
  simp

theorem testBit_of_bounds (n k : Nat) (h1 : 2 ^ k ≤ n) (h2 : n < 2 ^ (k + 1)) :
    n.testBit k = true := by
  rw [Nat.testBit_to_div_mod]
  have : n / 2 ^ k = 1 := by
    apply Nat.div_eq_of_lt_le
    · simpa using h1
    · rw [pow_succ] at h2; omega
  simp [this]

theorem is_power_of_two_iff (n : Nat) (hn : 1 ≤ n) :
    is_power_of_two (n : Int) = true ↔ n = 2 ^ (num_bits n - 1) := by
  obtain ⟨hl, hu⟩ := num_bits_bounds n hn
  have hp := num_bits_pos n
  constructor
  · intro h
    by_contra hne
    have hlt : 2 ^ (num_bits n - 1) < n := lt_of_le_of_ne hl (Ne.symm hne)
    have hu' : n < 2 ^ ((num_bits n - 1) + 1) := by
      have : num_bits n - 1 + 1 = num_bits n := by omega
      rw [this]; exact hu
    have t1 := testBit_of_bounds n _ hl hu'
    have t2 := testBit_of_bounds (n - 1) (num_bits n - 1) (by omega) (by omega)
    have h1 : ((n : Int) - 1) = ((n - 1 : Nat) : Int) := by omega
    unfold is_power_of_two at h
    rw [h1] at h
    simp only [Int.land] at h
    simp at h
    have h0 : n &&& (n - 1) = 0 := by exact_mod_cast h.1
    have : (n &&& (n - 1)).testBit (num_bits n - 1) = true := by
      rw [Nat.testBit_and, t1, t2]; rfl
    rw [h0] at this
    simp at this
  · intro h
    have := is_power_of_two_two_pow (num_bits n - 1)
    rw [h]; push_cast; exact this

theorem po2_bounds (num : Int) (h0 : ¬ num = 0) (hneg : ¬ num < 0)
    (hp : ¬ is_power_of_two num = true) :
    last_power_of_two num < num ∧ num < next_power_of_two num ∧
      next_power_of_two num = 2 * last_power_of_two num ∧ 0 < last_power_of_two num := by
  have hn : 1 ≤ num.toNat := by omega
  have hc : ((num.toNat : Nat) : Int) = num := by omega
  obtain ⟨hl, hu⟩ := num_bits_bounds num.toNat hn
  have hpos := num_bits_pos num.toNat
  have hne : num.toNat ≠ 2 ^ (num_bits num.toNat - 1) := by
    intro h
    apply hp
    rw [← hc]
    exact (is_power_of_two_iff _ hn).2 h
  have hlt : 2 ^ (num_bits num.toNat - 1) < num.toNat := lt_of_le_of_ne hl (Ne.symm hne)
  unfold last_power_of_two next_power_of_two
  have e : num_bits num.toNat = (num_bits num.toNat - 1) + 1 := by omega
  refine ⟨?_, ?_, ?_, by positivity⟩
  · rw [← hc]; exact_mod_cast hlt
  · rw [← hc]; exact_mod_cast hu
  · conv_lhs => rw [e, pow_succ]
    ring

/-- Positive and negative power-of-two decomposition, `po2Decompose(15) = {16, -1}`
(as a vector: `[-1, 16]`, the power closest to `num` is pushed last). This is the source
function on mathematical integers; `po2Decompose_int32` keeps the width of `int`, and the two
agree on every argument of absolute value at most `2^30` (`po2Decompose_int32_small`), which
covers the rotations by at most a batch size that the operators pass. -/
def po2Decompose (num : Int) : List Int :=
  if h0 : num = 0 then []
  else if hneg : num < 0 then (po2Decompose (-num)).map (fun elt => -elt)
  else if hp : is_power_of_two num = true then [num]
  else
    let lower := last_power_of_two num
    let upper := next_power_of_two num
    let lower_diff := num - lower
    let upper_diff := upper - num
    let lower_sum := po2Decompose lower_diff
    let upper_sum := po2Decompose upper_diff
    if lower_sum.length ≤ upper_sum.length then lower_sum ++ [lower]
    else upper_sum.map (fun elt => -elt) ++ [upper]
termination_by 2 * num.natAbs + (if num < 0 then 1 else 0)
decreasing_by
  · simp only [Int.natAbs_neg]
    have : ¬ (-num < 0) := by omega
    simp [hneg, this]
  · obtain ⟨h1, h2, h3, h4⟩ := po2_bounds num h0 hneg hp
    have a : ¬ (num - last_power_of_two num < 0) := by omega
    simp only [a, hneg, if_false]
    omega
  · obtain ⟨h1, h2, h3, h4⟩ := po2_bounds num h0 hneg hp
    have a : ¬ (next_power_of_two num - num < 0) := by omega
    simp only [a, hneg, if_false]
    omega


/-- An integer that is `+2^j` or `-2^j`. -/
def IsSignedPo2 (e : Int) : Prop := ∃ j : Nat, e = 2 ^ j ∨ e = -(2 ^ j)

/-- The number of one bits of `n`, read off its binary digits. -/
def popcount (n : Nat) : Nat := (Nat.digits 2 n).count 1

/-! ## The rotation utilities on 32-bit `int` (`src/utils/rotate_utils.cpp`)

`po2Decompose` above is the source function read on mathematical integers.  The source computes
on `int`: the definitions below keep its width.  Every arithmetic result is reduced to the
two's-complement range by `wrapInt32`, so `1 << 31` and `-INT_MIN` are both `INT_MIN`, and the
recursion is bounded by an explicit number of nested calls (`none`: the call has not returned
within that depth). -/

/-- The value a 32-bit two's-complement `int` holds for the arithmetic result `v`. -/
def wrapInt32 (v : Int) : Int := (v + 2 ^ 31) % 2 ^ 32 - 2 ^ 31

/-- Source: `1 << num_bits(num)` on `int`; for `num ≥ 2^30` the shift is `1 << 31`. -/
def next_power_of_two_int32 (num : Int) : Int := wrapInt32 (2 ^ (num_bits num.toNat))

/-- Source `po2Decompose(int num)` with `int` arithmetic, run for at most `fuel` nested calls:
`if (num == 0) return elts;`, `if (num < 0) { elts = po2Decompose(-num); negate each }`,
`if (is_power_of_two(num)) { elts.push_back(num) }`, otherwise the shorter of
`po2Decompose(num - lower)` with `lower` pushed and the negated `po2Decompose(upper - num)` with
`upper` pushed. -/
def po2Decompose_int32 : Nat → Int → Option (List Int)
  | 0, _ => none
  | fuel + 1, num =>
    if num = 0 then some []
    else if num < 0 then
      (po2Decompose_int32 fuel (wrapInt32 (-num))).map
        (fun elts => elts.map (fun elt => wrapInt32 (-elt)))
    else if is_power_of_two num = true then some [num]
    else
      let lower := last_power_of_two num
      let upper := next_power_of_two_int32 num
      let lower_diff := wrapInt32 (num - lower)
      let upper_diff := wrapInt32 (upper - num)
      match po2Decompose_int32 fuel lower_diff, po2Decompose_int32 fuel upper_diff with
      | some lower_sum, some upper_sum =>
        if lower_sum.length ≤ upper_sum.length then some (lower_sum ++ [lower])
        else some (upper_sum.map (fun elt => wrapInt32 (-elt)) ++ [upper])
      | _, _ => none
/-! ## Mask generators (`src/ckks/utils.cpp`) -/

/-- Source: `kernel_index_to_shift(i, ker_size)`. -/
def kernel_index_to_shift (i : Nat) (ker_size : Nat) : Int :=
  if ker_size % 2 = 0 then (i : Int) - (↑(ker_size / 2) : Int) + 1
  else (i : Int) - (↑(ker_size / 2) : Int)

def generate_up_mask (mtx_num_rows mtx_num_cols : Nat) (num_shift_up : Int) : List Int :=
  (List.range (mtx_num_rows * mtx_num_cols)).map fun i =>
    if (↑(i / mtx_num_cols) : Int) ≥ (mtx_num_rows : Int) - num_shift_up then 0 else 1

def generate_down_mask (mtx_num_rows mtx_num_cols : Nat) (num_shift_down : Int) : List Int :=
  (List.range (mtx_num_rows * mtx_num_cols)).map fun i =>
    if (↑(i / mtx_num_cols) : Int) < num_shift_down then 0 else 1

def generate_left_mask (mtx_num_rows mtx_num_cols : Nat) (num_shift_left : Int) : List Int :=
  (List.range (mtx_num_rows * mtx_num_cols)).map fun i =>
    if (↑(i % mtx_num_cols) : Int) ≥ (mtx_num_cols : Int) - num_shift_left then 0 else 1

def generate_right_mask (mtx_num_rows mtx_num_cols : Nat) (num_shift_right : Int) : List Int :=
  (List.range (mtx_num_rows * mtx_num_cols)).map fun i =>
    if (↑(i % mtx_num_cols) : Int) < num_shift_right then 0 else 1

def generate_ud_mask (mtx_num_rows mtx_num_cols : Nat) (num_shift_up : Int) : List Int :=
  if num_shift_up < 0 then generate_down_mask mtx_num_rows mtx_num_cols (-num_shift_up)
  else generate_up_mask mtx_num_rows mtx_num_cols num_shift_up

def generate_lr_mask (mtx_num_rows mtx_num_cols : Nat) (num_shift_left : Int) : List Int :=
  if num_shift_left < 0 then generate_right_mask mtx_num_rows mtx_num_cols (-num_shift_left)
  else generate_left_mask mtx_num_rows mtx_num_cols num_shift_left

def make_shift_mask_channel_shard (num_rows num_cols : Nat) (num_shift_up num_shift_left : Int) :
    List Int :=
  let ud_mask := generate_ud_mask num_rows num_cols num_shift_up
  let lr_mask := generate_lr_mask num_rows num_cols num_shift_left
  let area := num_rows * num_cols
  (List.range area).map fun i => Int.land (ud_mask.getD i 0) (lr_mask.getD i 0)

/-- Whether grid position `i` shifted by `(dr, dc)` stays inside the `rows x cols` grid. -/
def shiftInBounds (rows cols : Nat) (dr dc : Int) (i : Nat) : Prop :=
  0 ≤ (↑(i / cols) : Int) + dr ∧ (↑(i / cols) : Int) + dr < rows ∧
  0 ≤ (↑(i % cols) : Int) + dc ∧ (↑(i % cols) : Int) + dc < cols

instance (rows cols : Nat) (dr dc : Int) (i : Nat) : Decidable (shiftInBounds rows cols dr dc i) := by
  unfold shiftInBounds; infer_instance

/-! ## Errors, vectors and tensors -/

/-- The failures of the embedded code. All but the last are exceptions thrown by the source;
`undefinedBehaviour` is not an exception: it marks an execution that the C++ standard leaves
undefined (a copy past the end of a vector, a loop that never ends). -/
inductive Error where
  /-- Source: `"rotation value = {} is too large compared to batch size = {}"`. -/
  | rotationTooLarge
  /-- Source: `"Provided vector has length = {}, but the CryptoContext batch size = {}"`. -/
  | lengthMismatch
  /-- Source: `"Insufficient number of towers remaining to perform a multiplication = {}"`. -/
  | insufficientTowers
  /-- Source: `std::invalid_argument("test")` of `shift_to_kernel_index`. -/
  | invalidArgument
  /-- Source: `"Shards must be able to store at least two rows"`. -/
  | tooFewRows
  /-- Source: `"Upsample type #{} is not supported"`. -/
  | unsupportedUpsampleType
  /-- Source: `"Insufficient number of towers remaining = {} to evaluate this Chebyshev series
  of degree = {}"`. -/
  | insufficientTowersForSeries
  /-- No exception: the execution is undefined in C++. -/
  | undefinedBehaviour
  deriving DecidableEq, Repr

/-- Source: `shift_to_kernel_index(shift, ker_size)`, the first `i < ker_size` with
`kernel_index_to_shift(i, ker_size) == shift`, else `std::invalid_argument`. -/
def shift_to_kernel_index (shift : Int) (ker_size : Nat) : Except Error Nat :=
  match (List.range ker_size).find? (fun i => kernel_index_to_shift i ker_size == shift) with
  | some i => .ok i
  | none => .error .invalidArgument

/-- Source: `std::copy_n(vals.begin(), n, vals.begin() + n)` on a vector with at least `2 * n`
elements. -/
def copy_n {α : Type} (vals : List α) (n : Nat) : List α :=
  vals.take n ++ vals.take n ++ vals.drop (2 * n)

/-- The loop of `tileVector`:
`while (current_size < final_size) { copy_n(begin, current_size, begin + current_size);
current_size <<= 1; }` on a vector already resized to `final_size`. The copy writes the cells
`current_size .. 2 * current_size - 1`; when they do not all exist the write runs past the end
of the vector. The first argument bounds the number of iterations: with `current_size = 0`
the source loops forever. -/
def tileVectorLoop {α : Type} (final_size : Nat) : Nat → Nat → List α → Except Error (List α)
  | 0, current_size, vals =>
    if current_size < final_size then .error .undefinedBehaviour else .ok vals
  | fuel + 1, current_size, vals =>
    if current_size < final_size then
      if 2 * current_size ≤ final_size then
        tileVectorLoop final_size fuel (2 * current_size) (copy_n vals current_size)
      else .error .undefinedBehaviour
    else .ok vals

/-- Source: `tileVector(vals, final_size)`: `vals.resize(final_size)` (new cells are zero),
then the doubling loop. The by-reference argument is returned as the result. -/
def tileVector {α : Type} [Zero α] (vals : List α) (final_size : Nat) : Except Error (List α) :=
  let current_size := vals.length
  let resized := vals.take final_size ++ List.replicate (final_size - vals.length) 0
  tileVectorLoop final_size final_size current_size resized

/-- Source: `make_shift_mask_image_sharded`: the AND of the two masks, tiled over the
`num_mtxs` channels of a shard. -/
def make_shift_mask_image_sharded (num_mtxs mtx_num_rows mtx_num_cols : Nat)
    (num_shift_up num_shift_left : Int) : Except Error (List Int) :=
  let ud_mask := generate_ud_mask mtx_num_rows mtx_num_cols num_shift_up
  let lr_mask := generate_lr_mask mtx_num_rows mtx_num_cols num_shift_left
  let mtx_area := mtx_num_rows * mtx_num_cols
  let batch_size := num_mtxs * mtx_area
  let mask := (List.range mtx_area).map fun i => Int.land (ud_mask.getD i 0) (lr_mask.getD i 0)
  tileVector mask batch_size

/-- Source: `make_shift_mask_bleed_channel_shard`: only the up-down mask is inverted. -/
def make_shift_mask_bleed_channel_shard (num_rows num_cols : Nat)
    (num_shift_up num_shift_left : Int) : List Int :=
  let ud_mask := generate_ud_mask num_rows num_cols num_shift_up
  let lr_mask := generate_lr_mask num_rows num_cols num_shift_left
  let area := num_rows * num_cols
  (List.range area).map fun i => Int.land (1 - ud_mask.getD i 0) (lr_mask.getD i 0)

/-- A `boost::multi_array<double, 4>`: its four extents and its elements. Reading outside the
extents is undefined in the source; no theorem below depends on such a read. -/
structure boost_vector4d where
  shape0 : Nat
  shape1 : Nat
  shape2 : Nat
  shape3 : Nat
  elems : Nat → Nat → Nat → Nat → ℚ

/-- A `boost::multi_array<double, 2>`: its two extents and its elements. -/
structure boost_vector2d where
  shape0 : Nat
  shape1 : Nat
  elems : Nat → Nat → ℚ

/-! ## Ciphertexts and the homomorphic evaluator

The evaluator (OpenFHE) is an external collaborator. Following sections 1, 3 and 4.1 of the
specification it is modelled by its contract: a ciphertext is its vector of slot values
together with its number of towers remaining; addition, subtraction, negation and
multiplication by a plaintext act slot by slot; `EvalAtIndex` is the cyclic left rotation of
the slots; every multiplication consumes one tower, a sum is at the lower of the two levels
and a rotation keeps the level. -/

/-- Source: `class CKKSCiphertext`, reduced to what the evaluator contract exposes. -/
structure CKKSCiphertext where
  slots : List ℚ
  towers : Nat
  deriving DecidableEq

instance : Inhabited CKKSCiphertext := ⟨⟨[], 0⟩⟩

/-- Source: `getBatchSize()`. -/
def CKKSCiphertext.getBatchSize (c : CKKSCiphertext) : Nat := c.slots.length

/-- Source: `getTowersRemaining()`. -/
def CKKSCiphertext.getTowersRemaining (c : CKKSCiphertext) : Nat := c.towers

/-- Cyclic left rotation of a slot vector: slot `j` of the result is slot `(j + i) mod N`. -/
def rotateSlots (v : List ℚ) (i : Int) : List ℚ :=
  (List.range v.length).map fun (j : Nat) =>
    v.getD (((j : Int) + i) % (v.length : Int)).toNat 0

/-- Evaluator contract: `EvalAtIndex(cipher, i)`. -/
def EvalAtIndex (c : CKKSCiphertext) (i : Int) : CKKSCiphertext :=
  ⟨rotateSlots c.slots i, c.towers⟩

/-- Evaluator contract: `EvalAdd` of two ciphertexts. -/
def EvalAdd (c1 c2 : CKKSCiphertext) : CKKSCiphertext :=
  ⟨List.zipWith (fun a b => a + b) c1.slots c2.slots, min c1.towers c2.towers⟩

/-- Evaluator contract: `EvalSub` of two ciphertexts. -/
def EvalSub (c1 c2 : CKKSCiphertext) : CKKSCiphertext :=
  ⟨List.zipWith (fun a b => a - b) c1.slots c2.slots, min c1.towers c2.towers⟩

/-- Evaluator contract: `EvalMult` of a ciphertext and a packed plaintext. -/
def EvalMultPlain (c : CKKSCiphertext) (ptxt : List ℚ) : CKKSCiphertext :=
  ⟨List.zipWith (fun a b => a * b) c.slots ptxt, c.towers - 1⟩

/-! ## Ciphertext operators (`src/ckks/CKKS_ciphertext_extension.cpp`)

The compound assignments of the source mutate their left operand and return it; here they
return the new value, and a thrown exception leaves the operand as it was. -/

/-- Source: `operator+=(CKKSCiphertext&, const CKKSCiphertext&)` and `operator+`. -/
def addAssign (c1 c2 : CKKSCiphertext) : CKKSCiphertext := EvalAdd c1 c2

/-- Source: `operator-=(CKKSCiphertext&, const CKKSCiphertext&)` and `operator-`. -/
def subAssign (c1 c2 : CKKSCiphertext) : CKKSCiphertext := EvalSub c1 c2

/-- Source: `EvalRotatePositiveNegativePow2(ctxt, r)`. -/
def EvalRotatePositiveNegativePow2 (ctxt : CKKSCiphertext) (r : Int) :
    Except Error CKKSCiphertext :=
  if r = 0 then .ok ctxt
  else
    let N : Int := ctxt.getBatchSize
    if |r| > N then .error .rotationTooLarge
    else
      let po2s := po2Decompose r
      .ok (po2s.foldl (fun c i => EvalAtIndex c i) ctxt)

/-- Source: `operator<<=(CKKSCiphertext&, int)` and `operator<<(CKKSCiphertext, double)`. -/
def shiftLeft (ctxt : CKKSCiphertext) (r : Int) : Except Error CKKSCiphertext :=
  EvalRotatePositiveNegativePow2 ctxt r

/-- Source: `operator>>=(CKKSCiphertext&, double)` and `operator>>`: `ctxt <<= (-r)`. -/
def shiftRight (ctxt : CKKSCiphertext) (r : Int) : Except Error CKKSCiphertext :=
  shiftLeft ctxt (-r)

/-- Source: `operator*=(CKKSCiphertext&, std::vector<double>)` and `operator*`: the length
check, then the towers check, then `EvalMult`. -/
def mulAssignVector (ctxt : CKKSCiphertext) (vals : List ℚ) : Except Error CKKSCiphertext :=
  let N := ctxt.getBatchSize
  if vals.length ≠ N then .error .lengthMismatch
  else if ctxt.getTowersRemaining ≤ 2 then .error .insufficientTowers
  else .ok (EvalMultPlain ctxt vals)

/-! ## Convolution (`src/ckks/cnn/conv.cpp`) -/

/-- The two row loops of `get_all_rotations_image_sharded`: starting from a row of the table,
each further row is the previous one with every entry rotated by `step`. -/
def rotation_rows (step : CKKSCiphertext → Except Error CKKSCiphertext) :
    Nat → List CKKSCiphertext → Except Error (List (List CKKSCiphertext))
  | 0, _ => .ok []
  | n + 1, row => do
    let next ← row.mapM step
    let rest ← rotation_rows step n next
    pure (next :: rest)

/-- Source: `get_all_rotations_image_sharded(ciphertext, mtx_size, ker_size)`: the
`ker_size x ker_size` table of rotations. The centre row holds `ciphertext << shift(j)`; the
rows above it are obtained by repeated `>> mtx_size`, the rows below by repeated
`<< mtx_size`. -/
def get_all_rotations_image_sharded (ciphertext : CKKSCiphertext) (mtx_size ker_size : Nat) :
    Except Error (List (List CKKSCiphertext)) := do
  let center ← shift_to_kernel_index 0 ker_size
  let center_row ← (List.range ker_size).mapM fun j =>
    shiftLeft ciphertext (kernel_index_to_shift j ker_size)
  let above ← rotation_rows (fun c => shiftRight c mtx_size) center center_row
  let below ← rotation_rows (fun c => shiftLeft c mtx_size) (ker_size - (center + 1)) center_row
  pure (above.reverse ++ center_row :: below)

/-- Source: `get_all_rotations_channel_sharded`: per channel and per shard of the channel, the
same table as `get_all_rotations_image_sharded`. -/
def get_all_rotations_channel_sharded (all_shards : List CKKSCiphertext)
    (shards_per_channel mtx_size ker_size : Nat) :
    Except Error (List (List (List (List CKKSCiphertext)))) :=
  let num_channels := all_shards.length / shards_per_channel
  (List.range num_channels).mapM fun channel_index =>
    let channel_offset := channel_index * shards_per_channel
    (List.range shards_per_channel).mapM fun shard_index =>
      get_all_rotations_image_sharded (all_shards.getD (channel_offset + shard_index) default)
        mtx_size ker_size

/-- Source: `convolution_helper_image_sharded`. -/
def convolution_helper_image_sharded (ciphertext_rotations : List (List CKKSCiphertext))
    (filters : boost_vector4d) (mtx_size r num_in_channels_per_shard
      num_out_channels_per_shard fragment_offset shard_offset : Nat) (sigma : List Int) :
    Except Error CKKSCiphertext := do
  let ciphertext := (ciphertext_rotations.getD 0 []).getD 0 default
  let shard_size := ciphertext.getBatchSize
  let ker_size := filters.shape2
  let channel_size := mtx_size * mtx_size
  let num_physical_channels := shard_size / channel_size
  let input_dup_factor := shard_size / (num_in_channels_per_shard * channel_size)
  let output_dup_factor := shard_size / (num_out_channels_per_shard * channel_size)
  let enc_sum := subAssign ciphertext ciphertext
  let enc_sum ← (List.range ker_size).foldlM (fun enc_sum ki =>
    let num_shift_ud := kernel_index_to_shift ki ker_size
    (List.range ker_size).foldlM (fun enc_sum kj => do
      let num_shift_lr := kernel_index_to_shift kj ker_size
      let mask ← make_shift_mask_image_sharded num_physical_channels mtx_size mtx_size
        num_shift_ud num_shift_lr
      let kernel_elements : List ℚ := (List.range num_physical_channels).map fun idx =>
        let i := (num_in_channels_per_shard * fragment_offset)
          + (idx / input_dup_factor + r) % num_in_channels_per_shard
        let sigma_i := sigma.getD i 0
        let j := (num_out_channels_per_shard * shard_offset) + (idx / output_dup_factor)
        filters.elems sigma_i.toNat j ki kj
      let masked_kernel_elements : List ℚ := (List.range shard_size).map fun i =>
        let idx := Int.tmod ((↑(i / channel_size) : Int) - (↑(r * input_dup_factor) : Int)
          + (num_physical_channels : Int)) (num_physical_channels : Int)
        ((mask.getD i 0 : Int) : ℚ) * kernel_elements.getD idx.toNat 0
      let product ← mulAssignVector ((ciphertext_rotations.getD ki []).getD kj default)
        masked_kernel_elements
      pure (addAssign enc_sum product)) enc_sum) enc_sum
  shiftLeft enc_sum (↑(r * mtx_size * mtx_size * input_dup_factor) : Int)

/-- Source: `convolution_helper_channel_sharded`. The bleed shard index is an `Option`:
`none` is the source's `-1`. -/
def convolution_helper_channel_sharded (rotations : List (List (List (List CKKSCiphertext))))
    (filters : boost_vector4d) (mtx_size channel_index channel_shard_index
      output_channel_index : Nat) : Except Error CKKSCiphertext := do
  let rot := fun (c s ki kj : Nat) =>
    ((((rotations.getD c []).getD s []).getD ki []).getD kj default)
  let first_shard := rot 0 0 0 0
  let shard_size := first_shard.getBatchSize
  let channel_size := mtx_size * mtx_size
  let shards_per_channel := channel_size / shard_size
  let ker_size := filters.shape2
  let num_rows := mtx_size / shards_per_channel
  let num_cols := mtx_size
  let enc_sum := subAssign first_shard first_shard
  (List.range ker_size).foldlM (fun enc_sum ki =>
    let num_shift_ud := kernel_index_to_shift ki ker_size
    let bleed_shard_index : Option Nat :=
      if num_shift_ud > 0 then
        if channel_shard_index + 1 = shards_per_channel then none
        else some (channel_shard_index + 1)
      else if num_shift_ud < 0 then
        if channel_shard_index = 0 then none
        else some (channel_shard_index - 1)
      else none
    (List.range ker_size).foldlM (fun enc_sum kj => do
      let num_shift_lr := kernel_index_to_shift kj ker_size
      let mask := make_shift_mask_channel_shard num_rows num_cols num_shift_ud num_shift_lr
      let bleed_mask :=
        make_shift_mask_bleed_channel_shard num_rows num_cols num_shift_ud num_shift_lr
      let kernel_element := filters.elems channel_index output_channel_index ki kj
      let masked_kernel_elements : List ℚ := (List.range shard_size).map fun i =>
        ((mask.getD i 0 : Int) : ℚ) * kernel_element
      let bleed_masked_kernel_elements : List ℚ := (List.range shard_size).map fun i =>
        ((bleed_mask.getD i 0 : Int) : ℚ) * kernel_element
      let product ← mulAssignVector (rot channel_index channel_shard_index ki kj)
        masked_kernel_elements
      let enc_sum := addAssign enc_sum product
      match bleed_shard_index with
      | some b => do
        let bleed ← mulAssignVector (rot channel_index b ki kj) bleed_masked_kernel_elements
        pure (addAssign enc_sum bleed)
      | none => pure enc_sum) enc_sum) enc_sum

/-- Source: `conv2d_image_sharded`. The permutation is passed as the list `sigma`. -/
def conv2d_image_sharded (shards : List CKKSCiphertext) (filters : boost_vector4d)
    (mtx_size : Nat) (sigma : List Int) : Except Error (List CKKSCiphertext) := do
  let first_shard := shards.getD 0 default
  let num_input_shards := shards.length
  let shard_size := first_shard.getBatchSize
  let channel_size := mtx_size * mtx_size
  let num_physical_channels_per_shard := shard_size / channel_size
  let num_output_channels := filters.shape1
  let ker_size := filters.shape2
  let num_output_shards :=
    if num_output_channels / num_physical_channels_per_shard = 0 then 1
    else num_output_channels / num_physical_channels_per_shard
  let num_in_channels_per_shard :=
    if num_input_shards > 1 then num_physical_channels_per_shard else filters.shape0
  let num_out_channels_per_shard :=
    if num_output_shards > 1 then num_physical_channels_per_shard else filters.shape1
  let partial_convolutions : List CKKSCiphertext :=
    List.replicate (num_in_channels_per_shard * num_output_shards * num_input_shards) default
  let all_ciphertext_rotations ← (List.range num_input_shards).mapM fun f =>
    get_all_rotations_image_sharded (shards.getD f default) mtx_size ker_size
  let partial_convolutions ← (List.range num_output_shards).foldlM (fun acc s =>
    (List.range num_input_shards).foldlM (fun acc f =>
      (List.range num_in_channels_per_shard).foldlM (fun acc r => do
        let idx := s * (num_in_channels_per_shard * num_input_shards)
          + f * num_in_channels_per_shard + r
        let c ← convolution_helper_image_sharded (all_ciphertext_rotations.getD f [])
          filters mtx_size r num_in_channels_per_shard num_out_channels_per_shard f s sigma
        pure (acc.set idx c)) acc) acc) partial_convolutions
  let output_shards : List CKKSCiphertext := (List.range num_output_shards).map fun s =>
    let idx := s * (num_in_channels_per_shard * num_input_shards)
    let ctxt := partial_convolutions.getD idx default
    (List.range' 1 (num_in_channels_per_shard * num_input_shards - 1)).foldl
      (fun ctxt offset => addAssign ctxt (partial_convolutions.getD (idx + offset) default)) ctxt
  pure output_shards

/-- Source: `conv2d_channel_sharded`. -/
def conv2d_channel_sharded (shards : List CKKSCiphertext) (filters : boost_vector4d)
    (mtx_size : Nat) : Except Error (List CKKSCiphertext) := do
  let first_shard := shards.getD 0 default
  let num_input_shards := shards.length
  let shard_size := first_shard.getBatchSize
  let channel_size := mtx_size * mtx_size
  let shards_per_channel := channel_size / shard_size
  let num_input_channels := num_input_shards / shards_per_channel
  let num_output_channels := filters.shape1
  let ker_size := filters.shape2
  let num_output_shards := num_output_channels * shards_per_channel
  let partial_convolutions : List CKKSCiphertext :=
    List.replicate (num_input_channels * shards_per_channel * num_output_channels) default
  let channel_shard_rotations ←
    get_all_rotations_channel_sharded shards shards_per_channel mtx_size ker_size
  let partial_convolutions ← (List.range num_input_channels).foldlM (fun acc input_channel_index =>
    (List.range shards_per_channel).foldlM (fun acc channel_shard_index =>
      (List.range num_output_channels).foldlM (fun acc output_channel_index => do
        let idx := input_channel_index * (shards_per_channel * num_output_channels)
          + output_channel_index * shards_per_channel + channel_shard_index
        let c ← convolution_helper_channel_sharded channel_shard_rotations filters mtx_size
          input_channel_index channel_shard_index output_channel_index
        pure (acc.set idx c)) acc) acc) partial_convolutions
  let output_shards : List CKKSCiphertext :=
    (List.range num_output_channels).foldl (fun out output_channel_index =>
      (List.range shards_per_channel).foldl (fun out shard_index =>
        let enc_sum := (List.range num_input_channels).foldl (fun enc_sum input_channel_index =>
          let idx := input_channel_index * (shards_per_channel * num_output_channels)
            + output_channel_index * shards_per_channel + shard_index
          addAssign enc_sum (partial_convolutions.getD idx default))
          (subAssign first_shard first_shard)
        let output_idx := output_channel_index * shards_per_channel + shard_index
        out.set output_idx enc_sum) out) (List.replicate num_output_shards default)
  pure output_shards

/-- Source: `pyOpenFHE_CKKS::conv2d`: dispatch on slot width against channel size. -/
def conv2d (py_shards : List CKKSCiphertext) (npfilters : boost_vector4d) (mtx_size : Nat)
    (permutation : List Int) : Except Error (List CKKSCiphertext) :=
  let shards := py_shards
  let shard_size := (shards.getD 0 default).getBatchSize
  let channel_size := mtx_size * mtx_size
  if shard_size ≥ channel_size then
    conv2d_image_sharded shards npfilters mtx_size permutation
  else
    conv2d_channel_sharded shards npfilters mtx_size

/-! ## Pooling (`src/ckks/cnn/pool.cpp`) -/

/-- A plaintext mask under construction: `std::vector<double>(shard_size)` (all zero) in which
the listed cells are then assigned `value`, in order. -/
def fill_mask (shard_size : Nat) (cells : List Nat) (value : ℚ) : List ℚ :=
  cells.foldl (fun mask cell => mask.set cell value) (List.replicate shard_size 0)

/-- The accumulation `ctxt = parts[0]; for (i = 1; i < n; ++i) ctxt += parts[i];` of the
reduction and expansion loops. -/
def sum_parts (parts : List CKKSCiphertext) : CKKSCiphertext :=
  (List.range' 1 (parts.length - 1)).foldl
    (fun ctxt i => addAssign ctxt (parts.getD i default)) (parts.getD 0 default)

/-- Source: `pool_pre_convolution(shards, num_cols)`: every shard becomes the sum of its
rotations by `0, 1, num_cols, num_cols + 1`. The by-reference argument is returned. -/
def pool_pre_convolution (shards : List CKKSCiphertext) (num_cols : Nat) :
    Except Error (List CKKSCiphertext) := do
  let shift_vals : List Int := [0, 1, (num_cols : Int), (num_cols : Int) + 1]
  let shifts ← shards.mapM fun shard => shift_vals.mapM fun v => shiftLeft shard v
  pure (shifts.map fun row =>
    (List.range' 1 3).foldl (fun ctxt j => addAssign ctxt (row.getD j default))
      (row.getD 0 default))

/-- Source: `pool_horizontal_reduce`. -/
def pool_horizontal_reduce (shards : List CKKSCiphertext)
    (num_rows num_cols num_physical_channels_per_shard : Nat) (fill_value : ℚ) :
    Except Error (List CKKSCiphertext) := do
  let shard_size := (shards.getD 0 default).getBatchSize
  let half_num_cols := num_cols / 2
  let channel_size := num_rows * num_cols
  let horizontal_masks : List (List ℚ) := (List.range half_num_cols).map fun i =>
    fill_mask shard_size
      ((List.range num_rows).flatMap fun j =>
        (List.range num_physical_channels_per_shard).map fun k =>
          i + j * num_cols + k * channel_size)
      fill_value
  let horizontal_reductions ← shards.mapM fun shard =>
    (List.range half_num_cols).mapM fun (i : Nat) => do
      let rotated ← shiftLeft shard (i : Int)
      mulAssignVector rotated (horizontal_masks.getD i [])
  pure (horizontal_reductions.map sum_parts)

/-- Source: `pool_vertical_reduce_image_sharded`. -/
def pool_vertical_reduce_image_sharded (shards : List CKKSCiphertext)
    (num_rows num_cols num_physical_channels_per_shard : Nat) (fill_value : ℚ) :
    Except Error (List CKKSCiphertext) := do
  let shard_size := (shards.getD 0 default).getBatchSize
  let half_num_rows := num_rows / 2
  let channel_size := num_rows * num_cols
  let vertical_masks : List (List ℚ) := (List.range half_num_rows).map fun i =>
    fill_mask shard_size
      ((List.range num_cols).flatMap fun j =>
        (List.range num_physical_channels_per_shard).map fun k =>
          i * half_num_rows + j + k * channel_size)
      fill_value
  let vertical_reductions ← shards.mapM fun shard =>
    (List.range half_num_rows).mapM fun i => do
      let rotated ← shiftLeft shard (↑(i * half_num_rows * 3) : Int)
      mulAssignVector rotated (vertical_masks.getD i [])
  pure (vertical_reductions.map sum_parts)

/-- Source: `pool_vertical_reduce_channel_sharded`. -/
def pool_vertical_reduce_channel_sharded (shards : List CKKSCiphertext)
    (num_rows num_cols : Nat) : Except Error (List CKKSCiphertext) := do
  let shard_size := (shards.getD 0 default).getBatchSize
  let half_num_rows := num_rows / 2
  let half_num_cols := num_cols / 2
  let vertical_masks : List (List ℚ) := (List.range half_num_rows).map fun i =>
    fill_mask shard_size ((List.range half_num_cols).map fun j => i * half_num_cols + j) 1
  let vertical_reductions ← shards.mapM fun shard =>
    (List.range half_num_rows).mapM fun i => do
      let rotated ← shiftLeft shard (↑(i * half_num_cols * 3) : Int)
      mulAssignVector rotated (vertical_masks.getD i [])
  pure (vertical_reductions.map sum_parts)

/-- Source: `pool_consolidate_and_duplicate_image_sharded`. -/
def pool_consolidate_and_duplicate_image_sharded (shards : List CKKSCiphertext)
    (num_rows num_cols : Nat) : Except Error (List CKKSCiphertext) := do
  let num_input_shards := shards.length
  let half_num_rows := num_rows / 2
  let half_num_cols := num_cols / 2
  let num_output_shards :=
    if num_input_shards = 1 then 1 else if num_input_shards = 2 then 1
    else num_input_shards / 4
  let new_duplication_ratio :=
    if num_input_shards = 1 then 4 else if num_input_shards = 2 then 2 else 1
  let output_shards : List CKKSCiphertext := List.replicate num_output_shards default
  if new_duplication_ratio = 1 then
    let shards ← (List.range num_input_shards).mapM fun (s : Nat) =>
      let r := (s % 4) * half_num_rows * half_num_cols
      shiftRight (shards.getD s default) (r : Int)
    let merged := (List.range ((num_input_shards + 3) / 4)).foldl (fun state q =>
      let s := 4 * q
      let acc := (List.range' 1 3).foldl
        (fun acc j => addAssign acc (state.1.getD (s + j) default)) (state.1.getD s default)
      (state.1.set s acc, state.2.set (s / 4) acc)) (shards, output_shards)
    pure merged.2
  else if new_duplication_ratio = 2 then
    let r := half_num_rows * half_num_cols
    let shard1 ← shiftRight (shards.getD 1 default) (↑(2 * r) : Int)
    let shard0 := addAssign (shards.getD 0 default) shard1
    let rotated ← shiftRight shard0 (r : Int)
    let shard0 := addAssign shard0 rotated
    pure (output_shards.set 0 shard0)
  else
    let r := half_num_rows * half_num_cols
    let shard0 := shards.getD 0 default
    let rotated ← shiftRight shard0 (r : Int)
    let shard0 := addAssign shard0 rotated
    let rotated ← shiftRight shard0 (↑(2 * r) : Int)
    let shard0 := addAssign shard0 rotated
    pure (output_shards.set 0 shard0)

/-- Source: `pool_consolidate_and_duplicate_channel_sharded`. -/
def pool_consolidate_and_duplicate_channel_sharded (shards : List CKKSCiphertext) :
    Except Error (List CKKSCiphertext) := do
  let num_input_shards := shards.length
  let shard_size := (shards.getD 0 default).getBatchSize
  let rotation_factor := shard_size / 4
  if num_input_shards > 2 then
    let num_output_shards := num_input_shards / 4
    (List.range num_output_shards).mapM fun output_shard_index =>
      (List.range' 1 3).foldlM (fun out i => do
        let rotated ← shiftRight (shards.getD (i + output_shard_index * 4) default)
          (↑(i * rotation_factor) : Int)
        pure (addAssign out rotated)) (shards.getD (output_shard_index * 4) default)
  else
    let rotated ← shiftRight (shards.getD 1 default) (rotation_factor : Int)
    let out := addAssign (shards.getD 0 default) rotated
    let rotated ← shiftRight out (↑(rotation_factor * 2) : Int)
    pure [addAssign out rotated]

/-- Source: `pool_image_sharded`. -/
def pool_image_sharded (shards : List CKKSCiphertext) (mtx_size : Nat) (conv : Bool) :
    Except Error (List CKKSCiphertext) := do
  let shard_size := (shards.getD 0 default).getBatchSize
  let channel_size := mtx_size * mtx_size
  let num_physical_channels_per_shard := shard_size / channel_size
  let shards ← if conv then pool_pre_convolution shards mtx_size else pure shards
  let fill_value : ℚ := if conv then 1 / 4 else 1
  let shards ← pool_horizontal_reduce shards mtx_size mtx_size
    num_physical_channels_per_shard fill_value
  let shards ← pool_vertical_reduce_image_sharded shards mtx_size mtx_size
    num_physical_channels_per_shard 1
  pool_consolidate_and_duplicate_image_sharded shards mtx_size mtx_size

/-- Source: `pool_channel_sharded`. -/
def pool_channel_sharded (shards : List CKKSCiphertext) (mtx_size : Nat) (conv : Bool) :
    Except Error (List CKKSCiphertext) := do
  let shard_size := (shards.getD 0 default).getBatchSize
  let channel_size := mtx_size * mtx_size
  let shards_per_channel := channel_size / shard_size
  let num_rows_per_shard := mtx_size / shards_per_channel
  let num_cols_per_shard := mtx_size
  let shards ← if conv then pool_pre_convolution shards num_cols_per_shard else pure shards
  let fill_value : ℚ := if conv then 1 / 4 else 1
  let shards ← pool_horizontal_reduce shards num_rows_per_shard num_cols_per_shard 1 fill_value
  let shards ← pool_vertical_reduce_channel_sharded shards num_rows_per_shard num_cols_per_shard
  pool_consolidate_and_duplicate_channel_sharded shards

/-- Source: `pyOpenFHE_CKKS::pool`: dispatch on slot width against channel size. -/
def pool (py_shards : List CKKSCiphertext) (mtx_size : Nat) (conv : Bool) :
    Except Error (List CKKSCiphertext) :=
  let shards := py_shards
  let shard_size := (shards.getD 0 default).getBatchSize
  let channel_size := mtx_size * mtx_size
  if shard_size ≥ channel_size then pool_image_sharded shards mtx_size conv
  else pool_channel_sharded shards mtx_size conv

/-! ## Upsampling (`src/ckks/cnn/upsample.cpp`) -/

/-- The channel loop `for (k = 0; k < n; k += 4)`: the values `0, 4, 8, ...` below `n`. -/
def every_fourth (n : Nat) : List Nat := (List.range ((n + 3) / 4)).map fun q => 4 * q

/-- Source: `upsample_vertical_expand`. -/
def upsample_vertical_expand (shards : List CKKSCiphertext)
    (num_rows num_cols num_physical_channels_per_shard duplication_ratio : Nat)
    (fill_value : ℚ) : Except Error (List CKKSCiphertext) := do
  let shard_size := (shards.getD 0 default).getBatchSize
  let channel_size := num_rows * num_cols
  let channel_size_after_upsample := channel_size * 4
  let num_rows_per_shard_after_upsample :=
    if channel_size_after_upsample > shard_size then
      num_rows / (channel_size_after_upsample / shard_size)
    else num_rows
  let distance_to_next_subchannel :=
    if channel_size_after_upsample > shard_size then
      channel_size / (channel_size_after_upsample / shard_size)
    else if duplication_ratio > 2 then 4 * channel_size
    else if duplication_ratio = 2 then 2 * channel_size
    else channel_size
  let num_shifts_per_shard :=
    if channel_size_after_upsample > shard_size then
      (if duplication_ratio = 2 then 2 else 4)
    else if duplication_ratio > 2 then 1
    else if duplication_ratio = 2 then 2
    else 4
  if num_rows_per_shard_after_upsample < 1 then throw Error.tooFewRows
  let vertical_masks : List (List ℚ) :=
    (List.range num_rows_per_shard_after_upsample).map fun j =>
      fill_mask shard_size
        ((List.range num_cols).flatMap fun i =>
          (every_fourth num_physical_channels_per_shard).map fun k =>
            i + j * num_cols * 4 + k * channel_size)
        fill_value
  let shifted_shards ← shards.mapM fun shard =>
    (List.range num_shifts_per_shard).mapM fun i =>
      shiftLeft shard (↑(i * distance_to_next_subchannel) : Int)
  let shifted_shards := shifted_shards.flatten
  let vertical_expansions ← shifted_shards.mapM fun shard =>
    (List.range num_rows_per_shard_after_upsample).mapM fun i => do
      let rotated ← shiftRight shard (↑(3 * num_cols * i) : Int)
      mulAssignVector rotated (vertical_masks.getD i [])
  pure (vertical_expansions.map sum_parts)

/-- Source: `upsample_horizontal_expand`. The by-reference argument is returned. -/
def upsample_horizontal_expand (shards : List CKKSCiphertext) (num_rows num_cols : Nat)
    (fill_value : ℚ) : Except Error (List CKKSCiphertext) := do
  let shard_size := (shards.getD 0 default).getBatchSize
  let channel_size := num_rows * num_cols
  let channel_size_after_upsample := channel_size * 4
  let num_physical_channels_per_shard :=
    if shard_size / channel_size = 0 then 1 else shard_size / channel_size
  let num_rows_per_shard_after_upsample :=
    if channel_size_after_upsample > shard_size then
      num_rows / (channel_size_after_upsample / shard_size)
    else num_rows
  let horizontal_masks : List (List ℚ) := (List.range num_cols).map fun i =>
    fill_mask shard_size
      ((List.range num_rows_per_shard_after_upsample).flatMap fun j =>
        (every_fourth num_physical_channels_per_shard).map fun k =>
          i * 2 + j * num_cols * 4 + k * channel_size)
      fill_value
  let horizontal_expansions ← shards.mapM fun shard =>
    (List.range num_cols).mapM fun (i : Nat) => do
      let rotated ← shiftRight shard (i : Int)
      mulAssignVector rotated (horizontal_masks.getD i [])
  pure (horizontal_expansions.map sum_parts)

/-- Source: `nearest_neighbor_interpolate`. The by-reference argument is returned. -/
def nearest_neighbor_interpolate (shards : List CKKSCiphertext) (num_cols : Nat) :
    Except Error (List CKKSCiphertext) :=
  shards.mapM fun shard => do
    let ctxt := shard
    let rotated ← shiftRight ctxt 1
    let ctxt := addAssign ctxt rotated
    let rotated ← shiftRight ctxt (num_cols : Int)
    pure (addAssign ctxt rotated)

/-- Source: `small_shards_upsample`. -/
def small_shards_upsample (shards : List CKKSCiphertext) (mtx_size : Nat) (sigma : List Int)
    (upsample_type : Int) : Except Error (List CKKSCiphertext) := do
  let shard_size := (shards.getD 0 default).getBatchSize
  let channel_size := mtx_size * mtx_size
  let num_logical_channels := sigma.length
  let num_physical_channels_per_shard := shard_size / channel_size
  let duplication_ratio :=
    if shard_size > channel_size then num_physical_channels_per_shard / num_logical_channels
    else 1
  let fill_value : ℚ := 1
  let output_shards ← upsample_vertical_expand shards mtx_size mtx_size
    num_physical_channels_per_shard duplication_ratio fill_value
  let output_shards ← upsample_horizontal_expand output_shards mtx_size mtx_size fill_value
  if upsample_type = 0 then pure output_shards
  else if upsample_type = 1 then nearest_neighbor_interpolate output_shards (mtx_size * 2)
  else throw Error.unsupportedUpsampleType

/-- Source: `big_shards_upsample`. -/
def big_shards_upsample (shards : List CKKSCiphertext) (mtx_size : Nat)
    (upsample_type : Int) : Except Error (List CKKSCiphertext) := do
  let shard_size := (shards.getD 0 default).getBatchSize
  let num_rows_per_shard := shard_size / mtx_size
  let num_physical_channels_per_shard := 1
  let duplication_ratio := 1
  let fill_value : ℚ := 1
  let output_shards ← upsample_vertical_expand shards num_rows_per_shard mtx_size
    num_physical_channels_per_shard duplication_ratio fill_value
  let output_shards ← upsample_horizontal_expand output_shards num_rows_per_shard mtx_size
    fill_value
  if upsample_type = 0 then pure output_shards
  else if upsample_type = 1 then nearest_neighbor_interpolate output_shards (mtx_size * 2)
  else throw Error.unsupportedUpsampleType

/-- Source: `pyOpenFHE_CKKS::upsample`: dispatch on slot width against channel size. -/
def upsample (py_shards : List CKKSCiphertext) (mtx_size : Nat) (permutation : List Int)
    (upsample_type : Int) : Except Error (List CKKSCiphertext) :=
  let shards := py_shards
  let shard_size := (shards.getD 0 default).getBatchSize
  let channel_size := mtx_size * mtx_size
  if shard_size ≥ channel_size then
    small_shards_upsample shards mtx_size permutation upsample_type
  else big_shards_upsample shards mtx_size upsample_type

/-! ## Fully-connected layer (`src/ckks/cnn/linear.cpp`)

The index arithmetic of `linear` is on `int`: every sum and product below is reduced by
`wrapInt32`, and `/` and `%` on `int` truncate towards zero (`Int.tdiv`, `Int.tmod`).  The batch
size, the extents of the weight array and the number of shards are sizes of objects in memory
and are read as they are.  An integer division by zero, the division `1.0 / 0`, and an index
outside the vector or array it addresses have no defined behaviour: they end the run with
`undefinedBehaviour`. -/

/-- The rotate-and-add loop of `linear`:
`while (shift > 0) { res = res + (res >> shift); shift /= 2; }`. -/
def rotate_and_add (res : CKKSCiphertext) (shift : Nat) : Except Error CKKSCiphertext :=
  if h : shift > 0 then do
    let rotated ← shiftRight res (shift : Int)
    rotate_and_add (addAssign res rotated) (shift / 2)
  else pure res
termination_by shift
decreasing_by omega

/-- The `double` quotient `1.0 / n` for a nonzero `int` `n` (IEEE 754 binary64, round to
nearest, ties to even): the conversion of `n` to `double` is exact, the quotient lies in the
binade `[2^-s, 2^(1-s)]` with `s` the number of bits of `|n|`, and is rounded to a multiple of
`2^-(52+s)`. -/
def doubleReciprocal (n : Int) : ℚ :=
  let a := n.natAbs
  let scale := 2 ^ (52 + Nat.size a)
  let q := scale / a
  let rem := scale % a
  let m := if 2 * rem < a then q else if a < 2 * rem then q + 1
    else if q % 2 = 0 then q else q + 1
  (if n < 0 then -1 else 1) * ((m : ℚ) / (scale : ℚ))

/-- The body of the loop over `i` in `linear` (lines 46-53), the weight `v[i]` of output `r` on
shard `s`: `physical_channel_idx = i / channel_size + s * num_physical_channels_per_shard`,
`logical_channel_idx = sigma[physical_channel_idx / duplication_factor]`,
`idx = logical_channel_idx * channel_size + i % channel_size`, `v[i] = weights[r][idx]`. -/
def linear_weight (weights : boost_vector2d) (sigma : List Int)
    (channel_size num_physical_channels_per_shard duplication_factor : Int) (r s i : Nat) :
    Except Error ℚ :=
  let physical_channel_idx : Int :=
    wrapInt32 (Int.tdiv (i : Int) channel_size
      + wrapInt32 ((s : Int) * num_physical_channels_per_shard))
  if duplication_factor = 0 then .error .undefinedBehaviour
  else
    let sigma_idx : Int := Int.tdiv physical_channel_idx duplication_factor
    if sigma_idx < 0 ∨ (sigma.length : Int) ≤ sigma_idx then .error .undefinedBehaviour
    else
      let logical_channel_idx : Int := wrapInt32 (sigma.getD sigma_idx.toNat 0)
      let channel_offset : Int := Int.tmod (i : Int) channel_size
      let idx : Int := wrapInt32 (wrapInt32 (logical_channel_idx * channel_size) + channel_offset)
      if idx < 0 ∨ (weights.shape1 : Int) ≤ idx then .error .undefinedBehaviour
      else .ok (weights.elems r idx.toNat)

/-- Source: `pyOpenFHE_CKKS::linear`. The parameter `mtx_size` enters only through its square,
so it is taken non-negative. -/
def linear (py_shards : List CKKSCiphertext) (npweights : boost_vector2d) (mtx_size : Nat)
    (permutation : List Int) (pool_factor : Int) : Except Error CKKSCiphertext :=
  let sigma := permutation
  let weights := npweights
  let num_shards := py_shards.length
  let shards := py_shards
  if num_shards = 0 then .error .undefinedBehaviour
  else
    let first_shard := shards.getD 0 default
    let num_outputs := weights.shape0
    let num_inputs := weights.shape1
    let shard_size := first_shard.getBatchSize
    let channel_size : Int := wrapInt32 ((mtx_size : Int) * (mtx_size : Int))
    if channel_size = 0 then .error .undefinedBehaviour
    else
      let num_physical_channels_per_shard : Int := Int.tdiv (shard_size : Int) channel_size
      if num_shards = 1 ∧ num_inputs = 0 then .error .undefinedBehaviour
      else
        let duplication_factor : Int :=
          if num_shards = 1 then ((shard_size / num_inputs : Nat) : Int) else 1
        do
          let partial_output ← (List.range num_outputs).mapM fun r =>
            (List.range num_shards).mapM fun s => do
              let v ← (List.range shard_size).mapM
                (linear_weight weights sigma channel_size num_physical_channels_per_shard
                  duplication_factor r s)
              let res ← mulAssignVector (shards.getD s default) v
              let res ← rotate_and_add res (shard_size / 2)
              if shard_size ≤ r then .error .undefinedBehaviour
              else
                let divisor : Int :=
                  wrapInt32 (wrapInt32 (duplication_factor * pool_factor) * pool_factor)
                if divisor = 0 then .error .undefinedBehaviour
                else
                  let activ_mask : List ℚ :=
                    (List.replicate shard_size 0).set r (doubleReciprocal divisor)
                  mulAssignVector res activ_mask
          let partial_output := partial_output.flatten
          if num_outputs * num_shards = 0 then .error .undefinedBehaviour
          else
            pure ((List.range' 1 (num_outputs * num_shards - 1)).foldl
              (fun enc_sum r => addAssign enc_sum (partial_output.getD r default))
              (partial_output.getD 0 default))
/-! ## Closed forms used to state the results

These are not part of the source: they name the slot values that the lemmas below show the
source functions to compute. -/

/-- The plaintext entry that the helper multiplies slot `i` of rotation `(ki, kj)` by: the
body of its two inner loops. -/
def maskedKernelElement (filters : boost_vector4d) (sigma : List Int)
    (shard_size mtx_size r num_in num_out fragment_offset shard_offset ki kj i : Nat) : ℚ :=
  let channel_size := mtx_size * mtx_size
  let num_physical_channels := shard_size / channel_size
  let input_dup_factor := shard_size / (num_in * channel_size)
  let output_dup_factor := shard_size / (num_out * channel_size)
  let idx := (Int.tmod ((↑(i / channel_size) : Int) - (↑(r * input_dup_factor) : Int)
    + (num_physical_channels : Int)) (num_physical_channels : Int)).toNat
  (if shiftInBounds mtx_size mtx_size (kernel_index_to_shift ki filters.shape2)
      (kernel_index_to_shift kj filters.shape2) (i % channel_size) then (1 : ℚ) else 0)
    * (if idx < num_physical_channels then
        filters.elems
          (sigma.getD ((num_in * fragment_offset) + (idx / input_dup_factor + r) % num_in) 0).toNat
          ((num_out * shard_offset) + (idx / output_dup_factor)) ki kj
      else 0)

/-- The table of rotations of `x` as `get_all_rotations_image_sharded` returns it. -/
def rotationTable (x : CKKSCiphertext) (m k : Nat) : List (List CKKSCiphertext) :=
  (List.range k).map fun ki => (List.range k).map fun kj =>
    EvalAtIndex x (kernel_index_to_shift ki k * (m : Int) + kernel_index_to_shift kj k)

/-- What the helper accumulates in slot `i` before its final rotation. -/
def helperSum (x : CKKSCiphertext) (filters : boost_vector4d) (sigma : List Int)
    (mtx_size r num_in num_out fragment_offset shard_offset i : Nat) : ℚ :=
  ∑ ki ∈ Finset.range filters.shape2, ∑ kj ∈ Finset.range filters.shape2,
    x.slots.getD (((i : Int) + (kernel_index_to_shift ki filters.shape2 * (mtx_size : Int)
        + kernel_index_to_shift kj filters.shape2)) % (x.slots.length : Int)).toNat 0
      * maskedKernelElement filters sigma x.slots.length mtx_size r num_in num_out
          fragment_offset shard_offset ki kj i

/-- Slot `i` of the single output shard of `conv2d` on one image-sharded input shard. -/
def convSlot (x : CKKSCiphertext) (filters : boost_vector4d) (sigma : List Int)
    (mtx_size i : Nat) : ℚ :=
  ∑ r ∈ Finset.range filters.shape0,
    (rotateSlots ((List.range x.slots.length).map fun j =>
        helperSum x filters sigma mtx_size r filters.shape0 filters.shape1 0 0 j)
      (↑(r * mtx_size * mtx_size
        * (x.slots.length / (filters.shape0 * (mtx_size * mtx_size)))) : Int)).getD i 0

/-- One term of the cross-correlation: the filter tap `(ki, kj)` applied at position `(y, x)`
of channel `c`, omitted when the source position lies outside the grid. -/
def crossTerm (x : CKKSCiphertext) (filters : boost_vector4d) (sigma : List Int)
    (m c o y x' ki kj : Nat) : ℚ :=
  if 0 ≤ (y : Int) + kernel_index_to_shift ki filters.shape2 ∧
      (y : Int) + kernel_index_to_shift ki filters.shape2 < m ∧
      0 ≤ (x' : Int) + kernel_index_to_shift kj filters.shape2 ∧
      (x' : Int) + kernel_index_to_shift kj filters.shape2 < m then
    filters.elems (sigma.getD c 0).toNat o ki kj
      * x.slots.getD (c * (m * m)
          + ((y : Int) + kernel_index_to_shift ki filters.shape2).toNat * m
          + ((x' : Int) + kernel_index_to_shift kj filters.shape2).toNat) 0
  else 0

/-- Slot `j + ρ` (cyclically) of a slot vector. -/
def rotGet (v : List ℚ) (j : Nat) (ρ : Int) : ℚ :=
  v.getD (((j : Int) + ρ) % (v.length : Int)).toNat 0

/-- Slots after the pre-convolution of `pool`: each slot plus its right, lower and lower-right
neighbours (cyclically). -/
def poolSummed (X : List ℚ) (m : Nat) : List ℚ :=
  (List.range X.length).map fun j =>
    rotGet X j 0 + rotGet X j 1 + rotGet X j (m : Int) + rotGet X j ((m : Int) + 1)

/-- Slots after the horizontal reduction of `pool` (one channel per shard). -/
def poolHorizontal (X : List ℚ) (m : Nat) : List ℚ :=
  (List.range X.length).map fun p =>
    ∑ i ∈ Finset.range (m / 2),
      rotGet (poolSummed X m) p (i : Int)
        * (if p ∈ ((List.range m).flatMap fun j =>
              (List.range 1).map fun k => i + j * m + k * (m * m))
           then (1 / 4 : ℚ) else 0)

/-- Slots after the vertical reduction of `pool` (one channel per shard). -/
def poolVertical (X : List ℚ) (m : Nat) : List ℚ :=
  (List.range X.length).map fun p =>
    ∑ i ∈ Finset.range (m / 2),
      rotGet (poolHorizontal X m) p (↑(i * (m / 2) * 3) : Int)
        * (if p ∈ ((List.range m).flatMap fun j =>
              (List.range 1).map fun k => i * (m / 2) + j + k * (m * m))
           then (1 : ℚ) else 0)

/-- Slots after the consolidate-and-duplicate step of `pool` on a single shard. -/
def poolDuplicated (X : List ℚ) (m : Nat) : List ℚ :=
  (List.range X.length).map fun p =>
    ((poolVertical X m).getD p 0
        + rotGet (poolVertical X m) p (-(↑((m / 2) * (m / 2)) : Int)))
      + rotGet ((List.range X.length).map fun q =>
          (poolVertical X m).getD q 0
            + rotGet (poolVertical X m) q (-(↑((m / 2) * (m / 2)) : Int))) p
          (-(↑(2 * ((m / 2) * (m / 2))) : Int))

/-- The identity permutation on `n` channels, as the `int64` array `linear` receives. -/
def identityPermutation (n : Nat) : List Int := (List.range n).map fun (c : Nat) => (c : Int)

/-- The `N x N` identity weight matrix. -/
def identityWeights (N : Nat) : boost_vector2d :=
  ⟨N, N, fun r c => if r = c then 1 else 0⟩

/-- The table of rotations as `get_all_rotations_channel_sharded` returns it: per channel and
per shard of the channel, the table of the shard. -/
def channelRotationTable (shards : List CKKSCiphertext) (C P m k : Nat) :
    List (List (List (List CKKSCiphertext))) :=
  (List.range C).map fun c => (List.range P).map fun p =>
    rotationTable (shards.getD (c * P + p) default) m k

/-- Slots after the vertical expansion of `upsample` on one shard holding four copies of an
`m x m` channel. -/
def upsampleVertical (X : List ℚ) (m : Nat) : List ℚ :=
  (List.range X.length).map fun j =>
    ∑ i ∈ Finset.range m,
      rotGet X j (-(↑(3 * m * i) : Int))
        * (if j ∈ ((List.range m).flatMap fun c =>
              (every_fourth 4).map fun k => c + i * m * 4 + k * (m * m))
           then (1 : ℚ) else 0)

/-- Slots after the horizontal expansion of `upsample` on such a shard. -/
def upsampleHorizontal (Y : List ℚ) (m : Nat) : List ℚ :=
  (List.range Y.length).map fun j =>
    ∑ i ∈ Finset.range m,
      rotGet Y j (-(i : Int))
        * (if j ∈ ((List.range m).flatMap fun r =>
              (every_fourth 4).map fun k => i * 2 + r * m * 4 + k * (m * m))
           then (1 : ℚ) else 0)

/-- The shard that bleeds into shard `channel_shard_index` for the vertical shift
`num_shift_ud`, as `convolution_helper_channel_sharded` computes it; `none` is the source's
`-1`. -/
def bleedShardIndex (num_shift_ud : Int) (channel_shard_index shards_per_channel : Nat) :
    Option Nat :=
  if num_shift_ud > 0 then
    if channel_shard_index + 1 = shards_per_channel then none
    else some (channel_shard_index + 1)
  else if num_shift_ud < 0 then
    if channel_shard_index = 0 then none
    else some (channel_shard_index - 1)
  else none

/-- What the helper of the channel-sharded convolution adds to slot `i` of shard `p` for the
kernel offset `(ki, kj)`: the masked rotation of the shard itself and, when there is one, the
bleed-masked rotation of the adjacent shard. One input and one output channel. -/
def channelTerm (shards : List CKKSCiphertext) (F : boost_vector4d) (m P p ki kj i : Nat) : ℚ :=
  rotGet (shards.getD p default).slots i
      (kernel_index_to_shift ki F.shape2 * (m : Int) + kernel_index_to_shift kj F.shape2)
    * ((((make_shift_mask_channel_shard (m / P) m (kernel_index_to_shift ki F.shape2)
          (kernel_index_to_shift kj F.shape2)).getD i 0 : Int) : ℚ) * F.elems 0 0 ki kj)
  + match bleedShardIndex (kernel_index_to_shift ki F.shape2) p P with
    | some b =>
      rotGet (shards.getD b default).slots i
          (kernel_index_to_shift ki F.shape2 * (m : Int) + kernel_index_to_shift kj F.shape2)
        * ((((make_shift_mask_bleed_channel_shard (m / P) m (kernel_index_to_shift ki F.shape2)
              (kernel_index_to_shift kj F.shape2)).getD i 0 : Int) : ℚ) * F.elems 0 0 ki kj)
    | none => 0

/-- The pixel `(r, c)` of an `m x m` image stored by rows over shards of `R` rows each; zero
outside the image. -/
def shardedImage (shards : List CKKSCiphertext) (m R : Nat) (r c : Int) : ℚ :=
  if 0 ≤ r ∧ r < m ∧ 0 ≤ c ∧ c < m then
    (shards.getD (r.toNat / R) default).slots.getD (r.toNat % R * m + c.toNat) 0
  else 0

/-! ## Operators with their effects (`src/ckks/CKKS_ciphertext_extension.cpp`,
`src/bgv/BGV_ciphertext_extension.cpp`)

The compound assignments take their left operand by reference. To state what a failing call
leaves behind, the definitions of this section return, besides the exception thrown (if any),
the value of the operand when the operator is left and the evaluator operations that were
invoked, in order. -/

/-- The operations of the homomorphic evaluator that the operators of this section invoke. -/
inductive EvaluatorCall where
  | makeCKKSPackedPlaintext
  | evalAdd
  | evalSub
  | evalMult
  | evalChebyshevSeries
  | evalNegate
  deriving DecidableEq, Repr

/-- One execution of a compound assignment `a op= b`. -/
structure OperatorRun (α : Type) where
  /-- The exception the call ends with, `none` when it returns. -/
  thrown : Option Error
  /-- The value of the by-reference operand `a` when the call ends. -/
  operand : α
  /-- The evaluator operations invoked, in order. -/
  calls : List EvaluatorCall

/-- Evaluator contract: `EvalMult` of two ciphertexts (the source's `c1.cipher *= c2.cipher`):
slot by slot, one tower below the lower of the two levels. -/
def EvalMult (c1 c2 : CKKSCiphertext) : CKKSCiphertext :=
  ⟨List.zipWith (fun a b => a * b) c1.slots c2.slots, min c1.towers c2.towers - 1⟩

/-- Evaluator contract: `EvalAdd` of a ciphertext and a packed plaintext. -/
def EvalAddPlain (c : CKKSCiphertext) (ptxt : List ℚ) : CKKSCiphertext :=
  ⟨List.zipWith (fun a b => a + b) c.slots ptxt, c.towers⟩

/-- Evaluator contract: `EvalSub` of a ciphertext and a packed plaintext. -/
def EvalSubPlain (c : CKKSCiphertext) (ptxt : List ℚ) : CKKSCiphertext :=
  ⟨List.zipWith (fun a b => a - b) c.slots ptxt, c.towers⟩

/-- Source: `operator*=(CKKSCiphertext &c1, const CKKSCiphertext &c2)`: the towers test on both
operands, then `c1.cipher *= c2.cipher`. -/
def mulAssignRun (c1 c2 : CKKSCiphertext) : OperatorRun CKKSCiphertext :=
  if c1.getTowersRemaining ≤ 2 ∨ c2.getTowersRemaining ≤ 2 then
    ⟨some .insufficientTowers, c1, []⟩
  else ⟨none, EvalMult c1 c2, [.evalMult]⟩

/-- Source: `class BGVCiphertext`, reduced to its slot values and its towers remaining. -/
structure BGVCiphertext where
  slots : List Int
  towers : Nat
  deriving DecidableEq

/-- Source: `BGVCiphertext::getTowersRemaining()`. -/
def BGVCiphertext.getTowersRemaining (c : BGVCiphertext) : Nat := c.towers

/-- Source: `operator*=(BGVCiphertext &c1, const BGVCiphertext &c2)`: the same towers test,
then `c1.cipher *= c2.cipher`. The product of the BGV evaluator is the parameter `evalMult`. -/
def mulAssignRunBGV (evalMult : BGVCiphertext → BGVCiphertext → BGVCiphertext)
    (c1 c2 : BGVCiphertext) : OperatorRun BGVCiphertext :=
  if c1.getTowersRemaining ≤ 2 ∨ c2.getTowersRemaining ≤ 2 then
    ⟨some .insufficientTowers, c1, []⟩
  else ⟨none, evalMult c1 c2, [.evalMult]⟩

/-- Source: `operator+=(CKKSCiphertext &ctxt, std::vector<double> vals)`: the length test, then
`MakeCKKSPackedPlaintext` and `EvalAdd`. -/
def addAssignVectorRun (ctxt : CKKSCiphertext) (vals : List ℚ) : OperatorRun CKKSCiphertext :=
  let N := ctxt.getBatchSize
  if vals.length ≠ N then ⟨some .lengthMismatch, ctxt, []⟩
  else ⟨none, EvalAddPlain ctxt vals, [.makeCKKSPackedPlaintext, .evalAdd]⟩

/-- Source: `operator-=(CKKSCiphertext &ctxt, std::vector<double> vals)`: the length test, then
`MakeCKKSPackedPlaintext` and `EvalSub`. -/
def subAssignVectorRun (ctxt : CKKSCiphertext) (vals : List ℚ) : OperatorRun CKKSCiphertext :=
  let N := ctxt.getBatchSize
  if vals.length ≠ N then ⟨some .lengthMismatch, ctxt, []⟩
  else ⟨none, EvalSubPlain ctxt vals, [.makeCKKSPackedPlaintext, .evalSub]⟩

/-- Source: `operator*=(CKKSCiphertext &ctxt, std::vector<double> vals)`: the length test, then
the towers test, then `MakeCKKSPackedPlaintext` and `EvalMult`. -/
def mulAssignVectorRun (ctxt : CKKSCiphertext) (vals : List ℚ) : OperatorRun CKKSCiphertext :=
  let N := ctxt.getBatchSize
  if vals.length ≠ N then ⟨some .lengthMismatch, ctxt, []⟩
  else if ctxt.getTowersRemaining ≤ 2 then ⟨some .insufficientTowers, ctxt, []⟩
  else ⟨none, EvalMultPlain ctxt vals, [.makeCKKSPackedPlaintext, .evalMult]⟩

/-! ## The polynomial activation (`src/ckks/cnn/poly.cpp`) -/

/-- The condition under which `fhe_gelu` throws, on `level = towers - 2` and the degree. -/
def fhe_gelu_insufficient (level degree : Int) : Prop :=
  level ≤ 2 ∨
  (degree ≤ 5 ∧ level < 3) ∨
  (degree ≤ 13 ∧ degree ≥ 6 ∧ level < 4) ∨
  (degree ≤ 27 ∧ degree ≥ 14 ∧ level < 5) ∨
  (degree ≤ 59 ∧ degree ≥ 28 ∧ level < 6) ∨
  (degree ≤ 119 ∧ degree ≥ 60 ∧ level < 7) ∨
  (degree ≤ 200 ∧ degree ≥ 120 ∧ level < 8)

instance (level degree : Int) : Decidable (fhe_gelu_insufficient level degree) := by
  unfold fhe_gelu_insufficient; infer_instance

/-- One execution of `fhe_gelu`: what it returns or throws, and the evaluator operations
invoked. -/
structure GeluRun where
  result : Except Error (List CKKSCiphertext)
  calls : List EvaluatorCall

/-- Source: `pyOpenFHE_CKKS::fhe_gelu(py_shards, degree, bound)`. The Chebyshev machinery of
the evaluator is the parameter `series`: `series degree bound c` stands for
`EvalChebyshevSeries(c, EvalChebyshevCoefficients(gelu scaled by bound, -1, 1, degree), -1, 1)`.
The level is read from the first shard only. -/
def fhe_gelu (series : Int → ℚ → CKKSCiphertext → CKKSCiphertext)
    (py_shards : List CKKSCiphertext) (degree : Int) (bound : ℚ) : GeluRun :=
  let shards := py_shards
  let level : Int := ((shards.getD 0 default).getTowersRemaining : Int) - 2
  if fhe_gelu_insufficient level degree then
    ⟨.error .insufficientTowersForSeries, []⟩
  else
    ⟨.ok (shards.map fun shard => series degree bound shard),
      shards.map fun _ => EvaluatorCall.evalChebyshevSeries⟩

/-- The table of the specification: the minimum that the degree asks of the depth, `3` for
degree `≤ 5`, `4` for `6..13`, `5` for `14..27`, `6` for `28..59`, `7` for `60..119` and `8`
for `120..200`. -/
def geluMinimumDepth (degree : Int) : Int :=
  if degree ≤ 5 then 3
  else if degree ≤ 13 then 4
  else if degree ≤ 27 then 5
  else if degree ≤ 59 then 6
  else if degree ≤ 119 then 7
  else 8

/-- Source: `CKKSRotateEvalAtIndex(ctxt, r)`: a single `EvalAtIndex` by `r`, without guard. -/
def CKKSRotateEvalAtIndex (ctxt : CKKSCiphertext) (r : Int) : CKKSCiphertext :=
  EvalAtIndex ctxt r

/-- The loop of `evalPowerOf2RotationKeyGen` from the current value of `r`:
`while (r <= N) { index_list.push_back(r); index_list.push_back(-r); r *= 2; }`.
The loop variable starts at `1` and only doubles, so it is positive. -/
def evalPowerOf2RotationKeyGenLoop (N : Nat) (r : Nat) (hr : 0 < r) : List Int :=
  if h : r ≤ N then
    (r : Int) :: -(r : Int) :: evalPowerOf2RotationKeyGenLoop N (r * 2) (by omega)
  else []
termination_by N + 1 - r
decreasing_by omega

/-- Source: `CKKSCryptoContext::evalPowerOf2RotationKeyGen`: the index list handed to
`EvalAtIndexKeyGen`, for a context with the given batch size and ring dimension:
`N = min(N, M / 2)`, then the loop from `r = 1`. -/
def evalPowerOf2RotationKeyGen (batchSize ringDimension : Nat) : List Int :=
  let N := min batchSize (ringDimension / 2)
  evalPowerOf2RotationKeyGenLoop N 1 (by decide)

/-! ## Cells of the partial-result arrays of `conv2d` (`src/ckks/cnn/conv.cpp`) -/

/-- Source: the cell of `partial_convolutions` that iteration `(s, f, r)` of the parallel loop
of `conv2d_image_sharded` writes:
`idx = s * (num_in_channels_per_shard * num_input_shards) + f * num_in_channels_per_shard + r`. -/
def conv2d_image_sharded_idx (num_in_channels_per_shard num_input_shards s f r : Nat) : Nat :=
  s * (num_in_channels_per_shard * num_input_shards) + f * num_in_channels_per_shard + r

/-- Source: the cell of `partial_convolutions` that iteration
`(input_channel_index, channel_shard_index, output_channel_index)` of the parallel loop of
`conv2d_channel_sharded` writes: `idx = input_channel_index * (shards_per_channel *
num_output_channels) + output_channel_index * shards_per_channel + channel_shard_index`. -/
def conv2d_channel_sharded_idx (shards_per_channel num_output_channels input_channel_index
    channel_shard_index output_channel_index : Nat) : Nat :=
  input_channel_index * (shards_per_channel * num_output_channels)
    + output_channel_index * shards_per_channel + channel_shard_index

/-! ## Negation, integer multiplication and plaintext-minus-ciphertext
(`src/ckks/CKKS_ciphertext_extension.cpp`) -/

/-- Evaluator contract: `EvalNegate`: slot by slot, at the same level. -/
def EvalNegate (c : CKKSCiphertext) : CKKSCiphertext :=
  ⟨c.slots.map fun a => -a, c.towers⟩

/-- Source: `operator-(const CKKSCiphertext &ctxt)`. -/
def negCiphertext (ctxt : CKKSCiphertext) : CKKSCiphertext := EvalNegate ctxt

/-- The loop of `CKKSMultiplySingletonIntDoubleAndAdd`:
`while (val > 0) { if (val & 1) { result += doubles; } doubles = doubles + doubles;
val >>= 1; }`. The last argument logs the evaluator operations invoked so far. -/
def doubleAndAddLoop (val : Int) (doubles result : CKKSCiphertext)
    (calls : List EvaluatorCall) : CKKSCiphertext × List EvaluatorCall :=
  if h : val > 0 then
    let step : CKKSCiphertext × List EvaluatorCall :=
      if Int.land val 1 ≠ 0 then (addAssign result doubles, calls ++ [.evalAdd])
      else (result, calls)
    doubleAndAddLoop (val >>> (1 : Nat)) (addAssign doubles doubles) step.1 (step.2 ++ [.evalAdd])
  else (result, calls)
termination_by val.toNat
decreasing_by
  rw [Int.shiftRight_eq_div_pow]
  have h2 : val / ((2 ^ 1 : Nat) : Int) = val / 2 := rfl
  rw [h2]
  omega

/-- The value a 64-bit two's-complement `long int` holds for the arithmetic result `v`. -/
def wrapInt64 (v : Int) : Int := (v + 2 ^ 63) % 2 ^ 64 - 2 ^ 63

/-- Source: `CKKSMultiplySingletonIntDoubleAndAdd(ctxt, val)` with `long int val`, run for at
most `fuel` nested calls (`none`: the call has not returned within that depth): `ctxt - ctxt`
for `val == 0`, the call on `-ctxt` and `-val` for `val < 0` (on `long int`, so `-LONG_MIN` is
`LONG_MIN`), else the loop on `doubles = ctxt` and `result = ctxt - ctxt`. Returned with the log
of the evaluator operations invoked. -/
def CKKSMultiplySingletonIntDoubleAndAdd :
    Nat → CKKSCiphertext → Int → Option (CKKSCiphertext × List EvaluatorCall)
  | 0, _, _ => none
  | fuel + 1, ctxt, val =>
    if val = 0 then some (subAssign ctxt ctxt, [.evalSub])
    else if val < 0 then
      (CKKSMultiplySingletonIntDoubleAndAdd fuel (negCiphertext ctxt) (wrapInt64 (-val))).map
        (fun run => (run.1, EvaluatorCall.evalNegate :: run.2))
    else some (doubleAndAddLoop val ctxt (subAssign ctxt ctxt) [.evalSub])

/-- Source: `operator+=(CKKSCiphertext &ctxt, std::vector<double> vals)` (and its list and
ndarray overloads, which convert and call it), in the exception monad. -/
def addAssignVector (ctxt : CKKSCiphertext) (vals : List ℚ) : Except Error CKKSCiphertext :=
  let N := ctxt.getBatchSize
  if vals.length ≠ N then .error .lengthMismatch
  else .ok (EvalAddPlain ctxt vals)

/-- Source: `operator-=(CKKSCiphertext &ctxt, std::vector<double> vals)` (and its list and
ndarray overloads, which convert and call it), in the exception monad. -/
def subAssignVector (ctxt : CKKSCiphertext) (vals : List ℚ) : Except Error CKKSCiphertext :=
  let N := ctxt.getBatchSize
  if vals.length ≠ N then .error .lengthMismatch
  else .ok (EvalSubPlain ctxt vals)

/-- Source: `operator-(const boost::python::list &vals, const CKKSCiphertext &ctxt)`:
`auto ncipher = -ctxt; return ncipher += vals;`. -/
def subListCiphertext (vals : List ℚ) (ctxt : CKKSCiphertext) : Except Error CKKSCiphertext :=
  let ncipher := negCiphertext ctxt
  addAssignVector ncipher vals

/-- Source: `operator-(const boost::python::numpy::ndarray &vals, const CKKSCiphertext &ctxt)`:
`auto ncipher = -ctxt; return ncipher -= vals;`. -/
def subNdarrayCiphertext (vals : List ℚ) (ctxt : CKKSCiphertext) :
    Except Error CKKSCiphertext :=
  let ncipher := negCiphertext ctxt
  subAssignVector ncipher vals
/-! ## The calls of `conv2d` with defined index arithmetic

`conv2d` checks none of its arguments: a duplication factor of zero is divided by, the
permutation and the filter tensor are indexed unchecked, and the index arithmetic is on `int`.
The predicates below collect, with the local names of the source, the conditions under which
every division, every index and every `int` of a call on `S` shards of `N` slots is defined. -/

theorem po2Decompose_zero : po2Decompose 0 = [] := by
  rw [po2Decompose]; simp

theorem po2Decompose_of_neg (num : Int) (h : num < 0) :
    po2Decompose num = (po2Decompose (-num)).map (fun elt => -elt) := by
  rw [po2Decompose]
  have : ¬ num = 0 := by omega
  simp [this, h]

theorem po2Decompose_of_pow (num : Int) (h : 0 < num) (hp : is_power_of_two num = true) :
    po2Decompose num = [num] := by
  rw [po2Decompose]
  have : ¬ num = 0 := by omega
  have h2 : ¬ num < 0 := by omega
  simp [this, h2, hp]

theorem po2Decompose_of_not_pow (num : Int) (h : 0 < num) (hp : ¬ is_power_of_two num = true) :
    po2Decompose num =
      if (po2Decompose (num - last_power_of_two num)).length
          ≤ (po2Decompose (next_power_of_two num - num)).length then
        po2Decompose (num - last_power_of_two num) ++ [last_power_of_two num]
      else
        (po2Decompose (next_power_of_two num - num)).map (fun elt => -elt)
          ++ [next_power_of_two num] := by
  rw [po2Decompose]
  have : ¬ num = 0 := by omega
  have h2 : ¬ num < 0 := by omega
  simp [this, h2, hp]


theorem IsSignedPo2.neg {e : Int} (h : IsSignedPo2 e) : IsSignedPo2 (-e) := by
  obtain ⟨j, hj | hj⟩ := h
  · exact ⟨j, Or.inr (by rw [hj])⟩
  · exact ⟨j, Or.inl (by rw [hj]; ring)⟩

theorem sum_map_neg (l : List Int) : (l.map (fun elt => -elt)).sum = -l.sum := by
  induction l with
  | nil => simp
  | cons a t ih => simp [ih]; ring

theorem po2Decompose_spec (num : Int) :
    (∀ e ∈ po2Decompose num, IsSignedPo2 e) ∧ (po2Decompose num).sum = num := by
  induction num using po2Decompose.induct with
  | case1 => simp [po2Decompose_zero]
  | case2 num h0 hneg ih =>
    rw [po2Decompose_of_neg num hneg]
    refine ⟨?_, ?_⟩
    · intro e he
      simp only [List.mem_map] at he
      obtain ⟨a, ha, rfl⟩ := he
      exact (ih.1 a ha).neg
    · rw [sum_map_neg, ih.2]; ring
  | case3 num h0 hneg hp =>
    rw [po2Decompose_of_pow num (by omega) hp]
    refine ⟨?_, by simp⟩
    intro e he
    simp only [List.mem_singleton] at he
    subst he
    have hn : 1 ≤ e.toNat := by omega
    have := (is_power_of_two_iff e.toNat hn).1 (by
      have hc : ((e.toNat : Nat) : Int) = e := by omega
      rw [hc]; exact hp)
    refine ⟨num_bits e.toNat - 1, Or.inl ?_⟩
    have hc : ((e.toNat : Nat) : Int) = e := by omega
    rw [← hc]
    conv_lhs => rw [this]
    push_cast
    rw [hc]
  | case4 num h0 hneg hp lower upper lower_diff upper_diff lower_sum upper_sum hle ih1 ih2 =>
    rw [po2Decompose_of_not_pow num (by omega) hp, if_pos hle]
    refine ⟨?_, ?_⟩
    · intro e he
      rw [List.mem_append, List.mem_singleton] at he
      rcases he with he | he
      · exact ih1.1 e he
      · exact ⟨_, Or.inl he⟩
    · rw [List.sum_append, ih1.2]; simp [lower_diff, lower]
  | case5 num h0 hneg hp lower upper lower_diff upper_diff lower_sum upper_sum hle ih1 ih2 =>
    rw [po2Decompose_of_not_pow num (by omega) hp, if_neg hle]
    refine ⟨?_, ?_⟩
    · intro e he
      rw [List.mem_append, List.mem_singleton, List.mem_map] at he
      rcases he with ⟨a, ha, rfl⟩ | he
      · exact (ih2.1 a ha).neg
      · exact ⟨_, Or.inl he⟩
    · rw [List.sum_append, sum_map_neg, ih2.2]; simp [upper_diff, upper]

theorem po2Decompose_neg_eq (r : Int) :
    po2Decompose (-r) = (po2Decompose r).map (fun elt => -elt) := by
  rcases lt_trichotomy r 0 with h | h | h
  · rw [po2Decompose_of_neg r h, List.map_map]
    have : ((fun elt : Int => -elt) ∘ fun elt => -elt) = id := by
      funext x; simp
    rw [this, List.map_id]
  · subst h; simp [po2Decompose_zero]
  · rw [po2Decompose_of_neg (-r) (by omega), neg_neg]

theorem po2Len_neg (r : Int) : (po2Decompose (-r)).length = (po2Decompose r).length := by
  rw [po2Decompose_neg_eq, List.length_map]

theorem exists_pow_bounds (n : Int) (hn : 1 ≤ n) :
    ∃ k : Nat, (2 : Int) ^ k ≤ n ∧ n < 2 ^ (k + 1) := by
  have hc : ((n.toNat : Nat) : Int) = n := by omega
  obtain ⟨hl, hu⟩ := num_bits_bounds n.toNat (by omega)
  have hp := num_bits_pos n.toNat
  refine ⟨num_bits n.toNat - 1, ?_, ?_⟩
  · rw [← hc]; exact_mod_cast hl
  · have e : num_bits n.toNat - 1 + 1 = num_bits n.toNat := by omega
    rw [e, ← hc]; exact_mod_cast hu

theorem num_bits_unique (n k : Nat) (h1 : 2 ^ k ≤ n) (h2 : n < 2 ^ (k + 1)) :
    num_bits n = k + 1 := by
  have hn : 1 ≤ n := le_trans Nat.one_le_two_pow h1
  obtain ⟨hl, hu⟩ := num_bits_bounds n hn
  have hp := num_bits_pos n
  have a : num_bits n - 1 < k + 1 := (Nat.pow_lt_pow_iff_right (by norm_num : 1 < 2)).1
    (lt_of_le_of_lt hl h2)
  have b : k < num_bits n := (Nat.pow_lt_pow_iff_right (by norm_num : 1 < 2)).1
    (lt_of_le_of_lt h1 hu)
  omega

theorem po2Len_pow (k : Nat) : (po2Decompose ((2 : Int) ^ k)).length = 1 := by
  rw [po2Decompose_of_pow _ (by positivity) (is_power_of_two_two_pow k)]; rfl

theorem po2Len_step (n : Int) (k : Nat) (h1 : (2 : Int) ^ k < n) (h2 : n < 2 ^ (k + 1)) :
    (po2Decompose n).length =
      1 + min (po2Decompose (n - 2 ^ k)).length (po2Decompose (2 ^ (k + 1) - n)).length := by
  have hpos : 0 < n := lt_trans (by positivity) h1
  have hc : ((n.toNat : Nat) : Int) = n := by omega
  have h1n : 2 ^ k < n.toNat := by
    have : ((2 ^ k : Nat) : Int) < (n.toNat : Int) := by rw [hc]; exact_mod_cast h1
    exact_mod_cast this
  have h2n : n.toNat < 2 ^ (k + 1) := by
    have : (n.toNat : Int) < ((2 ^ (k + 1) : Nat) : Int) := by rw [hc]; exact_mod_cast h2
    exact_mod_cast this
  have hb := num_bits_unique n.toNat k (le_of_lt h1n) h2n
  have hnp : ¬ is_power_of_two n = true := by
    intro h
    rw [← hc] at h
    have := (is_power_of_two_iff n.toNat (by omega)).1 h
    rw [hb] at this
    simp at this
    omega
  have hl : last_power_of_two n = 2 ^ k := by
    unfold last_power_of_two; rw [hb]; simp
  have hu : next_power_of_two n = 2 ^ (k + 1) := by
    unfold next_power_of_two; rw [hb]
  rw [po2Decompose_of_not_pow n hpos hnp, hl, hu]
  split
  · rename_i h
    rw [List.length_append, List.length_singleton, min_eq_left h]; omega
  · rename_i h
    rw [List.length_append, List.length_singleton, List.length_map, min_eq_right (by omega)]
    omega

theorem po2Len_zero : (po2Decompose 0).length = 0 := by rw [po2Decompose_zero]; rfl

theorem po2Len_one : (po2Decompose 1).length = 1 := by
  have := po2Len_pow 0
  simpa using this

/-- Doubling never lengthens the decomposition. -/
theorem po2Len_double_nat (n : Nat) :
    (po2Decompose (2 * (n : Int))).length ≤ (po2Decompose (n : Int)).length := by
  induction n using Nat.strong_induction_on with
  | _ n ih =>
    rcases Nat.eq_zero_or_pos n with h0 | hpos
    · subst h0; simp
    · obtain ⟨k, hk1, hk2⟩ := exists_pow_bounds (n : Int) (by omega)
      rcases eq_or_lt_of_le hk1 with heq | hlt
      · rw [← heq]
        have : (2 : Int) * 2 ^ k = 2 ^ (k + 1) := by ring
        rw [this, po2Len_pow, po2Len_pow]
      · have e1 : (2 : Int) ^ (k + 1) = 2 * 2 ^ k := by ring
        have e2 : (2 : Int) ^ (k + 1 + 1) = 2 * (2 * 2 ^ k) := by ring
        have hp : (0 : Int) < 2 ^ k := by positivity
        rw [po2Len_step (n : Int) k hlt hk2,
          po2Len_step (2 * (n : Int)) (k + 1) (by rw [e1]; omega) (by rw [e2]; rw [e1] at hk2; omega)]
        obtain ⟨m1, hm1⟩ : ∃ m1 : Nat, (n : Int) - 2 ^ k = m1 :=
          ⟨((n : Int) - 2 ^ k).toNat, by omega⟩
        obtain ⟨m2, hm2⟩ : ∃ m2 : Nat, (2 : Int) ^ (k + 1) - n = m2 :=
          ⟨((2 : Int) ^ (k + 1) - n).toNat, by rw [e1]; rw [e1] at hk2; omega⟩
        have a : (2 : Int) * n - 2 ^ (k + 1) = 2 * (m1 : Int) := by
          rw [← hm1, e1]; ring
        have b : (2 : Int) ^ (k + 1 + 1) - 2 * n = 2 * (m2 : Int) := by
          rw [← hm2, e2, e1]; ring
        have ha := ih m1 (by omega)
        have hb := ih m2 (by rw [e1] at hm2 hk2; omega)
        rw [a, b, hm1, hm2]
        omega

theorem po2Len_double (n : Int) :
    (po2Decompose (2 * n)).length ≤ (po2Decompose n).length := by
  rcases le_total 0 n with h | h
  · have hc : ((n.toNat : Nat) : Int) = n := by omega
    rw [← hc]; exact po2Len_double_nat _
  · have hc : (((-n).toNat : Nat) : Int) = -n := by omega
    have := po2Len_double_nat (-n).toNat
    rw [hc] at this
    have e : 2 * -n = -(2 * n) := by ring
    rw [e, po2Len_neg, po2Len_neg] at this
    exact this

/-- Neighbouring positive integers have decomposition lengths within one of each other. -/
theorem po2Len_adjacent_nat (n : Nat) (hn : 1 ≤ n) :
    (po2Decompose (n : Int)).length ≤ (po2Decompose ((n : Int) - 1)).length + 1 ∧
    (po2Decompose (n : Int)).length ≤ (po2Decompose ((n : Int) + 1)).length + 1 := by
  induction n using Nat.strong_induction_on with
  | _ n ih =>
    obtain ⟨k, hk1, hk2⟩ := exists_pow_bounds (n : Int) (by omega)
    rcases eq_or_lt_of_le hk1 with heq | hlt
    · rw [← heq, po2Len_pow]; omega
    · have e1 : (2 : Int) ^ (k + 1) = 2 * 2 ^ k := by ring
      have hp : (0 : Int) < 2 ^ k := by positivity
      obtain ⟨m1, hm1⟩ : ∃ m1 : Nat, (n : Int) - 2 ^ k = m1 :=
        ⟨((n : Int) - 2 ^ k).toNat, by omega⟩
      obtain ⟨m2, hm2⟩ : ∃ m2 : Nat, (2 : Int) ^ (k + 1) - n = m2 :=
        ⟨((2 : Int) ^ (k + 1) - n).toNat, by rw [e1]; rw [e1] at hk2; omega⟩
      have hm1pos : 1 ≤ m1 := by omega
      have hm2pos : 1 ≤ m2 := by rw [e1] at hm2 hk2; omega
      have ih1 := ih m1 (by omega) hm1pos
      have ih2 := ih m2 (by rw [e1] at hm2 hk2; omega) hm2pos
      rw [← hm1] at ih1
      rw [← hm2] at ih2
      have hstep := po2Len_step (n : Int) k hlt hk2
      constructor
      · rcases eq_or_lt_of_le (show (2 : Int) ^ k ≤ (n : Int) - 1 by omega) with h | h
        · rw [← h, po2Len_pow]
          have : (n : Int) - 2 ^ k = 1 := by omega
          rw [this, po2Len_one] at hstep
          omega
        · have hs := po2Len_step ((n : Int) - 1) k h (by omega)
          have a : (n : Int) - 1 - 2 ^ k = (n : Int) - 2 ^ k - 1 := by ring
          have b : (2 : Int) ^ (k + 1) - ((n : Int) - 1) = 2 ^ (k + 1) - n + 1 := by ring
          rw [a, b] at hs
          omega
      · rcases eq_or_lt_of_le (show (n : Int) + 1 ≤ 2 ^ (k + 1) by omega) with h | h
        · rw [h, po2Len_pow]
          have : (2 : Int) ^ (k + 1) - n = 1 := by omega
          rw [this, po2Len_one] at hstep
          omega
        · have hs := po2Len_step ((n : Int) + 1) k (by omega) h
          have a : (n : Int) + 1 - 2 ^ k = (n : Int) - 2 ^ k + 1 := by ring
          have b : (2 : Int) ^ (k + 1) - ((n : Int) + 1) = 2 ^ (k + 1) - n - 1 := by ring
          rw [a, b] at hs
          omega

/-- Adding or removing one changes the decomposition length by at most one. -/
theorem po2Len_succ_le (n : Int) :
    (po2Decompose (n + 1)).length ≤ (po2Decompose n).length + 1 ∧
    (po2Decompose n).length ≤ (po2Decompose (n + 1)).length + 1 := by
  rcases lt_trichotomy n 0 with h | h | h
  · -- n < 0: mirror of the positive case at -n
    obtain ⟨m, hm⟩ : ∃ m : Nat, -n = m := ⟨(-n).toNat, by omega⟩
    have := po2Len_adjacent_nat m (by omega)
    rw [← hm] at this
    have e1 : -n - 1 = -(n + 1) := by ring
    rw [e1, po2Len_neg, po2Len_neg] at this
    rcases eq_or_lt_of_le (show n + 1 ≤ 0 by omega) with h1 | h1
    · rw [h1, po2Len_zero] at this ⊢; omega
    · obtain ⟨m', hm'⟩ : ∃ m' : Nat, -(n + 1) = m' := ⟨(-(n + 1)).toNat, by omega⟩
      have h2 := po2Len_adjacent_nat m' (by omega)
      rw [← hm'] at h2
      have e2 : -(n + 1) + 1 = -n := by ring
      rw [e2, po2Len_neg, po2Len_neg] at h2
      omega
  · subst h; simp [po2Len_zero, po2Len_one]
  · obtain ⟨m, hm⟩ : ∃ m : Nat, n = m := ⟨n.toNat, by omega⟩
    obtain ⟨m', hm'⟩ : ∃ m' : Nat, n + 1 = m' := ⟨(n + 1).toNat, by omega⟩
    have h1 := po2Len_adjacent_nat m (by omega)
    have h2 := po2Len_adjacent_nat m' (by omega)
    rw [← hm] at h1
    rw [← hm'] at h2
    have e : n + 1 - 1 = n := by ring
    rw [e] at h2
    omega

theorem halve_signed_po2 (L : List Int) (hL : ∀ e ∈ L, IsSignedPo2 e)
    (h1 : (1 : Int) ∉ L) (h2 : (-1 : Int) ∉ L) :
    (∀ e ∈ L.map (fun e => e / 2), IsSignedPo2 e) ∧ L.sum = 2 * (L.map (fun e => e / 2)).sum := by
  induction L with
  | nil => simp
  | cons a t ih =>
    have ht := ih (fun e he => hL e (List.mem_cons_of_mem _ he))
      (fun h => h1 (List.mem_cons_of_mem _ h)) (fun h => h2 (List.mem_cons_of_mem _ h))
    obtain ⟨j, hj⟩ := hL a (List.mem_cons_self _ _)
    have hj0 : j ≠ 0 := by
      intro h0
      subst h0
      rcases hj with hj | hj
      · exact h1 (by rw [hj]; simp)
      · exact h2 (by rw [hj]; simp)
    obtain ⟨i, rfl⟩ : ∃ i, j = i + 1 := ⟨j - 1, by omega⟩
    have ha : IsSignedPo2 (a / 2) ∧ a = 2 * (a / 2) := by
      rcases hj with hj | hj
      · have : a / 2 = 2 ^ i := by rw [hj, pow_succ]; simp
        exact ⟨⟨i, Or.inl this⟩, by rw [this, hj]; ring⟩
      · have : a / 2 = -(2 ^ i) := by
          rw [hj, pow_succ]
          have : -((2 : Int) ^ i * 2) = (-(2 ^ i)) * 2 := by ring
          rw [this]; simp
        exact ⟨⟨i, Or.inr this⟩, by rw [this, hj]; ring⟩
    refine ⟨?_, ?_⟩
    · intro e he
      rw [List.map_cons, List.mem_cons] at he
      rcases he with he | he
      · rw [he]; exact ha.1
      · exact ht.1 e he
    · rw [List.sum_cons, List.map_cons, List.sum_cons, ht.2]
      have := ha.2
      omega

theorem po2Decompose_minimal_aux (μ : Nat) : ∀ L : List Int,
    2 * L.length + L.sum.natAbs ≤ μ → (∀ e ∈ L, IsSignedPo2 e) →
    (po2Decompose L.sum).length ≤ L.length := by
  induction μ with
  | zero =>
    intro L hμ _
    have : L.length = 0 := by omega
    rw [List.length_eq_zero] at this
    subst this
    simp [po2Len_zero]
  | succ μ ih =>
    intro L hμ hL
    by_cases h1 : (1 : Int) ∈ L
    · have hsum := List.sum_erase h1
      have hlen := List.length_erase_of_mem h1
      have hpos : 0 < L.length := List.length_pos_of_mem h1
      have := ih (L.erase 1) (by omega) (fun e he => hL e (List.mem_of_mem_erase he))
      have adj := (po2Len_succ_le (L.erase 1).sum).1
      have e : (L.erase 1).sum + 1 = L.sum := by omega
      rw [e] at adj
      omega
    · by_cases h2 : (-1 : Int) ∈ L
      · have hsum := List.sum_erase h2
        have hlen := List.length_erase_of_mem h2
        have hpos : 0 < L.length := List.length_pos_of_mem h2
        have := ih (L.erase (-1)) (by omega) (fun e he => hL e (List.mem_of_mem_erase he))
        have adj := (po2Len_succ_le L.sum).2
        have e : L.sum + 1 = (L.erase (-1)).sum := by omega
        rw [e] at adj
        omega
      · obtain ⟨hL', hs⟩ := halve_signed_po2 L hL h1 h2
        by_cases h0 : L.sum = 0
        · rw [h0, po2Len_zero]; omega
        · have := ih (L.map (fun e => e / 2)) (by rw [List.length_map]; omega) hL'
          rw [List.length_map] at this
          have d := po2Len_double (L.map (fun e => e / 2)).sum
          rw [← hs] at d
          omega


theorem log2_unique (n k : Nat) (h1 : 2 ^ k ≤ n) (h2 : n < 2 ^ (k + 1)) : Nat.log2 n = k := by
  have hn : n ≠ 0 := by
    have := @Nat.one_le_two_pow k; omega
  have a : k ≤ Nat.log2 n := (Nat.le_log2 hn).2 h1
  have b : Nat.log2 n < k + 1 := (Nat.log2_lt hn).2 h2
  omega

theorem sumOfPo2s_nonpos (n : Int) (h : n ≤ 0) : sumOfPo2s n = [] := by
  rw [sumOfPo2s]; simp; omega

theorem sumOfPo2s_pos (n : Int) (k : Nat) (h1 : (2 : Int) ^ k ≤ n) (h2 : n < 2 ^ (k + 1)) :
    sumOfPo2s n = 2 ^ k :: sumOfPo2s (n - 2 ^ k) := by
  have hp : (0 : Int) < 2 ^ k := by positivity
  have hpos : 0 < n := by omega
  have hc : ((n.toNat : Nat) : Int) = n := by omega
  have hk : Nat.log2 n.toNat = k := by
    apply log2_unique
    · have : ((2 ^ k : Nat) : Int) ≤ (n.toNat : Int) := by rw [hc]; exact_mod_cast h1
      exact_mod_cast this
    · have : (n.toNat : Int) < ((2 ^ (k + 1) : Nat) : Int) := by rw [hc]; exact_mod_cast h2
      exact_mod_cast this
  rw [sumOfPo2s]
  simp [hpos, hk]

theorem po2Len_le_sumOfPo2s_nat (n : Nat) :
    (po2Decompose (n : Int)).length ≤ (sumOfPo2s (n : Int)).length := by
  induction n using Nat.strong_induction_on with
  | _ n ih =>
    rcases Nat.eq_zero_or_pos n with h0 | hpos
    · subst h0; simp [po2Len_zero]
    · obtain ⟨k, hk1, hk2⟩ := exists_pow_bounds (n : Int) (by omega)
      rw [sumOfPo2s_pos _ k hk1 hk2]
      rcases eq_or_lt_of_le hk1 with heq | hlt
      · rw [← heq, po2Len_pow]; simp
      · have hp : (0 : Int) < 2 ^ k := by positivity
        obtain ⟨m1, hm1⟩ : ∃ m1 : Nat, (n : Int) - 2 ^ k = m1 :=
          ⟨((n : Int) - 2 ^ k).toNat, by omega⟩
        have := ih m1 (by omega)
        rw [po2Len_step _ k hlt hk2, hm1, List.length_cons]
        omega

theorem sumOfPo2s_length_half (n : Nat) :
    (sumOfPo2s (n : Int)).length = n % 2 + (sumOfPo2s ((n / 2 : Nat) : Int)).length := by
  induction n using Nat.strong_induction_on with
  | _ n ih =>
    rcases Nat.eq_zero_or_pos n with h0 | hpos
    · subst h0; simp [sumOfPo2s_nonpos]
    · obtain ⟨k, hk1, hk2⟩ := exists_pow_bounds (n : Int) (by omega)
      have hp : (0 : Int) < 2 ^ k := by positivity
      obtain ⟨m1, hm1⟩ : ∃ m1 : Nat, (n : Int) - 2 ^ k = m1 :=
        ⟨((n : Int) - 2 ^ k).toNat, by omega⟩
      rw [sumOfPo2s_pos _ k hk1 hk2, List.length_cons, hm1, ih m1 (by omega)]
      rcases Nat.eq_zero_or_pos k with hk0 | hkpos
      · subst hk0
        have hn1 : n = 1 := by
          simp at hk1 hk2; omega
        subst hn1
        have : m1 = 0 := by simp at hm1; omega
        subst this
        simp [sumOfPo2s_nonpos]
      · obtain ⟨i, rfl⟩ : ∃ i, k = i + 1 := ⟨k - 1, by omega⟩
        have e1 : (2 : Int) ^ (i + 1) = 2 * 2 ^ i := by ring
        have e2 : (2 : Int) ^ (i + 1 + 1) = 2 * (2 * 2 ^ i) := by ring
        have hpi : (0 : Int) < 2 ^ i := by positivity
        rw [e1] at hk1 hm1
        rw [e2] at hk2
        have hh : (2 : Int) ^ i ≤ ((n / 2 : Nat) : Int) ∧ ((n / 2 : Nat) : Int) < 2 ^ (i + 1) := by
          rw [e1]; constructor <;> omega
        rw [sumOfPo2s_pos _ i hh.1 hh.2, List.length_cons]
        have e3 : ((n / 2 : Nat) : Int) - 2 ^ i = ((m1 / 2 : Nat) : Int) := by omega
        rw [e3]
        omega


theorem popcount_half (n : Nat) (hn : 0 < n) : popcount n = n % 2 + popcount (n / 2) := by
  unfold popcount
  rw [Nat.digits_def' (by norm_num) hn, List.count_cons]
  rcases Nat.mod_two_eq_zero_or_one n with h | h <;> simp [h] <;> omega

theorem sumOfPo2s_length_eq_popcount (n : Nat) :
    (sumOfPo2s (n : Int)).length = popcount n := by
  induction n using Nat.strong_induction_on with
  | _ n ih =>
    rcases Nat.eq_zero_or_pos n with h0 | hpos
    · subst h0; simp [sumOfPo2s_nonpos, popcount]
    · rw [sumOfPo2s_length_half, popcount_half n hpos, ih (n / 2) (by omega)]


/-! ## Lemmas: masks -/

theorem getD_map_range {α : Type} (n : Nat) (f : Nat → α) (d : α) (i : Nat) :
    ((List.range n).map f).getD i d = if i < n then f i else d := by
  rw [List.getD_eq_getElem?_getD]
  by_cases h : i < n
  · simp [h]
  · rw [List.getElem?_eq_none (by simpa using h), if_neg h]; rfl

theorem generate_ud_mask_getD (rows cols : Nat) (dr : Int) (i : Nat) (hi : i < rows * cols) :
    (generate_ud_mask rows cols dr).getD i 0 =
      if 0 ≤ (↑(i / cols) : Int) + dr ∧ (↑(i / cols) : Int) + dr < rows then 1 else 0 := by
  have hc : 0 < cols := by
    rcases Nat.eq_zero_or_pos cols with h | h
    · subst h; simp at hi
    · exact h
  have hrow : i / cols < rows := by
    rw [Nat.div_lt_iff_lt_mul hc]; exact hi
  unfold generate_ud_mask generate_down_mask generate_up_mask
  split
  · rw [getD_map_range, if_pos hi]
    generalize i / cols = q at hrow ⊢
    split <;> split <;> first | rfl | omega
  · rw [getD_map_range, if_pos hi]
    generalize i / cols = q at hrow ⊢
    split <;> split <;> first | rfl | omega

theorem generate_lr_mask_getD (rows cols : Nat) (dc : Int) (i : Nat) (hi : i < rows * cols) :
    (generate_lr_mask rows cols dc).getD i 0 =
      if 0 ≤ (↑(i % cols) : Int) + dc ∧ (↑(i % cols) : Int) + dc < cols then 1 else 0 := by
  have hc : 0 < cols := by
    rcases Nat.eq_zero_or_pos cols with h | h
    · subst h; simp at hi
    · exact h
  have hcol : i % cols < cols := Nat.mod_lt _ hc
  unfold generate_lr_mask generate_right_mask generate_left_mask
  split
  · rw [getD_map_range, if_pos hi]
    generalize i % cols = q at hcol ⊢
    split <;> split <;> first | rfl | omega
  · rw [getD_map_range, if_pos hi]
    generalize i % cols = q at hcol ⊢
    split <;> split <;> first | rfl | omega

theorem make_shift_mask_channel_shard_getD (rows cols : Nat) (dr dc : Int) (i : Nat)
    (hi : i < rows * cols) :
    (make_shift_mask_channel_shard rows cols dr dc).getD i 0 =
      if shiftInBounds rows cols dr dc i then 1 else 0 := by
  unfold make_shift_mask_channel_shard
  simp only []
  rw [getD_map_range, if_pos hi, generate_ud_mask_getD rows cols dr i hi,
    generate_lr_mask_getD rows cols dc i hi]
  unfold shiftInBounds
  by_cases h1 : 0 ≤ (↑(i / cols) : Int) + dr ∧ (↑(i / cols) : Int) + dr < rows <;>
  by_cases h2 : 0 ≤ (↑(i % cols) : Int) + dc ∧ (↑(i % cols) : Int) + dc < cols
  · rw [if_pos h1, if_pos h2, if_pos ⟨h1.1, h1.2, h2.1, h2.2⟩]; rfl
  · rw [if_pos h1, if_neg h2, if_neg (fun h => h2 ⟨h.2.2.1, h.2.2.2⟩)]; rfl
  · rw [if_neg h1, if_pos h2, if_neg (fun h => h1 ⟨h.1, h.2.1⟩)]; rfl
  · rw [if_neg h1, if_neg h2, if_neg (fun h => h1 ⟨h.1, h.2.1⟩)]; rfl

/-! ## Lemmas: slot vectors and rotations -/

theorem map_range_congr {α : Type} (n : Nat) (f g : Nat → α) (h : ∀ i, i < n → f i = g i) :
    (List.range n).map f = (List.range n).map g := by
  apply List.map_congr_left
  intro i hi
  exact h i (List.mem_range.1 hi)

theorem eq_map_range_getD {α : Type} (l : List α) (d : α) :
    l = (List.range l.length).map (fun i => l.getD i d) := by
  apply List.ext_getElem
  · simp
  · intro n h1 h2
    simp [List.getD_eq_getElem?_getD, List.getElem?_eq_getElem h1]

theorem zipWith_map_range {α β γ : Type} (op : α → β → γ) (n : Nat) (f : Nat → α)
    (g : Nat → β) :
    List.zipWith op ((List.range n).map f) ((List.range n).map g)
      = (List.range n).map (fun i => op (f i) (g i)) := by
  apply List.ext_getElem
  · simp
  · intro i h1 h2
    simp

theorem emod_toNat_lt (a : Int) (n : Nat) (hn : 0 < n) : (a % (n : Int)).toNat < n := by
  have h1 : 0 ≤ a % (n : Int) := Int.emod_nonneg a (by omega)
  have h2 : a % (n : Int) < (n : Int) := Int.emod_lt_of_pos a (by omega)
  omega

theorem rotateSlots_map_range (n : Nat) (f : Nat → ℚ) (r : Int) :
    rotateSlots ((List.range n).map f) r
      = (List.range n).map (fun (j : Nat) => f (((j : Int) + r) % (n : Int)).toNat) := by
  unfold rotateSlots
  simp only [List.length_map, List.length_range]
  apply map_range_congr
  intro j hj
  rw [getD_map_range, if_pos (emod_toNat_lt _ n (by omega))]

theorem rotateSlots_length (v : List ℚ) (r : Int) : (rotateSlots v r).length = v.length := by
  simp [rotateSlots]

theorem rotateSlots_zero (v : List ℚ) : rotateSlots v 0 = v := by
  conv_rhs => rw [eq_map_range_getD v 0]
  unfold rotateSlots
  apply map_range_congr
  intro j hj
  have : (((j : Int) + 0) % (v.length : Int)).toNat = j := by
    rw [add_zero, Int.emod_eq_of_lt (by omega) (by omega)]; simp
  rw [this]

theorem rotateSlots_rotateSlots (v : List ℚ) (a b : Int) :
    rotateSlots (rotateSlots v a) b = rotateSlots v (a + b) := by
  conv_lhs => rw [show rotateSlots v a = (List.range v.length).map
    (fun (j : Nat) => v.getD (((j : Int) + a) % (v.length : Int)).toNat 0) from rfl]
  rw [rotateSlots_map_range]
  unfold rotateSlots
  apply map_range_congr
  intro j hj
  have hn : (0 : Int) < (v.length : Int) := by omega
  have h1 : 0 ≤ ((j : Int) + b) % (v.length : Int) := Int.emod_nonneg _ (by omega)
  rw [Int.toNat_of_nonneg h1]
  have : (((j : Int) + b) % (v.length : Int) + a) % (v.length : Int)
      = ((j : Int) + (a + b)) % (v.length : Int) := by
    rw [Int.add_emod, Int.emod_emod_of_dvd _ (dvd_refl _), ← Int.add_emod]
    congr 1; ring
  rw [this]

theorem foldl_EvalAtIndex (L : List Int) (c : CKKSCiphertext) :
    L.foldl (fun c i => EvalAtIndex c i) c = ⟨rotateSlots c.slots L.sum, c.towers⟩ := by
  induction L generalizing c with
  | nil => simp [rotateSlots_zero]
  | cons a t ih =>
    rw [List.foldl_cons, ih]
    simp only [EvalAtIndex, rotateSlots_rotateSlots, List.sum_cons]

/-- A rotation within the guard `|r| ≤ N` succeeds and is the cyclic rotation by `r`. -/
theorem shiftLeft_ok (c : CKKSCiphertext) (r : Int) (hr : |r| ≤ (c.slots.length : Int)) :
    shiftLeft c r = .ok ⟨rotateSlots c.slots r, c.towers⟩ := by
  unfold shiftLeft EvalRotatePositiveNegativePow2
  by_cases h0 : r = 0
  · subst h0; simp [rotateSlots_zero]
  · rw [if_neg h0]
    simp only [CKKSCiphertext.getBatchSize]
    rw [if_neg (by omega), foldl_EvalAtIndex, (po2Decompose_spec r).2]

theorem shiftRight_ok (c : CKKSCiphertext) (r : Int) (hr : |r| ≤ (c.slots.length : Int)) :
    shiftRight c r = .ok ⟨rotateSlots c.slots (-r), c.towers⟩ := by
  unfold shiftRight
  exact shiftLeft_ok c (-r) (by rwa [abs_neg])

theorem shiftLeft_error (c : CKKSCiphertext) (r : Int) (hr : (c.slots.length : Int) < |r|) :
    shiftLeft c r = .error .rotationTooLarge := by
  unfold shiftLeft EvalRotatePositiveNegativePow2
  have h0 : r ≠ 0 := by
    intro h; subst h; simp at hr; omega
  rw [if_neg h0]
  simp only [CKKSCiphertext.getBatchSize]
  rw [if_pos (by omega)]

theorem mulAssignVector_ok (c : CKKSCiphertext) (vals : List ℚ)
    (hlen : vals.length = c.slots.length) (ht : 2 < c.towers) :
    mulAssignVector c vals = .ok (EvalMultPlain c vals) := by
  unfold mulAssignVector
  simp only [CKKSCiphertext.getBatchSize, CKKSCiphertext.getTowersRemaining]
  rw [if_neg (by simpa using hlen), if_neg (by omega)]

theorem mulAssignVector_error (c : CKKSCiphertext) (vals : List ℚ)
    (hlen : vals.length = c.slots.length) (ht : c.towers ≤ 2) :
    mulAssignVector c vals = .error .insufficientTowers := by
  unfold mulAssignVector
  simp only [CKKSCiphertext.getBatchSize, CKKSCiphertext.getTowersRemaining]
  rw [if_neg (by simpa using hlen), if_pos ht]

/-! ### Loops in the exception monad -/

theorem mapM_ok {α β : Type} (f : α → Except Error β) (g : α → β) (l : List α)
    (h : ∀ a ∈ l, f a = .ok (g a)) : l.mapM f = .ok (l.map g) := by
  induction l with
  | nil => rfl
  | cons a t ih =>
    rw [List.mapM_cons, h a (List.mem_cons_self _ _),
      ih (fun b hb => h b (List.mem_cons_of_mem _ hb))]
    rfl

theorem foldlM_ok {α β : Type} (f : β → α → Except Error β) (g : β → α → β) (l : List α)
    (init : β) (h : ∀ b, ∀ a ∈ l, f b a = .ok (g b a)) :
    l.foldlM f init = .ok (l.foldl g init) := by
  induction l generalizing init with
  | nil => rfl
  | cons a t ih =>
    rw [List.foldlM_cons, h init a (List.mem_cons_self _ _)]
    exact ih _ (fun b c hc => h b c (List.mem_cons_of_mem _ hc))
/-! ## Lemmas: `tileVector` and the tiled mask -/

theorem copy_n_length {α : Type} (v : List α) (c : Nat) (h : 2 * c ≤ v.length) :
    (copy_n v c).length = v.length := by
  simp only [copy_n, List.length_append, List.length_take, List.length_drop]
  omega

theorem copy_n_getD {α : Type} (v : List α) (c : Nat) (z : α) (h : 2 * c ≤ v.length) (i : Nat)
    (hi : i < 2 * c) : (copy_n v c).getD i z = v.getD (i % c) z := by
  have hc : 0 < c := by omega
  simp only [copy_n, List.getD_eq_getElem?_getD]
  by_cases h1 : i < c
  · rw [List.append_assoc, List.getElem?_append_left (by simp; omega), List.getElem?_take_of_lt h1,
      Nat.mod_eq_of_lt h1]
  · have h2 : i % c = i - c := by
      rw [Nat.mod_eq_sub_mod (by omega), Nat.mod_eq_of_lt (by omega)]
    rw [List.append_assoc, List.getElem?_append_right (by simp; omega)]
    simp only [List.length_take]
    rw [Nat.min_eq_left (by omega), List.getElem?_append_left (by simp; omega),
      List.getElem?_take_of_lt (by omega), h2]

theorem tileVectorLoop_ok {α : Type} (z : α) (n a : Nat) (hn : 0 < n) (g : Nat → α) :
    ∀ (d fuel : Nat) (v : List α), d ≤ fuel → d ≤ a → v.length = n * 2 ^ a →
      (∀ i, i < n * 2 ^ (a - d) → v.getD i z = g (i % n)) →
      ∃ w, tileVectorLoop (n * 2 ^ a) fuel (n * 2 ^ (a - d)) v = .ok w ∧
        w.length = n * 2 ^ a ∧ ∀ i, i < n * 2 ^ a → w.getD i z = g (i % n) := by
  intro d
  induction d with
  | zero =>
    intro fuel v _ _ hlen hv
    refine ⟨v, ?_, hlen, by simpa using hv⟩
    cases fuel <;> simp [tileVectorLoop]
  | succ d ih =>
    intro fuel v hf ha hlen hv
    obtain ⟨fuel, rfl⟩ : ∃ f, fuel = f + 1 := ⟨fuel - 1, by omega⟩
    have e : a - d = (a - (d + 1)) + 1 := by omega
    have hpow : n * 2 ^ (a - d) = 2 * (n * 2 ^ (a - (d + 1))) := by
      rw [e, pow_succ]; ring
    have hle : n * 2 ^ (a - d) ≤ n * 2 ^ a :=
      Nat.mul_le_mul_left _ (Nat.pow_le_pow_right (by norm_num) (by omega))
    have hpos : 0 < n * 2 ^ (a - (d + 1)) := Nat.mul_pos hn (by positivity)
    rw [tileVectorLoop, if_pos (by omega), if_pos (by omega), ← hpow]
    apply ih fuel (copy_n v (n * 2 ^ (a - (d + 1)))) (by omega) (by omega)
    · rw [copy_n_length _ _ (by omega)]; exact hlen
    · intro i hi
      rw [copy_n_getD _ _ z (by omega) i (by omega), hv _ (Nat.mod_lt _ hpos)]
      congr 1
      exact Nat.mod_mod_of_dvd _ (Dvd.intro _ rfl)

theorem two_pow_ge (a : Nat) : a ≤ 2 ^ a := Nat.le_of_lt (Nat.lt_two_pow a)

/-- Tiling a non-empty vector to `2 ^ a` times its length succeeds and repeats the vector. -/
theorem tileVector_ok {α : Type} [Zero α] (vals : List α) (a : Nat) (hn : 0 < vals.length) :
    ∃ w, tileVector vals (vals.length * 2 ^ a) = .ok w ∧ w.length = vals.length * 2 ^ a ∧
      ∀ i, i < vals.length * 2 ^ a → w.getD i 0 = vals.getD (i % vals.length) 0 := by
  unfold tileVector
  have hle : vals.length ≤ vals.length * 2 ^ a := Nat.le_mul_of_pos_right _ (by positivity)
  have hfuel : a ≤ vals.length * 2 ^ a :=
    le_trans (two_pow_ge a) (Nat.le_mul_of_pos_left _ hn)
  have h := tileVectorLoop_ok (0 : α) vals.length a hn (fun i => vals.getD i 0) a
    (vals.length * 2 ^ a)
    (vals.take (vals.length * 2 ^ a) ++ List.replicate (vals.length * 2 ^ a - vals.length) 0)
    hfuel (le_refl _)
    (by simp only [List.length_append, List.length_take, List.length_replicate]; omega)
    (by
      intro i hi
      simp only [Nat.sub_self, pow_zero, mul_one] at hi
      rw [List.take_of_length_le hle, Nat.mod_eq_of_lt hi]
      simp only [List.getD_eq_getElem?_getD]
      rw [List.getElem?_append_left hi])
  simpa using h
/-! ## Lemmas: the table of rotations -/

theorem kernel_index_to_shift_eq (i k : Nat) (hk : 1 ≤ k) :
    kernel_index_to_shift i k = (i : Int) - (↑((k - 1) / 2) : Int) := by
  unfold kernel_index_to_shift
  split <;> omega

theorem kernel_index_to_shift_abs_le (i k : Nat) (hk : 1 ≤ k) (hi : i < k) :
    |kernel_index_to_shift i k| ≤ (↑(k / 2) : Int) := by
  rw [kernel_index_to_shift_eq i k hk, abs_le]
  omega

theorem find?_range_eq_some (p : Nat → Bool) (c : Nat) (hc : p c = true)
    (hlt : ∀ i, i < c → p i = false) : ∀ k, c < k → (List.range k).find? p = some c := by
  intro k
  induction k with
  | zero => intro h; omega
  | succ k ih =>
    intro h
    rw [List.range_succ, List.find?_append]
    by_cases hck : c < k
    · rw [ih hck]; rfl
    · have e : c = k := by omega
      subst e
      have hnone : (List.range c).find? p = none := by
        rw [List.find?_eq_none]
        intro x hx
        rw [hlt x (List.mem_range.1 hx)]
        simp
      rw [hnone]
      simp [List.find?, hc]

theorem shift_to_kernel_index_zero (k : Nat) (hk : 1 ≤ k) :
    shift_to_kernel_index 0 k = .ok ((k - 1) / 2) := by
  unfold shift_to_kernel_index
  rw [find?_range_eq_some _ ((k - 1) / 2) _ _ k (by omega)]
  · simp only [beq_iff_eq]
    rw [kernel_index_to_shift_eq _ k hk]; omega
  · intro i hi
    simp only [beq_eq_false_iff_ne, ne_eq]
    rw [kernel_index_to_shift_eq _ k hk]; omega

theorem EvalAtIndex_EvalAtIndex (c : CKKSCiphertext) (a b : Int) :
    EvalAtIndex (EvalAtIndex c a) b = EvalAtIndex c (a + b) := by
  simp only [EvalAtIndex, rotateSlots_rotateSlots]

theorem EvalAtIndex_length (c : CKKSCiphertext) (a : Int) :
    (EvalAtIndex c a).slots.length = c.slots.length := by
  simp [EvalAtIndex, rotateSlots_length]

theorem shiftLeft_eq_EvalAtIndex (c : CKKSCiphertext) (r : Int)
    (hr : |r| ≤ (c.slots.length : Int)) : shiftLeft c r = .ok (EvalAtIndex c r) :=
  shiftLeft_ok c r hr

theorem rotation_rows_ok (N : Nat) (r : Int) (hr : |r| ≤ (N : Int)) :
    ∀ (n : Nat) (row : List CKKSCiphertext), (∀ c ∈ row, c.slots.length = N) →
      rotation_rows (fun c => shiftLeft c r) n row
        = .ok ((List.range n).map fun (i : Nat) =>
            row.map fun c => EvalAtIndex c (r * ((i : Int) + 1))) := by
  intro n
  induction n with
  | zero => intro row _; rfl
  | succ n ih =>
    intro row hrow
    have hnext : row.mapM (fun c => shiftLeft c r)
        = .ok (row.map fun c => EvalAtIndex c r) := by
      apply mapM_ok
      intro c hc
      exact shiftLeft_eq_EvalAtIndex c r (by rw [hrow c hc]; exact hr)
    have hrow2 : ∀ c ∈ row.map (fun c => EvalAtIndex c r), c.slots.length = N := by
      intro c hc
      simp only [List.mem_map] at hc
      obtain ⟨c0, hc0, rfl⟩ := hc
      rw [EvalAtIndex_length]; exact hrow c0 hc0
    rw [rotation_rows, hnext]
    simp only [bind, Except.bind]
    rw [ih _ hrow2]
    simp only [pure, Except.pure]
    congr 1
    rw [List.range_succ_eq_map, List.map_cons, List.map_map]
    congr 1
    · simp
    · apply List.map_congr_left
      intro i _
      show List.map (fun c => EvalAtIndex c (r * ((i : Int) + 1)))
          (List.map (fun c => EvalAtIndex c r) row)
        = List.map (fun c => EvalAtIndex c (r * (((i + 1 : Nat) : Int) + 1))) row
      rw [List.map_map]
      apply List.map_congr_left
      intro c _
      show EvalAtIndex (EvalAtIndex c r) (r * ((i : Int) + 1))
        = EvalAtIndex c (r * (((i + 1 : Nat) : Int) + 1))
      rw [EvalAtIndex_EvalAtIndex]
      have e : r + r * ((i : Int) + 1) = r * (((i + 1 : Nat) : Int) + 1) := by
        push_cast; ring
      rw [e]

theorem rotation_table_eq (k c : Nat) (hc : c < k) (T : Nat → List CKKSCiphertext) :
    ((List.range c).map fun (i : Nat) => T (c - 1 - i)).reverse
        ++ T c :: ((List.range (k - (c + 1))).map fun (i : Nat) => T (c + 1 + i))
      = (List.range k).map T := by
  have hk : k = c + (1 + (k - (c + 1))) := by omega
  have hone : List.range 1 = [0] := rfl
  have hr : List.range k
      = List.range c ++ c :: (List.range (k - (c + 1))).map (fun x => c + 1 + x) := by
    conv_lhs => rw [hk, List.range_add, List.range_add]
    simp only [hone, List.map_cons, List.map_nil, List.singleton_append,
      List.map_append, List.map_map, add_zero]
    congr 2
    apply List.map_congr_left
    intro i _
    simp only [Function.comp]
    omega
  have hrev : (List.range c).reverse = (List.range c).map (fun x => c - 1 - x) := by
    conv_lhs => rw [List.range_eq_range', List.reverse_range']
    apply List.map_congr_left
    intro i _
    omega
  have h1 : ((List.range c).map fun (i : Nat) => T (c - 1 - i)).reverse
      = (List.range c).map T := by
    rw [← List.map_reverse, hrev, List.map_map]
    apply List.map_congr_left
    intro i hi
    have : i < c := List.mem_range.1 hi
    simp only [Function.comp]
    congr 1
    omega
  rw [h1, hr, List.map_append, List.map_cons, List.map_map]
  rfl

/-- The table of rotations: entry `(ki, kj)` is the input rotated by
`shift(ki) * mtx_size + shift(kj)` slots. -/
theorem get_all_rotations_image_sharded_ok (x : CKKSCiphertext) (m k : Nat)
    (hk : 1 ≤ k) (hkN : k / 2 ≤ x.slots.length) (hm : m ≤ x.slots.length) :
    get_all_rotations_image_sharded x m k
      = .ok ((List.range k).map fun ki => (List.range k).map fun kj =>
          EvalAtIndex x (kernel_index_to_shift ki k * (m : Int) + kernel_index_to_shift kj k)) := by
  have hcenter := shift_to_kernel_index_zero k hk
  have hrow : (List.range k).mapM (fun j => shiftLeft x (kernel_index_to_shift j k))
      = .ok ((List.range k).map fun j => EvalAtIndex x (kernel_index_to_shift j k)) := by
    apply mapM_ok
    intro j hj
    apply shiftLeft_eq_EvalAtIndex
    have := kernel_index_to_shift_abs_le j k hk (List.mem_range.1 hj)
    omega
  have hlen : ∀ c ∈ (List.range k).map (fun j => EvalAtIndex x (kernel_index_to_shift j k)),
      c.slots.length = x.slots.length := by
    intro c hc
    simp only [List.mem_map] at hc
    obtain ⟨j, _, rfl⟩ := hc
    exact EvalAtIndex_length _ _
  have habove := rotation_rows_ok x.slots.length (-(m : Int)) (by rw [abs_neg]; simp; omega)
    ((k - 1) / 2) _ hlen
  have hbelow := rotation_rows_ok x.slots.length (m : Int) (by simp; omega)
    (k - ((k - 1) / 2 + 1)) _ hlen
  unfold get_all_rotations_image_sharded
  rw [hcenter]
  simp only [bind, Except.bind]
  rw [hrow]
  simp only [shiftRight]
  rw [habove, hbelow]
  simp only [pure, Except.pure]
  congr 1
  have hT := rotation_table_eq k ((k - 1) / 2) (by omega) (fun ki =>
    (List.range k).map fun kj =>
      EvalAtIndex x (kernel_index_to_shift ki k * (m : Int) + kernel_index_to_shift kj k))
  rw [← hT]
  congr 1
  · congr 1
    apply List.map_congr_left
    intro i hi
    have hi' : i < (k - 1) / 2 := List.mem_range.1 hi
    rw [List.map_map]
    apply List.map_congr_left
    intro j _
    simp only [Function.comp, EvalAtIndex_EvalAtIndex]
    congr 1
    rw [kernel_index_to_shift_eq ((k - 1) / 2 - 1 - i) k hk]
    have e : (↑((k - 1) / 2 - 1 - i) : Int) = (↑((k - 1) / 2) : Int) - 1 - i := by omega
    rw [e]; ring
  · congr 1
    · apply List.map_congr_left
      intro j _
      rw [kernel_index_to_shift_eq ((k - 1) / 2) k hk]
      simp
    · apply List.map_congr_left
      intro i hi
      rw [List.map_map]
      apply List.map_congr_left
      intro j _
      simp only [Function.comp, EvalAtIndex_EvalAtIndex]
      congr 1
      rw [kernel_index_to_shift_eq ((k - 1) / 2 + 1 + i) k hk]
      push_cast
      ring
/-! ## Lemmas: the image-sharded convolution helper -/

/-- The tiled shift mask of a shard holding `2 ^ a` channels of size `m x m`. -/
theorem make_shift_mask_image_sharded_ok (a m : Nat) (hm : 1 ≤ m) (dr dc : Int) :
    make_shift_mask_image_sharded (2 ^ a) m m dr dc
      = .ok ((List.range (2 ^ a * (m * m))).map fun i =>
          if shiftInBounds m m dr dc (i % (m * m)) then (1 : Int) else 0) := by
  have hmm : 0 < m * m := Nat.mul_pos hm hm
  have hlen : (make_shift_mask_channel_shard m m dr dc).length = m * m := by
    simp [make_shift_mask_channel_shard]
  obtain ⟨w, hw, hwlen, hwget⟩ := tileVector_ok (make_shift_mask_channel_shard m m dr dc) a
    (by rw [hlen]; exact hmm)
  rw [hlen] at hw hwlen hwget
  have hcomm : m * m * 2 ^ a = 2 ^ a * (m * m) := Nat.mul_comm _ _
  rw [hcomm] at hw hwlen hwget
  have hdef : make_shift_mask_image_sharded (2 ^ a) m m dr dc
      = tileVector (make_shift_mask_channel_shard m m dr dc) (2 ^ a * (m * m)) := rfl
  rw [hdef, hw]
  congr 1
  rw [eq_map_range_getD w 0, hwlen]
  apply map_range_congr
  intro i hi
  rw [hwget i hi]
  exact make_shift_mask_channel_shard_getD m m dr dc (i % (m * m)) (Nat.mod_lt _ hmm)

theorem table_getD {α : Type} (k : Nat) (T : Nat → Nat → α) (d : α) (ki kj : Nat)
    (hki : ki < k) (hkj : kj < k) :
    (((List.range k).map fun ki => (List.range k).map fun kj => T ki kj).getD ki []).getD kj d
      = T ki kj := by
  rw [getD_map_range, if_pos hki, getD_map_range, if_pos hkj]

/-- Folding a step that adds a vector to the accumulator yields the sum of the vectors. -/
theorem foldl_range_slots (N : Nat) (step : CKKSCiphertext → Nat → CKKSCiphertext)
    (F : Nat → Nat → ℚ) (n : Nat)
    (hstep : ∀ a, a < n → ∀ (acc : CKKSCiphertext) (g : Nat → ℚ),
      acc.slots = (List.range N).map g →
      (step acc a).slots = (List.range N).map fun i => g i + F a i)
    (init : CKKSCiphertext) (g : Nat → ℚ) (hinit : init.slots = (List.range N).map g) :
    ((List.range n).foldl step init).slots
      = (List.range N).map fun i => g i + ∑ a ∈ Finset.range n, F a i := by
  induction n with
  | zero => simpa using hinit
  | succ n ih =>
    rw [List.range_succ, List.foldl_append, List.foldl_cons, List.foldl_nil]
    rw [hstep n (by omega) _ _ (ih (fun a ha => hstep a (by omega)))]
    apply map_range_congr
    intro i _
    rw [Finset.sum_range_succ]
    ring

theorem addAssign_slots (N : Nat) (acc p : CKKSCiphertext) (g f : Nat → ℚ)
    (hacc : acc.slots = (List.range N).map g) (hp : p.slots = (List.range N).map f) :
    (addAssign acc p).slots = (List.range N).map fun i => g i + f i := by
  simp only [addAssign, EvalAdd, hacc, hp, zipWith_map_range]

theorem EvalMultPlain_slots (x : CKKSCiphertext) (ρ : Int) (f : Nat → ℚ) :
    (EvalMultPlain (EvalAtIndex x ρ) ((List.range x.slots.length).map f)).slots
      = (List.range x.slots.length).map fun (j : Nat) =>
          x.slots.getD (((j : Int) + ρ) % (x.slots.length : Int)).toNat 0 * f j := by
  simp only [EvalMultPlain, EvalAtIndex, rotateSlots, zipWith_map_range]

theorem rotationTable_getD (x : CKKSCiphertext) (m k ki kj : Nat) (hki : ki < k) (hkj : kj < k) :
    ((rotationTable x m k).getD ki []).getD kj default
      = EvalAtIndex x (kernel_index_to_shift ki k * (m : Int) + kernel_index_to_shift kj k) :=
  table_getD k _ default ki kj hki hkj

theorem shiftLeft_ok_of (E : CKKSCiphertext) (ρ : Int) (S : List ℚ) (T : Nat)
    (hs : E.slots = S) (ht : E.towers = T) (hρ : |ρ| ≤ (S.length : Int)) :
    shiftLeft E ρ = .ok ⟨rotateSlots S ρ, T⟩ := by
  subst hs ht
  exact shiftLeft_ok E ρ hρ

theorem shiftRight_ok_of (E : CKKSCiphertext) (ρ : Int) (S : List ℚ) (T : Nat)
    (hs : E.slots = S) (ht : E.towers = T) (hρ : |ρ| ≤ (S.length : Int)) :
    shiftRight E ρ = .ok ⟨rotateSlots S (-ρ), T⟩ := by
  subst hs ht
  exact shiftRight_ok E ρ hρ

/-- Folding a step that lowers the level to at most `τ` ends at `min init τ`. -/
theorem foldl_range_towers (step : CKKSCiphertext → Nat → CKKSCiphertext) (τ : Nat) (n : Nat)
    (hstep : ∀ a, a < n → ∀ acc : CKKSCiphertext, (step acc a).towers = min acc.towers τ)
    (init : CKKSCiphertext) (hn : 1 ≤ n) :
    ((List.range n).foldl step init).towers = min init.towers τ := by
  induction n with
  | zero => omega
  | succ n ih =>
    rw [List.range_succ, List.foldl_append, List.foldl_cons, List.foldl_nil,
      hstep n (by omega)]
    rcases Nat.eq_zero_or_pos n with h0 | hpos
    · subst h0; simp
    · rw [ih (fun a ha => hstep a (by omega)) hpos]
      omega

theorem convolution_helper_image_sharded_ok (x : CKKSCiphertext) (F : boost_vector4d)
    (sigma : List Int) (a m r Cin Cout fo so : Nat) (hm : 1 ≤ m) (hk : 1 ≤ F.shape2)
    (hN : x.slots.length = 2 ^ a * (m * m)) (ht : 2 < x.towers)
    (hr : r * m * m * (x.slots.length / (Cin * (m * m))) ≤ x.slots.length) :
    convolution_helper_image_sharded (rotationTable x m F.shape2) F m r Cin Cout fo so sigma
      = .ok ⟨rotateSlots ((List.range x.slots.length).map fun i =>
          helperSum x F sigma m r Cin Cout fo so i)
          (↑(r * m * m * (x.slots.length / (Cin * (m * m)))) : Int), x.towers - 1⟩ := by
  have hmm : 0 < m * m := Nat.mul_pos hm hm
  have hP : x.slots.length / (m * m) = 2 ^ a := by
    rw [hN]; exact Nat.mul_div_cancel _ hmm
  have h00 := rotationTable_getD x m F.shape2 0 0 (by omega) (by omega)
  unfold convolution_helper_image_sharded
  simp only [h00, CKKSCiphertext.getBatchSize, EvalAtIndex_length, hP]
  rw [foldlM_ok _ (fun acc ki => (List.range F.shape2).foldl (fun acc kj =>
    addAssign acc (EvalMultPlain
      (EvalAtIndex x (kernel_index_to_shift ki F.shape2 * (m : Int)
        + kernel_index_to_shift kj F.shape2))
      ((List.range x.slots.length).map fun i =>
        maskedKernelElement F sigma x.slots.length m r Cin Cout fo so ki kj i))) acc)]
  · simp only [bind, Except.bind]
    have hinit : (subAssign
        (EvalAtIndex x (kernel_index_to_shift 0 F.shape2 * (m : Int)
          + kernel_index_to_shift 0 F.shape2))
        (EvalAtIndex x (kernel_index_to_shift 0 F.shape2 * (m : Int)
          + kernel_index_to_shift 0 F.shape2))).slots
        = (List.range x.slots.length).map fun _ => (0 : ℚ) := by
      simp only [subAssign, EvalSub, EvalAtIndex, rotateSlots, zipWith_map_range, sub_self]
    have hslots := foldl_range_slots x.slots.length
      (fun acc ki => (List.range F.shape2).foldl (fun acc kj =>
        addAssign acc (EvalMultPlain
          (EvalAtIndex x (kernel_index_to_shift ki F.shape2 * (m : Int)
            + kernel_index_to_shift kj F.shape2))
          ((List.range x.slots.length).map fun i =>
            maskedKernelElement F sigma x.slots.length m r Cin Cout fo so ki kj i))) acc)
      (fun ki i => ∑ kj ∈ Finset.range F.shape2,
        x.slots.getD (((i : Int) + (kernel_index_to_shift ki F.shape2 * (m : Int)
            + kernel_index_to_shift kj F.shape2)) % (x.slots.length : Int)).toNat 0
          * maskedKernelElement F sigma x.slots.length m r Cin Cout fo so ki kj i)
      F.shape2
      (by
        intro ki _ acc g hacc
        exact foldl_range_slots x.slots.length _ _ F.shape2
          (by
            intro kj _ acc2 g2 hacc2
            exact addAssign_slots _ _ _ _ _ hacc2 (EvalMultPlain_slots x _ _))
          acc g hacc)
      _ _ hinit
    have htowers := foldl_range_towers
      (fun acc ki => (List.range F.shape2).foldl (fun acc kj =>
        addAssign acc (EvalMultPlain
          (EvalAtIndex x (kernel_index_to_shift ki F.shape2 * (m : Int)
            + kernel_index_to_shift kj F.shape2))
          ((List.range x.slots.length).map fun i =>
            maskedKernelElement F sigma x.slots.length m r Cin Cout fo so ki kj i))) acc)
      (x.towers - 1) F.shape2
      (by
        intro ki _ acc
        exact foldl_range_towers _ (x.towers - 1) F.shape2
          (by intro kj _ acc2; rfl) acc hk)
      (subAssign
        (EvalAtIndex x (kernel_index_to_shift 0 F.shape2 * (m : Int)
          + kernel_index_to_shift 0 F.shape2))
        (EvalAtIndex x (kernel_index_to_shift 0 F.shape2 * (m : Int)
          + kernel_index_to_shift 0 F.shape2))) hk
    apply shiftLeft_ok_of
    · rw [hslots]
      apply map_range_congr
      intro i _
      simp only [helperSum, zero_add]
    · rw [htowers]
      simp only [subAssign, EvalSub, EvalAtIndex]
      omega
    · simp only [List.length_map, List.length_range]
      rw [abs_of_nonneg (by positivity)]
      exact_mod_cast hr
  · intro acc ki hki
    rw [foldlM_ok]
    intro acc kj hkj
    have hki' : ki < F.shape2 := List.mem_range.1 hki
    have hkj' : kj < F.shape2 := List.mem_range.1 hkj
    rw [make_shift_mask_image_sharded_ok a m hm, rotationTable_getD x m F.shape2 ki kj hki' hkj']
    simp only [bind, Except.bind]
    rw [mulAssignVector_ok _ _ (by simp [EvalAtIndex_length]) (by simpa [EvalAtIndex] using ht)]
    simp only [pure, Except.pure]
    congr 3
    apply map_range_congr
    intro i hi
    rw [getD_map_range, if_pos (by omega), getD_map_range]
    simp only [maskedKernelElement, hP]
    congr 1
    split <;> simp
/-! ## Lemmas: `conv2d` on a single image-sharded shard -/

theorem foldl_set_range_aux {α : Type} (n : Nat) (H : Nat → α) (d : α) :
    ∀ j, j ≤ n → (List.range j).foldl (fun acc r => acc.set r (H r)) (List.replicate n d)
      = (List.range j).map H ++ List.replicate (n - j) d := by
  intro j
  induction j with
  | zero => intro _; simp
  | succ j ih =>
    intro hj
    rw [List.range_succ, List.foldl_append, List.foldl_cons, List.foldl_nil, ih (by omega)]
    have e : n - j = (n - (j + 1)) + 1 := by omega
    rw [e, List.replicate_succ, List.set_append_right _ _ (by simp)]
    simp

theorem foldl_set_range {α : Type} (n : Nat) (H : Nat → α) (d : α) :
    (List.range n).foldl (fun acc r => acc.set r (H r)) (List.replicate n d)
      = (List.range n).map H := by
  rw [foldl_set_range_aux n H d n (le_refl _)]
  simp

theorem range'_one_eq_map (n : Nat) :
    List.range' 1 n = (List.range n).map (fun a => a + 1) := by
  rw [List.range_eq_range']
  have := List.map_add_range' 1 0 n 1
  simp only [Nat.add_comm] at this
  simpa using this.symm

theorem foldl_towers_const (step : CKKSCiphertext → Nat → CKKSCiphertext) (τ : Nat)
    (l : List Nat) (hstep : ∀ a, a ∈ l → ∀ acc : CKKSCiphertext, acc.towers = τ →
      (step acc a).towers = τ)
    (init : CKKSCiphertext) (hinit : init.towers = τ) : (l.foldl step init).towers = τ := by
  induction l generalizing init with
  | nil => simpa using hinit
  | cons b t ih =>
    rw [List.foldl_cons]
    exact ih (fun a ha => hstep a (List.mem_cons_of_mem _ ha)) _
      (hstep b (List.mem_cons_self _ _) init hinit)

/-- The accumulation `ctxt = parts[base]; for (off = 1; off < n; ++off) ctxt += parts[base + off]`
over parts of equal width and level. -/
theorem accumulate_parts (N n base : Nat) (hn : 1 ≤ n) (P : List CKKSCiphertext)
    (f : Nat → Nat → ℚ) (τ : Nat)
    (hP : ∀ r, r < n → P.getD (base + r) default = ⟨(List.range N).map (f r), τ⟩) :
    (List.range' 1 (n - 1)).foldl
        (fun ctxt offset => addAssign ctxt (P.getD (base + offset) default))
        (P.getD base default)
      = ⟨(List.range N).map fun i => ∑ r ∈ Finset.range n, f r i, τ⟩ := by
  have hr : List.range' 1 (n - 1) = (List.range (n - 1)).map (fun a => a + 1) :=
    range'_one_eq_map (n - 1)
  have h0 := hP 0 (by omega)
  rw [Nat.add_zero] at h0
  rw [hr, List.foldl_map, h0]
  have hs := foldl_range_slots N
    (fun ctxt a => addAssign ctxt (P.getD (base + (a + 1)) default))
    (fun a i => f (a + 1) i) (n - 1)
    (by
      intro a ha acc g hacc
      apply addAssign_slots _ _ _ _ _ hacc
      rw [hP (a + 1) (by omega)])
    ⟨(List.range N).map (f 0), τ⟩ (f 0) rfl
  have ht := foldl_towers_const
    (fun ctxt a => addAssign ctxt (P.getD (base + (a + 1)) default)) τ (List.range (n - 1))
    (by
      intro a ha acc hacc
      have : a < n - 1 := List.mem_range.1 ha
      simp only [addAssign, EvalAdd, hP (a + 1) (by omega), hacc, min_self])
    ⟨(List.range N).map (f 0), τ⟩ rfl
  have hsum : ∀ i, f 0 i + ∑ a ∈ Finset.range (n - 1), f (a + 1) i
      = ∑ r ∈ Finset.range n, f r i := by
    intro i
    have e : n = (n - 1) + 1 := by omega
    conv_rhs => rw [e, Finset.sum_range_succ']
    ring
  simp only [hsum] at hs
  generalize List.foldl (fun ctxt a => addAssign ctxt (P.getD (base + (a + 1)) default))
    ⟨(List.range N).map (f 0), τ⟩ (List.range (n - 1)) = E at hs ht
  cases E
  simp only at hs ht
  rw [hs, ht]

theorem conv2d_single_shard (x : CKKSCiphertext) (F : boost_vector4d) (sigma : List Int)
    (a m : Nat) (hm : 1 ≤ m) (hk : 1 ≤ F.shape2) (hkN : F.shape2 / 2 ≤ x.slots.length)
    (hN : x.slots.length = 2 ^ a * (m * m)) (ht : 2 < x.towers)
    (hin : 1 ≤ F.shape0) (hout : F.shape1 / 2 ^ a ≤ 1) :
    conv2d [x] F m sigma
      = .ok [⟨(List.range x.slots.length).map fun i => convSlot x F sigma m i,
          x.towers - 1⟩] := by
  have hmm : 0 < m * m := Nat.mul_pos hm hm
  have hpow : 0 < 2 ^ a := by positivity
  have hge : m * m ≤ x.slots.length := by
    rw [hN]; exact Nat.le_mul_of_pos_left _ hpow
  have hP : x.slots.length / (m * m) = 2 ^ a := by
    rw [hN]; exact Nat.mul_div_cancel _ hmm
  have hmN : m ≤ x.slots.length := le_trans (Nat.le_mul_of_pos_left m hm) hge
  have hS : (if F.shape1 / 2 ^ a = 0 then 1 else F.shape1 / 2 ^ a) = 1 := by
    generalize F.shape1 / 2 ^ a = q at hout
    split <;> omega
  have hone : List.range 1 = [0] := rfl
  have hrot := get_all_rotations_image_sharded_ok x m F.shape2 hk hkN hmN
  unfold conv2d
  simp only [List.getD_cons_zero, CKKSCiphertext.getBatchSize, ge_iff_le, hge, if_true]
  unfold conv2d_image_sharded
  simp only [List.getD_cons_zero, CKKSCiphertext.getBatchSize, List.length_singleton, hP, hS,
    gt_iff_lt, lt_irrefl, if_false, mul_one]
  rw [hone]
  simp only [List.mapM_cons, List.mapM_nil, List.getD_cons_zero, hrot, List.foldlM_cons,
    List.foldlM_nil, bind, Except.bind, pure, Except.pure, zero_mul, zero_add, List.map_cons,
    List.map_nil]
  have hH : ∀ r, r ∈ List.range F.shape0 →
      convolution_helper_image_sharded
        ((List.range F.shape2).map fun ki => (List.range F.shape2).map fun kj =>
          EvalAtIndex x (kernel_index_to_shift ki F.shape2 * (m : Int)
            + kernel_index_to_shift kj F.shape2))
        F m r F.shape0 F.shape1 0 0 sigma
      = .ok ⟨rotateSlots ((List.range x.slots.length).map fun j =>
          helperSum x F sigma m r F.shape0 F.shape1 0 0 j)
          (↑(r * m * m * (x.slots.length / (F.shape0 * (m * m)))) : Int), x.towers - 1⟩ := by
    intro r hr
    have hr' : r < F.shape0 := List.mem_range.1 hr
    apply convolution_helper_image_sharded_ok x F sigma a m r F.shape0 F.shape1 0 0 hm hk hN ht
    calc r * m * m * (x.slots.length / (F.shape0 * (m * m)))
        ≤ F.shape0 * m * m * (x.slots.length / (F.shape0 * (m * m))) := by
          apply Nat.mul_le_mul_right
          apply Nat.mul_le_mul_right
          apply Nat.mul_le_mul_right
          omega
      _ = (F.shape0 * (m * m)) * (x.slots.length / (F.shape0 * (m * m))) := by ring
      _ ≤ x.slots.length := Nat.mul_div_le _ _
  rw [foldlM_ok _ (fun acc r => acc.set r (⟨rotateSlots ((List.range x.slots.length).map fun j =>
          helperSum x F sigma m r F.shape0 F.shape1 0 0 j)
          (↑(r * m * m * (x.slots.length / (F.shape0 * (m * m)))) : Int), x.towers - 1⟩
          : CKKSCiphertext)) _ _
    (by intro acc r hr; rw [hH r hr])]
  rw [foldl_set_range]
  simp only []
  congr 2
  have hacc := accumulate_parts x.slots.length F.shape0 0 hin
    ((List.range F.shape0).map fun r => (⟨rotateSlots ((List.range x.slots.length).map fun j =>
          helperSum x F sigma m r F.shape0 F.shape1 0 0 j)
          (↑(r * m * m * (x.slots.length / (F.shape0 * (m * m)))) : Int), x.towers - 1⟩
          : CKKSCiphertext))
    (fun r i => (rotateSlots ((List.range x.slots.length).map fun j =>
          helperSum x F sigma m r F.shape0 F.shape1 0 0 j)
          (↑(r * m * m * (x.slots.length / (F.shape0 * (m * m)))) : Int)).getD i 0)
    (x.towers - 1)
    (by
      intro r hr
      rw [zero_add, getD_map_range, if_pos hr]
      congr 1
      conv_lhs => rw [eq_map_range_getD (rotateSlots _ _) 0]
      rw [rotateSlots_length]
      simp)
  simp only [zero_add] at hacc
  rw [hacc]
  rfl
/-! ## Lemmas: the identity kernel -/

theorem shiftInBounds_zero (m i : Nat) (hm : 1 ≤ m) (hi : i < m * m) :
    shiftInBounds m m 0 0 i := by
  have h1 : i / m < m := by
    rw [Nat.div_lt_iff_lt_mul (by omega)]; exact hi
  have h2 : i % m < m := Nat.mod_lt _ (by omega)
  unfold shiftInBounds
  generalize i / m = q at h1 ⊢
  generalize i % m = r at h2 ⊢
  omega

/-- The channel index arithmetic of the helper, `(q - r + P) % P` on non-negative values. -/
theorem tmod_index (q r P : Nat) (hr : r ≤ q + P) :
    (Int.tmod ((q : Int) - (r : Int) + (P : Int)) (P : Int)).toNat = (q + P - r) % P := by
  have e : (q : Int) - (r : Int) + (P : Int) = ((q + P - r : Nat) : Int) := by omega
  rw [e, Int.tmod_eq_emod (Int.natCast_nonneg _) (Int.natCast_nonneg _), ← Int.natCast_mod]
  exact Int.toNat_natCast _

theorem helperSum_identity (x : CKKSCiphertext) (F : boost_vector4d) (a m k i : Nat)
    (hm : 1 ≤ m) (hN : x.slots.length = 2 ^ a * (m * m)) (hodd : k % 2 = 1)
    (hF2 : F.shape2 = k)
    (hdelta : ∀ ki kj, ki < k → kj < k →
      F.elems 0 0 ki kj = if ki = k / 2 ∧ kj = k / 2 then 1 else 0)
    (hi : i < x.slots.length) :
    helperSum x F [0] m 0 1 1 0 0 i = x.slots.getD i 0 := by
  have hmm : 0 < m * m := Nat.mul_pos hm hm
  have hpow : 0 < 2 ^ a := by positivity
  have hP : x.slots.length / (m * m) = 2 ^ a := by
    rw [hN]; exact Nat.mul_div_cancel _ hmm
  have hch : i / (m * m) < 2 ^ a := by
    rw [Nat.div_lt_iff_lt_mul hmm, ← hN]; exact hi
  have hk : 1 ≤ k := by omega
  have hc : k / 2 < k := by omega
  have hmke : ∀ ki kj, ki < k → kj < k →
      maskedKernelElement F [0] x.slots.length m 0 1 1 0 0 ki kj i
        = (if shiftInBounds m m (kernel_index_to_shift ki k) (kernel_index_to_shift kj k)
            (i % (m * m)) then (1 : ℚ) else 0)
          * (if ki = k / 2 ∧ kj = k / 2 then 1 else 0) := by
    intro ki kj hki hkj
    simp only [maskedKernelElement, hP, hF2, one_mul]
    rw [tmod_index (i / (m * m)) (0 * 2 ^ a) (2 ^ a) (by simp)]
    simp only [Nat.zero_mul, Nat.sub_zero, Nat.add_mod_right, Nat.mod_eq_of_lt hch, if_pos hch,
      Nat.mod_one, zero_add, mul_zero, add_zero, List.getD_cons_zero, Int.toNat_zero,
      Nat.div_eq_of_lt hch]
    rw [hdelta ki kj hki hkj]
  unfold helperSum
  rw [hF2, Finset.sum_eq_single (k / 2)]
  · rw [Finset.sum_eq_single (k / 2)]
    · have hs : kernel_index_to_shift (k / 2) k = 0 := by
        rw [kernel_index_to_shift_eq _ k hk]; omega
      rw [hmke _ _ hc hc, hs, if_pos (shiftInBounds_zero m _ hm (Nat.mod_lt _ hmm))]
      simp only [zero_mul, add_zero, mul_one, and_self, if_true]
      rw [Int.emod_eq_of_lt (by omega) (by exact_mod_cast hi)]
      simp
    · intro kj hkj hne
      rw [hmke _ _ hc (Finset.mem_range.1 hkj)]
      simp [hne]
    · intro h; exact absurd (Finset.mem_range.2 hc) h
  · intro ki hki hne
    apply Finset.sum_eq_zero
    intro kj hkj
    rw [hmke _ _ (Finset.mem_range.1 hki) (Finset.mem_range.1 hkj)]
    simp [hne]
  · intro h; exact absurd (Finset.mem_range.2 hc) h

theorem conv2d_identity_kernel_slots (x : CKKSCiphertext) (F : boost_vector4d) (a m k : Nat)
    (hm : 1 ≤ m) (hN : x.slots.length = 2 ^ a * (m * m)) (hodd : k % 2 = 1)
    (hkN : k / 2 ≤ x.slots.length) (ht : 2 < x.towers)
    (hF0 : F.shape0 = 1) (hF1 : F.shape1 = 1) (hF2 : F.shape2 = k)
    (hdelta : ∀ ki kj, ki < k → kj < k →
      F.elems 0 0 ki kj = if ki = k / 2 ∧ kj = k / 2 then 1 else 0) :
    conv2d [x] F m [0] = .ok [⟨x.slots, x.towers - 1⟩] := by
  have hpow : 0 < 2 ^ a := by positivity
  rw [conv2d_single_shard x F [0] a m hm (by omega) (by rw [hF2]; exact hkN) hN ht (by omega)
    (by rw [hF1]; rcases Nat.lt_or_ge 1 (2 ^ a) with h | h
        · rw [Nat.div_eq_of_lt h]; omega
        · have : 2 ^ a = 1 := by omega
          rw [this])]
  congr 3
  conv_rhs => rw [eq_map_range_getD x.slots 0]
  apply map_range_congr
  intro i hi
  simp only [convSlot, hF0, hF1, Finset.range_one, Finset.sum_singleton, zero_mul,
    Nat.cast_zero, rotateSlots_zero]
  rw [getD_map_range, if_pos hi]
  exact helperSum_identity x F a m k i hm hN hodd hF2 hdelta hi
/-! ## Lemmas: convolution as cross-correlation -/

theorem sum_range_add_mod (C o : Nat) (ho : o < C) (G : Nat → ℚ) :
    ∑ r ∈ Finset.range C, G ((o + r) % C) = ∑ c ∈ Finset.range C, G c := by
  apply Finset.sum_nbij' (fun r => (o + r) % C) (fun c => (c + (C - o)) % C)
  · intro r hr
    exact Finset.mem_range.2 (Nat.mod_lt _ (by omega))
  · intro c hc
    exact Finset.mem_range.2 (Nat.mod_lt _ (by omega))
  · intro r hr
    have hr' : r < C := Finset.mem_range.1 hr
    show ((o + r) % C + (C - o)) % C = r
    rcases Nat.lt_or_ge (o + r) C with h | h
    · rw [Nat.mod_eq_of_lt h]
      have : o + r + (C - o) = r + C := by omega
      rw [this, Nat.add_mod_right, Nat.mod_eq_of_lt hr']
    · have e : (o + r) % C = o + r - C := by
        rw [Nat.mod_eq_sub_mod h, Nat.mod_eq_of_lt (by omega)]
      rw [e]
      have : o + r - C + (C - o) = r := by omega
      rw [this, Nat.mod_eq_of_lt hr']
  · intro c hc
    have hc' : c < C := Finset.mem_range.1 hc
    show (o + (c + (C - o)) % C) % C = c
    rcases Nat.lt_or_ge c o with h | h
    · have e : (c + (C - o)) % C = c + (C - o) := Nat.mod_eq_of_lt (by omega)
      have : o + (c + (C - o)) = c + C := by omega
      rw [e, this, Nat.add_mod_right, Nat.mod_eq_of_lt hc']
    · have e : (c + (C - o)) % C = c - o := by
        rw [Nat.mod_eq_sub_mod (by omega), Nat.mod_eq_of_lt (by omega)]
        omega
      rw [e]
      have : o + (c - o) = c := by omega
      rw [this, Nat.mod_eq_of_lt hc']
  · intro r _
    rfl

theorem add_mod_sub_mod (C o r : Nat) (ho : o < C) (hr : r < C) :
    ((o + r) % C + C - r) % C = o := by
  rcases Nat.lt_or_ge (o + r) C with h | h
  · rw [Nat.mod_eq_of_lt h]
    have : o + r + C - r = o + C := by omega
    rw [this, Nat.add_mod_right, Nat.mod_eq_of_lt ho]
  · have e : (o + r) % C = o + r - C := by
      rw [Nat.mod_eq_sub_mod h, Nat.mod_eq_of_lt (by omega)]
    rw [e]
    have : o + r - C + C - r = o := by omega
    rw [this, Nat.mod_eq_of_lt ho]

/-- Position `(y, x)` of an `m x m` grid in row-major order. -/
theorem grid_div_mod (m y x : Nat) (hx : x < m) : (y * m + x) / m = y ∧ (y * m + x) % m = x := by
  have hm : 0 < m := by omega
  constructor
  · rw [Nat.add_comm, Nat.add_mul_div_right _ _ hm, Nat.div_eq_of_lt hx, Nat.zero_add]
  · rw [Nat.add_comm, Nat.add_mul_mod_self_right, Nat.mod_eq_of_lt hx]

theorem grid_lt (m y x : Nat) (hy : y < m) (hx : x < m) : y * m + x < m * m := by
  calc y * m + x < y * m + m := by omega
    _ = (y + 1) * m := by ring
    _ ≤ m * m := Nat.mul_le_mul_right _ (by omega)

theorem channel_div_mod (cs c p : Nat) (hp : p < cs) :
    (c * cs + p) / cs = c ∧ (c * cs + p) % cs = p :=
  grid_div_mod cs c p hp

theorem channel_lt (C cs c p : Nat) (hc : c < C) (hp : p < cs) : c * cs + p < C * cs := by
  calc c * cs + p < c * cs + cs := by omega
    _ = (c + 1) * cs := by ring
    _ ≤ C * cs := Nat.mul_le_mul_right _ (by omega)

theorem helperSum_channels (x : CKKSCiphertext) (F : boost_vector4d) (sigma : List Int)
    (a m r o y x' : Nat) (hm : 1 ≤ m) (hN : x.slots.length = 2 ^ a * (m * m))
    (hr : r < 2 ^ a) (ho : o < 2 ^ a) (hy : y < m) (hx : x' < m) :
    helperSum x F sigma m r (2 ^ a) (2 ^ a) 0 0 ((o + r) % 2 ^ a * (m * m) + (y * m + x'))
      = ∑ ki ∈ Finset.range F.shape2, ∑ kj ∈ Finset.range F.shape2,
          crossTerm x F sigma m ((o + r) % 2 ^ a) o y x' ki kj := by
  have hmm : 0 < m * m := Nat.mul_pos hm hm
  have hpow : 0 < 2 ^ a := by positivity
  have hc : (o + r) % 2 ^ a < 2 ^ a := Nat.mod_lt _ hpow
  have hp : y * m + x' < m * m := grid_lt m y x' hy hx
  have hP : x.slots.length / (m * m) = 2 ^ a := by
    rw [hN]; exact Nat.mul_div_cancel _ hmm
  have hd : x.slots.length / (2 ^ a * (m * m)) = 1 := by
    rw [hN]; exact Nat.div_self (Nat.mul_pos hpow hmm)
  obtain ⟨hjd, hjm⟩ := channel_div_mod (m * m) ((o + r) % 2 ^ a) (y * m + x') hp
  obtain ⟨hpd, hpm⟩ := grid_div_mod m y x' hx
  unfold helperSum
  apply Finset.sum_congr rfl
  intro ki _
  apply Finset.sum_congr rfl
  intro kj _
  simp only [maskedKernelElement, hP, hd, hjd, hjm, mul_one, Nat.div_one, mul_zero, zero_add]
  rw [tmod_index _ _ _ (by omega), add_mod_sub_mod _ _ _ ho hr, if_pos ho]
  unfold crossTerm shiftInBounds
  simp only [hpd, hpm]
  generalize kernel_index_to_shift ki F.shape2 = dr
  generalize kernel_index_to_shift kj F.shape2 = dc
  generalize (o + r) % 2 ^ a = c at hc
  by_cases hin : 0 ≤ (y : Int) + dr ∧ (y : Int) + dr < m ∧ 0 ≤ (x' : Int) + dc ∧ (x' : Int) + dc < m
  · rw [if_pos hin, if_pos hin, one_mul, mul_comm]
    congr 2
    obtain ⟨h1, h2, h3, h4⟩ := hin
    obtain ⟨A, hA⟩ : ∃ A : Nat, (y : Int) + dr = A := ⟨((y : Int) + dr).toNat, by omega⟩
    obtain ⟨B, hB⟩ : ∃ B : Nat, (x' : Int) + dc = B := ⟨((x' : Int) + dc).toNat, by omega⟩
    have hAm : A < m := by omega
    have hBm : B < m := by omega
    have hlt : c * (m * m) + (A * m + B) < x.slots.length := by
      rw [hN]; exact channel_lt _ _ _ _ hc (grid_lt m A B hAm hBm)
    have e : ((↑(c * (m * m) + (y * m + x')) : Int) + (dr * (m : Int) + dc))
        = ((c * (m * m) + (A * m + B) : Nat) : Int) := by
      have hdr : dr = (A : Int) - y := by omega
      have hdc : dc = (B : Int) - x' := by omega
      rw [hdr, hdc]
      push_cast
      ring
    rw [e, hA, hB, Int.emod_eq_of_lt (Int.natCast_nonneg _) (by exact_mod_cast hlt)]
    simp only [Int.toNat_natCast]
    omega
  · rw [if_neg hin, if_neg hin]
    simp

theorem rotate_channel_index (C cs o r p : Nat) (hC : 0 < C) (hp : p < cs) :
    (o * cs + p + r * cs) % (C * cs) = (o + r) % C * cs + p := by
  have h1 : o * cs + p + r * cs = ((o + r) % C * cs + p) + (C * cs) * ((o + r) / C) := by
    have := Nat.mod_add_div (o + r) C
    calc o * cs + p + r * cs = (o + r) * cs + p := by ring
      _ = ((o + r) % C + C * ((o + r) / C)) * cs + p := by rw [this]
      _ = ((o + r) % C * cs + p) + (C * cs) * ((o + r) / C) := by ring
  rw [h1, Nat.add_mul_mod_self_left,
    Nat.mod_eq_of_lt (channel_lt C cs _ p (Nat.mod_lt _ hC) hp)]

theorem convSlot_cross_correlation (x : CKKSCiphertext) (F : boost_vector4d)
    (sigma : List Int) (a m o y x' : Nat) (hm : 1 ≤ m)
    (hN : x.slots.length = 2 ^ a * (m * m)) (hF0 : F.shape0 = 2 ^ a) (hF1 : F.shape1 = 2 ^ a)
    (ho : o < 2 ^ a) (hy : y < m) (hx : x' < m) :
    convSlot x F sigma m (o * (m * m) + y * m + x')
      = ∑ c ∈ Finset.range (2 ^ a), ∑ ki ∈ Finset.range F.shape2,
          ∑ kj ∈ Finset.range F.shape2, crossTerm x F sigma m c o y x' ki kj := by
  have hmm : 0 < m * m := Nat.mul_pos hm hm
  have hpow : 0 < 2 ^ a := by positivity
  have hp : y * m + x' < m * m := grid_lt m y x' hy hx
  have hd : x.slots.length / (2 ^ a * (m * m)) = 1 := by
    rw [hN]; exact Nat.div_self (Nat.mul_pos hpow hmm)
  have hi : o * (m * m) + y * m + x' < x.slots.length := by
    rw [hN, Nat.add_assoc]; exact channel_lt _ _ _ _ ho hp
  rw [← sum_range_add_mod (2 ^ a) o ho]
  unfold convSlot
  rw [hF0, hF1]
  apply Finset.sum_congr rfl
  intro r hr
  have hr' : r < 2 ^ a := Finset.mem_range.1 hr
  rw [rotateSlots_map_range, getD_map_range, if_pos hi, hd, Nat.mul_one,
    ← helperSum_channels x F sigma a m r o y x' hm hN hr' ho hy hx]
  congr 1
  have e : ((↑(o * (m * m) + y * m + x') : Int) + (↑(r * m * m) : Int))
      = ((o * (m * m) + (y * m + x') + r * (m * m) : Nat) : Int) := by
    push_cast; ring
  rw [e, ← Int.natCast_mod, Int.toNat_natCast, hN, rotate_channel_index _ _ _ _ _ hpow hp]
/-! ## Lemmas: masks built by assignment and sums of parts -/

theorem foldl_set_length {α : Type} (cells : List Nat) (v : α) (init : List α) :
    (cells.foldl (fun mask cell => mask.set cell v) init).length = init.length := by
  induction cells generalizing init with
  | nil => rfl
  | cons c t ih => rw [List.foldl_cons, ih, List.length_set]

theorem foldl_set_getD {α : Type} (cells : List Nat) (v d : α) (init : List α) (p : Nat)
    (hp : p < init.length) :
    (cells.foldl (fun mask cell => mask.set cell v) init).getD p d
      = if p ∈ cells then v else init.getD p d := by
  induction cells generalizing init with
  | nil => simp
  | cons c t ih =>
    rw [List.foldl_cons, ih _ (by rw [List.length_set]; exact hp)]
    by_cases hpt : p ∈ t
    · rw [if_pos hpt, if_pos (List.mem_cons_of_mem _ hpt)]
    · rw [if_neg hpt]
      by_cases hpc : p = c
      · subst hpc
        rw [if_pos (List.mem_cons_self _ _)]
        simp [List.getD_eq_getElem?_getD, List.getElem?_set, hp]
      · rw [if_neg (by simp [hpc, hpt])]
        simp only [List.getD_eq_getElem?_getD]
        rw [List.getElem?_set_ne (Ne.symm hpc)]

theorem fill_mask_length (N : Nat) (cells : List Nat) (v : ℚ) :
    (fill_mask N cells v).length = N := by
  simp [fill_mask, foldl_set_length]

theorem fill_mask_getD (N : Nat) (cells : List Nat) (v : ℚ) (p : Nat) (hp : p < N) :
    (fill_mask N cells v).getD p 0 = if p ∈ cells then v else 0 := by
  unfold fill_mask
  rw [foldl_set_getD cells v 0 _ p (by simpa using hp)]
  simp [List.getD_eq_getElem?_getD, hp]

theorem fill_mask_eq (N : Nat) (cells : List Nat) (v : ℚ) :
    fill_mask N cells v = (List.range N).map fun p => if p ∈ cells then v else 0 := by
  rw [eq_map_range_getD (fill_mask N cells v) 0, fill_mask_length]
  apply map_range_congr
  intro p hp
  exact fill_mask_getD N cells v p hp

theorem sum_parts_map (N n : Nat) (hn : 1 ≤ n) (H : Nat → CKKSCiphertext)
    (f : Nat → Nat → ℚ) (τ : Nat)
    (hH : ∀ r, r < n → H r = ⟨(List.range N).map (f r), τ⟩) :
    sum_parts ((List.range n).map H)
      = ⟨(List.range N).map fun i => ∑ r ∈ Finset.range n, f r i, τ⟩ := by
  have h := accumulate_parts N n 0 hn ((List.range n).map H) f τ
    (by
      intro r hr
      rw [Nat.zero_add, getD_map_range, if_pos hr, hH r hr])
  simp only [Nat.zero_add] at h
  unfold sum_parts
  simp only [List.length_map, List.length_range]
  exact h

theorem mulAssignVector_rot (s : CKKSCiphertext) (ρ : Int) (f : Nat → ℚ)
    (ht : 2 < s.towers) :
    mulAssignVector (EvalAtIndex s ρ) ((List.range s.slots.length).map f)
      = .ok ⟨(List.range s.slots.length).map fun (j : Nat) =>
          s.slots.getD (((j : Int) + ρ) % (s.slots.length : Int)).toNat 0 * f j,
          s.towers - 1⟩ := by
  rw [mulAssignVector_ok _ _ (by simp [EvalAtIndex_length]) (by simpa [EvalAtIndex] using ht)]
  congr 1
  simp only [EvalMultPlain, EvalAtIndex, rotateSlots, zipWith_map_range]
/-! ## Lemmas: the stages of image-sharded pooling on one shard -/

theorem rotateSlots_eq_rotGet (v : List ℚ) (ρ : Int) :
    rotateSlots v ρ = (List.range v.length).map fun j => rotGet v j ρ := rfl

theorem rotGet_map_range (N : Nat) (f : Nat → ℚ) (j : Nat) (ρ : Int) (hj : j < N) :
    rotGet ((List.range N).map f) j ρ = f (((j : Int) + ρ) % (N : Int)).toNat := by
  unfold rotGet
  simp only [List.length_map, List.length_range]
  rw [getD_map_range, if_pos (emod_toNat_lt _ N (by omega))]

theorem rotIdx_add (N j b : Nat) (h : j + b < N) :
    (((j : Int) + (b : Int)) % (N : Int)).toNat = j + b := by
  rw [Int.emod_eq_of_lt (by omega) (by omega)]
  omega

theorem rotIdx_sub_ge (N j b : Nat) (hb : b ≤ j) (hj : j < N) :
    (((j : Int) + -(b : Int)) % (N : Int)).toNat = j - b := by
  rw [Int.emod_eq_of_lt (by omega) (by omega)]
  omega

theorem rotIdx_sub_lt (N j b : Nat) (hb : j < b) (hN : b ≤ N) :
    (((j : Int) + -(b : Int)) % (N : Int)).toNat = j + N - b := by
  have e : (j : Int) + -(b : Int) = ((j + N - b : Nat) : Int) + (N : Int) * (-1) := by omega
  rw [e, Int.add_mul_emod_self_left, Int.emod_eq_of_lt (by omega) (by omega)]
  omega

theorem pool_pre_convolution_single (x : CKKSCiphertext) (m : Nat)
    (hm : m + 1 ≤ x.slots.length) :
    pool_pre_convolution [x] m
      = .ok [⟨(List.range x.slots.length).map fun j =>
          rotGet x.slots j 0 + rotGet x.slots j 1 + rotGet x.slots j (m : Int)
            + rotGet x.slots j ((m : Int) + 1), x.towers⟩] := by
  have h0 := shiftLeft_ok x 0 (by simp)
  have h1 := shiftLeft_ok x 1 (by simp; omega)
  have h2 := shiftLeft_ok x (m : Int) (by simp; omega)
  have h3 := shiftLeft_ok x ((m : Int) + 1) (by
    rw [abs_of_nonneg (by positivity)]; exact_mod_cast hm)
  unfold pool_pre_convolution
  simp only [List.mapM_cons, List.mapM_nil, h0, h1, h2, h3, bind, Except.bind, pure, Except.pure,
    List.map_cons, List.map_nil]
  congr 2
  simp only [List.range', List.foldl_cons, List.foldl_nil, List.getD_cons_zero,
    List.getD_cons_succ, addAssign, EvalAdd, rotateSlots_eq_rotGet, zipWith_map_range, min_self]

theorem masked_rotation_ok (s : CKKSCiphertext) (ρ : Int) (n i : Nat) (hi : i < n)
    (cells : Nat → List Nat) (v : ℚ) (hρ : |ρ| ≤ (s.slots.length : Int)) (ht : 2 < s.towers) :
    (do
      let rotated ← shiftLeft s ρ
      mulAssignVector rotated
        (((List.range n).map fun i => fill_mask s.slots.length (cells i) v).getD i []))
      = .ok ⟨(List.range s.slots.length).map fun j =>
          rotGet s.slots j ρ * (if j ∈ cells i then v else 0), s.towers - 1⟩ := by
  rw [shiftLeft_eq_EvalAtIndex s ρ hρ, getD_map_range, if_pos hi, fill_mask_eq]
  simp only [bind, Except.bind]
  exact mulAssignVector_rot s ρ _ ht

theorem pool_horizontal_reduce_single (s : CKKSCiphertext)
    (num_rows num_cols nphys : Nat) (fill_value : ℚ) (hh : 1 ≤ num_cols / 2)
    (hN : num_cols / 2 ≤ s.slots.length) (ht : 2 < s.towers) :
    pool_horizontal_reduce [s] num_rows num_cols nphys fill_value
      = .ok [⟨(List.range s.slots.length).map fun p =>
          ∑ i ∈ Finset.range (num_cols / 2),
            rotGet s.slots p (i : Int)
              * (if p ∈ ((List.range num_rows).flatMap fun j =>
                    (List.range nphys).map fun k => i + j * num_cols + k * (num_rows * num_cols))
                 then fill_value else 0),
          s.towers - 1⟩] := by
  unfold pool_horizontal_reduce
  simp only [List.getD_cons_zero, CKKSCiphertext.getBatchSize, List.mapM_cons, List.mapM_nil]
  rw [mapM_ok _ (fun (i : Nat) => (⟨(List.range s.slots.length).map fun j =>
      rotGet s.slots j (i : Int)
        * (if j ∈ ((List.range num_rows).flatMap fun j =>
              (List.range nphys).map fun k => i + j * num_cols + k * (num_rows * num_cols))
           then fill_value else 0), s.towers - 1⟩ : CKKSCiphertext))]
  · simp only [bind, Except.bind, pure, Except.pure, List.map_cons, List.map_nil]
    congr 2
    exact sum_parts_map s.slots.length (num_cols / 2) hh _ _ (s.towers - 1) (fun r _ => rfl)
  · intro i hi
    have hi' : i < num_cols / 2 := List.mem_range.1 hi
    exact masked_rotation_ok s (i : Int) (num_cols / 2) i hi' _ fill_value
      (by simp; omega) ht

theorem pool_vertical_reduce_image_sharded_single (s : CKKSCiphertext)
    (num_rows num_cols nphys : Nat) (fill_value : ℚ) (hh : 1 ≤ num_rows / 2)
    (hN : (num_rows / 2) * (num_rows / 2) * 3 ≤ s.slots.length) (ht : 2 < s.towers) :
    pool_vertical_reduce_image_sharded [s] num_rows num_cols nphys fill_value
      = .ok [⟨(List.range s.slots.length).map fun p =>
          ∑ i ∈ Finset.range (num_rows / 2),
            rotGet s.slots p (↑(i * (num_rows / 2) * 3) : Int)
              * (if p ∈ ((List.range num_cols).flatMap fun j =>
                    (List.range nphys).map fun k =>
                      i * (num_rows / 2) + j + k * (num_rows * num_cols))
                 then fill_value else 0),
          s.towers - 1⟩] := by
  unfold pool_vertical_reduce_image_sharded
  simp only [List.getD_cons_zero, CKKSCiphertext.getBatchSize, List.mapM_cons, List.mapM_nil]
  rw [mapM_ok _ (fun (i : Nat) => (⟨(List.range s.slots.length).map fun j =>
      rotGet s.slots j (↑(i * (num_rows / 2) * 3) : Int)
        * (if j ∈ ((List.range num_cols).flatMap fun j =>
              (List.range nphys).map fun k =>
                i * (num_rows / 2) + j + k * (num_rows * num_cols))
           then fill_value else 0), s.towers - 1⟩ : CKKSCiphertext))]
  · simp only [bind, Except.bind, pure, Except.pure, List.map_cons, List.map_nil]
    congr 2
    exact sum_parts_map s.slots.length (num_rows / 2) hh _ _ (s.towers - 1) (fun r _ => rfl)
  · intro i hi
    have hi' : i < num_rows / 2 := List.mem_range.1 hi
    exact masked_rotation_ok s (↑(i * (num_rows / 2) * 3) : Int) (num_rows / 2) i hi' _ fill_value
      (by
        rw [abs_of_nonneg (by positivity)]
        have : i * (num_rows / 2) * 3 ≤ (num_rows / 2) * (num_rows / 2) * 3 :=
          Nat.mul_le_mul_right _ (Nat.mul_le_mul_right _ (by omega))
        exact_mod_cast le_trans this hN) ht

theorem pool_consolidate_single (z : CKKSCiphertext) (num_rows num_cols : Nat)
    (hN : 2 * ((num_rows / 2) * (num_cols / 2)) ≤ z.slots.length) :
    pool_consolidate_and_duplicate_image_sharded [z] num_rows num_cols
      = .ok [⟨(List.range z.slots.length).map fun p =>
          (z.slots.getD p 0 + rotGet z.slots p (-(↑((num_rows / 2) * (num_cols / 2)) : Int)))
            + rotGet ((List.range z.slots.length).map fun q =>
                z.slots.getD q 0
                  + rotGet z.slots q (-(↑((num_rows / 2) * (num_cols / 2)) : Int))) p
                (-(↑(2 * ((num_rows / 2) * (num_cols / 2))) : Int)),
          z.towers⟩] := by
  have hz : z.slots = (List.range z.slots.length).map fun q => z.slots.getD q 0 :=
    eq_map_range_getD z.slots 0
  have h1 := shiftRight_ok z (↑((num_rows / 2) * (num_cols / 2)) : Int)
    (by rw [abs_of_nonneg (by positivity)]; exact_mod_cast (by omega :
      (num_rows / 2) * (num_cols / 2) ≤ z.slots.length))
  have hsum : (addAssign z ⟨rotateSlots z.slots (-(↑((num_rows / 2) * (num_cols / 2)) : Int)),
      z.towers⟩) = ⟨(List.range z.slots.length).map fun q =>
        z.slots.getD q 0 + rotGet z.slots q (-(↑((num_rows / 2) * (num_cols / 2)) : Int)),
        z.towers⟩ := by
    simp only [addAssign, EvalAdd, min_self]
    congr 1
    conv_lhs => rw [hz, rotateSlots_eq_rotGet, List.length_map, List.length_range,
      zipWith_map_range]
    rw [← hz]
  unfold pool_consolidate_and_duplicate_image_sharded
  simp only [List.length_singleton, if_true, List.getD_cons_zero]
  rw [if_neg (by decide : ¬ (4 : Nat) = 1), if_neg (by decide : ¬ (4 : Nat) = 2)]
  simp only [h1, bind, Except.bind, hsum]
  rw [shiftRight_ok _ _ (by
    simp only [List.length_map, List.length_range]
    rw [abs_of_nonneg (by positivity)]; exact_mod_cast hN)]
  simp only [pure, Except.pure, List.replicate, List.set_cons_zero, addAssign, EvalAdd, min_self,
    rotateSlots_eq_rotGet, List.length_map, List.length_range, zipWith_map_range]

theorem poolSummed_length (X : List ℚ) (m : Nat) : (poolSummed X m).length = X.length := by
  simp [poolSummed]

theorem poolHorizontal_length (X : List ℚ) (m : Nat) :
    (poolHorizontal X m).length = X.length := by
  simp [poolHorizontal]

theorem poolVertical_length (X : List ℚ) (m : Nat) : (poolVertical X m).length = X.length := by
  simp [poolVertical]

/-- `pool` with averaging on one shard holding one `m x m` channel, `m` even, with at least
four towers: the four stages succeed in turn. -/
theorem pool_single (x : CKKSCiphertext) (m : Nat) (hm : 2 ≤ m) (heven : m % 2 = 0)
    (hN : x.slots.length = m * m) (ht : 4 ≤ x.towers) :
    pool [x] m true = .ok [⟨poolDuplicated x.slots m, x.towers - 2⟩] := by
  obtain ⟨h, rfl⟩ : ∃ h, m = 2 * h := ⟨m / 2, by omega⟩
  have hh : 1 ≤ h := by omega
  have hhalf : 2 * h / 2 = h := by omega
  have hN' : x.slots.length = 4 * (h * h) := by rw [hN]; ring
  have hhh : h ≤ h * h := Nat.le_mul_of_pos_left h hh
  have hP := pool_pre_convolution_single x (2 * h) (by omega)
  have hH := pool_horizontal_reduce_single
    ⟨poolSummed x.slots (2 * h), x.towers⟩ (2 * h) (2 * h) 1 (1 / 4)
    (by omega) (by simp only [poolSummed_length]; omega) (by simp only; omega)
  have hV := pool_vertical_reduce_image_sharded_single
    ⟨poolHorizontal x.slots (2 * h), x.towers - 1⟩ (2 * h) (2 * h) 1 1
    (by omega) (by simp only [poolHorizontal_length, hhalf]; omega) (by simp only; omega)
  have hC := pool_consolidate_single
    ⟨poolVertical x.slots (2 * h), x.towers - 1 - 1⟩ (2 * h) (2 * h)
    (by simp only [poolVertical_length, hhalf]; omega)
  unfold pool
  simp only [List.getD_cons_zero, CKKSCiphertext.getBatchSize, ge_iff_le, hN, le_refl, if_true]
  unfold pool_image_sharded
  simp only [List.getD_cons_zero, CKKSCiphertext.getBatchSize, hN, if_true,
    Nat.div_self (Nat.mul_pos (by omega : 0 < 2 * h) (by omega : 0 < 2 * h))]
  rw [hP]
  simp only [bind, Except.bind]
  have e1 : (⟨(List.range x.slots.length).map fun j =>
      rotGet x.slots j 0 + rotGet x.slots j 1 + rotGet x.slots j ((2 * h : Nat) : Int)
        + rotGet x.slots j (((2 * h : Nat) : Int) + 1), x.towers⟩ : CKKSCiphertext)
      = ⟨poolSummed x.slots (2 * h), x.towers⟩ := rfl
  rw [e1, hH]
  simp only [poolSummed_length]
  have e2 : (⟨(List.range x.slots.length).map fun p =>
      ∑ i ∈ Finset.range (2 * h / 2),
        rotGet (poolSummed x.slots (2 * h)) p (i : Int)
          * (if p ∈ ((List.range (2 * h)).flatMap fun j =>
                (List.range 1).map fun k => i + j * (2 * h) + k * (2 * h * (2 * h)))
             then (1 / 4 : ℚ) else 0), x.towers - 1⟩ : CKKSCiphertext)
      = ⟨poolHorizontal x.slots (2 * h), x.towers - 1⟩ := rfl
  rw [e2, hV]
  simp only [poolHorizontal_length]
  have e3 : (⟨(List.range x.slots.length).map fun p =>
      ∑ i ∈ Finset.range (2 * h / 2),
        rotGet (poolHorizontal x.slots (2 * h)) p (↑(i * (2 * h / 2) * 3) : Int)
          * (if p ∈ ((List.range (2 * h)).flatMap fun j =>
                (List.range 1).map fun k => i * (2 * h / 2) + j + k * (2 * h * (2 * h)))
             then (1 : ℚ) else 0), x.towers - 1 - 1⟩ : CKKSCiphertext)
      = ⟨poolVertical x.slots (2 * h), x.towers - 1 - 1⟩ := rfl
  rw [e3, hC]
  simp only [poolVertical_length]
  rfl
/-! ## Lemmas: closed form of the pooled slots -/

theorem rotGet_add (v : List ℚ) (j b : Nat) (h : j + b < v.length) :
    rotGet v j (b : Int) = v.getD (j + b) 0 := by
  unfold rotGet
  rw [rotIdx_add v.length j b h]

theorem rotGet_sub_ge (v : List ℚ) (j b : Nat) (hb : b ≤ j) (hj : j < v.length) :
    rotGet v j (-(b : Int)) = v.getD (j - b) 0 := by
  unfold rotGet
  rw [rotIdx_sub_ge v.length j b hb hj]

theorem rotGet_sub_lt (v : List ℚ) (j b : Nat) (hb : j < b) (hN : b ≤ v.length) :
    rotGet v j (-(b : Int)) = v.getD (j + v.length - b) 0 := by
  unfold rotGet
  rw [rotIdx_sub_lt v.length j b hb hN]

theorem poolSummed_getD (X : List ℚ) (m p : Nat) (hp : p + m + 1 < X.length) :
    (poolSummed X m).getD p 0
      = X.getD p 0 + X.getD (p + 1) 0 + X.getD (p + m) 0 + X.getD (p + m + 1) 0 := by
  unfold poolSummed
  rw [getD_map_range, if_pos (by omega)]
  have h0 := rotGet_add X p 0 (by omega)
  have h1 := rotGet_add X p 1 (by omega)
  have h2 := rotGet_add X p m (by omega)
  have h3 := rotGet_add X p (m + 1) (by omega)
  simp only [Nat.cast_zero, Nat.cast_one, Nat.cast_add, Nat.add_zero] at h0 h1 h2 h3
  rw [h0, h1, h2, h3]
  rfl

theorem mem_cells_horizontal (m i p : Nat) :
    p ∈ ((List.range m).flatMap fun j => (List.range 1).map fun k => i + j * m + k * (m * m))
      ↔ ∃ j, j < m ∧ p = i + j * m := by
  simp only [List.mem_flatMap, List.mem_map, List.mem_range, Nat.lt_one_iff]
  constructor
  · rintro ⟨j, hj, k, hk, rfl⟩
    subst hk
    exact ⟨j, hj, by simp⟩
  · rintro ⟨j, hj, rfl⟩
    exact ⟨j, hj, 0, rfl, by simp⟩

theorem mem_cells_vertical (m h i p : Nat) :
    p ∈ ((List.range m).flatMap fun j => (List.range 1).map fun k => i * h + j + k * (m * m))
      ↔ ∃ j, j < m ∧ p = i * h + j := by
  simp only [List.mem_flatMap, List.mem_map, List.mem_range, Nat.lt_one_iff]
  constructor
  · rintro ⟨j, hj, k, hk, rfl⟩
    subst hk
    exact ⟨j, hj, by simp⟩
  · rintro ⟨j, hj, rfl⟩
    exact ⟨j, hj, 0, rfl, by simp⟩

theorem poolHorizontal_getD (X : List ℚ) (h p : Nat) (hh : 1 ≤ h)
    (hX : X.length = 2 * h * (2 * h)) (hp : p < X.length) :
    (poolHorizontal X (2 * h)).getD p 0
      = if p % (2 * h) < h then
          (1 / 4 : ℚ) * (poolSummed X (2 * h)).getD (p + p % (2 * h)) 0
        else 0 := by
  have hhalf : 2 * h / 2 = h := by omega
  have hdm := Nat.div_add_mod p (2 * h)
  have hrow : p / (2 * h) < 2 * h := by
    rw [Nat.div_lt_iff_lt_mul (by omega), ← hX]; exact hp
  have hmod : p % (2 * h) < 2 * h := Nat.mod_lt _ (by omega)
  have hmem : ∀ i, i < h →
      (p ∈ ((List.range (2 * h)).flatMap fun j =>
          (List.range 1).map fun k => i + j * (2 * h) + k * (2 * h * (2 * h)))
        ↔ i = p % (2 * h)) := by
    intro i hi
    rw [mem_cells_horizontal]
    constructor
    · rintro ⟨j, _, rfl⟩
      rw [Nat.add_mul_mod_self_right, Nat.mod_eq_of_lt (by omega)]
    · intro hi'
      exact ⟨p / (2 * h), hrow, by rw [hi']; exact (Nat.mod_add_div' p (2 * h)).symm⟩
  unfold poolHorizontal
  rw [getD_map_range, if_pos hp, hhalf]
  by_cases hlt : p % (2 * h) < h
  · rw [if_pos hlt, Finset.sum_eq_single (p % (2 * h))]
    · rw [if_pos ((hmem _ hlt).2 rfl), rotGet_add _ _ _ (by
        rw [poolSummed_length, hX]
        have : (p / (2 * h) + 1) * (2 * h) ≤ 2 * h * (2 * h) :=
          Nat.mul_le_mul_right _ (by omega)
        have e : (p / (2 * h) + 1) * (2 * h) = 2 * h * (p / (2 * h)) + 2 * h := by ring
        omega)]
      ring
    · intro i hi hne
      rw [if_neg (fun hmm => hne ((hmem i (Finset.mem_range.1 hi)).1 hmm))]
      ring
    · intro hni; exact absurd (Finset.mem_range.2 hlt) hni
  · rw [if_neg hlt]
    apply Finset.sum_eq_zero
    intro i hi
    have hi' : i < h := Finset.mem_range.1 hi
    rw [if_neg (fun hmm => by have := (hmem i hi').1 hmm; omega)]
    ring

theorem poolVertical_getD (X : List ℚ) (h p : Nat) (hh : 1 ≤ h)
    (hX : X.length = 2 * h * (2 * h)) (hp : p < X.length) :
    (poolVertical X (2 * h)).getD p 0
      = if p < h * h then
          (1 / 4 : ℚ) * (poolSummed X (2 * h)).getD (2 * (p / h) * (2 * h) + 2 * (p % h)) 0
        else 0 := by
  have hhalf : 2 * h / 2 = h := by omega
  have hN : X.length = 4 * (h * h) := by rw [hX]; ring
  have hterm : ∀ i, i < h →
      rotGet (poolHorizontal X (2 * h)) p (↑(i * h * 3) : Int)
        * (if p ∈ ((List.range (2 * h)).flatMap fun j =>
              (List.range 1).map fun k => i * h + j + k * (2 * h * (2 * h)))
           then (1 : ℚ) else 0)
      = if i = p / h then
          (1 / 4 : ℚ) * (poolSummed X (2 * h)).getD (2 * (p / h) * (2 * h) + 2 * (p % h)) 0
        else 0 := by
    intro i hi
    have hih : i * h + h ≤ h * h := by
      have : (i + 1) * h ≤ h * h := Nat.mul_le_mul_right _ (by omega)
      have e : (i + 1) * h = i * h + h := by ring
      omega
    by_cases hmem : p ∈ ((List.range (2 * h)).flatMap fun j =>
        (List.range 1).map fun k => i * h + j + k * (2 * h * (2 * h)))
    · rw [if_pos hmem, mul_one]
      obtain ⟨j, hj, rfl⟩ := (mem_cells_vertical (2 * h) h i p).1 hmem
      have hq : i * h + j + i * h * 3 = 2 * i * (2 * h) + j := by ring
      have hqN : 2 * i * (2 * h) + j < X.length := by
        have e : 2 * i * (2 * h) = 4 * (i * h) := by ring
        omega
      rw [rotGet_add _ _ _ (by rw [poolHorizontal_length, hq]; exact hqN), hq,
        poolHorizontal_getD X h _ hh hX hqN]
      have hqm : (2 * i * (2 * h) + j) % (2 * h) = j := by
        rw [Nat.add_comm, Nat.add_mul_mod_self_right, Nat.mod_eq_of_lt hj]
      rw [hqm]
      by_cases hjh : j < h
      · have hd : (i * h + j) / h = i := by
          rw [Nat.add_comm, Nat.add_mul_div_right _ _ (by omega), Nat.div_eq_of_lt hjh,
            Nat.zero_add]
        have hmo : (i * h + j) % h = j := by
          rw [Nat.add_comm, Nat.add_mul_mod_self_right, Nat.mod_eq_of_lt hjh]
        rw [if_pos hjh, hd, hmo, if_pos rfl]
        congr 2
        ring
      · have hd : (i * h + j) / h = i + 1 := by
          have e : i * h + j = (j - h) + (i + 1) * h := by
            have : (i + 1) * h = i * h + h := by ring
            omega
          rw [e, Nat.add_mul_div_right _ _ (by omega), Nat.div_eq_of_lt (by omega)]
          omega
        rw [if_neg hjh, hd, if_neg (by omega)]
    · rw [if_neg hmem, mul_zero]
      have hne : i ≠ p / h := by
        intro he
        apply hmem
        rw [mem_cells_vertical]
        refine ⟨p % h, ?_, ?_⟩
        · have := Nat.mod_lt p (show h > 0 by omega)
          omega
        · rw [he]
          have := Nat.div_add_mod' p h
          omega
      rw [if_neg hne]
  unfold poolVertical
  rw [getD_map_range, if_pos hp, hhalf]
  rw [Finset.sum_congr rfl (fun i hi => hterm i (Finset.mem_range.1 hi)), Finset.sum_ite_eq']
  have hiff : p / h ∈ Finset.range h ↔ p < h * h := by
    rw [Finset.mem_range, Nat.div_lt_iff_lt_mul (by omega)]
  by_cases hlt : p < h * h
  · rw [if_pos (hiff.2 hlt), if_pos hlt]
  · rw [if_neg (fun hc => hlt (hiff.1 hc)), if_neg hlt]

theorem poolDuplicated_getD (X : List ℚ) (h t q : Nat) (hh : 1 ≤ h)
    (hX : X.length = 2 * h * (2 * h)) (ht : t < 4) (hq : q < h * h) :
    (poolDuplicated X (2 * h)).getD (t * (h * h) + q) 0
      = (1 / 4 : ℚ) * (poolSummed X (2 * h)).getD (2 * (q / h) * (2 * h) + 2 * (q % h)) 0 := by
  have hhalf : 2 * h / 2 = h := by omega
  have hN : X.length = 4 * (h * h) := by rw [hX]; ring
  generalize hr : h * h = r at hq hN
  have hV : ∀ p, p < X.length → (poolVertical X (2 * h)).getD p 0
      = if p < r then
          (1 / 4 : ℚ) * (poolSummed X (2 * h)).getD (2 * (p / h) * (2 * h) + 2 * (p % h)) 0
        else 0 := by
    intro p hp
    rw [poolVertical_getD X h p hh hX hp, hr]
  have hVl : (poolVertical X (2 * h)).length = X.length := poolVertical_length X (2 * h)
  have hW : ∀ p, p < X.length →
      (poolVertical X (2 * h)).getD p 0
          + rotGet (poolVertical X (2 * h)) p (-(r : Int))
        = if p < r then (poolVertical X (2 * h)).getD p 0
          else if p < 2 * r then (poolVertical X (2 * h)).getD (p - r) 0 else 0 := by
    intro p hp
    by_cases h1 : p < r
    · rw [if_pos h1, rotGet_sub_lt _ _ _ h1 (by omega), hVl, hV (p + X.length - r) (by omega),
        if_neg (by omega), add_zero]
    · rw [if_neg h1, rotGet_sub_ge _ _ _ (by omega) (by omega), hV p hp, if_neg h1, zero_add]
      by_cases h2 : p < 2 * r
      · rw [if_pos h2]
      · rw [if_neg h2, hV (p - r) (by omega), if_neg (by omega)]
  have hqh : ∀ s, (s * r + q) / h = s * h + q / h ∧ (s * r + q) % h = q % h := by
    intro s
    have e : s * r + q = q + (s * h) * h := by rw [← hr]; ring
    rw [e, Nat.add_mul_div_right _ _ (by omega), Nat.add_mul_mod_self_right]
    omega
  have htr : t * r + q < X.length := by
    have : t * r ≤ 3 * r := Nat.mul_le_mul_right _ (by omega)
    omega
  unfold poolDuplicated
  rw [getD_map_range, if_pos htr, hhalf, hr]
  set W : List ℚ := (List.range X.length).map fun q =>
    (poolVertical X (2 * h)).getD q 0 + rotGet (poolVertical X (2 * h)) q (-(r : Int)) with hWdef
  have hWl : W.length = X.length := by simp [hWdef]
  have hWg : ∀ p, p < X.length → W.getD p 0
      = if p < r then (poolVertical X (2 * h)).getD p 0
        else if p < 2 * r then (poolVertical X (2 * h)).getD (p - r) 0 else 0 := by
    intro p hp
    rw [hWdef, getD_map_range, if_pos hp, hW p hp]
  have hA : (poolVertical X (2 * h)).getD q 0
      = (1 / 4 : ℚ) * (poolSummed X (2 * h)).getD (2 * (q / h) * (2 * h) + 2 * (q % h)) 0 := by
    rw [hV q (by omega), if_pos hq]
  rw [hW _ htr]
  have hcases : t = 0 ∨ t = 1 ∨ t = 2 ∨ t = 3 := by omega
  rcases hcases with rfl | rfl | rfl | rfl
  · have e : 0 * r + q = q := by omega
    rw [e, if_pos hq, rotGet_sub_lt _ _ _ (by omega) (by omega), hWl,
      hWg (q + X.length - 2 * r) (by omega), if_neg (by omega), if_neg (by omega), add_zero, hA]
  · have e : 1 * r + q - r = q := by omega
    rw [if_neg (by omega), if_pos (by omega), e,
      rotGet_sub_lt _ _ _ (by omega) (by omega), hWl,
      hWg (1 * r + q + X.length - 2 * r) (by omega), if_neg (by omega), if_neg (by omega),
      add_zero, hA]
  · have e : 2 * r + q - 2 * r = q := by omega
    rw [if_neg (by omega), if_neg (by omega), rotGet_sub_ge _ _ _ (by omega) (by omega), e,
      hWg q (by omega), if_pos hq, zero_add, hA]
  · have e : 3 * r + q - 2 * r = r + q := by omega
    have e2 : r + q - r = q := by omega
    rw [if_neg (by omega), if_neg (by omega), rotGet_sub_ge _ _ _ (by omega) (by omega), e,
      hWg (r + q) (by omega), if_neg (by omega), if_pos (by omega), e2, zero_add, hA]

/-- Slot `t * (m/2)^2 + i * (m/2) + c` of the pooled shard is the mean of the 2x2 block of the
input at rows `2i, 2i+1` and columns `2c, 2c+1`. -/
theorem poolDuplicated_block (X : List ℚ) (m t i c : Nat) (hm : 2 ≤ m) (heven : m % 2 = 0)
    (hX : X.length = m * m) (ht : t < 4) (hi : i < m / 2) (hc : c < m / 2) :
    (poolDuplicated X m).getD (t * ((m / 2) * (m / 2)) + i * (m / 2) + c) 0
      = (X.getD (2 * i * m + 2 * c) 0 + X.getD (2 * i * m + (2 * c + 1)) 0
          + X.getD ((2 * i + 1) * m + 2 * c) 0
          + X.getD ((2 * i + 1) * m + (2 * c + 1)) 0) / 4 := by
  obtain ⟨h, rfl⟩ : ∃ h, m = 2 * h := ⟨m / 2, by omega⟩
  have hh : 1 ≤ h := by omega
  have hhalf : 2 * h / 2 = h := by omega
  rw [hhalf] at hi hc ⊢
  have hih : i * h + h ≤ h * h := by
    have : (i + 1) * h ≤ h * h := Nat.mul_le_mul_right _ (by omega)
    have e : (i + 1) * h = i * h + h := by ring
    omega
  have hd : (i * h + c) / h = i := by
    rw [Nat.add_comm, Nat.add_mul_div_right _ _ (by omega), Nat.div_eq_of_lt hc, Nat.zero_add]
  have hmo : (i * h + c) % h = c := by
    rw [Nat.add_comm, Nat.add_mul_mod_self_right, Nat.mod_eq_of_lt hc]
  rw [Nat.add_assoc, poolDuplicated_getD X h t (i * h + c) hh hX ht (by omega), hd, hmo]
  have hb : 2 * i * (2 * h) + 2 * c + 2 * h + 1 < X.length := by
    have e1 : X.length = 4 * (h * h) := by rw [hX]; ring
    have e2 : 2 * i * (2 * h) = 4 * (i * h) := by ring
    omega
  rw [poolSummed_getD X (2 * h) _ hb]
  have e3 : 2 * i * (2 * h) + 2 * c + 1 = 2 * i * (2 * h) + (2 * c + 1) := by ring
  have e4 : 2 * i * (2 * h) + 2 * c + 2 * h = (2 * i + 1) * (2 * h) + 2 * c := by ring
  have e5 : 2 * i * (2 * h) + 2 * c + 2 * h + 1 = (2 * i + 1) * (2 * h) + (2 * c + 1) := by ring
  rw [e5, e4, e3]
  ring

/-! ### Pooling a shard that has no multiplicative depth left -/

theorem mapM_error_head {α β : Type} (f : α → Except Error β) (a : α) (l : List α) (e : Error)
    (h : f a = .error e) : (a :: l).mapM f = .error e := by
  rw [List.mapM_cons, h]
  rfl

theorem pool_horizontal_reduce_error (s : CKKSCiphertext)
    (num_rows num_cols nphys : Nat) (fill_value : ℚ) (hh : 1 ≤ num_cols / 2)
    (ht : s.towers ≤ 2) :
    pool_horizontal_reduce [s] num_rows num_cols nphys fill_value
      = .error .insufficientTowers := by
  obtain ⟨n, hn⟩ : ∃ n, num_cols / 2 = n + 1 := ⟨num_cols / 2 - 1, by omega⟩
  unfold pool_horizontal_reduce
  simp only [List.getD_cons_zero, CKKSCiphertext.getBatchSize, hn, List.range_succ_eq_map]
  rw [mapM_error_head _ _ _ .insufficientTowers]
  · rfl
  · rw [mapM_error_head _ _ _ .insufficientTowers]
    rw [shiftLeft_ok s _ (by simp)]
    simp only [bind, Except.bind]
    apply mulAssignVector_error
    · simp [fill_mask_length, rotateSlots_length]
    · exact ht

/-- With at most two towers left the first masked multiplication of `pool` throws. -/
theorem pool_insufficient_towers (x : CKKSCiphertext) (m : Nat) (hm : 2 ≤ m)
    (hN : x.slots.length = m * m) (ht : x.towers ≤ 2) :
    pool [x] m true = .error .insufficientTowers := by
  have hmm : m + 1 ≤ m * m := by nlinarith
  have hP := pool_pre_convolution_single x m (by omega)
  have hH := pool_horizontal_reduce_error
    ⟨poolSummed x.slots m, x.towers⟩ m m 1 (1 / 4) (by omega) ht
  unfold pool
  simp only [List.getD_cons_zero, CKKSCiphertext.getBatchSize, ge_iff_le, hN, le_refl, if_true]
  unfold pool_image_sharded
  simp only [List.getD_cons_zero, CKKSCiphertext.getBatchSize, hN, if_true,
    Nat.div_self (Nat.mul_pos (by omega : 0 < m) (by omega : 0 < m))]
  rw [hP]
  simp only [bind, Except.bind]
  have e1 : (⟨(List.range x.slots.length).map fun j =>
      rotGet x.slots j 0 + rotGet x.slots j 1 + rotGet x.slots j ((m : Nat) : Int)
        + rotGet x.slots j (((m : Nat) : Int) + 1), x.towers⟩ : CKKSCiphertext)
      = ⟨poolSummed x.slots m, x.towers⟩ := rfl
  rw [e1, hH]

theorem pool_vertical_reduce_image_sharded_error (s : CKKSCiphertext)
    (num_rows num_cols nphys : Nat) (fill_value : ℚ) (hh : 1 ≤ num_rows / 2)
    (ht : s.towers ≤ 2) :
    pool_vertical_reduce_image_sharded [s] num_rows num_cols nphys fill_value
      = .error .insufficientTowers := by
  obtain ⟨n, hn⟩ : ∃ n, num_rows / 2 = n + 1 := ⟨num_rows / 2 - 1, by omega⟩
  unfold pool_vertical_reduce_image_sharded
  simp only [List.getD_cons_zero, CKKSCiphertext.getBatchSize, hn, List.range_succ_eq_map]
  rw [mapM_error_head _ _ _ .insufficientTowers]
  · rfl
  · rw [mapM_error_head _ _ _ .insufficientTowers]
    rw [shiftLeft_ok s _ (by simp)]
    simp only [bind, Except.bind]
    apply mulAssignVector_error
    · simp [fill_mask_length, rotateSlots_length]
    · exact ht

/-- With at most three towers left `pool` throws: the horizontal and the vertical reduction
each multiply by a mask. -/
theorem pool_needs_four_towers (x : CKKSCiphertext) (m : Nat) (hm : 2 ≤ m)
    (hN : x.slots.length = m * m) (ht : x.towers ≤ 3) :
    pool [x] m true = .error .insufficientTowers := by
  by_cases h2 : x.towers ≤ 2
  · exact pool_insufficient_towers x m hm hN h2
  have hmm : m + 1 ≤ m * m := by nlinarith
  have hP := pool_pre_convolution_single x m (by omega)
  have hH := pool_horizontal_reduce_single
    ⟨poolSummed x.slots m, x.towers⟩ m m 1 (1 / 4)
    (by omega) (by simp only [poolSummed_length]; omega) (by simp only; omega)
  have hV := pool_vertical_reduce_image_sharded_error
    ⟨poolHorizontal x.slots m, x.towers - 1⟩ m m 1 1 (by omega) (by simp only; omega)
  unfold pool
  simp only [List.getD_cons_zero, CKKSCiphertext.getBatchSize, ge_iff_le, hN, le_refl, if_true]
  unfold pool_image_sharded
  simp only [List.getD_cons_zero, CKKSCiphertext.getBatchSize, hN, if_true,
    Nat.div_self (Nat.mul_pos (by omega : 0 < m) (by omega : 0 < m))]
  rw [hP]
  simp only [bind, Except.bind]
  have e1 : (⟨(List.range x.slots.length).map fun j =>
      rotGet x.slots j 0 + rotGet x.slots j 1 + rotGet x.slots j ((m : Nat) : Int)
        + rotGet x.slots j (((m : Nat) : Int) + 1), x.towers⟩ : CKKSCiphertext)
      = ⟨poolSummed x.slots m, x.towers⟩ := rfl
  rw [e1, hH]
  simp only [poolSummed_length]
  have e2 : (⟨(List.range x.slots.length).map fun p =>
      ∑ i ∈ Finset.range (m / 2),
        rotGet (poolSummed x.slots m) p (i : Int)
          * (if p ∈ ((List.range m).flatMap fun j =>
                (List.range 1).map fun k => i + j * m + k * (m * m))
             then (1 / 4 : ℚ) else 0), x.towers - 1⟩ : CKKSCiphertext)
      = ⟨poolHorizontal x.slots m, x.towers - 1⟩ := rfl
  rw [e2, hV]

/-! ## Lemmas: upsampling a pooled 4x4 image (sixteen slots) -/

theorem range_sixteen :
    List.range 16 = [0, 1, 2, 3, 4, 5, 6, 7, 8, 9, 10, 11, 12, 13, 14, 15] := by decide

/-- Vertical expansion of four copies of a 2x2 image: the two rows move to slots `0, 1` and
`8, 9`. -/
theorem upsample_vertical_expand_sixteen (a b c d : ℚ) (τ : Nat) (ht : 2 < τ) :
    upsample_vertical_expand [⟨[a, b, c, d, a, b, c, d, a, b, c, d, a, b, c, d], τ⟩] 2 2 4 4 1
      = .ok [⟨[a, b, 0, 0, 0, 0, 0, 0, c, d, 0, 0, 0, 0, 0, 0], τ - 1⟩] := by
  have r1 : List.range 1 = [0] := rfl
  have r2 : List.range 2 = [0, 1] := rfl
  have h0 := shiftLeft_ok ⟨[a, b, c, d, a, b, c, d, a, b, c, d, a, b, c, d], τ⟩ 0 (by simp)
  have h6 := shiftLeft_ok ⟨[a, b, c, d, a, b, c, d, a, b, c, d, a, b, c, d], τ⟩ (-6) (by simp)
  have ht' : ¬ τ ≤ 2 := by omega
  unfold upsample_vertical_expand
  simp only [CKKSCiphertext.getBatchSize, List.getD_cons_zero, List.length_cons,
    List.length_nil, Nat.reduceMul, gt_iff_lt, Nat.lt_irrefl, reduceIte, Nat.reduceLT,
    Nat.reduceDiv, r1, r2, List.mapM_cons, List.mapM_nil, every_fourth, Nat.reduceAdd,
    List.map_cons, List.map_nil, Nat.cast_ofNat, Nat.cast_zero, Nat.cast_one, zero_mul,
    mul_zero, mul_one, shiftRight, neg_zero, h0, h6, bind, Except.bind, pure, Except.pure,
    List.flatten, rotateSlots_zero, List.append_nil, mulAssignVector,
    CKKSCiphertext.getTowersRemaining, fill_mask_length, rotateSlots_length, ne_eq,
    not_true_eq_false, ht', List.getD_cons_succ]
  simp [sum_parts, addAssign, EvalAdd, EvalMultPlain, fill_mask, rotateSlots, range_sixteen,
    List.replicate]

/-- Horizontal expansion: the entries of each row move to every second column. -/
theorem upsample_horizontal_expand_sixteen (a b c d : ℚ) (τ : Nat) (ht : 2 < τ) :
    upsample_horizontal_expand [⟨[a, b, 0, 0, 0, 0, 0, 0, c, d, 0, 0, 0, 0, 0, 0], τ⟩] 2 2 1
      = .ok [⟨[a, 0, b, 0, 0, 0, 0, 0, c, 0, d, 0, 0, 0, 0, 0], τ - 1⟩] := by
  have r1 : List.range 1 = [0] := rfl
  have r2 : List.range 2 = [0, 1] := rfl
  have h0 := shiftLeft_ok ⟨[a, b, 0, 0, 0, 0, 0, 0, c, d, 0, 0, 0, 0, 0, 0], τ⟩ 0 (by simp)
  have h1 := shiftLeft_ok ⟨[a, b, 0, 0, 0, 0, 0, 0, c, d, 0, 0, 0, 0, 0, 0], τ⟩ (-1) (by simp)
  have ht' : ¬ τ ≤ 2 := by omega
  unfold upsample_horizontal_expand
  simp only [CKKSCiphertext.getBatchSize, List.getD_cons_zero, List.length_cons,
    List.length_nil, Nat.reduceMul, gt_iff_lt, Nat.lt_irrefl, reduceIte, Nat.reduceLT,
    Nat.reduceDiv, r1, r2, List.mapM_cons, List.mapM_nil, every_fourth, Nat.reduceAdd,
    List.map_cons, List.map_nil, Nat.cast_ofNat, Nat.cast_zero, Nat.cast_one, zero_mul,
    mul_zero, mul_one, shiftRight, neg_zero, h0, h1, bind, Except.bind, pure, Except.pure,
    rotateSlots_zero, mulAssignVector,
    CKKSCiphertext.getTowersRemaining, fill_mask_length, rotateSlots_length, ne_eq,
    not_true_eq_false, ht', List.getD_cons_succ, OfNat.ofNat_ne_zero]
  simp [sum_parts, addAssign, EvalAdd, EvalMultPlain, fill_mask, rotateSlots, range_sixteen,
    List.replicate]

/-- Nearest-neighbour interpolation copies every entry to its right, lower and lower-right
neighbour. -/
theorem nearest_neighbor_interpolate_sixteen (a b c d : ℚ) (τ : Nat) :
    nearest_neighbor_interpolate [⟨[a, 0, b, 0, 0, 0, 0, 0, c, 0, d, 0, 0, 0, 0, 0], τ⟩] 4
      = .ok [⟨[a, a, b, b, a, a, b, b, c, c, d, d, c, c, d, d], τ⟩] := by
  have h1 := shiftLeft_ok ⟨[a, 0, b, 0, 0, 0, 0, 0, c, 0, d, 0, 0, 0, 0, 0], τ⟩ (-1) (by simp)
  have h4 := shiftLeft_ok
    (addAssign ⟨[a, 0, b, 0, 0, 0, 0, 0, c, 0, d, 0, 0, 0, 0, 0], τ⟩
      ⟨rotateSlots [a, 0, b, 0, 0, 0, 0, 0, c, 0, d, 0, 0, 0, 0, 0] (-1), τ⟩) (-4)
    (by simp [addAssign, EvalAdd, rotateSlots_length])
  unfold nearest_neighbor_interpolate
  simp only [List.mapM_cons, List.mapM_nil, shiftRight, h1, bind, Except.bind, pure,
    Except.pure, Nat.cast_ofNat, h4]
  simp [addAssign, EvalAdd, rotateSlots, range_sixteen]

/-- Source path `upsample -> small_shards_upsample` on one sixteen-slot shard holding four
copies of a 2x2 image, with nearest-neighbour interpolation. -/
theorem upsample_sixteen (a b c d : ℚ) (τ : Nat) (ht : 4 ≤ τ) :
    upsample [⟨[a, b, c, d, a, b, c, d, a, b, c, d, a, b, c, d], τ⟩] 2 [0] 1
      = .ok [⟨[a, a, b, b, a, a, b, b, c, c, d, d, c, c, d, d], τ - 1 - 1⟩] := by
  have hlen : ([a, b, c, d, a, b, c, d, a, b, c, d, a, b, c, d] : List ℚ).length = 16 := rfl
  have hs : ([0] : List Int).length = 1 := rfl
  have h1 : ¬ ((1 : Int) = 0) := by decide
  unfold upsample
  simp only [CKKSCiphertext.getBatchSize, List.getD_cons_zero, hlen]
  rw [if_pos (by decide)]
  unfold small_shards_upsample
  simp only [CKKSCiphertext.getBatchSize, List.getD_cons_zero, hlen, hs]
  rw [if_pos (by decide)]
  have e4 : 16 / (2 * 2) = 4 := rfl
  have e6 : 2 * 2 = 4 := rfl
  rw [e4, e6, upsample_vertical_expand_sixteen a b c d τ (by omega)]
  simp only [bind, Except.bind]
  rw [upsample_horizontal_expand_sixteen a b c d (τ - 1) (by omega)]
  simp only [h1, if_false, if_true]
  exact nearest_neighbor_interpolate_sixteen a b c d (τ - 1 - 1)

/-! ## Lemmas: pooling then upsampling a constant 4x4 image -/

theorem getD_replicate_lt (n k : Nat) (v : ℚ) (hk : k < n) :
    (List.replicate n v).getD k 0 = v := by
  rw [List.getD_eq_getElem?_getD, List.getElem?_replicate, if_pos hk]
  rfl

theorem poolDuplicated_replicate (v : ℚ) :
    poolDuplicated (List.replicate 16 v) 4 = List.replicate 16 v := by
  have key : ∀ p, p < 16 → (poolDuplicated (List.replicate 16 v) 4).getD p 0 = v := by
    intro p hp
    have hb := poolDuplicated_block (List.replicate 16 v) 4 (p / 4) (p % 4 / 2) (p % 2)
      (by decide) (by decide) (by simp) (by omega) (by omega) (by omega)
    have e : p / 4 * (4 / 2 * (4 / 2)) + p % 4 / 2 * (4 / 2) + p % 2 = p := by omega
    rw [e] at hb
    rw [hb, getD_replicate_lt _ _ _ (by omega), getD_replicate_lt _ _ _ (by omega),
      getD_replicate_lt _ _ _ (by omega), getD_replicate_lt _ _ _ (by omega)]
    ring
  have hl : (poolDuplicated (List.replicate 16 v) 4).length = 16 := by
    simp [poolDuplicated]
  have h1 := eq_map_range_getD (poolDuplicated (List.replicate 16 v) 4) 0
  have h2 := eq_map_range_getD (List.replicate 16 v) 0
  rw [hl] at h1
  rw [List.length_replicate] at h2
  refine h1.trans (Eq.trans ?_ h2.symm)
  apply map_range_congr
  intro p hp
  rw [key p hp, getD_replicate_lt _ _ _ hp]

/-- Average pooling of a constant 4x4 image gives the constant 2x2 image, four times. -/
theorem pool_replicate_sixteen (v : ℚ) (τ : Nat) (ht : 4 ≤ τ) :
    pool [⟨List.replicate 16 v, τ⟩] 4 true = .ok [⟨List.replicate 16 v, τ - 2⟩] := by
  rw [pool_single ⟨List.replicate 16 v, τ⟩ 4 (by decide) (by decide) (by simp)
    (by simp only; omega)]
  simp only [poolDuplicated_replicate]

/-- Nearest-neighbour upsampling of four copies of a constant 2x2 image gives the constant 4x4
image. -/
theorem upsample_replicate_sixteen (v : ℚ) (τ : Nat) (ht : 4 ≤ τ) :
    upsample [⟨List.replicate 16 v, τ⟩] 2 [0] 1 = .ok [⟨List.replicate 16 v, τ - 2⟩] := by
  have e : List.replicate 16 v = [v, v, v, v, v, v, v, v, v, v, v, v, v, v, v, v] := rfl
  have e2 : τ - 1 - 1 = τ - 2 := by omega
  rw [e, upsample_sixteen v v v v τ ht, e2]

/-- With exactly three towers left the second masked multiplication of the upsampling throws. -/
theorem upsample_replicate_three_towers (v : ℚ) :
    upsample [⟨List.replicate 16 v, 3⟩] 2 [0] 1 = .error .insufficientTowers := by
  have e : List.replicate 16 v = [v, v, v, v, v, v, v, v, v, v, v, v, v, v, v, v] := rfl
  have hlen : ([v, v, v, v, v, v, v, v, v, v, v, v, v, v, v, v] : List ℚ).length = 16 := rfl
  have hs : ([0] : List Int).length = 1 := rfl
  rw [e]
  unfold upsample
  simp only [CKKSCiphertext.getBatchSize, List.getD_cons_zero, hlen]
  rw [if_pos (by decide)]
  unfold small_shards_upsample
  simp only [CKKSCiphertext.getBatchSize, List.getD_cons_zero, hlen, hs]
  rw [if_pos (by decide)]
  have e4 : 16 / (2 * 2) = 4 := rfl
  rw [e4, upsample_vertical_expand_sixteen v v v v 3 (by decide)]
  simp only [bind, Except.bind]
  have r2 : List.range 2 = [0, 1] := rfl
  have h0 := shiftLeft_ok ⟨[v, v, 0, 0, 0, 0, 0, 0, v, v, 0, 0, 0, 0, 0, 0], 3 - 1⟩ 0
    (by simp)
  unfold upsample_horizontal_expand
  simp only [r2, List.mapM_cons, shiftRight, Nat.cast_zero, neg_zero, h0, bind, Except.bind,
    mulAssignVector, CKKSCiphertext.getBatchSize, CKKSCiphertext.getTowersRemaining,
    List.getD_cons_zero, List.map_cons, fill_mask_length, rotateSlots_length, ne_eq,
    not_true_eq_false, if_false, Nat.reduceSub, le_refl, if_true]
/-! ## Reduction to 32-bit `int` -/

theorem wrapInt32_of_range (v : Int) (h1 : -2 ^ 31 ≤ v) (h2 : v < 2 ^ 31) : wrapInt32 v = v := by
  unfold wrapInt32
  norm_num at h1 h2 ⊢
  omega

theorem wrapInt32_range (v : Int) : -2 ^ 31 ≤ wrapInt32 v ∧ wrapInt32 v < 2 ^ 31 := by
  unfold wrapInt32
  norm_num
  omega

theorem wrapInt32_emod (v : Int) : (wrapInt32 v - v) % 2 ^ 32 = 0 := by
  unfold wrapInt32
  norm_num
  omega

theorem wrapInt32_congr (a b : Int) (h : (a - b) % 2 ^ 32 = 0) : wrapInt32 a = wrapInt32 b := by
  unfold wrapInt32
  norm_num at h ⊢
  omega

theorem wrapInt32_two_pow_31 : wrapInt32 (2 ^ 31) = -2 ^ 31 := by
  unfold wrapInt32; norm_num


/-! ## Lemmas: the fully-connected layer -/

/-- The rotate-and-add loop started at shift `2^j / 2` leaves in every slot the sum of the
`2^j` slots ending there (cyclically). -/
theorem rotate_and_add_ok (N : Nat) (hN : 0 < N) :
    ∀ (j : Nat), 2 ^ j ≤ 2 * N → ∀ (u : Nat → ℚ) (t : Nat),
      rotate_and_add ⟨(List.range N).map u, t⟩ (2 ^ j / 2)
        = .ok ⟨(List.range N).map fun (i : Nat) =>
            ∑ q ∈ Finset.range (2 ^ j), u (((i : Int) - (q : Int)) % (N : Int)).toNat, t⟩ := by
  intro j
  induction j with
  | zero =>
    intro _ u t
    rw [rotate_and_add]
    simp only [pow_zero, Nat.reduceDiv, gt_iff_lt, Nat.lt_irrefl, dite_false, pure, Except.pure,
      Finset.range_one, Finset.sum_singleton, Nat.cast_zero, sub_zero]
    congr 2
    apply map_range_congr
    intro i hi
    rw [Int.emod_eq_of_lt (by omega) (by omega), Int.toNat_ofNat]
  | succ j ih =>
    intro hj u t
    have hhalf : 2 ^ (j + 1) / 2 = 2 ^ j := by rw [pow_succ]; omega
    have hjN : 2 ^ j ≤ N := by rw [pow_succ] at hj; omega
    have hpos : 0 < 2 ^ j := Nat.two_pow_pos j
    rw [hhalf, rotate_and_add, dif_pos hpos]
    rw [shiftRight_ok_of ⟨(List.range N).map u, t⟩ ((2 ^ j : Nat) : Int) ((List.range N).map u) t
      rfl rfl (by
        simp only [List.length_map, List.length_range]
        rw [abs_of_nonneg (by positivity)]
        exact_mod_cast hjN)]
    simp only [bind, Except.bind]
    have hadd : addAssign ⟨(List.range N).map u, t⟩
        ⟨rotateSlots ((List.range N).map u) (-((2 ^ j : Nat) : Int)), t⟩
        = ⟨(List.range N).map fun (i : Nat) =>
            u i + u (((i : Int) + -((2 ^ j : Nat) : Int)) % (N : Int)).toNat, t⟩ := by
      simp only [addAssign, EvalAdd, rotateSlots_map_range, zipWith_map_range, min_self]
    rw [hadd, ih (by omega)]
    congr 2
    apply map_range_congr
    intro i hi
    have e2 : 2 ^ (j + 1) = 2 ^ j + 2 ^ j := by rw [pow_succ]; omega
    rw [e2, Finset.sum_range_add, Finset.sum_add_distrib]
    congr 1
    apply Finset.sum_congr rfl
    intro q _
    have hnn : 0 ≤ ((i : Int) - (q : Int)) % (N : Int) := Int.emod_nonneg _ (by omega)
    rw [Int.toNat_of_nonneg hnn, Int.emod_add_emod]
    congr 3
    push_cast
    ring

theorem flatten_map_singleton {α β : Type} (g : α → β) (l : List α) :
    (l.map fun a => [g a]).flatten = l.map g := by
  induction l with
  | nil => rfl
  | cons a t ih => simp only [List.map_cons, List.flatten_cons, ih, List.singleton_append]

theorem rotIdx_sub (N i q : Nat) (hi : i < N) (hq : q < N) :
    (((i : Int) - (q : Int)) % (N : Int)).toNat = if q ≤ i then i - q else i + N - q := by
  rw [sub_eq_add_neg]
  by_cases h : q ≤ i
  · rw [if_pos h, rotIdx_sub_ge N i q h hi]
  · rw [if_neg h, rotIdx_sub_lt N i q (by omega) (by omega)]

/-- Summing a vector that is zero away from slot `r` over all cyclic offsets gives its value
at `r`. -/
theorem sum_cyclic_single (N r i : Nat) (hr : r < N) (hi : i < N) (a : ℚ) :
    ∑ q ∈ Finset.range N,
        (fun (s : Nat) => if r = s then a else 0) (((i : Int) - (q : Int)) % (N : Int)).toNat
      = a := by
  have hq : (if r ≤ i then i - r else i + N - r) ∈ Finset.range N := by
    rw [Finset.mem_range]; split <;> omega
  rw [Finset.sum_eq_single (if r ≤ i then i - r else i + N - r) _ (fun h => absurd hq h)]
  · simp only
    rw [if_pos]
    rw [rotIdx_sub N i _ hi (Finset.mem_range.1 hq)]
    split <;> split <;> omega
  · intro q hq' hne
    have hqN : q < N := Finset.mem_range.1 hq'
    simp only
    rw [if_neg]
    intro hc
    apply hne
    rw [rotIdx_sub N i q hi hqN] at hc
    split at hc <;> split <;> omega

/-- Row `r` of the packed weights of `linear` under the identity permutation is row `r` of the
weight matrix. -/
theorem linear_weight_row (W : boost_vector2d) (N mtx r i : Nat) (hmtx : 1 ≤ mtx)
    (hdvd : mtx * mtx ∣ N) (hi : i < N) :
    W.elems r
        ((identityPermutation (N / (mtx * mtx))).getD
              ((i / (mtx * mtx) + 0 * (N / (mtx * mtx))) / 1) 0
            * ((mtx * mtx : Nat) : Int) + ((i % (mtx * mtx) : Nat) : Int)).toNat
      = W.elems r i := by
  have hcs : 0 < mtx * mtx := Nat.mul_pos hmtx hmtx
  generalize mtx * mtx = cs at hdvd hcs
  have hlt : i / cs < N / cs := Nat.div_lt_div_of_lt_of_dvd hdvd hi
  unfold identityPermutation
  rw [Nat.zero_mul, Nat.add_zero, Nat.div_one, getD_map_range, if_pos hlt]
  have e : ((i / cs : Nat) : Int) * (cs : Int) + ((i % cs : Nat) : Int) = (i : Int) := by
    have := Nat.div_add_mod' i cs
    exact_mod_cast this
  rw [e, Int.toNat_ofNat]

/-- The reciprocal of a power of two is a `double`: `1.0 / 2^j` is exact. -/
theorem doubleReciprocal_two_pow (j : Nat) : doubleReciprocal (2 ^ j) = 1 / 2 ^ j := by
  have ha : ((2 : Int) ^ j).natAbs = 2 ^ j := by
    rw [Int.natAbs_pow]; rfl
  have hpos : ¬ ((2 : Int) ^ j < 0) := not_lt.2 (by positivity)
  have hq : 2 ^ (52 + (j + 1)) / 2 ^ j = 2 ^ 53 := by
    rw [show 52 + (j + 1) = 53 + j by omega, pow_add]
    exact Nat.mul_div_cancel _ (Nat.two_pow_pos j)
  have hr : 2 ^ (52 + (j + 1)) % 2 ^ j = 0 := by
    rw [show 52 + (j + 1) = 53 + j by omega, pow_add]
    exact Nat.mul_mod_left _ _
  unfold doubleReciprocal
  simp only [ha, Nat.size_pow, hq, hr, if_neg hpos, Nat.mul_zero, Nat.two_pow_pos, if_true]
  rw [show 52 + (j + 1) = 53 + j by omega, one_mul]
  push_cast
  rw [pow_add]
  field_simp
  norm_num

/-- The weight `v[i]` of `linear` when no `int` operation overflows and both indices are in
range: the entry of the weight array at the permuted channel. -/
theorem linear_weight_ok (W : boost_vector2d) (sigma : List Int) (N cs d r s i : Nat)
    (hcs : cs < 2 ^ 31) (hd : 1 ≤ d)
    (hphys : i / cs + s * (N / cs) < 2 ^ 31)
    (hσ : (i / cs + s * (N / cs)) / d < sigma.length)
    (hσ0 : 0 ≤ sigma.getD ((i / cs + s * (N / cs)) / d) 0)
    (hidx : (sigma.getD ((i / cs + s * (N / cs)) / d) 0 * (cs : Int)
      + ((i % cs : Nat) : Int)).toNat < W.shape1)
    (hI : W.shape1 < 2 ^ 31) :
    linear_weight W sigma (cs : Int) ((N / cs : Nat) : Int) (d : Int) r s i
      = .ok (W.elems r (sigma.getD ((i / cs + s * (N / cs)) / d) 0 * (cs : Int)
          + ((i % cs : Nat) : Int)).toNat) := by
  have h31 : (2 : Nat) ^ 31 = 2147483648 := by norm_num
  rw [h31] at hcs hphys hI
  have e1 : Int.tdiv (i : Int) (cs : Int) = ((i / cs : Nat) : Int) := rfl
  have e2 : Int.tmod (i : Int) (cs : Int) = ((i % cs : Nat) : Int) := rfl
  have hA : ((s : Int) * ((N / cs : Nat) : Int)) = ((s * (N / cs) : Nat) : Int) :=
    (Nat.cast_mul s (N / cs)).symm
  have wr : ∀ n : Nat, n < 2147483648 → wrapInt32 (n : Int) = (n : Int) := by
    intro n hn
    apply wrapInt32_of_range
    · have : (0 : Int) ≤ (n : Int) := Int.ofNat_nonneg n
      norm_num
      omega
    · norm_num
      omega
  generalize hB : s * (N / cs) = B at hphys hσ hσ0 hidx hA
  generalize hic : i / cs = ic at hphys hσ hσ0 hidx e1
  generalize hq : (ic + B) / d = q at hσ hσ0 hidx
  have e3 : Int.tdiv ((ic + B : Nat) : Int) (d : Int) = ((q : Nat) : Int) := by
    rw [← hq]; rfl
  generalize hv : sigma.getD q 0 = σv at hσ0 hidx
  obtain ⟨sv, rfl⟩ : ∃ sv : Nat, σv = (sv : Int) := ⟨σv.toNat, by omega⟩
  have hcast : ((sv : Int) * (cs : Int) + ((i % cs : Nat) : Int))
      = ((sv * cs + i % cs : Nat) : Int) := by
    rw [Nat.cast_add, Nat.cast_mul]
  rw [hcast, Int.toNat_ofNat] at hidx ⊢
  have hd0 : ¬ ((d : Int) = 0) := by omega
  have hq0 : ¬ (((q : Nat) : Int) < 0 ∨ (sigma.length : Int) ≤ ((q : Nat) : Int)) := by omega
  have hfin : ¬ (((sv * cs + i % cs : Nat) : Int) < 0 ∨
      (W.shape1 : Int) ≤ ((sv * cs + i % cs : Nat) : Int)) := by
    have h0 : (0 : Int) ≤ ((sv * cs + i % cs : Nat) : Int) := Int.ofNat_nonneg _
    have h1 : ((sv * cs + i % cs : Nat) : Int) < (W.shape1 : Int) := by exact_mod_cast hidx
    intro h
    rcases h with h | h
    · exact absurd h (not_lt.2 h0)
    · exact absurd h (not_le.2 h1)
  have b1 : B < 2147483648 := by omega
  have b2 : sv * cs + i % cs < 2147483648 := by omega
  have b3 : sv * cs < 2147483648 := lt_of_le_of_lt (Nat.le_add_right _ _) b2
  have b4 : cs ≠ 0 → sv < 2147483648 := fun hc0 =>
    lt_of_le_of_lt (Nat.le_mul_of_pos_right sv (Nat.pos_of_ne_zero hc0)) b3
  have w1 : wrapInt32 ((B : Nat) : Int) = (B : Int) := wr B b1
  have w2 : wrapInt32 (((ic : Nat) : Int) + (B : Int)) = ((ic + B : Nat) : Int) := by
    rw [← Nat.cast_add]
    exact wr (ic + B) hphys
  have w4 : wrapInt32 ((sv : Int) * (cs : Int)) = ((sv * cs : Nat) : Int) := by
    rw [← Nat.cast_mul]
    exact wr (sv * cs) b3
  have w5 : wrapInt32 (((sv * cs : Nat) : Int) + ((i % cs : Nat) : Int))
      = ((sv * cs + i % cs : Nat) : Int) := by
    rw [← Nat.cast_add]
    exact wr (sv * cs + i % cs) b2
  unfold linear_weight
  simp only [e1, e2, hA, w1, w2, e3, if_neg hd0, if_neg hq0, Int.toNat_ofNat, hv]
  by_cases hc0 : cs = 0
  · subst hc0
    have w3 : wrapInt32 (wrapInt32 (sv : Int) * ((0 : Nat) : Int)) = ((sv * 0 : Nat) : Int) := by
      rw [Nat.cast_zero, mul_zero, Nat.mul_zero, Nat.cast_zero]
      exact wr 0 (by decide)
    simp only [w3, w5, if_neg hfin, Int.toNat_ofNat]
  · have w6 : wrapInt32 (sv : Int) = (sv : Int) := wr sv (b4 hc0)
    simp only [w6, w4, w5, if_neg hfin, Int.toNat_ofNat]

/-! ### The fully-connected layer on a shard with fewer than four towers -/

theorem mapM_error_first {α β : Type} (f : α → Except Error β) (l : List α) (a : α)
    (tl : List α) (e : Error) (hl : l = a :: tl) (h : f a = .error e) :
    l.mapM f = .error e := by
  subst hl
  exact mapM_error_head f a tl e h


/-! ## Claims C1 - C4: the layers of the encrypted network -/

/-- C1 (amended): for every `m ≥ 1`, every odd kernel size `k` (including `k = 1`) with
`k / 2` at most the slot width, and every single image-sharded input shard of slot width
`N = 2^a * m * m` that has more than two towers left, `conv2d` with one input channel, one
output channel, `sigma = [0]` and a `k x k` filter whose only non-zero entry is `1` at the
centre tap returns exactly one shard, whose slot values equal the input shard's slot values
(one tower lower). -/
theorem conv2d_identity_kernel (x : CKKSCiphertext) (F : boost_vector4d) (a m k : Nat)
    (hm : 1 ≤ m) (hN : x.slots.length = 2 ^ a * (m * m)) (hodd : k % 2 = 1)
    (hkN : k / 2 ≤ x.slots.length) (ht : 2 < x.towers)
    (hF0 : F.shape0 = 1) (hF1 : F.shape1 = 1) (hF2 : F.shape2 = k) (hF3 : F.shape3 = k)
    (hdelta : ∀ ki kj, ki < k → kj < k →
      F.elems 0 0 ki kj = if ki = k / 2 ∧ kj = k / 2 then 1 else 0) :
    ∃ y, conv2d [x] F m [0] = .ok [y] ∧ y.slots = x.slots ∧ y.towers = x.towers - 1 :=
  ⟨⟨x.slots, x.towers - 1⟩,
    conv2d_identity_kernel_slots x F a m k hm hN hodd hkN ht hF0 hF1 hF2 hdelta, rfl, rfl⟩

/-- Witness for C1: slot width `16`, `m = 4`, `k = 3`, three towers. -/
theorem conv2d_identity_kernel_witness :
    ∃ y, conv2d [⟨[1, 2, 3, 4, 5, 6, 7, 8, 9, 10, 11, 12, 13, 14, 15, 16], 3⟩]
          ⟨1, 1, 3, 3, fun _ _ ki kj => if ki = 3 / 2 ∧ kj = 3 / 2 then 1 else 0⟩ 4 [0]
        = .ok [y] ∧
      y.slots = [1, 2, 3, 4, 5, 6, 7, 8, 9, 10, 11, 12, 13, 14, 15, 16] ∧ y.towers = 3 - 1 :=
  conv2d_identity_kernel ⟨[1, 2, 3, 4, 5, 6, 7, 8, 9, 10, 11, 12, 13, 14, 15, 16], 3⟩
    ⟨1, 1, 3, 3, fun _ _ ki kj => if ki = 3 / 2 ∧ kj = 3 / 2 then 1 else 0⟩ 0 4 3
    (by decide) (by decide) (by decide) (by decide) (by decide) rfl rfl rfl rfl
    (fun _ _ _ _ => rfl)

/-- Counterexample to C1 as stated: on the four-slot shard `[1, 2, 3, 4]` with `m = 2` the
`11 x 11` centre-tap filter asks for a rotation by five slots, which the rotation guard
rejects; and with the `1 x 1` filter `[[1]]` a shard with only two towers left is rejected by
the depth guard of the plaintext multiplication. No shard is returned in either case. -/
theorem conv2d_identity_kernel_counterexample :
    conv2d [⟨[1, 2, 3, 4], 5⟩]
        ⟨1, 1, 11, 11, fun _ _ ki kj => if ki = 5 ∧ kj = 5 then 1 else 0⟩ 2 [0]
      = .error .rotationTooLarge ∧
    conv2d [⟨[1, 2, 3, 4], 2⟩] ⟨1, 1, 1, 1, fun _ _ _ _ => 1⟩ 2 [0]
      = .error .insufficientTowers :=
  ⟨rfl, rfl⟩

/-- C2 (amended): image-sharded convolution equals zero-padded 2D cross-correlation. For a
single input shard of slot width `N = C * m * m` (a power of two, `m ≥ 1`) holding `C` physical
`m x m` channels with no duplication and having more than two towers left, a filter tensor `F`
of shape `[C][C][k][k]` with `k ≥ 1` and `k / 2 ≤ N`, and `sigma` of length `C` with entries
below `C`, `conv2d` returns one shard whose value at output channel `o`, row `y`, column `x` is
the sum over `c < C` and `ki, kj < k` of `F[sigma[c]][o][ki][kj] * in_c(y + s(ki), x + s(kj))`,
where `s(i) = kernel_index_to_shift(i, k)` and every term whose source position lies outside
the `m x m` grid is omitted. -/
theorem conv2d_cross_correlation (x : CKKSCiphertext) (F : boost_vector4d) (sigma : List Int)
    (C m b : Nat) (hm : 1 ≤ m) (hN : x.slots.length = C * (m * m))
    (hpow : x.slots.length = 2 ^ b) (ht : 2 < x.towers)
    (hF0 : F.shape0 = C) (hF1 : F.shape1 = C) (hk : 1 ≤ F.shape2) (hF3 : F.shape3 = F.shape2)
    (hkN : F.shape2 / 2 ≤ x.slots.length)
    (hσ : sigma.length = C) (hσb : ∀ c, c < C → 0 ≤ sigma.getD c 0 ∧ sigma.getD c 0 < C) :
    ∃ out, conv2d [x] F m sigma = .ok [out] ∧ out.slots.length = x.slots.length ∧
      ∀ o y x', o < C → y < m → x' < m →
        out.slots.getD (o * (m * m) + y * m + x') 0
          = ∑ c ∈ Finset.range C, ∑ ki ∈ Finset.range F.shape2, ∑ kj ∈ Finset.range F.shape2,
              crossTerm x F sigma m c o y x' ki kj := by
  obtain ⟨a, _, rfl⟩ : ∃ a, a ≤ b ∧ C = 2 ^ a :=
    (Nat.dvd_prime_pow Nat.prime_two).1 (Dvd.intro (m * m) (by rw [← hN, hpow]))
  have hpos : 0 < 2 ^ a := Nat.two_pow_pos a
  refine ⟨⟨(List.range x.slots.length).map fun i => convSlot x F sigma m i, x.towers - 1⟩,
    conv2d_single_shard x F sigma a m hm hk hkN hN ht (by omega)
      (by rw [hF1, Nat.div_self hpos]), by simp, ?_⟩
  intro o y x' ho hy hx
  have hp : y * m + x' < m * m := grid_lt m y x' hy hx
  have hi : o * (m * m) + y * m + x' < x.slots.length := by
    rw [hN, Nat.add_assoc]; exact channel_lt _ _ _ _ ho hp
  rw [getD_map_range, if_pos hi]
  exact convSlot_cross_correlation x F sigma a m o y x' hm hN hF0 hF1 ho hy hx

/-- Witness for C2: two `2 x 2` channels in eight slots, a `3 x 3` kernel, `sigma = [1, 0]`. -/
theorem conv2d_cross_correlation_witness :
    ∃ out, conv2d [⟨[1, 2, 3, 4, 5, 6, 7, 8], 3⟩]
          ⟨2, 2, 3, 3, fun i o ki kj => ((i + 2 * o + 3 * ki + 7 * kj : Nat) : ℚ)⟩ 2 [1, 0]
        = .ok [out] ∧
      out.slots.length
        = (⟨[1, 2, 3, 4, 5, 6, 7, 8], 3⟩ : CKKSCiphertext).slots.length ∧
      ∀ o y x', o < 2 → y < 2 → x' < 2 →
        out.slots.getD (o * (2 * 2) + y * 2 + x') 0
          = ∑ c ∈ Finset.range 2,
              ∑ ki ∈ Finset.range
                  (⟨2, 2, 3, 3, fun i o ki kj =>
                    ((i + 2 * o + 3 * ki + 7 * kj : Nat) : ℚ)⟩ : boost_vector4d).shape2,
                ∑ kj ∈ Finset.range
                    (⟨2, 2, 3, 3, fun i o ki kj =>
                      ((i + 2 * o + 3 * ki + 7 * kj : Nat) : ℚ)⟩ : boost_vector4d).shape2,
                  crossTerm ⟨[1, 2, 3, 4, 5, 6, 7, 8], 3⟩
                    ⟨2, 2, 3, 3, fun i o ki kj => ((i + 2 * o + 3 * ki + 7 * kj : Nat) : ℚ)⟩
                    [1, 0] 2 c o y x' ki kj :=
  conv2d_cross_correlation ⟨[1, 2, 3, 4, 5, 6, 7, 8], 3⟩
    ⟨2, 2, 3, 3, fun i o ki kj => ((i + 2 * o + 3 * ki + 7 * kj : Nat) : ℚ)⟩ [1, 0] 2 2 3
    (by decide) (by decide) (by decide) (by decide) rfl rfl (by decide) rfl (by decide) rfl
    (by decide)

/-- Counterexample to C2 as stated: on the two-slot shard `[1, 2]` holding two `1 x 1`
channels, a `7 x 7` kernel asks for a rotation by three slots, which the rotation guard rejects;
and with a `1 x 1` kernel a shard with only two towers left is rejected by the depth guard of
the plaintext multiplication. No shard is returned in either case. -/
theorem conv2d_cross_correlation_counterexample :
    conv2d [⟨[1, 2], 3⟩] ⟨2, 2, 7, 7, fun _ _ _ _ => 1⟩ 1 [0, 1]
      = .error .rotationTooLarge ∧
    conv2d [⟨[1, 2], 2⟩] ⟨2, 2, 1, 1, fun _ _ _ _ => 1⟩ 1 [0, 1]
      = .error .insufficientTowers :=
  ⟨rfl, rfl⟩

/-- C3 (amended): `pool` with `conv = true` computes 2x2 average pooling. For every even
`m ≥ 2` and a single input shard of slot width `N = m * m` holding one `m x m` channel and
having at least four towers left, `pool` returns exactly one shard (two towers lower) in which,
for every `t < 4` and `i, c < m / 2`, slot `t * (m/2)^2 + i * (m/2) + c` equals
`(in[2i][2c] + in[2i][2c+1] + in[2i+1][2c] + in[2i+1][2c+1]) / 4`: the pooled
`(m/2) x (m/2)` image in row-major order, duplicated four times. -/
theorem pool_average (x : CKKSCiphertext) (m : Nat) (hm : 2 ≤ m) (heven : m % 2 = 0)
    (hN : x.slots.length = m * m) (ht : 4 ≤ x.towers) :
    ∃ out, pool [x] m true = .ok [out] ∧ out.towers = x.towers - 2 ∧
      ∀ t i c, t < 4 → i < m / 2 → c < m / 2 →
        out.slots.getD (t * ((m / 2) * (m / 2)) + i * (m / 2) + c) 0
          = (x.slots.getD (2 * i * m + 2 * c) 0 + x.slots.getD (2 * i * m + (2 * c + 1)) 0
              + x.slots.getD ((2 * i + 1) * m + 2 * c) 0
              + x.slots.getD ((2 * i + 1) * m + (2 * c + 1)) 0) / 4 :=
  ⟨⟨poolDuplicated x.slots m, x.towers - 2⟩, pool_single x m hm heven hN ht, rfl,
    fun t i c ht' hi hc => poolDuplicated_block x.slots m t i c hm heven hN ht' hi hc⟩

/-- Witness for C3: the `2 x 2` image `[1, 2, 3, 4]` with four towers. -/
theorem pool_average_witness :
    ∃ out, pool [⟨[1, 2, 3, 4], 4⟩] 2 true = .ok [out] ∧ out.towers = 4 - 2 ∧
      ∀ t i c, t < 4 → i < 2 / 2 → c < 2 / 2 →
        out.slots.getD (t * ((2 / 2) * (2 / 2)) + i * (2 / 2) + c) 0
          = (([1, 2, 3, 4] : List ℚ).getD (2 * i * 2 + 2 * c) 0
              + ([1, 2, 3, 4] : List ℚ).getD (2 * i * 2 + (2 * c + 1)) 0
              + ([1, 2, 3, 4] : List ℚ).getD ((2 * i + 1) * 2 + 2 * c) 0
              + ([1, 2, 3, 4] : List ℚ).getD ((2 * i + 1) * 2 + (2 * c + 1)) 0) / 4 :=
  pool_average ⟨[1, 2, 3, 4], 4⟩ 2 (by decide) (by decide) (by decide) (by decide)

/-- Counterexample to C3 as stated: the `2 x 2` image `[1, 2, 3, 4]` in a shard with three
towers left; the horizontal reduction uses one, and the depth guard of the multiplication in
the vertical reduction then throws, so no shard is returned. -/
theorem pool_average_counterexample :
    pool [⟨[1, 2, 3, 4], 3⟩] 2 true = .error .insufficientTowers :=
  pool_needs_four_towers ⟨[1, 2, 3, 4], 3⟩ 2 (by decide) (by decide) (by decide)

/-- C4 (amended): for every value `v` and every number of towers `τ ≥ 6`: starting from one
shard of slot width 16 whose 16 slots all equal `v` (a 4x4 single-channel image),
`pool(mtx_size = 4, conv = true)` followed by
`upsample(mtx_size = 2, sigma = [0], upsample_type = 1)` returns exactly one shard whose 16
slots all equal `v` (four towers lower). -/
theorem pool_then_upsample_constant (v : ℚ) (τ : Nat) (ht : 6 ≤ τ) :
    ∃ pooled out, pool [⟨List.replicate 16 v, τ⟩] 4 true = .ok pooled ∧
      upsample pooled 2 [0] 1 = .ok [out] ∧
      out.slots = List.replicate 16 v ∧ out.towers = τ - 4 :=
  ⟨[⟨List.replicate 16 v, τ - 2⟩], ⟨List.replicate 16 v, τ - 2 - 2⟩,
    pool_replicate_sixteen v τ (by omega),
    upsample_replicate_sixteen v (τ - 2) (by omega), rfl, by simp only; omega⟩

/-- Witness for C4: the constant image `7` with six towers. -/
theorem pool_then_upsample_constant_witness :
    ∃ pooled out, pool [⟨List.replicate 16 7, 6⟩] 4 true = .ok pooled ∧
      upsample pooled 2 [0] 1 = .ok [out] ∧
      out.slots = List.replicate 16 7 ∧ out.towers = 6 - 4 :=
  pool_then_upsample_constant 7 6 (by decide)

/-- Counterexample to C4 as stated: the constant image `1` in a shard with five towers left;
`pool` succeeds and leaves three towers, and the depth guard of the second masked
multiplication of `upsample` then throws, so no shard is returned. -/
theorem pool_then_upsample_constant_counterexample :
    pool [⟨List.replicate 16 1, 5⟩] 4 true = .ok [⟨List.replicate 16 1, 3⟩] ∧
    upsample [⟨List.replicate 16 1, 3⟩] 2 [0] 1 = .error .insufficientTowers :=
  ⟨pool_replicate_sixteen 1 5 (by decide), upsample_replicate_three_towers 1⟩

/-! ## Claim about the shift mask of a channel shard -/

/-- The exception-monad form of the vector multiplication used by the layers is the traced
operator with its trace dropped. -/
theorem mulAssignVector_eq_run (ctxt : CKKSCiphertext) (vals : List ℚ) :
    mulAssignVector ctxt vals
      = match (mulAssignVectorRun ctxt vals).thrown with
        | some e => .error e
        | none => .ok (mulAssignVectorRun ctxt vals).operand := by
  unfold mulAssignVector mulAssignVectorRun
  by_cases h1 : vals.length = ctxt.getBatchSize <;>
  by_cases h2 : ctxt.getTowersRemaining ≤ 2 <;>
  simp [h1, h2]

/-- C12: ciphertext-ciphertext multiplication `c1 *= c2` (CKKS and BGV) fails with the
insufficient-towers error if and only if towers-remaining of `c1` is `≤ 2` or towers-remaining
of `c2` is `≤ 2`; it throws nothing else; when it fails, `c1` is left unchanged and the
evaluator's multiply is never invoked. -/
theorem mulAssign_insufficient_towers_iff (c1 c2 : CKKSCiphertext)
    (evalMult : BGVCiphertext → BGVCiphertext → BGVCiphertext) (b1 b2 : BGVCiphertext) :
    ((mulAssignRun c1 c2).thrown = some .insufficientTowers
        ↔ c1.getTowersRemaining ≤ 2 ∨ c2.getTowersRemaining ≤ 2) ∧
    ((mulAssignRun c1 c2).thrown ≠ none →
        (mulAssignRun c1 c2).thrown = some .insufficientTowers ∧
        (mulAssignRun c1 c2).operand = c1 ∧
        EvaluatorCall.evalMult ∉ (mulAssignRun c1 c2).calls) ∧
    ((mulAssignRunBGV evalMult b1 b2).thrown = some .insufficientTowers
        ↔ b1.getTowersRemaining ≤ 2 ∨ b2.getTowersRemaining ≤ 2) ∧
    ((mulAssignRunBGV evalMult b1 b2).thrown ≠ none →
        (mulAssignRunBGV evalMult b1 b2).thrown = some .insufficientTowers ∧
        (mulAssignRunBGV evalMult b1 b2).operand = b1 ∧
        EvaluatorCall.evalMult ∉ (mulAssignRunBGV evalMult b1 b2).calls) := by
  unfold mulAssignRun mulAssignRunBGV
  by_cases h : c1.getTowersRemaining ≤ 2 ∨ c2.getTowersRemaining ≤ 2 <;>
  by_cases h' : b1.getTowersRemaining ≤ 2 ∨ b2.getTowersRemaining ≤ 2 <;>
  simp [h, h']

/-- C14: for a ciphertext with batch size `N` and a plaintext vector of length `L`:
`ciphertext += vector` and `ciphertext -= vector` fail if and only if `L ≠ N`;
`ciphertext *= vector` fails if and only if `L ≠ N` or towers-remaining `≤ 2`, the length check
being made first (a wrong-length vector is reported as a length error whatever the depth); in
every failing case the ciphertext is unchanged (and the evaluator has not been invoked). -/
theorem assignVector_fails_iff (ctxt : CKKSCiphertext) (vals : List ℚ) :
    ((addAssignVectorRun ctxt vals).thrown ≠ none ↔ vals.length ≠ ctxt.getBatchSize) ∧
    ((subAssignVectorRun ctxt vals).thrown ≠ none ↔ vals.length ≠ ctxt.getBatchSize) ∧
    ((mulAssignVectorRun ctxt vals).thrown ≠ none
        ↔ vals.length ≠ ctxt.getBatchSize ∨ ctxt.getTowersRemaining ≤ 2) ∧
    (vals.length ≠ ctxt.getBatchSize →
        (addAssignVectorRun ctxt vals).thrown = some .lengthMismatch ∧
        (subAssignVectorRun ctxt vals).thrown = some .lengthMismatch ∧
        (mulAssignVectorRun ctxt vals).thrown = some .lengthMismatch) ∧
    (vals.length = ctxt.getBatchSize → ctxt.getTowersRemaining ≤ 2 →
        (mulAssignVectorRun ctxt vals).thrown = some .insufficientTowers) ∧
    ((addAssignVectorRun ctxt vals).thrown ≠ none →
        (addAssignVectorRun ctxt vals).operand = ctxt ∧ (addAssignVectorRun ctxt vals).calls = []) ∧
    ((subAssignVectorRun ctxt vals).thrown ≠ none →
        (subAssignVectorRun ctxt vals).operand = ctxt ∧ (subAssignVectorRun ctxt vals).calls = []) ∧
    ((mulAssignVectorRun ctxt vals).thrown ≠ none →
        (mulAssignVectorRun ctxt vals).operand = ctxt ∧
        (mulAssignVectorRun ctxt vals).calls = []) := by
  unfold addAssignVectorRun subAssignVectorRun mulAssignVectorRun
  by_cases h1 : vals.length = ctxt.getBatchSize <;>
  by_cases h2 : ctxt.getTowersRemaining ≤ 2 <;>
  simp [h1, h2]

/-! ### The depth test of the polynomial activation -/

theorem fhe_gelu_insufficient_iff (level degree : Int) (hd : degree ≤ 200) :
    fhe_gelu_insufficient level degree ↔ level < geluMinimumDepth degree := by
  unfold fhe_gelu_insufficient geluMinimumDepth
  split_ifs <;> omega

theorem fhe_gelu_result_error (series : Int → ℚ → CKKSCiphertext → CKKSCiphertext)
    (shards : List CKKSCiphertext) (degree : Int) (bound : ℚ)
    (h : fhe_gelu_insufficient (((shards.getD 0 default).getTowersRemaining : Int) - 2) degree) :
    fhe_gelu series shards degree bound = ⟨.error .insufficientTowersForSeries, []⟩ := by
  unfold fhe_gelu
  simp only [h, if_true]

theorem fhe_gelu_result_ok (series : Int → ℚ → CKKSCiphertext → CKKSCiphertext)
    (shards : List CKKSCiphertext) (degree : Int) (bound : ℚ)
    (h : ¬ fhe_gelu_insufficient (((shards.getD 0 default).getTowersRemaining : Int) - 2)
      degree) :
    fhe_gelu series shards degree bound
      = ⟨.ok (shards.map fun shard => series degree bound shard),
          shards.map fun _ => EvaluatorCall.evalChebyshevSeries⟩ := by
  unfold fhe_gelu
  simp only [h, if_false]

/-- C15 (amended): `fhe_gelu` compares `level = towers-remaining - 2` of the first shard, not
the towers-remaining count itself, with the table. For every non-empty batch and every degree
`≤ 200` it raises the insufficient-depth error exactly when `towers - 2` is below the table
minimum for the degree (`3` for degree `≤ 5`, `4` for `6..13`, `5` for `14..27`, `6` for
`28..59`, `7` for `60..119`, `8` for `120..200`); with `towers - 2` at or above that minimum
the check passes and the series is evaluated on every shard. -/
theorem fhe_gelu_raises_iff (series : Int → ℚ → CKKSCiphertext → CKKSCiphertext)
    (shard : CKKSCiphertext) (rest : List CKKSCiphertext) (degree : Int) (bound : ℚ)
    (hd : degree ≤ 200) :
    ((fhe_gelu series (shard :: rest) degree bound).result = .error .insufficientTowersForSeries
        ↔ (shard.getTowersRemaining : Int) - 2 < geluMinimumDepth degree) ∧
    (geluMinimumDepth degree ≤ (shard.getTowersRemaining : Int) - 2 →
      (fhe_gelu series (shard :: rest) degree bound).result
        = .ok ((shard :: rest).map fun s => series degree bound s)) := by
  have hiff := fhe_gelu_insufficient_iff ((shard.getTowersRemaining : Int) - 2) degree hd
  by_cases h : fhe_gelu_insufficient ((shard.getTowersRemaining : Int) - 2) degree
  · rw [fhe_gelu_result_error series (shard :: rest) degree bound h]
    have hlt := hiff.1 h
    exact ⟨⟨fun _ => hlt, fun _ => rfl⟩, fun hge => absurd hlt (not_lt.2 hge)⟩
  · rw [fhe_gelu_result_ok series (shard :: rest) degree bound h]
    have hnlt : ¬ (shard.getTowersRemaining : Int) - 2 < geluMinimumDepth degree :=
      fun hlt => h (hiff.2 hlt)
    refine ⟨⟨fun he => ?_, fun hlt => absurd hlt hnlt⟩, fun _ => rfl⟩
    cases he

/-- Witness for C15: one shard with five towers passes the test for degree 5. -/
theorem fhe_gelu_raises_iff_witness :
    ((fhe_gelu (fun _ _ c => c) (⟨[1], 5⟩ :: []) 5 1).result
          = .error .insufficientTowersForSeries
        ↔ ((⟨[1], 5⟩ : CKKSCiphertext).getTowersRemaining : Int) - 2 < geluMinimumDepth 5) ∧
    (geluMinimumDepth 5 ≤ ((⟨[1], 5⟩ : CKKSCiphertext).getTowersRemaining : Int) - 2 →
      (fhe_gelu (fun _ _ c => c) (⟨[1], 5⟩ :: []) 5 1).result
        = .ok ((⟨[1], 5⟩ :: []).map fun s => (fun _ _ c => c) (5 : Int) (1 : ℚ) s)) :=
  fhe_gelu_raises_iff (fun _ _ c => c) ⟨[1], 5⟩ [] 5 1 (by decide)

/-- Counterexample to C15 as stated: a shard with three towers remaining and degree 5. Three is
not below the table minimum 3, yet `fhe_gelu` throws, because it tests `3 - 2 = 1`. -/
theorem fhe_gelu_raises_iff_counterexample :
    ¬ (((⟨[1], 3⟩ : CKKSCiphertext).getTowersRemaining : Int) < geluMinimumDepth 5) ∧
    (fhe_gelu (fun _ _ c => c) [⟨[1], 3⟩] 5 1).result = .error .insufficientTowersForSeries :=
  ⟨by decide, by
    rw [fhe_gelu_result_error _ _ _ _ (by decide)]⟩

/-- C16 (amended): `fhe_gelu` tests the first shard of the batch only. For every non-empty
input list and every degree `≤ 200`, if the first shard has `towers - 2` below the minimum
required for the degree, `fhe_gelu` fails with the insufficient-depth error and evaluates no
polynomial on any shard. -/
theorem fhe_gelu_first_shard_checked (series : Int → ℚ → CKKSCiphertext → CKKSCiphertext)
    (shard : CKKSCiphertext) (rest : List CKKSCiphertext) (degree : Int) (bound : ℚ)
    (hd : degree ≤ 200)
    (hlow : (shard.getTowersRemaining : Int) - 2 < geluMinimumDepth degree) :
    (fhe_gelu series (shard :: rest) degree bound).result = .error .insufficientTowersForSeries ∧
    EvaluatorCall.evalChebyshevSeries ∉ (fhe_gelu series (shard :: rest) degree bound).calls := by
  rw [fhe_gelu_result_error series (shard :: rest) degree bound
    ((fhe_gelu_insufficient_iff _ degree hd).2 hlow)]
  exact ⟨rfl, by simp⟩

/-- Witness for C16: the first of two shards has four towers, degree 5. -/
theorem fhe_gelu_first_shard_checked_witness :
    (fhe_gelu (fun _ _ c => c) (⟨[1], 4⟩ :: [⟨[1], 10⟩]) 5 1).result
      = .error .insufficientTowersForSeries ∧
    EvaluatorCall.evalChebyshevSeries
      ∉ (fhe_gelu (fun _ _ c => c) (⟨[1], 4⟩ :: [⟨[1], 10⟩]) 5 1).calls :=
  fhe_gelu_first_shard_checked (fun _ _ c => c) ⟨[1], 4⟩ [⟨[1], 10⟩] 5 1 (by decide)
    (by decide)

/-- Counterexample to C16 as stated: a batch of two shards whose second shard has no towers
left, degree 5. The first shard has ten towers, so the test passes and the series is evaluated
on both shards. -/
theorem fhe_gelu_first_shard_checked_counterexample :
    (fhe_gelu (fun _ _ c => c) [⟨[1], 10⟩, ⟨[1], 0⟩] 5 1).result
      = .ok [⟨[1], 10⟩, ⟨[1], 0⟩] ∧
    (fhe_gelu (fun _ _ c => c) [⟨[1], 10⟩, ⟨[1], 0⟩] 5 1).calls
      = [.evalChebyshevSeries, .evalChebyshevSeries] := by
  rw [fhe_gelu_result_ok _ _ _ _ (by decide)]
  exact ⟨rfl, rfl⟩

/-- C17 (amended): the depth requirement of `fhe_gelu` is monotone in the degree up to degree
200: for all degrees `d1 ≤ d2 ≤ 200` and every batch, if the depth check accepts degree `d2`
then it also accepts degree `d1`. -/
theorem fhe_gelu_monotone (series : Int → ℚ → CKKSCiphertext → CKKSCiphertext)
    (shard : CKKSCiphertext) (rest : List CKKSCiphertext) (d1 d2 : Int) (bound : ℚ)
    (h12 : d1 ≤ d2) (h200 : d2 ≤ 200)
    (hacc : (fhe_gelu series (shard :: rest) d2 bound).result
      ≠ .error .insufficientTowersForSeries) :
    (fhe_gelu series (shard :: rest) d1 bound).result ≠ .error .insufficientTowersForSeries := by
  have h2 := (fhe_gelu_raises_iff series shard rest d2 bound h200).1
  have h1 := (fhe_gelu_raises_iff series shard rest d1 bound (by omega)).1
  intro he
  apply hacc
  rw [h2]
  have hlt := h1.1 he
  have hmono : geluMinimumDepth d1 ≤ geluMinimumDepth d2 := by
    unfold geluMinimumDepth
    split_ifs <;> omega
  omega

/-- Witness for C17: with six towers degree 13 is accepted, hence degree 5. -/
theorem fhe_gelu_monotone_witness :
    (fhe_gelu (fun _ _ c => c) (⟨[1], 6⟩ :: []) 5 1).result
      ≠ .error .insufficientTowersForSeries :=
  fhe_gelu_monotone (fun _ _ c => c) ⟨[1], 6⟩ [] 5 13 1 (by decide) (by decide) (by
    rw [fhe_gelu_result_ok _ _ _ _ (by decide)]
    intro h
    cases h)

/-- Counterexample to C17 as stated: with five towers (`level = 3`) degree 201 is accepted,
since no range of the test covers it, while the smaller degree 200 is rejected. -/
theorem fhe_gelu_monotone_counterexample :
    (200 : Int) ≤ 201 ∧
    (fhe_gelu (fun _ _ c => c) [⟨[1], 5⟩] 201 1).result = .ok [⟨[1], 5⟩] ∧
    (fhe_gelu (fun _ _ c => c) [⟨[1], 5⟩] 200 1).result
      = .error .insufficientTowersForSeries := by
  refine ⟨by decide, ?_, ?_⟩
  · rw [fhe_gelu_result_ok _ _ _ _ (by decide)]
    rfl
  · rw [fhe_gelu_result_error _ _ _ _ (by decide)]

/-! ### Rotation by an amount within the batch size -/

theorem rotateSlots_emod (v : List ℚ) (r : Int) :
    rotateSlots v (r % (v.length : Int)) = rotateSlots v r := by
  unfold rotateSlots
  apply map_range_congr
  intro j _
  rw [Int.add_emod_emod]

theorem abs_emod_le (r : Int) (N : Nat) (hr : |r| ≤ (N : Int)) : |r % (N : Int)| ≤ (N : Int) := by
  rcases Nat.eq_zero_or_pos N with h | h
  · subst h
    simpa using hr
  · have h1 : 0 ≤ r % (N : Int) := Int.emod_nonneg _ (by omega)
    have h2 : r % (N : Int) < (N : Int) := Int.emod_lt_of_pos _ (by omega)
    rw [abs_of_nonneg h1]
    omega

/-- C18 (amended): for every ciphertext with batch size `N` and every integer `r` with
`|r| ≤ N`, the rotation `ctxt << r` succeeds, keeps the level, and yields the same slot vector
as `ctxt << (r mod N)`, slot `i` of the result being slot `(i + r) mod N` of the input. (For
`|r| > N` the rotation guard throws.) -/
theorem shiftLeft_cyclic (c : CKKSCiphertext) (r : Int) (hr : |r| ≤ (c.slots.length : Int)) :
    ∃ out out', shiftLeft c r = .ok out ∧
      shiftLeft c (r % (c.slots.length : Int)) = .ok out' ∧
      out.slots = out'.slots ∧ out.towers = c.towers ∧
      out.slots.length = c.slots.length ∧
      ∀ i, i < c.slots.length →
        out.slots.getD i 0
          = c.slots.getD (((i : Int) + r) % (c.slots.length : Int)).toNat 0 := by
  refine ⟨⟨rotateSlots c.slots r, c.towers⟩,
    ⟨rotateSlots c.slots (r % (c.slots.length : Int)), c.towers⟩,
    shiftLeft_ok c r hr, shiftLeft_ok c _ (abs_emod_le r _ hr),
    (rotateSlots_emod c.slots r).symm, rfl, rotateSlots_length c.slots r, ?_⟩
  intro i hi
  simp only [rotateSlots]
  rw [getD_map_range, if_pos hi]

/-- Witness for C18: four slots rotated by `-3`. -/
theorem shiftLeft_cyclic_witness :
    ∃ out out', shiftLeft ⟨[1, 2, 3, 4], 5⟩ (-3) = .ok out ∧
      shiftLeft ⟨[1, 2, 3, 4], 5⟩
          ((-3) % (((⟨[1, 2, 3, 4], 5⟩ : CKKSCiphertext).slots.length : Nat) : Int)) = .ok out' ∧
      out.slots = out'.slots ∧ out.towers = (⟨[1, 2, 3, 4], 5⟩ : CKKSCiphertext).towers ∧
      out.slots.length = (⟨[1, 2, 3, 4], 5⟩ : CKKSCiphertext).slots.length ∧
      ∀ i, i < (⟨[1, 2, 3, 4], 5⟩ : CKKSCiphertext).slots.length →
        out.slots.getD i 0
          = (⟨[1, 2, 3, 4], 5⟩ : CKKSCiphertext).slots.getD
              (((i : Int) + (-3))
                % (((⟨[1, 2, 3, 4], 5⟩ : CKKSCiphertext).slots.length : Nat) : Int)).toNat 0 :=
  shiftLeft_cyclic ⟨[1, 2, 3, 4], 5⟩ (-3) (by decide)

/-- Counterexample to C18 as stated: rotating four slots by `5` throws, while rotating them by
`5 mod 4 = 1` succeeds. -/
theorem shiftLeft_cyclic_counterexample :
    shiftLeft ⟨[1, 2, 3, 4], 5⟩ 5 = .error .rotationTooLarge ∧
    shiftLeft ⟨[1, 2, 3, 4], 5⟩ (5 % 4) = .ok ⟨[2, 3, 4, 1], 5⟩ := by
  refine ⟨shiftLeft_error _ 5 (by decide), ?_⟩
  rw [shiftLeft_ok _ _ (by decide)]
  rfl

/-! ## Lemmas: a convolution on a shard without depth -/

theorem range_eq_zero_cons (k : Nat) (hk : 1 ≤ k) : ∃ tl, List.range k = 0 :: tl := by
  obtain ⟨n, rfl⟩ : ∃ n, k = n + 1 := ⟨k - 1, by omega⟩
  rw [List.range_succ_eq_map]
  exact ⟨_, rfl⟩

theorem channelRotationTable_getD (shards : List CKKSCiphertext) (C P m k c p ki kj : Nat)
    (hc : c < C) (hp : p < P) (hki : ki < k) (hkj : kj < k) :
    ((((channelRotationTable shards C P m k).getD c []).getD p []).getD ki []).getD kj default
      = EvalAtIndex (shards.getD (c * P + p) default)
          (kernel_index_to_shift ki k * (m : Int) + kernel_index_to_shift kj k) := by
  unfold channelRotationTable
  rw [getD_map_range, if_pos hc, getD_map_range, if_pos hp]
  exact rotationTable_getD _ m k ki kj hki hkj

theorem get_all_rotations_channel_sharded_ok (shards : List CKKSCiphertext) (P m k N : Nat)
    (hk : 1 ≤ k) (hkN : k / 2 ≤ N) (hmN : m ≤ N)
    (hlen : ∀ f, f < shards.length / P * P → (shards.getD f default).slots.length = N) :
    get_all_rotations_channel_sharded shards P m k
      = .ok (channelRotationTable shards (shards.length / P) P m k) := by
  unfold get_all_rotations_channel_sharded channelRotationTable
  apply mapM_ok
  intro c hc
  have hc' : c < shards.length / P := List.mem_range.1 hc
  apply mapM_ok
  intro p hp
  have hp' : p < P := List.mem_range.1 hp
  have hidx : c * P + p < shards.length / P * P := by
    have : (c + 1) * P ≤ shards.length / P * P := Nat.mul_le_mul_right _ hc'
    have e : (c + 1) * P = c * P + P := by ring
    omega
  have hl := hlen _ hidx
  exact get_all_rotations_image_sharded_ok _ m k hk (by rw [hl]; exact hkN)
    (by rw [hl]; exact hmN)

theorem upsample_vertical_expand_single (x : CKKSCiphertext) (m : Nat) (hm : 1 ≤ m)
    (hN : x.slots.length = 4 * (m * m)) (ht : 2 < x.towers) :
    upsample_vertical_expand [x] m m 4 4 1
      = .ok [⟨(List.range x.slots.length).map fun j =>
          ∑ i ∈ Finset.range m,
            rotGet x.slots j (-(↑(3 * m * i) : Int))
              * (if j ∈ ((List.range m).flatMap fun c =>
                    (every_fourth 4).map fun k => c + i * m * 4 + k * (m * m))
                 then (1 : ℚ) else 0),
          x.towers - 1⟩] := by
  have e4 : m * m * 4 = 4 * (m * m) := by ring
  have r1 : List.range 1 = [0] := rfl
  have h0 := shiftLeft_ok x 0 (by simp)
  rw [rotateSlots_zero] at h0
  unfold upsample_vertical_expand
  simp only [List.getD_cons_zero, CKKSCiphertext.getBatchSize, hN, e4, gt_iff_lt, lt_irrefl,
    if_false, Nat.lt_irrefl, show (4 : Nat) > 2 from by decide, if_true, r1, List.mapM_cons,
    List.mapM_nil, Nat.zero_mul, Nat.cast_zero, h0]
  rw [if_neg (by omega)]
  simp only [bind, Except.bind, pure, Except.pure, List.flatten, List.append_nil,
    List.mapM_cons, List.mapM_nil]
  rw [mapM_ok _ (fun (i : Nat) => (⟨(List.range (4 * (m * m))).map fun j =>
      rotGet x.slots j (-(↑(3 * m * i) : Int))
        * (if j ∈ ((List.range m).flatMap fun c =>
              (every_fourth 4).map fun k => c + i * m * 4 + k * (m * m))
           then (1 : ℚ) else 0), x.towers - 1⟩ : CKKSCiphertext))]
  · simp only [List.map_cons, List.map_nil]
    congr 2
    exact sum_parts_map (4 * (m * m)) m hm _ _ (x.towers - 1) (fun r _ => rfl)
  · intro i hi
    have hi' : i < m := List.mem_range.1 hi
    have h := masked_rotation_ok ⟨x.slots, x.towers⟩ (-(↑(3 * m * i) : Int)) m i hi'
      (fun i => (List.range m).flatMap fun c =>
        (every_fourth 4).map fun k => c + i * m * 4 + k * (m * m)) 1
      (by
        rw [abs_neg, abs_of_nonneg (by positivity)]
        have : 3 * m * i ≤ 3 * m * m := Nat.mul_le_mul_left _ (by omega)
        have e : 3 * m * m = 3 * (m * m) := by ring
        simp only [hN]
        exact_mod_cast (by omega : 3 * m * i ≤ 4 * (m * m))) ht
    simp only [hN] at h
    simp only [shiftRight, bind, Except.bind] at h ⊢
    exact h

theorem upsample_horizontal_expand_single (y : CKKSCiphertext) (m : Nat) (hm : 1 ≤ m)
    (hN : y.slots.length = 4 * (m * m)) (ht : 2 < y.towers) :
    upsample_horizontal_expand [y] m m 1
      = .ok [⟨(List.range y.slots.length).map fun j =>
          ∑ i ∈ Finset.range m,
            rotGet y.slots j (-(i : Int))
              * (if j ∈ ((List.range m).flatMap fun r =>
                    (every_fourth 4).map fun k => i * 2 + r * m * 4 + k * (m * m))
                 then (1 : ℚ) else 0),
          y.towers - 1⟩] := by
  have hmm : 0 < m * m := Nat.mul_pos hm hm
  have e4 : m * m * 4 = 4 * (m * m) := by ring
  have hdiv : 4 * (m * m) / (m * m) = 4 := Nat.mul_div_cancel _ hmm
  unfold upsample_horizontal_expand
  simp only [List.getD_cons_zero, CKKSCiphertext.getBatchSize, hN, e4, gt_iff_lt, lt_irrefl,
    if_false, hdiv, show ¬ ((4 : Nat) = 0) from by decide, List.mapM_cons, List.mapM_nil]
  simp only [bind, Except.bind, pure, Except.pure]
  rw [mapM_ok _ (fun (i : Nat) => (⟨(List.range (4 * (m * m))).map fun j =>
      rotGet y.slots j (-(i : Int))
        * (if j ∈ ((List.range m).flatMap fun r =>
              (every_fourth 4).map fun k => i * 2 + r * m * 4 + k * (m * m))
           then (1 : ℚ) else 0), y.towers - 1⟩ : CKKSCiphertext))]
  · simp only [List.map_cons, List.map_nil]
    congr 2
    exact sum_parts_map (4 * (m * m)) m hm _ _ (y.towers - 1) (fun r _ => rfl)
  · intro i hi
    have hi' : i < m := List.mem_range.1 hi
    have h := masked_rotation_ok ⟨y.slots, y.towers⟩ (-(i : Int)) m i hi'
      (fun i => (List.range m).flatMap fun r =>
        (every_fourth 4).map fun k => i * 2 + r * m * 4 + k * (m * m)) 1
      (by
        rw [abs_neg, abs_of_nonneg (by positivity)]
        have : m ≤ m * m := Nat.le_mul_of_pos_left m hm
        simp only [hN]
        exact_mod_cast (by omega : i ≤ 4 * (m * m))) ht
    simp only [hN] at h
    simp only [shiftRight, bind, Except.bind] at h ⊢
    exact h

theorem every_fourth_four : every_fourth 4 = [0] := rfl

theorem mem_cells_upsample_vertical (m i j : Nat) :
    j ∈ ((List.range m).flatMap fun c =>
        (every_fourth 4).map fun k => c + i * m * 4 + k * (m * m))
      ↔ ∃ c, c < m ∧ j = c + i * m * 4 := by
  simp only [every_fourth_four, List.map_cons, List.map_nil, Nat.zero_mul, Nat.add_zero,
    List.mem_flatMap, List.mem_range, List.mem_singleton]

theorem mem_cells_upsample_horizontal (m i j : Nat) :
    j ∈ ((List.range m).flatMap fun r =>
        (every_fourth 4).map fun k => i * 2 + r * m * 4 + k * (m * m))
      ↔ ∃ r, r < m ∧ j = i * 2 + r * m * 4 := by
  simp only [every_fourth_four, List.map_cons, List.map_nil, Nat.zero_mul, Nat.add_zero,
    List.mem_flatMap, List.mem_range, List.mem_singleton]

theorem upsampleVertical_length (X : List ℚ) (m : Nat) :
    (upsampleVertical X m).length = X.length := by
  simp [upsampleVertical]

theorem upsampleHorizontal_length (Y : List ℚ) (m : Nat) :
    (upsampleHorizontal Y m).length = Y.length := by
  simp [upsampleHorizontal]

theorem row_div_mod (m i c : Nat) (hc : c < 4 * m) :
    (c + i * m * 4) / (4 * m) = i ∧ (c + i * m * 4) % (4 * m) = c := by
  have e : c + i * m * 4 = c + i * (4 * m) := by ring
  rw [e, Nat.add_mul_div_right _ _ (by omega), Nat.add_mul_mod_self_right,
    Nat.div_eq_of_lt hc, Nat.mod_eq_of_lt hc]
  omega

/-- After the vertical expansion, row `i` of the channel occupies the first `m` slots of the
`i`-th block of `4 * m` slots; the other slots are zero. -/
theorem upsampleVertical_getD (X : List ℚ) (m j : Nat) (hm : 1 ≤ m)
    (hX : X.length = 4 * (m * m)) (hj : j < X.length) :
    (upsampleVertical X m).getD j 0
      = if j % (4 * m) < m then X.getD (j / (4 * m) * m + j % (4 * m)) 0 else 0 := by
  have hrow : j / (4 * m) < m := by
    rw [Nat.div_lt_iff_lt_mul (by omega)]
    have e : m * (4 * m) = 4 * (m * m) := by ring
    omega
  have hdm := Nat.div_add_mod' j (4 * m)
  unfold upsampleVertical
  rw [getD_map_range, if_pos hj]
  by_cases hc : j % (4 * m) < m
  · rw [if_pos hc, Finset.sum_eq_single (j / (4 * m))]
    · have hmem : j ∈ ((List.range m).flatMap fun c =>
          (every_fourth 4).map fun k => c + j / (4 * m) * m * 4 + k * (m * m)) := by
        rw [mem_cells_upsample_vertical]
        refine ⟨j % (4 * m), hc, ?_⟩
        have e : j / (4 * m) * m * 4 = j / (4 * m) * (4 * m) := by ring
        omega
      rw [if_pos hmem, mul_one]
      have e3 : 3 * m * (j / (4 * m)) + (j / (4 * m) * m + j % (4 * m)) = j := by
        have e : 3 * m * (j / (4 * m)) + j / (4 * m) * m = j / (4 * m) * (4 * m) := by ring
        omega
      rw [rotGet_sub_ge X j _ (by omega) hj]
      congr 1
      omega
    · intro i _ hne
      have hnot : j ∉ ((List.range m).flatMap fun c =>
          (every_fourth 4).map fun k => c + i * m * 4 + k * (m * m)) := by
        rw [mem_cells_upsample_vertical]
        rintro ⟨c, hcm, hjc⟩
        have := (row_div_mod m i c (by omega)).1
        rw [← hjc] at this
        exact hne this.symm
      rw [if_neg hnot, mul_zero]
    · intro h
      exact absurd (Finset.mem_range.2 hrow) h
  · rw [if_neg hc]
    apply Finset.sum_eq_zero
    intro i _
    have hnot : j ∉ ((List.range m).flatMap fun c =>
        (every_fourth 4).map fun k => c + i * m * 4 + k * (m * m)) := by
      rw [mem_cells_upsample_vertical]
      rintro ⟨c, hcm, hjc⟩
      have := (row_div_mod m i c (by omega)).2
      rw [← hjc] at this
      omega
    rw [if_neg hnot, mul_zero]

/-- After the horizontal expansion, entry `i` of each block of `4 * m` slots has moved to
position `2 * i` of the block; the other slots are zero. -/
theorem upsampleHorizontal_getD (Y : List ℚ) (m j : Nat) (hm : 1 ≤ m)
    (hY : Y.length = 4 * (m * m)) (hj : j < Y.length) :
    (upsampleHorizontal Y m).getD j 0
      = if j % (4 * m) % 2 = 0 ∧ j % (4 * m) < 2 * m then Y.getD (j - j % (4 * m) / 2) 0
        else 0 := by
  have hrow : j / (4 * m) < m := by
    rw [Nat.div_lt_iff_lt_mul (by omega)]
    have e : m * (4 * m) = 4 * (m * m) := by ring
    omega
  have hdm := Nat.div_add_mod' j (4 * m)
  have hmem_iff : ∀ i, i < m →
      (j ∈ ((List.range m).flatMap fun r =>
          (every_fourth 4).map fun k => i * 2 + r * m * 4 + k * (m * m))
        ↔ j % (4 * m) = 2 * i) := by
    intro i hi
    rw [mem_cells_upsample_horizontal]
    constructor
    · rintro ⟨r, _, hjr⟩
      have := (row_div_mod m r (i * 2) (by omega)).2
      rw [← hjr] at this
      omega
    · intro h
      refine ⟨j / (4 * m), hrow, ?_⟩
      have e : j / (4 * m) * m * 4 = j / (4 * m) * (4 * m) := by ring
      omega
  unfold upsampleHorizontal
  rw [getD_map_range, if_pos hj]
  by_cases hc : j % (4 * m) % 2 = 0 ∧ j % (4 * m) < 2 * m
  · have hi0 : j % (4 * m) / 2 < m := by omega
    rw [if_pos hc, Finset.sum_eq_single (j % (4 * m) / 2)]
    · rw [if_pos ((hmem_iff _ hi0).2 (by omega)), mul_one,
        rotGet_sub_ge Y j _ (by omega) hj]
    · intro i hi hne
      rw [if_neg (fun h => hne (by
        have := (hmem_iff i (Finset.mem_range.1 hi)).1 h
        omega)), mul_zero]
    · intro h
      exact absurd (Finset.mem_range.2 hi0) h
  · rw [if_neg hc]
    apply Finset.sum_eq_zero
    intro i hi
    have hi' : i < m := Finset.mem_range.1 hi
    rw [if_neg (fun h => hc (by
      have := (hmem_iff i hi').1 h
      omega)), mul_zero]

/-- Source path `upsample -> small_shards_upsample` with `upsample_type = 0` on one shard of
`4 * m * m` slots with at least four towers. -/
theorem upsample_bed_of_nails_single (x : CKKSCiphertext) (m : Nat) (hm : 1 ≤ m)
    (hN : x.slots.length = 4 * (m * m)) (ht : 4 ≤ x.towers) :
    upsample [x] m [0] 0
      = .ok [⟨upsampleHorizontal (upsampleVertical x.slots m) m, x.towers - 1 - 1⟩] := by
  have hmm : 0 < m * m := Nat.mul_pos hm hm
  have hdiv : 4 * (m * m) / (m * m) = 4 := Nat.mul_div_cancel _ hmm
  have hs : ([0] : List Int).length = 1 := rfl
  have hV := upsample_vertical_expand_single x m hm hN (by omega)
  have hH := upsample_horizontal_expand_single
    ⟨upsampleVertical x.slots m, x.towers - 1⟩ m hm
    (by simp only [upsampleVertical_length]; exact hN) (by simp only; omega)
  unfold upsample
  simp only [CKKSCiphertext.getBatchSize, List.getD_cons_zero, hN]
  rw [if_pos (by omega)]
  unfold small_shards_upsample
  simp only [CKKSCiphertext.getBatchSize, List.getD_cons_zero, hN, hs, hdiv, Nat.div_one]
  rw [if_pos (by omega), hV]
  simp only [bind, Except.bind]
  have e1 : (⟨(List.range x.slots.length).map fun j =>
      ∑ i ∈ Finset.range m,
        rotGet x.slots j (-(↑(3 * m * i) : Int))
          * (if j ∈ ((List.range m).flatMap fun c =>
                (every_fourth 4).map fun k => c + i * m * 4 + k * (m * m))
             then (1 : ℚ) else 0), x.towers - 1⟩ : CKKSCiphertext)
      = ⟨upsampleVertical x.slots m, x.towers - 1⟩ := rfl
  rw [e1, hH]
  simp only [if_true, pure, Except.pure]
  rfl

theorem upsample_horizontal_expand_error (y : CKKSCiphertext) (m : Nat) (hm : 1 ≤ m)
    (hN : y.slots.length = 4 * (m * m)) (ht : y.towers ≤ 2) :
    upsample_horizontal_expand [y] m m 1 = .error .insufficientTowers := by
  have hmm : 0 < m * m := Nat.mul_pos hm hm
  have e4 : m * m * 4 = 4 * (m * m) := by ring
  have hdiv : 4 * (m * m) / (m * m) = 4 := Nat.mul_div_cancel _ hmm
  obtain ⟨tl, htl⟩ := range_eq_zero_cons m hm
  have h0 := shiftLeft_ok y 0 (by simp)
  rw [rotateSlots_zero] at h0
  unfold upsample_horizontal_expand
  simp only [List.getD_cons_zero, CKKSCiphertext.getBatchSize, hN, e4, gt_iff_lt, lt_irrefl,
    if_false, hdiv, show ¬ ((4 : Nat) = 0) from by decide]
  rw [mapM_error_head _ _ _ .insufficientTowers]
  · rfl
  · rw [mapM_error_first _ (List.range m) 0 tl .insufficientTowers htl]
    simp only [shiftRight, Nat.cast_zero, neg_zero, h0, bind, Except.bind]
    apply mulAssignVector_error
    · rw [getD_map_range, if_pos (by omega), fill_mask_length]
      exact hN.symm
    · exact ht

/-- With exactly three towers the vertical expansion succeeds and the horizontal expansion
throws. -/
theorem upsample_bed_of_nails_three_towers (x : CKKSCiphertext) (m : Nat) (hm : 1 ≤ m)
    (hN : x.slots.length = 4 * (m * m)) (ht : x.towers = 3) :
    upsample [x] m [0] 0 = .error .insufficientTowers := by
  have hmm : 0 < m * m := Nat.mul_pos hm hm
  have hdiv : 4 * (m * m) / (m * m) = 4 := Nat.mul_div_cancel _ hmm
  have hs : ([0] : List Int).length = 1 := rfl
  have hV := upsample_vertical_expand_single x m hm hN (by omega)
  have hH := upsample_horizontal_expand_error
    ⟨upsampleVertical x.slots m, x.towers - 1⟩ m hm
    (by simp only [upsampleVertical_length]; exact hN) (by simp only; omega)
  unfold upsample
  simp only [CKKSCiphertext.getBatchSize, List.getD_cons_zero, hN]
  rw [if_pos (by omega)]
  unfold small_shards_upsample
  simp only [CKKSCiphertext.getBatchSize, List.getD_cons_zero, hN, hs, hdiv, Nat.div_one]
  rw [if_pos (by omega), hV]
  simp only [bind, Except.bind]
  have e1 : (⟨(List.range x.slots.length).map fun j =>
      ∑ i ∈ Finset.range m,
        rotGet x.slots j (-(↑(3 * m * i) : Int))
          * (if j ∈ ((List.range m).flatMap fun c =>
                (every_fourth 4).map fun k => c + i * m * 4 + k * (m * m))
             then (1 : ℚ) else 0), x.towers - 1⟩ : CKKSCiphertext)
      = ⟨upsampleVertical x.slots m, x.towers - 1⟩ := rfl
  rw [e1, hH]

/-- C20 (amended): bed-of-nails upsampling. For every `m ≥ 1` and a single input shard of slot
width `N = 4 * m * m` with at least four towers remaining, whose first `m * m` slots hold an
`m x m` channel in row-major order (`sigma = [0]`), `upsample` with `upsample_type = 0` returns
exactly one shard (two towers lower) in which slot `(2y) * (2m) + 2x` equals the input slot
`y * m + x` for all `y, x < m` and every other slot is `0`. -/
theorem upsample_bed_of_nails (x : CKKSCiphertext) (m : Nat) (hm : 1 ≤ m)
    (hN : x.slots.length = 4 * (m * m)) (ht : 4 ≤ x.getTowersRemaining) :
    ∃ out, upsample [x] m [0] 0 = .ok [out] ∧ out.slots.length = 4 * (m * m) ∧
      out.towers = x.towers - 2 ∧
      (∀ y x', y < m → x' < m →
        out.slots.getD ((2 * y) * (2 * m) + 2 * x') 0 = x.slots.getD (y * m + x') 0) ∧
      (∀ j, j < 4 * (m * m) →
        (¬ ∃ y x', y < m ∧ x' < m ∧ j = (2 * y) * (2 * m) + 2 * x') →
        out.slots.getD j 0 = 0) := by
  have hVl : (upsampleVertical x.slots m).length = 4 * (m * m) := by
    rw [upsampleVertical_length, hN]
  refine ⟨_, upsample_bed_of_nails_single x m hm hN ht, ?_, ?_, ?_, ?_⟩
  · simp only [upsampleHorizontal_length, hVl]
  · simp only
    omega
  · intro y x' hy hx
    have e : (2 * y) * (2 * m) + 2 * x' = 2 * x' + y * m * 4 := by ring
    have hj : 2 * x' + y * m * 4 < 4 * (m * m) := by
      have : (y + 1) * m ≤ m * m := Nat.mul_le_mul_right _ hy
      have e2 : (y + 1) * m = y * m + m := by ring
      omega
    obtain ⟨hd, hmo⟩ := row_div_mod m y (2 * x') (by omega)
    simp only
    rw [e, upsampleHorizontal_getD _ m _ hm hVl (by rw [hVl]; exact hj), hmo,
      if_pos ⟨by omega, by omega⟩]
    have e3 : 2 * x' + y * m * 4 - 2 * x' / 2 = x' + y * m * 4 := by omega
    obtain ⟨hd2, hmo2⟩ := row_div_mod m y x' (by omega)
    rw [e3, upsampleVertical_getD _ m _ hm hN (by rw [hN]; omega), hmo2, hd2, if_pos hx]
  · intro j hj hnot
    simp only
    rw [upsampleHorizontal_getD _ m _ hm hVl (by rw [hVl]; exact hj)]
    have hrow : j / (4 * m) < m := by
      rw [Nat.div_lt_iff_lt_mul (by omega)]
      have e : m * (4 * m) = 4 * (m * m) := by ring
      omega
    have hdm := Nat.div_add_mod' j (4 * m)
    rw [if_neg]
    rintro ⟨h2, hlt⟩
    apply hnot
    refine ⟨j / (4 * m), j % (4 * m) / 2, hrow, by omega, ?_⟩
    have e : 2 * (j / (4 * m)) * (2 * m) = j / (4 * m) * (4 * m) := by ring
    omega

/-- Witness for C20: `m = 1`, the four-slot shard `[5, 5, 5, 5]` with four towers. -/
theorem upsample_bed_of_nails_witness :
    ∃ out, upsample [⟨[5, 5, 5, 5], 4⟩] 1 [0] 0 = .ok [out] ∧
      out.slots.length = 4 * (1 * 1) ∧
      out.towers = (⟨[5, 5, 5, 5], 4⟩ : CKKSCiphertext).towers - 2 ∧
      (∀ y x', y < 1 → x' < 1 →
        out.slots.getD ((2 * y) * (2 * 1) + 2 * x') 0
          = (⟨[5, 5, 5, 5], 4⟩ : CKKSCiphertext).slots.getD (y * 1 + x') 0) ∧
      (∀ j, j < 4 * (1 * 1) →
        (¬ ∃ y x', y < 1 ∧ x' < 1 ∧ j = (2 * y) * (2 * 1) + 2 * x') →
        out.slots.getD j 0 = 0) :=
  upsample_bed_of_nails ⟨[5, 5, 5, 5], 4⟩ 1 (by decide) (by decide) (by decide)

/-- Counterexample to C20 as stated: `m = 1` and the four-slot shard `[5, 5, 5, 5]` with three
towers left; the vertical expansion uses one, and the depth guard of the multiplication in the
horizontal expansion throws, so no shard is returned. -/
theorem upsample_bed_of_nails_counterexample :
    upsample [⟨[5, 5, 5, 5], 3⟩] 1 [0] 0 = .error .insufficientTowers :=
  upsample_bed_of_nails_three_towers ⟨[5, 5, 5, 5], 3⟩ 1 (by decide) (by decide) rfl

/-! ## Lemmas: the channel-sharded convolution with bleed -/

theorem bleedShardIndex_lt (s : Int) (p P b : Nat) (hp : p < P)
    (h : bleedShardIndex s p P = some b) : b < P := by
  unfold bleedShardIndex at h
  split_ifs at h <;> simp only [Option.some.injEq] at h <;> omega

theorem EvalMultPlain_rot_slots (x : CKKSCiphertext) (ρ : Int) (N : Nat) (f : Nat → ℚ)
    (hN : x.slots.length = N) :
    (EvalMultPlain (EvalAtIndex x ρ) ((List.range N).map f)).slots
      = (List.range N).map fun (j : Nat) => rotGet x.slots j ρ * f j := by
  subst hN
  exact EvalMultPlain_slots x ρ f

/-- One step of the helper of the channel-sharded convolution, as a pure function of the
accumulator. -/
theorem channel_helper_step (shards : List CKKSCiphertext) (F : boost_vector4d)
    (m N P p ki kj : Nat) (hp : p < P) (hki : ki < F.shape2) (hkj : kj < F.shape2)
    (hlen : ∀ f, f < 1 * P → (shards.getD f default).slots.length = N)
    (htow : ∀ f, f < 1 * P → 2 < (shards.getD f default).towers)
    (acc : CKKSCiphertext) :
    ∃ out, (do
        let product ← mulAssignVector
          ((((((channelRotationTable shards 1 P m F.shape2).getD 0 []).getD p []).getD ki []).getD
            kj default))
          ((List.range N).map fun i =>
            (((make_shift_mask_channel_shard (m / P) m (kernel_index_to_shift ki F.shape2)
              (kernel_index_to_shift kj F.shape2)).getD i 0 : Int) : ℚ) * F.elems 0 0 ki kj)
        let enc_sum := addAssign acc product
        match
          (if kernel_index_to_shift ki F.shape2 > 0 then
            if p + 1 = P then none else some (p + 1)
          else if kernel_index_to_shift ki F.shape2 < 0 then
            if p = 0 then none else some (p - 1)
          else none : Option Nat) with
        | some b => do
          let bleed ← mulAssignVector
            ((((((channelRotationTable shards 1 P m F.shape2).getD 0 []).getD b []).getD ki
              []).getD kj default))
            ((List.range N).map fun i =>
              (((make_shift_mask_bleed_channel_shard (m / P) m
                (kernel_index_to_shift ki F.shape2)
                (kernel_index_to_shift kj F.shape2)).getD i 0 : Int) : ℚ) * F.elems 0 0 ki kj)
          pure (addAssign enc_sum bleed)
        | none => pure enc_sum) = .ok out ∧
      ∀ g : Nat → ℚ, acc.slots = (List.range N).map g →
        out.slots = (List.range N).map fun i => g i + channelTerm shards F m P p ki kj i := by
  have hidx : ∀ q, q < P → 0 * P + q < 1 * P := by intro q hq; omega
  have hrot : ∀ q, q < P →
      (((((channelRotationTable shards 1 P m F.shape2).getD 0 []).getD q []).getD ki []).getD
        kj default)
      = EvalAtIndex (shards.getD q default)
          (kernel_index_to_shift ki F.shape2 * (m : Int) + kernel_index_to_shift kj F.shape2) := by
    intro q hq
    rw [channelRotationTable_getD shards 1 P m F.shape2 0 q ki kj (by omega) hq hki hkj,
      Nat.zero_mul, Nat.zero_add]
  have hmul : ∀ q, q < P → ∀ f : Nat → ℚ,
      mulAssignVector (EvalAtIndex (shards.getD q default)
          (kernel_index_to_shift ki F.shape2 * (m : Int) + kernel_index_to_shift kj F.shape2))
        ((List.range N).map f)
      = .ok (EvalMultPlain (EvalAtIndex (shards.getD q default)
          (kernel_index_to_shift ki F.shape2 * (m : Int) + kernel_index_to_shift kj F.shape2))
        ((List.range N).map f)) := by
    intro q hq f
    apply mulAssignVector_ok
    · simp only [List.length_map, List.length_range, EvalAtIndex_length]
      exact (hlen q (by omega)).symm
    · simpa [EvalAtIndex] using htow q (by omega)
  rw [hrot p hp, hmul p hp]
  simp only [bind, Except.bind]
  have hb : (if kernel_index_to_shift ki F.shape2 > 0 then
            if p + 1 = P then none else some (p + 1)
          else if kernel_index_to_shift ki F.shape2 < 0 then
            if p = 0 then none else some (p - 1)
          else none : Option Nat) = bleedShardIndex (kernel_index_to_shift ki F.shape2) p P := rfl
  rw [hb]
  cases hbleed : bleedShardIndex (kernel_index_to_shift ki F.shape2) p P with
  | none =>
    refine ⟨_, rfl, ?_⟩
    intro g hg
    rw [addAssign_slots N _ _ g _ hg (EvalMultPlain_rot_slots _ _ N _ (hlen p (by omega)))]
    apply map_range_congr
    intro i _
    simp only [channelTerm, hbleed, add_zero]
  | some b =>
    have hbP := bleedShardIndex_lt _ p P b hp hbleed
    simp only []
    rw [hrot b hbP, hmul b hbP]
    refine ⟨_, rfl, ?_⟩
    intro g hg
    rw [addAssign_slots N _ _ _ _
      (addAssign_slots N _ _ g _ hg (EvalMultPlain_rot_slots _ _ N _ (hlen p (by omega))))
      (EvalMultPlain_rot_slots _ _ N _ (hlen b (by omega)))]
    apply map_range_congr
    intro i _
    simp only [channelTerm, hbleed]
    ring

/-- A loop in the exception monad each of whose steps returns and adds a vector to the slots of
the accumulator returns, and adds the sum of the vectors. -/
theorem foldlM_range_slots (N : Nat) (f : CKKSCiphertext → Nat → Except Error CKKSCiphertext)
    (T : Nat → Nat → ℚ) (n : Nat)
    (hstep : ∀ a, a < n → ∀ acc : CKKSCiphertext, ∃ out, f acc a = .ok out ∧
      ∀ g : Nat → ℚ, acc.slots = (List.range N).map g →
        out.slots = (List.range N).map fun i => g i + T a i)
    (init : CKKSCiphertext) :
    ∃ out, (List.range n).foldlM f init = .ok out ∧
      ∀ g : Nat → ℚ, init.slots = (List.range N).map g →
        out.slots = (List.range N).map fun i => g i + ∑ a ∈ Finset.range n, T a i := by
  induction n with
  | zero =>
    refine ⟨init, rfl, ?_⟩
    intro g hg
    simpa using hg
  | succ n ih =>
    obtain ⟨mid, hmid, hmidslots⟩ := ih (fun a ha => hstep a (by omega))
    obtain ⟨out, hout, houtslots⟩ := hstep n (by omega) mid
    refine ⟨out, ?_, ?_⟩
    · rw [List.range_succ, List.foldlM_append, hmid]
      simp only [bind, Except.bind, List.foldlM_cons, List.foldlM_nil, hout, pure, Except.pure]
    · intro g hg
      rw [houtslots _ (hmidslots g hg)]
      apply map_range_congr
      intro i _
      rw [Finset.sum_range_succ]
      ring

/-- The helper of the channel-sharded convolution for shard `p` of a single channel: it returns,
and slot `i` of the result is the sum of the terms of all kernel offsets. -/
theorem convolution_helper_channel_sharded_ok (shards : List CKKSCiphertext)
    (F : boost_vector4d) (m N P p : Nat) (hk : 1 ≤ F.shape2) (hP : m * m / N = P)
    (hp : p < P)
    (hlen : ∀ f, f < 1 * P → (shards.getD f default).slots.length = N)
    (htow : ∀ f, f < 1 * P → 2 < (shards.getD f default).towers) :
    ∃ out, convolution_helper_channel_sharded (channelRotationTable shards 1 P m F.shape2) F m
        0 p 0 = .ok out ∧
      out.slots = (List.range N).map fun i =>
        ∑ ki ∈ Finset.range F.shape2, ∑ kj ∈ Finset.range F.shape2,
          channelTerm shards F m P p ki kj i := by
  have h00 := channelRotationTable_getD shards 1 P m F.shape2 0 0 0 0 (by omega) (by omega)
    (by omega) (by omega)
  have hl0 := hlen 0 (by omega)
  rw [Nat.zero_mul, Nat.zero_add] at h00
  have hzero : (subAssign
      (EvalAtIndex (shards.getD 0 default)
        (kernel_index_to_shift 0 F.shape2 * (m : Int) + kernel_index_to_shift 0 F.shape2))
      (EvalAtIndex (shards.getD 0 default)
        (kernel_index_to_shift 0 F.shape2 * (m : Int) + kernel_index_to_shift 0 F.shape2))).slots
      = (List.range N).map fun _ => (0 : ℚ) := by
    simp only [subAssign, EvalSub, EvalAtIndex, rotateSlots, zipWith_map_range, sub_self, hl0]
  unfold convolution_helper_channel_sharded
  simp only [h00, CKKSCiphertext.getBatchSize, EvalAtIndex_length, hl0, hP]
  obtain ⟨out, hout, hslots⟩ := foldlM_range_slots N
    (fun enc_sum ki => (List.range F.shape2).foldlM (fun enc_sum kj => do
        let product ← mulAssignVector
          ((((((channelRotationTable shards 1 P m F.shape2).getD 0 []).getD p []).getD ki []).getD
            kj default))
          ((List.range N).map fun i =>
            (((make_shift_mask_channel_shard (m / P) m (kernel_index_to_shift ki F.shape2)
              (kernel_index_to_shift kj F.shape2)).getD i 0 : Int) : ℚ) * F.elems 0 0 ki kj)
        let enc_sum := addAssign enc_sum product
        match
          (if kernel_index_to_shift ki F.shape2 > 0 then
            if p + 1 = P then none else some (p + 1)
          else if kernel_index_to_shift ki F.shape2 < 0 then
            if p = 0 then none else some (p - 1)
          else none : Option Nat) with
        | some b => do
          let bleed ← mulAssignVector
            ((((((channelRotationTable shards 1 P m F.shape2).getD 0 []).getD b []).getD ki
              []).getD kj default))
            ((List.range N).map fun i =>
              (((make_shift_mask_bleed_channel_shard (m / P) m
                (kernel_index_to_shift ki F.shape2)
                (kernel_index_to_shift kj F.shape2)).getD i 0 : Int) : ℚ) * F.elems 0 0 ki kj)
          pure (addAssign enc_sum bleed)
        | none => pure enc_sum) enc_sum)
    (fun ki i => ∑ kj ∈ Finset.range F.shape2, channelTerm shards F m P p ki kj i)
    F.shape2
    (by
      intro ki hki acc
      exact foldlM_range_slots N _ (fun kj i => channelTerm shards F m P p ki kj i) F.shape2
        (fun kj hkj acc2 => channel_helper_step shards F m N P p ki kj hp hki hkj hlen htow acc2)
        acc)
    (subAssign
      (EvalAtIndex (shards.getD 0 default)
        (kernel_index_to_shift 0 F.shape2 * (m : Int) + kernel_index_to_shift 0 F.shape2))
      (EvalAtIndex (shards.getD 0 default)
        (kernel_index_to_shift 0 F.shape2 * (m : Int) + kernel_index_to_shift 0 F.shape2)))
  refine ⟨out, hout, ?_⟩
  rw [hslots _ hzero]
  apply map_range_congr
  intro i _
  rw [zero_add]

/-- The channel-sharded convolution of one channel split over `P` shards, one output channel:
it returns `P` shards, and slot `i` of shard `p` is the sum of the terms of all kernel
offsets. -/
theorem conv2d_channel_sharded_single_channel (shards : List CKKSCiphertext)
    (F : boost_vector4d) (m N P : Nat) (hk : 1 ≤ F.shape2) (hN : 1 ≤ N) (hP1 : 1 ≤ P)
    (hP : m * m / N = P) (hkN : F.shape2 / 2 ≤ N) (hmN : m ≤ N) (hF1 : F.shape1 = 1)
    (hshards : shards.length = P)
    (hlen : ∀ f, f < P → (shards.getD f default).slots.length = N)
    (htow : ∀ f, f < P → 2 < (shards.getD f default).towers) :
    ∃ outs, conv2d_channel_sharded shards F m = .ok outs ∧ outs.length = P ∧
      ∀ p, p < P → (outs.getD p default).slots = (List.range N).map fun i =>
        ∑ ki ∈ Finset.range F.shape2, ∑ kj ∈ Finset.range F.shape2,
          channelTerm shards F m P p ki kj i := by
  have hfirst := hlen 0 (by omega)
  have hC : shards.length / P = 1 := by rw [hshards]; exact Nat.div_self (by omega)
  have hlen1 : ∀ f, f < 1 * P → (shards.getD f default).slots.length = N :=
    fun f hf => hlen f (by omega)
  have htow1 : ∀ f, f < 1 * P → 2 < (shards.getD f default).towers :=
    fun f hf => htow f (by omega)
  have hrot := get_all_rotations_channel_sharded_ok shards P m F.shape2 N hk hkN hmN
    (by rw [hC]; exact hlen1)
  rw [hC] at hrot
  have r1 : List.range 1 = [0] := rfl
  let H : Nat → CKKSCiphertext := fun p =>
    match convolution_helper_channel_sharded (channelRotationTable shards 1 P m F.shape2) F m
        0 p 0 with
    | .ok c => c
    | .error _ => default
  have hH : ∀ p, p < P →
      convolution_helper_channel_sharded (channelRotationTable shards 1 P m F.shape2) F m 0 p 0
        = .ok (H p) ∧
      (H p).slots = (List.range N).map fun i =>
        ∑ ki ∈ Finset.range F.shape2, ∑ kj ∈ Finset.range F.shape2,
          channelTerm shards F m P p ki kj i := by
    intro p hp
    obtain ⟨out, hout, hslots⟩ :=
      convolution_helper_channel_sharded_ok shards F m N P p hk hP hp hlen1 htow1
    have hHp : H p = out := by
      simp only [H, hout]
    rw [hHp]
    exact ⟨hout, hslots⟩
  have hzero : (subAssign (shards.getD 0 default) (shards.getD 0 default)).slots
      = (List.range N).map fun _ => (0 : ℚ) := by
    have hx := eq_map_range_getD (shards.getD 0 default).slots 0
    rw [hfirst] at hx
    simp only [subAssign, EvalSub]
    conv_lhs => rw [hx, zipWith_map_range]
    apply map_range_congr
    intro i _
    exact sub_self _
  refine ⟨(List.range P).map fun p =>
    addAssign (subAssign (shards.getD 0 default) (shards.getD 0 default)) (H p), ?_, by simp, ?_⟩
  · unfold conv2d_channel_sharded
    simp only [List.getD_cons_zero, CKKSCiphertext.getBatchSize, hfirst, hP, hC, hF1, hrot, bind,
      Except.bind, r1, List.foldlM_cons, List.foldlM_nil, pure, Except.pure, Nat.zero_mul,
      Nat.zero_add, Nat.mul_one, Nat.one_mul, List.foldl_cons, List.foldl_nil]
    rw [foldlM_ok _ (fun acc p => acc.set p (H p)) _ _
      (by
        intro acc p hp
        rw [(hH p (List.mem_range.1 hp)).1])]
    rw [foldl_set_range]
    simp only []
    congr 1
    have hfold := foldl_set_range P
      (fun p => addAssign (subAssign (shards.getD 0 default) (shards.getD 0 default))
        (((List.range P).map H).getD p default)) default
    rw [hfold]
    apply map_range_congr
    intro p hp
    rw [getD_map_range, if_pos hp]
  · intro p hp
    rw [getD_map_range, if_pos hp,
      addAssign_slots N _ _ _ _ hzero (hH p hp).2]
    apply map_range_congr
    intro i _
    rw [zero_add]

theorem rotGet_of_eq (X : List ℚ) (i q : Nat) (ρ δ : Int)
    (h : (i : Int) + ρ = (q : Int) + (X.length : Int) * δ) (hq : q < X.length) :
    rotGet X i ρ = X.getD q 0 := by
  unfold rotGet
  rw [h, Int.add_mul_emod_self_left, Int.emod_eq_of_lt (by omega) (by omega), Int.toNat_ofNat]

theorem make_shift_mask_bleed_channel_shard_getD (rows cols : Nat) (dr dc : Int) (i : Nat)
    (hi : i < rows * cols) :
    (make_shift_mask_bleed_channel_shard rows cols dr dc).getD i 0 =
      if ¬ (0 ≤ (↑(i / cols) : Int) + dr ∧ (↑(i / cols) : Int) + dr < rows) ∧
          (0 ≤ (↑(i % cols) : Int) + dc ∧ (↑(i % cols) : Int) + dc < cols) then 1 else 0 := by
  unfold make_shift_mask_bleed_channel_shard
  simp only []
  rw [getD_map_range, if_pos hi, generate_ud_mask_getD rows cols dr i hi,
    generate_lr_mask_getD rows cols dc i hi]
  by_cases h1 : 0 ≤ (↑(i / cols) : Int) + dr ∧ (↑(i / cols) : Int) + dr < rows <;>
  by_cases h2 : 0 ≤ (↑(i % cols) : Int) + dc ∧ (↑(i % cols) : Int) + dc < cols
  · rw [if_pos h1, if_pos h2, if_neg (fun h => h.1 h1)]; rfl
  · rw [if_pos h1, if_neg h2, if_neg (fun h => h.1 h1)]; rfl
  · rw [if_neg h1, if_pos h2, if_pos ⟨h1, h2⟩]; rfl
  · rw [if_neg h1, if_neg h2, if_neg (fun h => h2 h.2)]; rfl

/-- The masks of the channel-sharded helper at grid position `(y, x)` of a shard of `R` rows. -/
theorem channel_masks_at (R m y x : Nat) (a b : Int) (hy : y < R) (hx : x < m) :
    (make_shift_mask_channel_shard R m a b).getD (y * m + x) 0
        = (if (0 ≤ (y : Int) + a ∧ (y : Int) + a < R) ∧ (0 ≤ (x : Int) + b ∧ (x : Int) + b < m)
            then 1 else 0) ∧
    (make_shift_mask_bleed_channel_shard R m a b).getD (y * m + x) 0
        = (if ¬ (0 ≤ (y : Int) + a ∧ (y : Int) + a < R) ∧
            (0 ≤ (x : Int) + b ∧ (x : Int) + b < m) then 1 else 0) := by
  obtain ⟨hd, hmo⟩ := grid_div_mod m y x hx
  have hi : y * m + x < R * m := channel_lt R m y x hy hx
  rw [make_shift_mask_channel_shard_getD R m a b _ hi,
    make_shift_mask_bleed_channel_shard_getD R m a b _ hi]
  unfold shiftInBounds
  simp only [hd, hmo]
  refine ⟨?_, trivial⟩
  by_cases h1 : 0 ≤ (y : Int) + a ∧ (y : Int) + a < R <;>
  by_cases h2 : 0 ≤ (x : Int) + b ∧ (x : Int) + b < m
  · rw [if_pos ⟨h1.1, h1.2, h2.1, h2.2⟩, if_pos ⟨h1, h2⟩]
  · rw [if_neg (fun h => h2 ⟨h.2.2.1, h.2.2.2⟩), if_neg (fun h => h2 h.2)]
  · rw [if_neg (fun h => h1 ⟨h.1, h.2.1⟩), if_neg (fun h => h1 h.1)]
  · rw [if_neg (fun h => h1 ⟨h.1, h.2.1⟩), if_neg (fun h => h1 h.1)]

/-- A pixel of the sharded image inside the image. -/
theorem shardedImage_inside (shards : List CKKSCiphertext) (m P R q u v : Nat) (hm : m = P * R)
    (hq : q < P) (hu : u < R) (hv : v < m) :
    shardedImage shards m R (↑(q * R + u) : Int) (v : Int)
      = (shards.getD q default).slots.getD (u * m + v) 0 := by
  have hlt : q * R + u < m := by rw [hm]; exact channel_lt P R q u hq hu
  obtain ⟨hd, hmo⟩ := grid_div_mod R q u hu
  unfold shardedImage
  rw [if_pos ⟨by omega, by exact_mod_cast hlt, by omega, by exact_mod_cast hv⟩,
    Int.toNat_ofNat, Int.toNat_ofNat, hd, hmo]

theorem shardedImage_outside (shards : List CKKSCiphertext) (m R : Nat) (r c : Int)
    (h : ¬ (0 ≤ r ∧ r < m ∧ 0 ≤ c ∧ c < m)) : shardedImage shards m R r c = 0 := by
  unfold shardedImage
  rw [if_neg h]

/-- One kernel offset `(a, b)` of the channel-sharded helper at grid position `(y, x)` of shard
`p`: the masked rotation of the shard plus the bleed-masked rotation of the adjacent shard is
the kernel weight times the pixel `(p * R + y + a, x + b)` of the zero-padded image. -/
theorem channel_term_cases (shards : List CKKSCiphertext) (w : ℚ) (m P R p y x : Nat)
    (a b : Int) (hm : m = P * R) (hp : p < P) (hy : y < R) (hx : x < m)
    (hlen : ∀ f, f < P → (shards.getD f default).slots.length = R * m) (ha : |a| ≤ (R : Int)) :
    rotGet (shards.getD p default).slots (y * m + x) (a * (m : Int) + b)
        * ((((make_shift_mask_channel_shard R m a b).getD (y * m + x) 0 : Int) : ℚ) * w)
      + (match bleedShardIndex a p P with
        | some q =>
          rotGet (shards.getD q default).slots (y * m + x) (a * (m : Int) + b)
            * ((((make_shift_mask_bleed_channel_shard R m a b).getD (y * m + x) 0 : Int) : ℚ) * w)
        | none => 0)
      = w * shardedImage shards m R ((↑(p * R + y) : Int) + a) ((x : Int) + b) := by
  obtain ⟨hM, hB⟩ := channel_masks_at R m y x a b hy hx
  rw [hM, hB]
  have hal := abs_le.mp ha
  by_cases hcol : 0 ≤ (x : Int) + b ∧ (x : Int) + b < m
  · obtain ⟨v, hv⟩ : ∃ v : Nat, (v : Int) = (x : Int) + b :=
      ⟨((x : Int) + b).toNat, Int.toNat_of_nonneg hcol.1⟩
    have hvm : v < m := by omega
    have hb : b = (v : Int) - x := by omega
    by_cases hrow : 0 ≤ (y : Int) + a ∧ (y : Int) + a < R
    · obtain ⟨u, hu⟩ : ∃ u : Nat, (u : Int) = (y : Int) + a :=
        ⟨((y : Int) + a).toNat, Int.toNat_of_nonneg hrow.1⟩
      have huR : u < R := by omega
      have ha2 : a = (u : Int) - y := by omega
      rw [if_pos ⟨hrow, hcol⟩, if_neg (fun h => h.1 hrow)]
      have himg : (↑(p * R + y) : Int) + a = ↑(p * R + u) := by push_cast; omega
      rw [himg, ← hv, shardedImage_inside shards m P R p u v hm hp huR hvm,
        rotGet_of_eq _ (y * m + x) (u * m + v) (a * (m : Int) + b) 0
          (by rw [ha2, hb]; push_cast; ring)
          (by rw [hlen p hp]; exact channel_lt R m u v huR hvm)]
      cases bleedShardIndex a p P <;> simp [mul_comm]
    · rw [if_neg (fun h => hrow h.1), if_pos ⟨hrow, hcol⟩]
      rcases lt_or_ge ((y : Int) + a) 0 with hneg | hpos
      · obtain ⟨u, hu⟩ : ∃ u : Nat, (u : Int) = (y : Int) + a + R :=
          ⟨((y : Int) + a + R).toNat, Int.toNat_of_nonneg (by omega)⟩
        have huR : u < R := by omega
        have ha2 : a = (u : Int) - y - R := by omega
        unfold bleedShardIndex
        rw [if_neg (by omega), if_pos (by omega)]
        by_cases hp0 : p = 0
        · rw [if_pos hp0, shardedImage_outside shards m R _ _ (by
            subst hp0; intro h; have := h.1; push_cast at this; omega)]
          simp
        · rw [if_neg hp0]
          have hq : p - 1 < P := by omega
          have himg : (↑(p * R + y) : Int) + a = ↑((p - 1) * R + u) := by
            obtain ⟨q, rfl⟩ : ∃ q, p = q + 1 := ⟨p - 1, by omega⟩
            rw [Nat.add_sub_cancel, ha2]; push_cast; ring
          rw [himg, ← hv, shardedImage_inside shards m P R (p - 1) u v hm hq huR hvm]
          simp only []
          rw [rotGet_of_eq (shards.getD (p - 1) default).slots (y * m + x) (u * m + v)
            (a * (m : Int) + b) (-1)
            (by rw [ha2, hb, hlen (p - 1) hq]; push_cast; ring)
            (by rw [hlen (p - 1) hq]; exact channel_lt R m u v huR hvm)]
          simp [mul_comm]
      · have hge : (R : Int) ≤ (y : Int) + a := by
          by_contra hc; exact hrow ⟨hpos, by omega⟩
        obtain ⟨u, hu⟩ : ∃ u : Nat, (u : Int) = (y : Int) + a - R :=
          ⟨((y : Int) + a - R).toNat, Int.toNat_of_nonneg (by omega)⟩
        have huR : u < R := by omega
        have ha2 : a = (u : Int) - y + R := by omega
        unfold bleedShardIndex
        rw [if_pos (by omega)]
        by_cases hpl : p + 1 = P
        · rw [if_pos hpl, shardedImage_outside shards m R _ _ (by
            intro h; have h2 := h.2.1
            rw [hm, ← hpl] at h2; push_cast at h2
            have e : ((p : Int) + 1) * R = p * R + R := by ring
            rw [e] at h2; omega)]
          simp
        · rw [if_neg hpl]
          have hq : p + 1 < P := by omega
          have himg : (↑(p * R + y) : Int) + a = ↑((p + 1) * R + u) := by
            rw [ha2]; push_cast; ring
          rw [himg, ← hv, shardedImage_inside shards m P R (p + 1) u v hm hq huR hvm]
          simp only []
          rw [rotGet_of_eq (shards.getD (p + 1) default).slots (y * m + x) (u * m + v)
            (a * (m : Int) + b) 1
            (by rw [ha2, hb, hlen (p + 1) hq]; push_cast; ring)
            (by rw [hlen (p + 1) hq]; exact channel_lt R m u v huR hvm)]
          simp [mul_comm]
  · rw [if_neg (fun h => hcol h.2), if_neg (fun h => hcol h.2),
      shardedImage_outside shards m R _ _ (fun h => hcol ⟨h.2.2.1, h.2.2.2⟩)]
    cases bleedShardIndex a p P <;> simp

/-- C19 (amended): channel-sharded convolution with bleed is the zero-padded cross-correlation
on the whole image. One input channel and one output channel; an `m x m` image split by rows
over `P = m * m / N ≥ 2` shards of slot width `N = R * m`, each holding `R = m / P ≥ 1` full
rows (`m = P * R`) and each with more than two towers remaining; a `k x k` filter `F` with
every `|kernel_index_to_shift i k| ≤ R`. Then `conv2d` returns `P` shards, and slot `y * m + x`
of output shard `p` is the sum over `ki, kj < k` of
`F[0][0][ki][kj] * img(p * R + y + s(ki), x + s(kj))`, where `img` is zero outside the
`m x m` image: the first shard receives nothing from above and the last nothing from below. -/
theorem conv2d_channel_sharded_bleed (shards : List CKKSCiphertext) (F : boost_vector4d)
    (sigma : List Int) (m P R : Nat) (hP : 2 ≤ P) (hR : 1 ≤ R) (hm : m = P * R)
    (hshards : shards.length = P)
    (hlen : ∀ f, f < P → (shards.getD f default).getBatchSize = R * m)
    (htow : ∀ f, f < P → 2 < (shards.getD f default).getTowersRemaining)
    (hF1 : F.shape1 = 1) (hk : 1 ≤ F.shape2)
    (hshift : ∀ i, i < F.shape2 → |kernel_index_to_shift i F.shape2| ≤ (R : Int)) :
    ∃ outs, conv2d shards F m sigma = .ok outs ∧ outs.length = P ∧
      ∀ p y x, p < P → y < R → x < m →
        (outs.getD p default).slots.getD (y * m + x) 0 =
          ∑ ki ∈ Finset.range F.shape2, ∑ kj ∈ Finset.range F.shape2,
            F.elems 0 0 ki kj *
              shardedImage shards m R
                ((↑(p * R + y) : Int) + kernel_index_to_shift ki F.shape2)
                ((x : Int) + kernel_index_to_shift kj F.shape2) := by
  have hmpos : 1 ≤ m := by rw [hm]; exact Nat.mul_pos (by omega) hR
  have hN : 1 ≤ R * m := Nat.mul_pos hR hmpos
  have hmN : m ≤ R * m := Nat.le_mul_of_pos_left m hR
  have hRN : R ≤ R * m := Nat.le_mul_of_pos_right R hmpos
  have hmP : m / P = R := by rw [hm]; exact Nat.mul_div_cancel_left R (by omega)
  have hPdiv : m * m / (R * m) = P := by
    have e : m * m = P * (R * m) := by nth_rewrite 1 [hm]; ring
    rw [e, Nat.mul_div_cancel _ (by omega)]
  have hNlt : R * m < m * m := by
    have hRm : R < m := by rw [hm]; nlinarith
    exact Nat.mul_lt_mul_of_pos_right hRm (by omega)
  have hkR : F.shape2 / 2 ≤ R := by
    have h1 := hshift (F.shape2 - 1) (by omega)
    rw [kernel_index_to_shift_eq _ _ hk] at h1
    have h2 := (abs_le.mp h1).2
    omega
  have hlen' : ∀ f, f < P → (shards.getD f default).slots.length = R * m := hlen
  obtain ⟨outs, hout, hlenout, hslots⟩ :=
    conv2d_channel_sharded_single_channel shards F m (R * m) P hk hN (by omega) hPdiv
      (by omega) hmN hF1 hshards hlen' htow
  refine ⟨outs, ?_, hlenout, ?_⟩
  · unfold conv2d
    simp only [CKKSCiphertext.getBatchSize, hlen' 0 (by omega)]
    rw [if_neg (by omega)]
    exact hout
  · intro p y x hp hy hx
    rw [hslots p hp, getD_map_range, if_pos (channel_lt R m y x hy hx)]
    apply Finset.sum_congr rfl
    intro ki hki
    apply Finset.sum_congr rfl
    intro kj _
    unfold channelTerm
    rw [hmP]
    exact channel_term_cases shards (F.elems 0 0 ki kj) m P R p y x _ _ hm hp hy hx hlen'
      (hshift ki (Finset.mem_range.1 hki))

/-- Witness for C19: a `2 x 2` image over two shards of one row each (`P = 2`, `R = 1`), three
towers each, and a `3 x 3` filter of ones. -/
theorem conv2d_channel_sharded_bleed_witness :
    ∃ outs, conv2d [⟨[1, 2], 3⟩, ⟨[3, 4], 3⟩] ⟨1, 1, 3, 3, fun _ _ _ _ => 1⟩ 2 [0] = .ok outs ∧
      outs.length = 2 ∧
      ∀ p y x, p < 2 → y < 1 → x < 2 →
        (outs.getD p default).slots.getD (y * 2 + x) 0 =
          ∑ ki ∈ Finset.range 3, ∑ kj ∈ Finset.range 3,
            (1 : ℚ) *
              shardedImage [⟨[1, 2], 3⟩, ⟨[3, 4], 3⟩] 2 1
                ((↑(p * 1 + y) : Int) + kernel_index_to_shift ki 3)
                ((x : Int) + kernel_index_to_shift kj 3) :=
  conv2d_channel_sharded_bleed [⟨[1, 2], 3⟩, ⟨[3, 4], 3⟩] ⟨1, 1, 3, 3, fun _ _ _ _ => 1⟩ [0]
    2 2 1 (by decide) (by decide) rfl rfl
    (by intro f hf; interval_cases f <;> rfl)
    (by intro f hf; interval_cases f <;> decide)
    rfl (by decide)
    (by intro i hi; interval_cases i <;> decide)

/-- Counterexample to C19 as stated: the same `2 x 2` image over two shards of one row each,
both with only two towers remaining, and a `1 x 1` filter; the depth guard of the
multiplication by the masked filter throws, so no shard list is returned. -/
theorem conv2d_channel_sharded_bleed_counterexample :
    conv2d [⟨[1, 2], 2⟩, ⟨[3, 4], 2⟩] ⟨1, 1, 1, 1, fun _ _ _ _ => 1⟩ 2 [0]
      = .error .insufficientTowers := by
  rfl

/-! ## Claims C21 - C30 -/

/-- A mixed-radix index `(a * B + b) * C + c` with `b < B`, `c < C` determines its digits. -/
theorem mixed_radix_inj (B C a b c a' b' c' : Nat) (hb : b < B) (hc : c < C) (hb' : b' < B)
    (hc' : c' < C) (h : (a * B + b) * C + c = (a' * B + b') * C + c') :
    a = a' ∧ b = b' ∧ c = c' := by
  obtain ⟨h1, h2⟩ := grid_div_mod C (a * B + b) c hc
  obtain ⟨h1', h2'⟩ := grid_div_mod C (a' * B + b') c' hc'
  have hc2 : c = c' := by rw [← h2, ← h2', h]
  have hab : a * B + b = a' * B + b' := by rw [← h1, ← h1', h]
  obtain ⟨h3, h4⟩ := grid_div_mod B a b hb
  obtain ⟨h3', h4'⟩ := grid_div_mod B a' b' hb'
  exact ⟨by rw [← h3, ← h3', hab], by rw [← h4, ← h4', hab], hc2⟩

/-- A mixed-radix index with digits `a < A`, `b < B`, `c < C` is below `A * B * C`. -/
theorem mixed_radix_lt (A B C a b c : Nat) (ha : a < A) (hb : b < B) (hc : c < C) :
    (a * B + b) * C + c < A * B * C :=
  channel_lt (A * B) C (a * B + b) c (channel_lt A B a b ha hb) hc

/-- C24: the parallel loops of `conv2d` write distinct, in-range cells of the pre-sized
partial-result array. In `conv2d_image_sharded` (array of `C * S * F` cells) the cell index
`s * (C * F) + f * C + r` of iteration `(s, f, r)`, `s < S`, `f < F`, `r < C`, is below
`C * S * F` and determines `(s, f, r)`; in `conv2d_channel_sharded` (array of `I * P * O`
cells) the cell index `ic * (P * O) + oc * P + cs` of iteration `(ic, cs, oc)`, `ic < I`,
`cs < P`, `oc < O`, is below `I * P * O` and determines `(ic, cs, oc)`. -/
theorem conv2d_partial_cells_distinct (C S F I P O : Nat) :
    (∀ s f r, s < S → f < F → r < C → conv2d_image_sharded_idx C F s f r < C * S * F) ∧
    (∀ s f r s' f' r', s < S → f < F → r < C → s' < S → f' < F → r' < C →
      conv2d_image_sharded_idx C F s f r = conv2d_image_sharded_idx C F s' f' r' →
      s = s' ∧ f = f' ∧ r = r') ∧
    (∀ ic cs oc, ic < I → cs < P → oc < O → conv2d_channel_sharded_idx P O ic cs oc < I * P * O) ∧
    (∀ ic cs oc ic' cs' oc', ic < I → cs < P → oc < O → ic' < I → cs' < P → oc' < O →
      conv2d_channel_sharded_idx P O ic cs oc = conv2d_channel_sharded_idx P O ic' cs' oc' →
      ic = ic' ∧ cs = cs' ∧ oc = oc') := by
  have e1 : ∀ s f r, conv2d_image_sharded_idx C F s f r = (s * F + f) * C + r := by
    intro s f r; unfold conv2d_image_sharded_idx; ring
  have e2 : ∀ ic cs oc, conv2d_channel_sharded_idx P O ic cs oc = (ic * O + oc) * P + cs := by
    intro ic cs oc; unfold conv2d_channel_sharded_idx; ring
  refine ⟨?_, ?_, ?_, ?_⟩
  · intro s f r hs hf hr
    rw [e1]
    have h := mixed_radix_lt S F C s f r hs hf hr
    have e : C * S * F = S * F * C := by ring
    rw [e]; exact h
  · intro s f r s' f' r' _ hf hr _ hf' hr' h
    rw [e1, e1] at h
    exact mixed_radix_inj F C s f r s' f' r' hf hr hf' hr' h
  · intro ic cs oc hic hcs hoc
    rw [e2]
    have h := mixed_radix_lt I O P ic oc cs hic hoc hcs
    have e : I * P * O = I * O * P := by ring
    rw [e]; exact h
  · intro ic cs oc ic' cs' oc' _ hcs hoc _ hcs' hoc' h
    rw [e2, e2] at h
    obtain ⟨h1, h2, h3⟩ := mixed_radix_inj O P ic oc cs ic' oc' cs' hoc hcs hoc' hcs' h
    exact ⟨h1, h3, h2⟩

/-- Witness for C24: with `C = 2`, `S = 3`, `F = 2` the iteration `(2, 1, 1)` writes cell `11`
of the `12` cells; with `I = 2`, `P = 2`, `O = 3` the iteration `(1, 1, 2)` writes cell `11`. -/
theorem conv2d_partial_cells_distinct_witness :
    conv2d_image_sharded_idx 2 2 2 1 1 < 2 * 3 * 2 ∧
    conv2d_channel_sharded_idx 2 3 1 1 2 < 2 * 2 * 3 :=
  ⟨(conv2d_partial_cells_distinct 2 3 2 2 2 3).1 2 1 1 (by decide) (by decide) (by decide),
    (conv2d_partial_cells_distinct 2 3 2 2 2 3).2.2.1 1 1 2 (by decide) (by decide)
      (by decide)⟩

/-- The key-generation loop started at `2^i` reaches every power `2^(i + d) ≤ N` and lists it
with both signs. -/
theorem evalPowerOf2RotationKeyGenLoop_mem (N : Nat) :
    ∀ (d i r : Nat) (hr : 0 < r), r = 2 ^ i → 2 ^ (i + d) ≤ N →
      ((2 ^ (i + d) : Nat) : Int) ∈ evalPowerOf2RotationKeyGenLoop N r hr ∧
      -((2 ^ (i + d) : Nat) : Int) ∈ evalPowerOf2RotationKeyGenLoop N r hr := by
  intro d
  induction d with
  | zero =>
    intro i r hr hri hN
    rw [evalPowerOf2RotationKeyGenLoop]
    have hle : r ≤ N := by rw [hri]; simpa using hN
    rw [dif_pos hle]
    subst hri
    simp
  | succ d ih =>
    intro i r hr hri hN
    have hlt : 2 ^ i ≤ 2 ^ (i + (d + 1)) := Nat.pow_le_pow_right (by norm_num) (by omega)
    have hle : r ≤ N := by rw [hri]; exact le_trans hlt hN
    rw [evalPowerOf2RotationKeyGenLoop, dif_pos hle]
    have e : i + (d + 1) = (i + 1) + d := by omega
    have h := ih (i + 1) (r * 2) (by omega) (by rw [hri, pow_succ]) (by rw [← e]; exact hN)
    rw [e]
    exact ⟨List.mem_cons_of_mem _ (List.mem_cons_of_mem _ h.1),
      List.mem_cons_of_mem _ (List.mem_cons_of_mem _ h.2)⟩

/-- Every element of the decomposition of a number of absolute value at most `2^k` has absolute
value at most `2^k`. -/
theorem po2Decompose_abs_le (k : Nat) (num : Int) :
    |num| ≤ 2 ^ k → ∀ e ∈ po2Decompose num, |e| ≤ 2 ^ k := by
  induction num using po2Decompose.induct with
  | case1 => intro _ e he; simp [po2Decompose_zero] at he
  | case2 num h0 hneg ih =>
    intro hb e he
    rw [po2Decompose_of_neg num hneg] at he
    simp only [List.mem_map] at he
    obtain ⟨a, ha, rfl⟩ := he
    rw [abs_neg]
    exact ih (by rwa [abs_neg]) a ha
  | case3 num h0 hneg hp =>
    intro hb e he
    rw [po2Decompose_of_pow num (by omega) hp] at he
    simp only [List.mem_singleton] at he
    subst he
    exact hb
  | case4 num h0 hneg hp lower upper lower_diff upper_diff lower_sum upper_sum hle ih1 ih2 =>
    intro hb e he
    obtain ⟨h1, h2, h3, h4⟩ := po2_bounds num h0 hneg hp
    have hnum : num ≤ 2 ^ k := le_trans (le_abs_self _) hb
    rw [po2Decompose_of_not_pow num (by omega) hp, if_pos hle] at he
    rw [List.mem_append, List.mem_singleton] at he
    rcases he with he | he
    · exact ih1 (by
        show |num - last_power_of_two num| ≤ 2 ^ k
        rw [abs_of_nonneg (by omega)]; omega) e he
    · rw [he, abs_of_pos h4]; omega
  | case5 num h0 hneg hp lower upper lower_diff upper_diff lower_sum upper_sum hle ih1 ih2 =>
    intro hb e he
    obtain ⟨h1, h2, h3, h4⟩ := po2_bounds num h0 hneg hp
    have hnum : num ≤ 2 ^ k := le_trans (le_abs_self _) hb
    have hup : next_power_of_two num ≤ 2 ^ k := by
      have hl : last_power_of_two num < 2 ^ k := by omega
      unfold last_power_of_two at hl
      have hlt : num_bits num.toNat - 1 < k :=
        (pow_lt_pow_iff_right (by norm_num : (1 : Int) < 2)).1 hl
      have hp1 := num_bits_pos num.toNat
      unfold next_power_of_two
      exact pow_le_pow_right (by norm_num) (by omega)
    rw [po2Decompose_of_not_pow num (by omega) hp, if_neg hle] at he
    rw [List.mem_append, List.mem_singleton, List.mem_map] at he
    rcases he with ⟨a, ha, rfl⟩ | he
    · rw [abs_neg]
      exact ih2 (by
        show |next_power_of_two num - num| ≤ 2 ^ k
        rw [abs_of_nonneg (by omega)]; omega) a ha
    · rw [he, abs_of_pos (by omega)]; exact hup

/-- C27: the decomposed rotation refines the direct one. With `EvalAtIndex` the cyclic left
rotation of the `N` slots, for every ciphertext and every integer `r` with `|r| ≤ N`,
`ctxt << r` (one `EvalAtIndex` per element of `po2Decompose(r)`) returns, with the slot vector
of the single rotation `CKKSRotateEvalAtIndex(ctxt, r)`, and `ctxt >> r` returns what
`ctxt << (-r)` returns, with the slot vector of `CKKSRotateEvalAtIndex(ctxt, -r)`. -/
theorem shift_refines_direct_rotation (ctxt : CKKSCiphertext) (r : Int)
    (hr : |r| ≤ (ctxt.getBatchSize : Int)) :
    (∃ out, shiftLeft ctxt r = .ok out ∧
      out.slots = (CKKSRotateEvalAtIndex ctxt r).slots) ∧
    (∃ out, shiftRight ctxt r = .ok out ∧ shiftLeft ctxt (-r) = .ok out ∧
      out.slots = (CKKSRotateEvalAtIndex ctxt (-r)).slots) :=
  ⟨⟨_, shiftLeft_ok ctxt r hr, rfl⟩,
    ⟨_, shiftRight_ok ctxt r hr, shiftLeft_ok ctxt (-r) (by rwa [abs_neg]), rfl⟩⟩

/-- Witness for C27: the four slots `[1, 2, 3, 4]` rotated by `3`, which is decomposed into
`-1` and `4`. -/
theorem shift_refines_direct_rotation_witness :
    (∃ out, shiftLeft ⟨[1, 2, 3, 4], 3⟩ 3 = .ok out ∧
      out.slots = (CKKSRotateEvalAtIndex ⟨[1, 2, 3, 4], 3⟩ 3).slots) ∧
    (∃ out, shiftRight ⟨[1, 2, 3, 4], 3⟩ 3 = .ok out ∧
      shiftLeft ⟨[1, 2, 3, 4], 3⟩ (-3) = .ok out ∧
      out.slots = (CKKSRotateEvalAtIndex ⟨[1, 2, 3, 4], 3⟩ (-3)).slots) :=
  shift_refines_direct_rotation ⟨[1, 2, 3, 4], 3⟩ 3 (by decide)

/-- C28: the power-of-two rotation keys cover every rotation the operators issue. For every
batch size `N = 2^k` with `N ≤ ringDimension / 2` and every integer `r` with `|r| ≤ N` (for
`r = 0` nothing is issued), each element of `po2Decompose(r)` is in the index list
`+2^j, -2^j` with `2^j ≤ N` that `evalPowerOf2RotationKeyGen` generates. -/
theorem rotation_keys_cover_decomposition (k ringDimension : Nat) (r e : Int)
    (hN : 2 ^ k ≤ ringDimension / 2) (hr : |r| ≤ ((2 ^ k : Nat) : Int))
    (he : e ∈ po2Decompose r) : e ∈ evalPowerOf2RotationKeyGen (2 ^ k) ringDimension := by
  have hb : |r| ≤ (2 : Int) ^ k := by
    have e2 : ((2 ^ k : Nat) : Int) = (2 : Int) ^ k := by push_cast; rfl
    rw [← e2]; exact hr
  have habs := po2Decompose_abs_le k r hb e he
  obtain ⟨j, hj⟩ := (po2Decompose_spec r).1 e he
  have hjk : 2 ^ j ≤ 2 ^ k := by
    have h1 : |e| = (2 : Int) ^ j := by
      rcases hj with hj | hj
      · rw [hj]; exact abs_of_pos (by positivity)
      · rw [hj, abs_neg]; exact abs_of_pos (by positivity)
    rw [h1] at habs
    exact_mod_cast habs
  unfold evalPowerOf2RotationKeyGen
  simp only [Nat.min_eq_left hN]
  have hmem := evalPowerOf2RotationKeyGenLoop_mem (2 ^ k) j 0 1 (by decide) rfl
    (by rw [Nat.zero_add]; exact hjk)
  rw [Nat.zero_add] at hmem
  have e3 : ((2 ^ j : Nat) : Int) = (2 : Int) ^ j := by push_cast; rfl
  rw [e3] at hmem
  rcases hj with hj | hj
  · rw [hj]; exact hmem.1
  · rw [hj]; exact hmem.2

/-- Witness for C28: batch size `8 = 2^3` in a ring of dimension `16` and the rotation `-8`,
whose decomposition is `[-8]`; the key for `-8` is generated. -/
theorem rotation_keys_cover_decomposition_witness :
    (-8 : Int) ∈ evalPowerOf2RotationKeyGen (2 ^ 3) 16 :=
  rotation_keys_cover_decomposition 3 16 (-8) (-8) (by decide) (by decide)
    (by
      rw [po2Decompose_of_neg (-8) (by decide),
        po2Decompose_of_pow (- -8) (by decide) (by decide)]
      decide)

/-! ### Double-and-add -/

theorem zipWith_map_same {α β γ δ : Type} (op : β → γ → δ) (f : α → β) (g : α → γ)
    (l : List α) :
    List.zipWith op (l.map f) (l.map g) = l.map (fun a => op (f a) (g a)) := by
  induction l with
  | nil => rfl
  | cons a t ih => simp only [List.map_cons, List.zipWith_cons_cons, ih]

/-- Adding two multiples of one slot vector. -/
theorem addAssign_multiples (l : List ℚ) (t : Nat) (a b : ℚ) :
    addAssign ⟨l.map fun x => a * x, t⟩ ⟨l.map fun x => b * x, t⟩
      = ⟨l.map fun x => (a + b) * x, t⟩ := by
  simp only [addAssign, EvalAdd, zipWith_map_same, Nat.min_self]
  congr 1
  apply List.map_congr_left
  intro x _
  ring

theorem land_one_natCast (n : Nat) : Int.land (n : Int) 1 = ((n % 2 : Nat) : Int) := by
  rw [← Nat.and_one_is_mod]; rfl

theorem shiftRight_one_natCast (n : Nat) : (n : Int) >>> (1 : Nat) = ((n / 2 : Nat) : Int) := by
  rw [Int.shiftRight_eq_div_pow]; rfl

/-- The double-and-add loop on `val = n`, started with `doubles = d * x` and `result = r * x`,
ends with `result = (r + n * d) * x` at the same level, and logs additions only. -/
theorem doubleAndAddLoop_spec (l : List ℚ) (t : Nat) :
    ∀ (n : Nat) (d r : ℚ) (calls : List EvaluatorCall),
      (∀ c ∈ calls, c = EvaluatorCall.evalAdd ∨ c = EvaluatorCall.evalSub
        ∨ c = EvaluatorCall.evalNegate) →
      (doubleAndAddLoop (n : Int) ⟨l.map fun x => d * x, t⟩ ⟨l.map fun x => r * x, t⟩ calls).1
          = ⟨l.map fun x => (r + (n : ℚ) * d) * x, t⟩ ∧
      ∀ c ∈ (doubleAndAddLoop (n : Int) ⟨l.map fun x => d * x, t⟩
          ⟨l.map fun x => r * x, t⟩ calls).2,
        c = EvaluatorCall.evalAdd ∨ c = EvaluatorCall.evalSub ∨ c = EvaluatorCall.evalNegate := by
  intro n
  induction n using Nat.strong_induction_on with
  | _ n ih =>
    intro d r calls hcalls
    rw [doubleAndAddLoop]
    by_cases hn : (n : Int) > 0
    · rw [dif_pos hn]
      have hn' : 0 < n := by omega
      simp only [land_one_natCast, shiftRight_one_natCast, addAssign_multiples]
      have hdm := Nat.div_add_mod n 2
      have hq : (n : ℚ) = 2 * ((n / 2 : Nat) : ℚ) + ((n % 2 : Nat) : ℚ) := by
        exact_mod_cast hdm.symm
      by_cases hodd : n % 2 = 1
      · have hne : ((n % 2 : Nat) : Int) ≠ 0 := by omega
        rw [if_pos hne]
        have h := ih (n / 2) (by omega) (d + d) (r + d) (calls ++ [.evalAdd] ++ [.evalAdd])
          (by
            intro c hc
            simp only [List.mem_append, List.mem_singleton] at hc
            rcases hc with (hc | hc) | hc
            · exact hcalls c hc
            · exact Or.inl hc
            · exact Or.inl hc)
        refine ⟨?_, h.2⟩
        rw [h.1]
        congr 1
        apply List.map_congr_left
        intro x _
        rw [hq, hodd]
        push_cast
        ring
      · have he : n % 2 = 0 := by omega
        have hne : ¬ ((n % 2 : Nat) : Int) ≠ 0 := by omega
        rw [if_neg hne]
        have h := ih (n / 2) (by omega) (d + d) r (calls ++ [.evalAdd])
          (by
            intro c hc
            simp only [List.mem_append, List.mem_singleton] at hc
            rcases hc with hc | hc
            · exact hcalls c hc
            · exact Or.inl hc)
        refine ⟨?_, h.2⟩
        rw [h.1]
        congr 1
        apply List.map_congr_left
        intro x _
        rw [hq, he]
        push_cast
        ring
    · rw [dif_neg hn]
      have h0 : n = 0 := by omega
      subst h0
      refine ⟨?_, hcalls⟩
      simp
theorem subAssign_self_multiple (l : List ℚ) (t : Nat) (d : ℚ) :
    subAssign ⟨l.map fun x => d * x, t⟩ ⟨l.map fun x => d * x, t⟩
      = ⟨l.map fun x => (0 : ℚ) * x, t⟩ := by
  simp only [subAssign, EvalSub, zipWith_map_same, Nat.min_self]
  congr 1
  apply List.map_congr_left
  intro x _
  ring

/-- The double-and-add loop appends additions only to the log of evaluator operations. -/
theorem doubleAndAddLoop_calls :
    ∀ (n : Nat) (doubles result : CKKSCiphertext) (calls : List EvaluatorCall),
      ∃ adds : List EvaluatorCall, (∀ c ∈ adds, c = EvaluatorCall.evalAdd) ∧
        (doubleAndAddLoop (n : Int) doubles result calls).2 = calls ++ adds := by
  intro n
  induction n using Nat.strong_induction_on with
  | _ n ih =>
    intro doubles result calls
    rw [doubleAndAddLoop]
    by_cases hn : (n : Int) > 0
    · rw [dif_pos hn]
      have hn2 : 0 < n := by omega
      simp only [shiftRight_one_natCast]
      split
      · obtain ⟨adds, ha, he⟩ := ih (n / 2) (by omega) (addAssign doubles doubles)
          (addAssign result doubles) (calls ++ [.evalAdd] ++ [.evalAdd])
        refine ⟨[.evalAdd, .evalAdd] ++ adds, ?_, ?_⟩
        · intro c hc
          simp only [List.mem_append, List.mem_cons, List.mem_singleton, List.not_mem_nil,
            or_false] at hc
          rcases hc with (hc | hc) | hc
          · exact hc
          · exact hc
          · exact ha c hc
        · rw [he]; simp
      · obtain ⟨adds, ha, he⟩ := ih (n / 2) (by omega) (addAssign doubles doubles)
          result (calls ++ [.evalAdd])
        refine ⟨[.evalAdd] ++ adds, ?_, ?_⟩
        · intro c hc
          simp only [List.mem_append, List.mem_singleton] at hc
          rcases hc with hc | hc
          · exact hc
          · exact ha c hc
        · rw [he]; simp
    · rw [dif_neg hn]
      exact ⟨[], by simp, by simp⟩

/-- Double-and-add by a positive `n` on the multiple `d * x` of a slot vector: the result, and
the log, which is the subtraction that forms the zero followed by additions. -/
theorem doubleAndAdd_pos (fuel : Nat) (l : List ℚ) (t : Nat) (d : ℚ) (n : Nat) (hn : 0 < n) :
    ∃ adds : List EvaluatorCall, (∀ c ∈ adds, c = EvaluatorCall.evalAdd) ∧
      CKKSMultiplySingletonIntDoubleAndAdd (fuel + 1) ⟨l.map fun x => d * x, t⟩ (n : Int)
        = some (⟨l.map fun x => ((n : ℚ) * d) * x, t⟩, [EvaluatorCall.evalSub] ++ adds) := by
  obtain ⟨adds, ha, he⟩ := doubleAndAddLoop_calls n ⟨l.map fun x => d * x, t⟩
    (subAssign ⟨l.map fun x => d * x, t⟩ ⟨l.map fun x => d * x, t⟩) [.evalSub]
  refine ⟨adds, ha, ?_⟩
  rw [CKKSMultiplySingletonIntDoubleAndAdd, if_neg (by omega), if_neg (by omega)]
  congr 1
  refine Prod.ext ?_ he
  rw [subAssign_self_multiple]
  have h := doubleAndAddLoop_spec l t n d 0 [.evalSub] (by
    intro c hc
    simp only [List.mem_singleton] at hc
    exact Or.inr (Or.inl hc))
  show (doubleAndAddLoop (n : Int) _ _ _).1 = _
  rw [h.1]
  congr 1
  apply List.map_congr_left
  intro x _
  ring

theorem wrapInt64_of_range (v : Int) (h1 : -2 ^ 63 ≤ v) (h2 : v < 2 ^ 63) : wrapInt64 v = v := by
  unfold wrapInt64
  norm_num at h1 h2 ⊢
  omega

/-- At `LONG_MIN` the negation `-val` is `LONG_MIN` again: the call on `-ctxt` and `-val`
repeats without end, and no depth bound yields a result. -/
theorem doubleAndAdd_long_min (fuel : Nat) : ∀ ctxt : CKKSCiphertext,
    CKKSMultiplySingletonIntDoubleAndAdd fuel ctxt (-9223372036854775808) = none := by
  induction fuel with
  | zero => intro ctxt; rfl
  | succ f ih =>
    intro ctxt
    rw [CKKSMultiplySingletonIntDoubleAndAdd]
    have hw : wrapInt64 (- -9223372036854775808) = -9223372036854775808 := by
      unfold wrapInt64; norm_num
    simp only [hw, ih]
    norm_num

/-- Double-and-add on every `long int` other than `LONG_MIN`: the result and the log. -/
theorem doubleAndAdd_spec (fuel : Nat) (x : CKKSCiphertext) (val : Int) (hf : 2 ≤ fuel)
    (h1 : -2 ^ 63 < val) (h2 : val < 2 ^ 63) :
    ∃ adds : List EvaluatorCall, (∀ c ∈ adds, c = EvaluatorCall.evalAdd) ∧
      CKKSMultiplySingletonIntDoubleAndAdd fuel x val
        = some (⟨x.slots.map fun a => (val : ℚ) * a, x.towers⟩,
            (if val < 0 then [EvaluatorCall.evalNegate] else []) ++ [EvaluatorCall.evalSub]
              ++ (if val = 0 then [] else adds)) := by
  obtain ⟨f, rfl⟩ : ∃ f, fuel = f + 1 + 1 := ⟨fuel - 2, by omega⟩
  have hx : x = ⟨x.slots.map fun a => (1 : ℚ) * a, x.towers⟩ := by
    cases x; simp
  have hnx : negCiphertext x = ⟨x.slots.map fun a => (-1 : ℚ) * a, x.towers⟩ := by
    simp [negCiphertext, EvalNegate]
  rcases lt_trichotomy val 0 with hneg | h0 | hpos
  · obtain ⟨n, hn⟩ : ∃ n : Nat, -val = (n : Int) := ⟨(-val).toNat, by omega⟩
    have hv : (val : ℚ) = -(n : ℚ) := by
      have : val = -(n : Int) := by omega
      rw [this]; push_cast; rfl
    have hw : wrapInt64 (-val) = -val :=
      wrapInt64_of_range _ (by norm_num at h1 h2 ⊢; omega) (by norm_num at h1 h2 ⊢; omega)
    obtain ⟨adds, ha, he⟩ := doubleAndAdd_pos f x.slots x.towers (-1) n (by omega)
    refine ⟨adds, ha, ?_⟩
    rw [CKKSMultiplySingletonIntDoubleAndAdd, if_neg (by omega), if_pos hneg, hw, hnx, hn, he]
    simp only [Option.map_some', if_pos hneg, if_neg (ne_of_lt hneg)]
    congr 2
    congr 1
    apply List.map_congr_left
    intro a _
    rw [hv]; ring
  · subst h0
    refine ⟨[], by simp, ?_⟩
    rw [CKKSMultiplySingletonIntDoubleAndAdd, if_pos rfl]
    conv_lhs => rw [hx]
    rw [subAssign_self_multiple]
    simp
  · obtain ⟨n, hn⟩ : ∃ n : Nat, val = (n : Int) := ⟨val.toNat, by omega⟩
    subst hn
    obtain ⟨adds, ha, he⟩ := doubleAndAdd_pos (f + 1) x.slots x.towers 1 n (by omega)
    rw [← hx] at he
    refine ⟨adds, ha, ?_⟩
    rw [he]
    have hnn : ¬ ((n : Int) < 0) := by omega
    have hn0 : ¬ ((n : Int) = 0) := by omega
    simp only [if_neg hnn, if_neg hn0]
    congr 2
    congr 1
    apply List.map_congr_left
    intro a _
    push_cast
    ring

/-- C29 (amended): double-and-add scalar multiplication is exact on every `long int` other than
`LONG_MIN`. For every `val` with `-2^63 < val < 2^63` (positive, zero or negative) and every
ciphertext `x`, `CKKSMultiplySingletonIntDoubleAndAdd(x, val)` returns (two nested calls
suffice) the slot vector `val * x`, slot `i` being `val * x[i]`, at the level of `x`; the
evaluator operations it invokes are, in order, one negation when `val < 0`, the subtraction
`ctxt - ctxt` that forms the zero, and additions; never a multiplication. -/
theorem double_and_add_exact (fuel : Nat) (x : CKKSCiphertext) (val : Int) (hf : 2 ≤ fuel)
    (h1 : -2 ^ 63 < val) (h2 : val < 2 ^ 63) :
    ∃ run adds, CKKSMultiplySingletonIntDoubleAndAdd fuel x val = some run ∧
      run.1.slots = x.slots.map (fun a => (val : ℚ) * a) ∧
      (∀ i, run.1.slots.getD i 0 = (val : ℚ) * x.slots.getD i 0) ∧
      run.1.getTowersRemaining = x.getTowersRemaining ∧
      (∀ c ∈ adds, c = EvaluatorCall.evalAdd) ∧
      run.2 = (if val < 0 then [EvaluatorCall.evalNegate] else []) ++ [EvaluatorCall.evalSub]
        ++ adds ∧
      EvaluatorCall.evalMult ∉ run.2 := by
  obtain ⟨adds, ha, he⟩ := doubleAndAdd_spec fuel x val hf h1 h2
  have ha2 : ∀ c ∈ (if val = 0 then [] else adds), c = EvaluatorCall.evalAdd := by
    intro c hc
    split at hc
    · simp at hc
    · exact ha c hc
  refine ⟨_, (if val = 0 then [] else adds), he, rfl, ?_, rfl, ha2, rfl, ?_⟩
  · intro i
    simp only [List.getD_eq_getElem?_getD, List.getElem?_map]
    cases x.slots[i]? <;> simp
  · intro hmem
    simp only [List.mem_append, List.mem_singleton] at hmem
    rcases hmem with (hmem | hmem) | hmem
    · split at hmem
      · simp at hmem
      · simp at hmem
    · exact absurd hmem (by decide)
    · exact absurd (ha2 _ hmem) (by decide)

/-- Witness for C29 at `val = -3` on a two-slot ciphertext. -/
theorem double_and_add_exact_witness :
    ∃ run adds, CKKSMultiplySingletonIntDoubleAndAdd 2 ⟨[1, 2], 5⟩ (-3) = some run ∧
      run.1.slots = ([1, 2] : List ℚ).map (fun a => ((-3 : Int) : ℚ) * a) ∧
      (∀ i, run.1.slots.getD i 0 = ((-3 : Int) : ℚ) * ([1, 2] : List ℚ).getD i 0) ∧
      run.1.getTowersRemaining = (⟨[1, 2], 5⟩ : CKKSCiphertext).getTowersRemaining ∧
      (∀ c ∈ adds, c = EvaluatorCall.evalAdd) ∧
      run.2 = (if (-3 : Int) < 0 then [EvaluatorCall.evalNegate] else [])
        ++ [EvaluatorCall.evalSub] ++ adds ∧
      EvaluatorCall.evalMult ∉ run.2 :=
  double_and_add_exact 2 ⟨[1, 2], 5⟩ (-3) (le_refl _) (by norm_num) (by norm_num)

/-- Counterexample to C29 as stated for every integer and for additions and negation only: at
`val = LONG_MIN = -9223372036854775808` no depth bound yields a result (the call on `-val`
repeats without end), and at `val = 0` the one evaluator operation invoked is the subtraction
`ctxt - ctxt`. -/
theorem double_and_add_exact_counterexample :
    (∀ fuel : Nat, CKKSMultiplySingletonIntDoubleAndAdd fuel ⟨[1, 2], 5⟩
        (-9223372036854775808) = none) ∧
      (CKKSMultiplySingletonIntDoubleAndAdd 1 ⟨[1, 2], 5⟩ 0).map Prod.snd
        = some [EvaluatorCall.evalSub] :=
  ⟨fun fuel => doubleAndAdd_long_min fuel _, rfl⟩

/-- The list overload of plaintext-minus-ciphertext computes `p - x` slot by slot. -/
theorem subListCiphertext_slots (p : List ℚ) (x : CKKSCiphertext)
    (hlen : p.length = x.getBatchSize) :
    subListCiphertext p x
      = .ok ⟨List.zipWith (fun a b => a + b) (x.slots.map fun a => -a) p, x.towers⟩ := by
  unfold subListCiphertext addAssignVector
  simp [negCiphertext, EvalNegate, EvalAddPlain, CKKSCiphertext.getBatchSize] at hlen ⊢
  exact hlen

/-- The ndarray overload of plaintext-minus-ciphertext computes `-x - p` slot by slot. -/
theorem subNdarrayCiphertext_slots (p : List ℚ) (x : CKKSCiphertext)
    (hlen : p.length = x.getBatchSize) :
    subNdarrayCiphertext p x
      = .ok ⟨List.zipWith (fun a b => a - b) (x.slots.map fun a => -a) p, x.towers⟩ := by
  unfold subNdarrayCiphertext subAssignVector
  simp [negCiphertext, EvalNegate, EvalSubPlain, CKKSCiphertext.getBatchSize] at hlen ⊢
  exact hlen

/-- C30 (code bug): on the one-slot ciphertext `x = [3]` and the plaintext `p = [5]` the list
overload of `p - x` returns `[2] = p - x`, the ndarray overload returns `[-8] = -x - p`: it
ends in `ncipher -= vals` where the list overload has `ncipher += vals`. -/
theorem subNdarrayCiphertext_differs :
    subListCiphertext [5] ⟨[3], 4⟩ = .ok ⟨[2], 4⟩ ∧
    subNdarrayCiphertext [5] ⟨[3], 4⟩ = .ok ⟨[-8], 4⟩ ∧
    subNdarrayCiphertext [5] ⟨[3], 4⟩ ≠ subListCiphertext [5] ⟨[3], 4⟩ := by
  have h1 : subListCiphertext [5] ⟨[3], 4⟩ = .ok ⟨[2], 4⟩ := by
    rw [subListCiphertext_slots [5] ⟨[3], 4⟩ rfl]
    norm_num
  have h2 : subNdarrayCiphertext [5] ⟨[3], 4⟩ = .ok ⟨[-8], 4⟩ := by
    rw [subNdarrayCiphertext_slots [5] ⟨[3], 4⟩ rfl]
    norm_num
  refine ⟨h1, h2, ?_⟩
  rw [h1, h2]
  intro h
  injection h with h
  injection h with h _
  injection h with h _
  norm_num at h

/-- C26 (code bug): `tileVector` on the documented example and on sizes that the doubling
does not reach. `tileVector([1, 2], 16)` gives the sixteen elements `1, 2, 1, 2, ...`, as
documented. `tileVector([1, 2], 5)` resizes the vector to five cells, fills cells `2, 3` by
the first copy, and then copies four elements to cells `4 .. 7`: three of them lie past the
end of the vector, so the execution is undefined where the claim promises `[1, 2, 1, 2, 1]`.
The same happens in `make_shift_mask_image_sharded` for three `3 x 3` channels per shard
(the mask of `conv2d` on shards of `32` slots with `mtx_size = 3`): nine mask entries are
tiled to `27`, and the second copy writes cells `18 .. 35`. -/
theorem tileVector_past_the_end :
    tileVector ([1, 2] : List Int) 16 = .ok [1, 2, 1, 2, 1, 2, 1, 2, 1, 2, 1, 2, 1, 2, 1, 2] ∧
    tileVector ([1, 2] : List Int) 5 = .error .undefinedBehaviour ∧
    make_shift_mask_image_sharded 3 3 3 0 0 = .error .undefinedBehaviour :=
  ⟨rfl, rfl, rfl⟩

/-! ### The permutation of `conv2d` -/

theorem foldlM_congr {α β : Type} (f g : β → α → Except Error β) (l : List α)
    (h : ∀ b, ∀ a ∈ l, f b a = g b a) (init : β) : l.foldlM f init = l.foldlM g init := by
  induction l generalizing init with
  | nil => rfl
  | cons a t ih =>
    rw [List.foldlM_cons, List.foldlM_cons, h init a (List.mem_cons_self _ _)]
    cases g init a with
    | error e => rfl
    | ok b => exact ih (fun b' a' ha' => h b' a' (List.mem_cons_of_mem _ ha')) b

theorem except_bind_congr {α β : Type} (x : Except Error α) (k1 k2 : α → Except Error β)
    (h : ∀ a, x = .ok a → k1 a = k2 a) : (x >>= k1) = (x >>= k2) := by
  cases x with
  | error e => rfl
  | ok a => exact h a rfl

theorem except_bind_congr_left {α β : Type} (x y : Except Error α) (k : α → Except Error β)
    (h : x = y) : (x >>= k) = (y >>= k) := by
  rw [h]

/-- The helper of the image-sharded convolution reads the permutation only at the channel
slots `num_in * fragment_offset .. num_in * fragment_offset + num_in - 1`. -/
theorem convolution_helper_image_sharded_sigma_congr (rot : List (List CKKSCiphertext))
    (F : boost_vector4d) (m r nin nout f s : Nat) (sigma sigma' : List Int) (hin : 1 ≤ nin)
    (hagree : ∀ i, i < nin * (f + 1) → sigma.getD i 0 = sigma'.getD i 0) :
    convolution_helper_image_sharded rot F m r nin nout f s sigma
      = convolution_helper_image_sharded rot F m r nin nout f s sigma' := by
  have key : ∀ D idx : Nat, sigma.getD (nin * f + (idx / D + r) % nin) 0
      = sigma'.getD (nin * f + (idx / D + r) % nin) 0 := by
    intro D idx
    apply hagree
    have h1 : (idx / D + r) % nin < nin := Nat.mod_lt _ (by omega)
    have e : nin * (f + 1) = nin * f + nin := by ring
    omega
  unfold convolution_helper_image_sharded
  simp only [key]

/-- The image-sharded convolution reads the permutation only at its first
`num_in_channels_per_shard * num_input_shards` entries. -/
theorem conv2d_image_sharded_sigma_congr (shards : List CKKSCiphertext) (F : boost_vector4d)
    (m nin : Nat) (sigma sigma' : List Int)
    (hnin : nin = if shards.length > 1 then
      (shards.getD 0 default).getBatchSize / (m * m) else F.shape0)
    (hin : 1 ≤ nin)
    (hagree : ∀ i, i < nin * shards.length → sigma.getD i 0 = sigma'.getD i 0) :
    conv2d_image_sharded shards F m sigma = conv2d_image_sharded shards F m sigma' := by
  unfold conv2d_image_sharded
  simp only [← hnin]
  refine except_bind_congr _ _ _ (fun rots _ => ?_)
  apply except_bind_congr_left
  apply foldlM_congr
  intro acc s _
  apply foldlM_congr
  intro acc f hf
  apply foldlM_congr
  intro acc r _
  have hfl : f < shards.length := List.mem_range.1 hf
  rw [convolution_helper_image_sharded_sigma_congr (rots.getD f []) F m r nin _ f s sigma sigma'
    hin (fun i hi => hagree i (lt_of_lt_of_le hi (Nat.mul_le_mul_left _ hfl)))]

/-- Entries appended to a permutation that already covers the channel slots read by the
image-sharded convolution change nothing. -/
theorem conv2d_sigma_append (shards : List CKKSCiphertext) (F : boost_vector4d)
    (m nin : Nat) (sigma extra : List Int)
    (himg : (shards.getD 0 default).getBatchSize ≥ m * m)
    (hnin : nin = if shards.length > 1 then
      (shards.getD 0 default).getBatchSize / (m * m) else F.shape0)
    (hin : 1 ≤ nin) (hlen : nin * shards.length ≤ sigma.length) :
    conv2d shards F m (sigma ++ extra) = conv2d shards F m sigma := by
  unfold conv2d
  simp only [if_pos himg]
  apply conv2d_image_sharded_sigma_congr shards F m nin _ _ hnin hin
  intro i hi
  simp only [List.getD_eq_getElem?_getD]
  rw [List.getElem?_append_left (by omega)]

/-- C23 (amended): `conv2d` does not check the length of the permutation. For every
image-sharded `conv2d` call whose `sigma` has an entry for each of the input channels (the
first dimension of the filter tensor: `num_in_channels_per_shard * num_input_shards`, at least
one per shard), a longer permutation `sigma ++ extra` makes no difference: the call returns
or fails exactly as the call with `sigma` does, the extra entries being never read. -/
theorem conv2d_permutation_length_unchecked (shards : List CKKSCiphertext)
    (F : boost_vector4d) (m nin : Nat) (sigma extra : List Int)
    (himg : (shards.getD 0 default).getBatchSize ≥ m * m)
    (hnin : nin = if shards.length > 1 then
      (shards.getD 0 default).getBatchSize / (m * m) else F.shape0)
    (hin : 1 ≤ nin) (hF0 : F.shape0 = nin * shards.length) (hlen : sigma.length = F.shape0)
    (hextra : extra ≠ []) :
    (sigma ++ extra).length ≠ F.shape0 ∧
    conv2d shards F m (sigma ++ extra) = conv2d shards F m sigma := by
  refine ⟨?_, conv2d_sigma_append shards F m nin sigma extra himg hnin hin (by omega)⟩
  rw [List.length_append]
  have : 0 < extra.length := List.length_pos.2 hextra
  omega

/-- Witness for C23: one shard of sixteen slots holding one `4 x 4` channel, the `3 x 3`
centre-tap filter, `sigma = [0]` and the extra entry `7`. -/
theorem conv2d_permutation_length_unchecked_witness :
    (([0] : List Int) ++ [7]).length
        ≠ (⟨1, 1, 3, 3, fun _ _ ki kj => if ki = 3 / 2 ∧ kj = 3 / 2 then 1 else 0⟩ :
            boost_vector4d).shape0 ∧
    conv2d [⟨[1, 2, 3, 4, 5, 6, 7, 8, 9, 10, 11, 12, 13, 14, 15, 16], 3⟩]
        ⟨1, 1, 3, 3, fun _ _ ki kj => if ki = 3 / 2 ∧ kj = 3 / 2 then 1 else 0⟩ 4 ([0] ++ [7])
      = conv2d [⟨[1, 2, 3, 4, 5, 6, 7, 8, 9, 10, 11, 12, 13, 14, 15, 16], 3⟩]
        ⟨1, 1, 3, 3, fun _ _ ki kj => if ki = 3 / 2 ∧ kj = 3 / 2 then 1 else 0⟩ 4 [0] :=
  conv2d_permutation_length_unchecked
    [⟨[1, 2, 3, 4, 5, 6, 7, 8, 9, 10, 11, 12, 13, 14, 15, 16], 3⟩]
    ⟨1, 1, 3, 3, fun _ _ ki kj => if ki = 3 / 2 ∧ kj = 3 / 2 then 1 else 0⟩ 4 1 [0] [7]
    (by decide) rfl (by decide) rfl rfl (by decide)

/-- Counterexample to C23 as stated: one input channel and the permutation `[0, 7]` of length
two. The image-sharded call with the `3 x 3` centre-tap filter on a shard of sixteen slots
holding one `4 x 4` channel raises no error: it returns the shard, one tower lower. -/
theorem conv2d_permutation_length_unchecked_counterexample :
    conv2d [⟨[1, 2, 3, 4, 5, 6, 7, 8, 9, 10, 11, 12, 13, 14, 15, 16], 3⟩]
        ⟨1, 1, 3, 3, fun _ _ ki kj => if ki = 3 / 2 ∧ kj = 3 / 2 then 1 else 0⟩ 4 [0, 7]
      = .ok [⟨[1, 2, 3, 4, 5, 6, 7, 8, 9, 10, 11, 12, 13, 14, 15, 16], 2⟩] := by
  have h1 := conv2d_sigma_append
    [⟨[1, 2, 3, 4, 5, 6, 7, 8, 9, 10, 11, 12, 13, 14, 15, 16], 3⟩]
    ⟨1, 1, 3, 3, fun _ _ ki kj => if ki = 3 / 2 ∧ kj = 3 / 2 then 1 else 0⟩ 4 1 [0] [7]
    (by decide) rfl (by decide) (by decide)
  have h2 := conv2d_identity_kernel_slots
    ⟨[1, 2, 3, 4, 5, 6, 7, 8, 9, 10, 11, 12, 13, 14, 15, 16], 3⟩
    ⟨1, 1, 3, 3, fun _ _ ki kj => if ki = 3 / 2 ∧ kj = 3 / 2 then 1 else 0⟩ 0 4 3
    (by decide) (by decide) (by decide) (by decide) (by decide) rfl rfl rfl
    (fun _ _ _ _ => rfl)
  exact h1.trans h2

/-! ### Pooling on several shards: the number of shards returned -/

theorem getD_mem_of_lt {α : Type} (l : List α) (d : α) (i : Nat) (hi : i < l.length) :
    l.getD i d ∈ l := by
  rw [List.getD_eq_getElem?_getD, List.getElem?_eq_getElem hi]
  exact List.getElem_mem hi

/-- A masked rotate-and-sum stage applied to every shard of a list of shards of one slot width
`N` and at least `T ≥ 3` towers: it returns as many shards, of width `N` and at least `T - 1`
towers. -/
theorem masked_reduce_list (shards : List CKKSCiphertext) (N T n : Nat) (ρ : Nat → Int)
    (cells : Nat → List Nat) (v : ℚ) (hn : 1 ≤ n) (hρ : ∀ i, i < n → |ρ i| ≤ (N : Int))
    (hU : ∀ s ∈ shards, s.slots.length = N ∧ T ≤ s.towers) (hT : 3 ≤ T) :
    ∃ outs, (do
        let red ← shards.mapM fun shard => (List.range n).mapM fun i => do
          let rotated ← shiftLeft shard (ρ i)
          mulAssignVector rotated
            (((List.range n).map fun i => fill_mask N (cells i) v).getD i [])
        (pure (red.map sum_parts) : Except Error (List CKKSCiphertext))) = .ok outs ∧
      outs.length = shards.length ∧ ∀ s ∈ outs, s.slots.length = N ∧ T - 1 ≤ s.towers := by
  rw [mapM_ok _ (fun (s : CKKSCiphertext) => (List.range n).map fun (i : Nat) =>
    (⟨(List.range N).map fun j =>
      rotGet s.slots j (ρ i) * (if j ∈ cells i then v else 0), s.towers - 1⟩ : CKKSCiphertext))
    shards]
  · refine ⟨_, rfl, by simp, ?_⟩
    intro s hs
    simp only [List.mem_map] at hs
    obtain ⟨row, ⟨s0, hs0, rfl⟩, rfl⟩ := hs
    rw [sum_parts_map N n hn _ _ (s0.towers - 1) (fun r _ => rfl)]
    have := (hU s0 hs0).2
    refine ⟨by simp, ?_⟩
    show T - 1 ≤ s0.towers - 1
    omega
  · intro s hs
    apply mapM_ok
    intro i hi
    have hlen := (hU s hs).1
    have h := masked_rotation_ok s (ρ i) n i (List.mem_range.1 hi) cells v
      (by rw [hlen]; exact hρ i (List.mem_range.1 hi)) (by have := (hU s hs).2; omega)
    rw [hlen] at h
    exact h

theorem pool_horizontal_reduce_list (shards : List CKKSCiphertext)
    (N T num_rows num_cols nphys : Nat) (fill_value : ℚ) (hne : shards ≠ [])
    (hh : 1 ≤ num_cols / 2) (hN : num_cols / 2 ≤ N)
    (hU : ∀ s ∈ shards, s.slots.length = N ∧ T ≤ s.towers) (hT : 3 ≤ T) :
    ∃ outs, pool_horizontal_reduce shards num_rows num_cols nphys fill_value = .ok outs ∧
      outs.length = shards.length ∧ ∀ s ∈ outs, s.slots.length = N ∧ T - 1 ≤ s.towers := by
  have hfirst : (shards.getD 0 default).slots.length = N :=
    (hU _ (getD_mem_of_lt shards default 0 (List.length_pos.2 hne))).1
  unfold pool_horizontal_reduce
  simp only [CKKSCiphertext.getBatchSize, hfirst]
  exact masked_reduce_list shards N T (num_cols / 2) (fun i => (i : Int))
    (fun i => (List.range num_rows).flatMap fun j =>
      (List.range nphys).map fun k => i + j * num_cols + k * (num_rows * num_cols))
    fill_value hh (fun i hi => by
      show |((i : Nat) : Int)| ≤ (N : Int)
      rw [abs_of_nonneg (by positivity)]
      have h1 : i ≤ N := by omega
      exact_mod_cast h1)
    hU hT

theorem pool_vertical_reduce_channel_sharded_list (shards : List CKKSCiphertext)
    (N T num_rows num_cols : Nat) (hne : shards ≠ [])
    (hh : 1 ≤ num_rows / 2) (hN : (num_rows / 2) * (num_cols / 2) * 3 ≤ N)
    (hU : ∀ s ∈ shards, s.slots.length = N ∧ T ≤ s.towers) (hT : 3 ≤ T) :
    ∃ outs, pool_vertical_reduce_channel_sharded shards num_rows num_cols = .ok outs ∧
      outs.length = shards.length ∧ ∀ s ∈ outs, s.slots.length = N ∧ T - 1 ≤ s.towers := by
  have hfirst : (shards.getD 0 default).slots.length = N :=
    (hU _ (getD_mem_of_lt shards default 0 (List.length_pos.2 hne))).1
  unfold pool_vertical_reduce_channel_sharded
  simp only [CKKSCiphertext.getBatchSize, hfirst]
  exact masked_reduce_list shards N T (num_rows / 2)
    (fun i => (↑(i * (num_cols / 2) * 3) : Int))
    (fun i => (List.range (num_cols / 2)).map fun j => i * (num_cols / 2) + j)
    1 hh (fun i hi => by
      show |((i * (num_cols / 2) * 3 : Nat) : Int)| ≤ (N : Int)
      rw [abs_of_nonneg (by positivity)]
      have h1 : i * (num_cols / 2) * 3 ≤ (num_rows / 2) * (num_cols / 2) * 3 :=
        Nat.mul_le_mul_right _ (Nat.mul_le_mul_right _ (by omega))
      exact_mod_cast (le_trans h1 hN))
    hU hT

theorem mapM_exists {α β : Type} (f : α → Except Error β) (l : List α)
    (h : ∀ a ∈ l, ∃ b, f a = .ok b) : ∃ bs, l.mapM f = .ok bs ∧ bs.length = l.length := by
  induction l with
  | nil => exact ⟨[], rfl, rfl⟩
  | cons a t ih =>
    obtain ⟨b, hb⟩ := h a (List.mem_cons_self _ _)
    obtain ⟨bs, hbs, hlen⟩ := ih (fun a' ha' => h a' (List.mem_cons_of_mem _ ha'))
    refine ⟨b :: bs, ?_, by simp [hlen]⟩
    simp only [List.mapM_cons, hb, hbs, bind, Except.bind, pure, Except.pure]

theorem pool_pre_convolution_list (shards : List CKKSCiphertext) (N T m : Nat)
    (hm : m + 1 ≤ N) (hU : ∀ s ∈ shards, s.slots.length = N ∧ T ≤ s.towers) :
    ∃ outs, pool_pre_convolution shards m = .ok outs ∧
      outs.length = shards.length ∧ ∀ s ∈ outs, s.slots.length = N ∧ T ≤ s.towers := by
  unfold pool_pre_convolution
  simp only []
  rw [mapM_ok _ (fun (s : CKKSCiphertext) =>
    [EvalAtIndex s 0, EvalAtIndex s 1, EvalAtIndex s (m : Int), EvalAtIndex s ((m : Int) + 1)])
    shards]
  · refine ⟨_, rfl, by simp, ?_⟩
    intro s hs
    simp only [List.mem_map] at hs
    obtain ⟨row, ⟨s0, hs0, rfl⟩, rfl⟩ := hs
    obtain ⟨hl, ht⟩ := hU s0 hs0
    simp only [List.range', List.foldl_cons, List.foldl_nil, List.getD_cons_zero,
      List.getD_cons_succ, addAssign, EvalAdd, EvalAtIndex, List.length_zipWith,
      rotateSlots_length, hl, min_self]
    exact ⟨trivial, ht⟩
  · intro s hs
    obtain ⟨hl, _⟩ := hU s hs
    have h0 := shiftLeft_eq_EvalAtIndex s 0 (by simp)
    have h1 := shiftLeft_eq_EvalAtIndex s 1 (by rw [hl]; simp; omega)
    have h2 := shiftLeft_eq_EvalAtIndex s (m : Int) (by rw [hl]; simp; omega)
    have h3 := shiftLeft_eq_EvalAtIndex s ((m : Int) + 1) (by
      rw [hl, abs_of_nonneg (by positivity)]; exact_mod_cast hm)
    simp only [List.mapM_cons, List.mapM_nil, h0, h1, h2, h3, bind, Except.bind, pure,
      Except.pure]

/-- The channel-sharded consolidation of more than two shards of one slot width returns
`⌊S / 4⌋` shards: each is the sum of four consecutive input shards, and the last `S mod 4`
input shards are not read. -/
theorem pool_consolidate_channel_sharded_count (shards : List CKKSCiphertext) (N : Nat)
    (hS : 2 < shards.length) (hU : ∀ s ∈ shards, s.slots.length = N) :
    ∃ outs, pool_consolidate_and_duplicate_channel_sharded shards = .ok outs ∧
      outs.length = shards.length / 4 := by
  unfold pool_consolidate_and_duplicate_channel_sharded
  simp only [gt_iff_lt, hS, if_true]
  obtain ⟨outs, hout, hlen⟩ := mapM_exists
    (fun output_shard_index =>
      (List.range' 1 3).foldlM (fun out i => do
        let rotated ← shiftRight (shards.getD (i + output_shard_index * 4) default)
          (↑(i * ((shards.getD 0 default).getBatchSize / 4)) : Int)
        pure (addAssign out rotated)) (shards.getD (output_shard_index * 4) default))
    (List.range (shards.length / 4))
    (by
      intro q hq
      have hq' : q < shards.length / 4 := List.mem_range.1 hq
      have hfirst : (shards.getD 0 default).slots.length = N :=
        hU _ (getD_mem_of_lt shards default 0 (by omega))
      refine ⟨_, foldlM_ok _ (fun out i => addAssign out
        ⟨rotateSlots (shards.getD (i + q * 4) default).slots (-(↑(i * (N / 4)) : Int)),
          (shards.getD (i + q * 4) default).towers⟩) _ _ ?_⟩
      intro out i hi
      rw [List.mem_range'_1] at hi
      have hidx : i + q * 4 < shards.length := by omega
      have hl := hU _ (getD_mem_of_lt shards default (i + q * 4) hidx)
      simp only [CKKSCiphertext.getBatchSize, hfirst]
      rw [shiftRight_ok _ _ (by
        rw [hl, abs_of_nonneg (by positivity)]
        have h3 : i * (N / 4) ≤ 3 * (N / 4) := Nat.mul_le_mul_right _ (by omega)
        have h4 : i * (N / 4) ≤ N := by omega
        exact_mod_cast h4)]
      rfl)
  exact ⟨outs, hout, by rw [hlen, List.length_range]⟩
/-! ### Pooling on several shards: which input shards the result depends on -/

theorem mapM_ok_getD {α β : Type} [Inhabited α] [Inhabited β] (f : α → Except Error β) :
    ∀ (l : List α) (o : List β), l.mapM f = .ok o →
      o.length = l.length ∧
        ∀ i, i < l.length → f (l.getD i default) = .ok (o.getD i default) := by
  intro l
  induction l with
  | nil =>
    intro o h
    have : o = [] := by
      have h2 : (List.mapM f ([] : List α)) = .ok [] := rfl
      rw [h2] at h
      exact (Except.ok.inj h).symm
    subst this
    exact ⟨rfl, fun i hi => absurd hi (by simp)⟩
  | cons a t ih =>
    intro o h
    rw [List.mapM_cons] at h
    cases hfa : f a with
    | error e => rw [hfa] at h; cases h
    | ok b =>
      cases htm : t.mapM f with
      | error e => rw [hfa, htm] at h; cases h
      | ok bs =>
        rw [hfa, htm] at h
        have ho : o = b :: bs := (Except.ok.inj h).symm
        subst ho
        obtain ⟨hl, hg⟩ := ih bs htm
        refine ⟨by simp [hl], ?_⟩
        intro i hi
        cases i with
        | zero => simpa using hfa
        | succ j =>
          simp only [List.getD_cons_succ]
          exact hg j (by simpa using hi)

/-- Two runs of one stage `shards.mapM f` followed by `map g`, on lists of equal length that
agree on their first `n` entries, return lists of equal length that agree on their first `n`
entries. -/
theorem mapM_map_agree {α β γ : Type} [Inhabited α] [Inhabited β] [Inhabited γ]
    (f : α → Except Error β) (g : β → γ) (l l2 : List α) (o o2 : List γ) (n : Nat)
    (hlen : l.length = l2.length)
    (hag : ∀ i, i < n → l.getD i default = l2.getD i default)
    (h : (do let x ← l.mapM f; (pure (x.map g) : Except Error (List γ))) = .ok o)
    (h2 : (do let x ← l2.mapM f; (pure (x.map g) : Except Error (List γ))) = .ok o2) :
    o.length = o2.length ∧ ∀ i, i < n → o.getD i default = o2.getD i default := by
  cases hx : l.mapM f with
  | error e => rw [hx] at h; cases h
  | ok x =>
    cases hx2 : l2.mapM f with
    | error e => rw [hx2] at h2; cases h2
    | ok x2 =>
      rw [hx] at h
      rw [hx2] at h2
      have ho : o = x.map g := (Except.ok.inj h).symm
      have ho2 : o2 = x2.map g := (Except.ok.inj h2).symm
      obtain ⟨hl, hg⟩ := mapM_ok_getD f l x hx
      obtain ⟨hl2, hg2⟩ := mapM_ok_getD f l2 x2 hx2
      subst ho
      subst ho2
      refine ⟨by simp [hl, hl2, hlen], ?_⟩
      intro i hi
      by_cases hil : i < l.length
      · have e1 := hg i hil
        have e2 := hg2 i (by omega)
        rw [hag i hi, e2] at e1
        have e3 : x2.getD i default = x.getD i default := Except.ok.inj e1
        have hix : i < x.length := by omega
        have hix2 : i < x2.length := by omega
        simp only [List.getD_eq_getElem?_getD, List.getElem?_map,
          List.getElem?_eq_getElem hix, List.getElem?_eq_getElem hix2, Option.map_some',
          Option.getD_some] at e3 ⊢
        rw [e3]
      · have hix : x.length ≤ i := by omega
        have hix2 : x2.length ≤ i := by omega
        simp only [List.getD_eq_getElem?_getD, List.getElem?_map,
          List.getElem?_eq_none hix, List.getElem?_eq_none hix2, Option.map_none',
          Option.getD_none]

theorem mapM_congr {α β : Type} (f g : α → Except Error β) (l : List α)
    (h : ∀ a ∈ l, f a = g a) : l.mapM f = l.mapM g := by
  induction l with
  | nil => rfl
  | cons a t ih =>
    rw [List.mapM_cons, List.mapM_cons, h a (List.mem_cons_self _ _),
      ih (fun b hb => h b (List.mem_cons_of_mem _ hb))]

/-- The channel-sharded consolidation of more than two shards reads only the first
`4 * ⌊S / 4⌋` input shards. -/
theorem pool_consolidate_channel_sharded_agree (l l2 : List CKKSCiphertext)
    (hS : 2 < l.length) (hlen : l.length = l2.length)
    (hag : ∀ i, i < 4 * (l.length / 4) → l.getD i default = l2.getD i default) :
    pool_consolidate_and_duplicate_channel_sharded l
      = pool_consolidate_and_duplicate_channel_sharded l2 := by
  unfold pool_consolidate_and_duplicate_channel_sharded
  simp only [gt_iff_lt, hS, ← hlen, if_true]
  apply mapM_congr
  intro q hq
  have hq2 : q < l.length / 4 := List.mem_range.1 hq
  rw [hag 0 (by omega), hag (q * 4) (by omega)]
  apply foldlM_congr
  intro out i hi
  rw [List.mem_range'_1] at hi
  rw [hag (i + q * 4) (by omega)]

theorem pool_pre_convolution_agree (l l2 o o2 : List CKKSCiphertext) (n m : Nat)
    (hlen : l.length = l2.length)
    (hag : ∀ i, i < n → l.getD i default = l2.getD i default)
    (h : pool_pre_convolution l m = .ok o) (h2 : pool_pre_convolution l2 m = .ok o2) :
    o.length = o2.length ∧ ∀ i, i < n → o.getD i default = o2.getD i default := by
  unfold pool_pre_convolution at h h2
  simp only [] at h h2
  exact mapM_map_agree _ _ l l2 o o2 n hlen hag h h2

theorem pool_horizontal_reduce_agree (l l2 o o2 : List CKKSCiphertext)
    (n N num_rows num_cols nphys : Nat) (fill_value : ℚ)
    (hfirst : (l.getD 0 default).slots.length = N)
    (hfirst2 : (l2.getD 0 default).slots.length = N)
    (hlen : l.length = l2.length)
    (hag : ∀ i, i < n → l.getD i default = l2.getD i default)
    (h : pool_horizontal_reduce l num_rows num_cols nphys fill_value = .ok o)
    (h2 : pool_horizontal_reduce l2 num_rows num_cols nphys fill_value = .ok o2) :
    o.length = o2.length ∧ ∀ i, i < n → o.getD i default = o2.getD i default := by
  unfold pool_horizontal_reduce at h h2
  simp only [CKKSCiphertext.getBatchSize, hfirst] at h
  simp only [CKKSCiphertext.getBatchSize, hfirst2] at h2
  exact mapM_map_agree _ _ l l2 o o2 n hlen hag h h2

theorem pool_vertical_reduce_channel_sharded_agree (l l2 o o2 : List CKKSCiphertext)
    (n N num_rows num_cols : Nat)
    (hfirst : (l.getD 0 default).slots.length = N)
    (hfirst2 : (l2.getD 0 default).slots.length = N)
    (hlen : l.length = l2.length)
    (hag : ∀ i, i < n → l.getD i default = l2.getD i default)
    (h : pool_vertical_reduce_channel_sharded l num_rows num_cols = .ok o)
    (h2 : pool_vertical_reduce_channel_sharded l2 num_rows num_cols = .ok o2) :
    o.length = o2.length ∧ ∀ i, i < n → o.getD i default = o2.getD i default := by
  unfold pool_vertical_reduce_channel_sharded at h h2
  simp only [CKKSCiphertext.getBatchSize, hfirst] at h
  simp only [CKKSCiphertext.getBatchSize, hfirst2] at h2
  exact mapM_map_agree _ _ l l2 o o2 n hlen hag h h2

/-- The stages of channel-sharded pooling on `S ≥ 3` shards of slot width `R * m`
(`m = P * R`, `P ≥ 2` shards per channel, `R ≥ 2` rows per shard) with at least four towers
each: the optional pre-convolution and the two reductions return `S` shards of that width, and
`pool` returns the consolidation of the third list. -/
theorem pool_channel_sharded_stages (shards : List CKKSCiphertext) (m P R : Nat) (conv : Bool)
    (hP : 2 ≤ P) (hR : 2 ≤ R) (hm : m = P * R) (hS : 3 ≤ shards.length)
    (hU : ∀ s ∈ shards, s.slots.length = R * m ∧ 4 ≤ s.towers) :
    ∃ o1 o2 o3,
      (if conv = true then pool_pre_convolution shards m else pure shards) = Except.ok o1 ∧
      pool_horizontal_reduce o1 R m 1 (if conv = true then 1 / 4 else 1) = .ok o2 ∧
      pool_vertical_reduce_channel_sharded o2 R m = .ok o3 ∧
      o1.length = shards.length ∧ o2.length = shards.length ∧ o3.length = shards.length ∧
      (∀ s ∈ o1, s.slots.length = R * m) ∧ (∀ s ∈ o2, s.slots.length = R * m) ∧
      (∀ s ∈ o3, s.slots.length = R * m) ∧
      pool shards m conv = pool_consolidate_and_duplicate_channel_sharded o3 := by
  have hne : shards ≠ [] := by
    intro h; rw [h] at hS; simp at hS
  have hfirst : (shards.getD 0 default).slots.length = R * m :=
    (hU _ (getD_mem_of_lt shards default 0 (by omega))).1
  have hm4 : 4 ≤ m := by rw [hm]; nlinarith
  have h2m : 2 * m ≤ R * m := Nat.mul_le_mul_right m hR
  have hRm : R < m := by rw [hm]; nlinarith
  have hNlt : R * m < m * m := Nat.mul_lt_mul_of_pos_right hRm (by omega)
  have hPdiv : m * m / (R * m) = P := by
    have e : m * m = P * (R * m) := by nth_rewrite 1 [hm]; ring
    rw [e, Nat.mul_div_cancel _ (by omega)]
  have hmP : m / P = R := by rw [hm]; exact Nat.mul_div_cancel_left R (by omega)
  have hrot : (R / 2) * (m / 2) * 3 ≤ R * m := by
    have a : R / 2 * 2 ≤ R := Nat.div_mul_le_self R 2
    have b : m / 2 * 2 ≤ m := Nat.div_mul_le_self m 2
    have c : (R / 2 * 2) * (m / 2 * 2) ≤ R * m := Nat.mul_le_mul a b
    have d : (R / 2) * (m / 2) * 3 ≤ (R / 2 * 2) * (m / 2 * 2) := by
      have e : (R / 2 * 2) * (m / 2 * 2) = (R / 2) * (m / 2) * 4 := by ring
      rw [e]
      exact Nat.mul_le_mul_left _ (by norm_num)
    exact le_trans d c
  have stage1 : ∃ o1, (if conv = true then pool_pre_convolution shards m else pure shards)
      = Except.ok o1 ∧ o1.length = shards.length ∧
      ∀ s ∈ o1, s.slots.length = R * m ∧ 4 ≤ s.towers := by
    cases conv with
    | true => exact pool_pre_convolution_list shards (R * m) 4 m (by omega) hU
    | false => exact ⟨shards, rfl, rfl, hU⟩
  obtain ⟨o1, h1, l1, u1⟩ := stage1
  have hne1 : o1 ≠ [] := by
    intro h; rw [h] at l1; simp at l1; omega
  obtain ⟨o2, h2, l2, u2⟩ := pool_horizontal_reduce_list o1 (R * m) 4 R m 1
    (if conv = true then 1 / 4 else 1) hne1 (by omega) (by omega) u1 (by omega)
  have hne2 : o2 ≠ [] := by
    intro h; rw [h] at l2; simp at l2; omega
  obtain ⟨o3, h3, l3, u3⟩ := pool_vertical_reduce_channel_sharded_list o2 (R * m) 3 R m hne2
    (by omega) hrot u2 (by omega)
  refine ⟨o1, o2, o3, h1, h2, h3, l1, by rw [l2, l1], by rw [l3, l2, l1],
    fun s hs => (u1 s hs).1, fun s hs => (u2 s hs).1, fun s hs => (u3 s hs).1, ?_⟩
  unfold pool
  simp only [CKKSCiphertext.getBatchSize, hfirst]
  rw [if_neg (by omega)]
  unfold pool_channel_sharded
  cases conv with
  | true =>
    simp only [reduceIte] at h1 h2
    simp only [CKKSCiphertext.getBatchSize, hfirst, hPdiv, hmP, reduceIte, h1, h2, h3,
      bind, Except.bind]
  | false =>
    simp only [Bool.false_eq_true, reduceIte] at h1 h2
    simp only [CKKSCiphertext.getBatchSize, hfirst, hPdiv, hmP, Bool.false_eq_true, reduceIte,
      h1, h2, h3, bind, Except.bind]

/-- Channel-sharded pooling has no check of the shard count: on `S ≥ 3` shards of slot width
`R * m` (`m = P * R`, `P ≥ 2` shards per channel, `R ≥ 2` rows per shard) with at least four
towers each, it returns `⌊S / 4⌋` shards. -/
theorem pool_channel_sharded_count (shards : List CKKSCiphertext) (m P R : Nat) (conv : Bool)
    (hP : 2 ≤ P) (hR : 2 ≤ R) (hm : m = P * R) (hS : 3 ≤ shards.length)
    (hU : ∀ s ∈ shards, s.slots.length = R * m ∧ 4 ≤ s.towers) :
    ∃ outs, pool shards m conv = .ok outs ∧ outs.length = shards.length / 4 := by
  obtain ⟨o1, o2, o3, _, _, _, _, _, l3, _, _, u3, hpool⟩ :=
    pool_channel_sharded_stages shards m P R conv hP hR hm hS hU
  obtain ⟨o4, h4, l4⟩ := pool_consolidate_channel_sharded_count o3 (R * m) (by omega) u3
  exact ⟨o4, by rw [hpool, h4], by rw [l4, l3]⟩

/-- Channel-sharded pooling reads only the first `4 * ⌊S / 4⌋` input shards: two calls on
`S ≥ 3` shards that agree on them return the same result. -/
theorem pool_channel_sharded_agree (shards shards2 : List CKKSCiphertext) (m P R : Nat)
    (conv : Bool) (hP : 2 ≤ P) (hR : 2 ≤ R) (hm : m = P * R) (hS : 3 ≤ shards.length)
    (hU : ∀ s ∈ shards, s.slots.length = R * m ∧ 4 ≤ s.towers)
    (hU2 : ∀ s ∈ shards2, s.slots.length = R * m ∧ 4 ≤ s.towers)
    (hlen : shards2.length = shards.length)
    (hag : ∀ i, i < 4 * (shards.length / 4) →
      shards2.getD i default = shards.getD i default) :
    pool shards2 m conv = pool shards m conv := by
  obtain ⟨o1, o2, o3, h1, h2, h3, l1, l2, l3, u1, u2, u3, hpool⟩ :=
    pool_channel_sharded_stages shards m P R conv hP hR hm hS hU
  obtain ⟨p1, p2, p3, k1, k2, k3, j1, j2, j3, v1, v2, v3, hpool2⟩ :=
    pool_channel_sharded_stages shards2 m P R conv hP hR hm (by omega) hU2
  have a1 : p1.length = o1.length ∧
      ∀ i, i < 4 * (shards.length / 4) → p1.getD i default = o1.getD i default := by
    cases conv with
    | true =>
      simp only [reduceIte] at h1 k1
      exact pool_pre_convolution_agree shards2 shards p1 o1 _ m hlen hag k1 h1
    | false =>
      simp only [Bool.false_eq_true, reduceIte] at h1 k1
      have e1 : o1 = shards := (Except.ok.inj h1).symm
      have e2 : p1 = shards2 := (Except.ok.inj k1).symm
      subst e1
      subst e2
      exact ⟨hlen, hag⟩
  have f1 : (o1.getD 0 default).slots.length = R * m :=
    u1 _ (getD_mem_of_lt o1 default 0 (by omega))
  have g1 : (p1.getD 0 default).slots.length = R * m :=
    v1 _ (getD_mem_of_lt p1 default 0 (by omega))
  have a2 := pool_horizontal_reduce_agree p1 o1 p2 o2 _ (R * m) R m 1 _ g1 f1 a1.1 a1.2 k2 h2
  have f2 : (o2.getD 0 default).slots.length = R * m :=
    u2 _ (getD_mem_of_lt o2 default 0 (by omega))
  have g2 : (p2.getD 0 default).slots.length = R * m :=
    v2 _ (getD_mem_of_lt p2 default 0 (by omega))
  have a3 := pool_vertical_reduce_channel_sharded_agree p2 o2 p3 o3 _ (R * m) R m g2 f2
    a2.1 a2.2 k3 h3
  rw [hpool, hpool2]
  apply pool_consolidate_channel_sharded_agree p3 o3 (by omega) a3.1
  intro i hi
  apply a3.2
  rw [j3, hlen] at hi
  exact hi
/-! ## Claim about the number of shards given to `pool` -/

/-- C22 (amended): `pool` does not check the number of input shards. For every channel-sharded
`pool` call on `S ≥ 3` shards of slot width `N = R * m` (an `m x m` channel over `P ≥ 2` shards
of `R ≥ 2` rows, `m = P * R`, `m^2` within `int`), each with at least four towers remaining,
`pool` raises no error and returns `⌊S / 4⌋` shards, whether or not `S` is a multiple of `4`.
The last `S mod 4` input shards are left out: the call returns the same list when they are
replaced by any other shards of that width with at least four towers. For `S = 3` the returned
list is empty. -/
theorem pool_shard_count_unchecked (shards : List CKKSCiphertext) (m P R : Nat) (conv : Bool)
    (hP : 2 ≤ P) (hR : 2 ≤ R) (hm : m = P * R) (hm31 : m * m < 2 ^ 31)
    (hS : 3 ≤ shards.length)
    (hU : ∀ s ∈ shards, s.getBatchSize = R * m ∧ 4 ≤ s.getTowersRemaining) :
    ∃ outs, pool shards m conv = .ok outs ∧ outs.length = shards.length / 4 ∧
      (∀ shards2 : List CKKSCiphertext, shards2.length = shards.length →
        (∀ s ∈ shards2, s.getBatchSize = R * m ∧ 4 ≤ s.getTowersRemaining) →
        (∀ i, i < 4 * (shards.length / 4) →
          shards2.getD i default = shards.getD i default) →
        pool shards2 m conv = .ok outs) ∧
      (shards.length = 3 → outs = []) := by
  obtain ⟨outs, hout, hlen⟩ := pool_channel_sharded_count shards m P R conv hP hR hm hS hU
  refine ⟨outs, hout, hlen, ?_, ?_⟩
  · intro shards2 hl2 hU2 hag
    rw [pool_channel_sharded_agree shards shards2 m P R conv hP hR hm hS hU hU2 hl2 hag]
    exact hout
  · intro h3
    rw [h3] at hlen
    exact List.length_eq_zero.1 hlen

/-- Witness for C22: three shards of eight slots and four towers, holding `4 x 4` channels in
two shards of two rows each. -/
theorem pool_shard_count_unchecked_witness :
    ∃ outs, pool [⟨[1, 2, 3, 4, 5, 6, 7, 8], 4⟩, ⟨[1, 2, 3, 4, 5, 6, 7, 8], 4⟩,
        ⟨[1, 2, 3, 4, 5, 6, 7, 8], 4⟩] 4 true = .ok outs ∧
      outs.length = ([⟨[1, 2, 3, 4, 5, 6, 7, 8], 4⟩, ⟨[1, 2, 3, 4, 5, 6, 7, 8], 4⟩,
        ⟨[1, 2, 3, 4, 5, 6, 7, 8], 4⟩] : List CKKSCiphertext).length / 4 ∧
      (∀ shards2 : List CKKSCiphertext,
        shards2.length = ([⟨[1, 2, 3, 4, 5, 6, 7, 8], 4⟩, ⟨[1, 2, 3, 4, 5, 6, 7, 8], 4⟩,
          ⟨[1, 2, 3, 4, 5, 6, 7, 8], 4⟩] : List CKKSCiphertext).length →
        (∀ s ∈ shards2, s.getBatchSize = 2 * 4 ∧ 4 ≤ s.getTowersRemaining) →
        (∀ i, i < 4 * (([⟨[1, 2, 3, 4, 5, 6, 7, 8], 4⟩, ⟨[1, 2, 3, 4, 5, 6, 7, 8], 4⟩,
            ⟨[1, 2, 3, 4, 5, 6, 7, 8], 4⟩] : List CKKSCiphertext).length / 4) →
          shards2.getD i default
            = ([⟨[1, 2, 3, 4, 5, 6, 7, 8], 4⟩, ⟨[1, 2, 3, 4, 5, 6, 7, 8], 4⟩,
              ⟨[1, 2, 3, 4, 5, 6, 7, 8], 4⟩] : List CKKSCiphertext).getD i default) →
        pool shards2 4 true = .ok outs) ∧
      (([⟨[1, 2, 3, 4, 5, 6, 7, 8], 4⟩, ⟨[1, 2, 3, 4, 5, 6, 7, 8], 4⟩,
        ⟨[1, 2, 3, 4, 5, 6, 7, 8], 4⟩] : List CKKSCiphertext).length = 3 → outs = []) :=
  pool_shard_count_unchecked [⟨[1, 2, 3, 4, 5, 6, 7, 8], 4⟩, ⟨[1, 2, 3, 4, 5, 6, 7, 8], 4⟩,
    ⟨[1, 2, 3, 4, 5, 6, 7, 8], 4⟩] 4 2 2 true (by decide) (by decide) (by decide)
    (by norm_num) (by decide)
    (by
      intro s hs
      simp only [List.mem_cons, List.mem_singleton, List.not_mem_nil, or_false, or_self] at hs
      subst hs
      exact ⟨rfl, by decide⟩)

/-- Counterexample to C22 as stated: three shards of eight slots (`4 x 4` channels over two
shards each, five towers). `pool` raises no error; it returns the empty list. -/
theorem pool_shard_count_unchecked_counterexample :
    pool [⟨[1, 2, 3, 4, 5, 6, 7, 8], 5⟩, ⟨[11, 12, 13, 14, 15, 16, 17, 18], 5⟩,
        ⟨[21, 22, 23, 24, 25, 26, 27, 28], 5⟩] 4 true = .ok [] := by
  obtain ⟨outs, hout, hlen⟩ := pool_channel_sharded_count
    [⟨[1, 2, 3, 4, 5, 6, 7, 8], 5⟩, ⟨[11, 12, 13, 14, 15, 16, 17, 18], 5⟩,
      ⟨[21, 22, 23, 24, 25, 26, 27, 28], 5⟩] 4 2 2 true (by decide) (by decide) (by decide)
    (by decide)
    (by
      intro s hs
      simp only [List.mem_cons, List.mem_singleton, List.not_mem_nil, or_false] at hs
      rcases hs with rfl | rfl | rfl <;> exact ⟨rfl, by decide⟩)
  have h0 : outs = [] := List.length_eq_zero.1 hlen
  rw [hout, h0]

/-! ### The fully-connected layer on several shards -/

/-- Summing a vector over all cyclic offsets from a slot gives the sum of the vector. -/
theorem sum_cyclic_all (N i : Nat) (hi : i < N) (u : Nat → ℚ) :
    ∑ q ∈ Finset.range N, u (((i : Int) - (q : Int)) % (N : Int)).toNat
      = ∑ q ∈ Finset.range N, u q := by
  have hstep : ∀ q, q < N → (((i : Int) - (q : Int)) % (N : Int)).toNat
      = if q ≤ i then i - q else i + N - q := fun q hq => rotIdx_sub N i q hi hq
  apply Finset.sum_nbij' (fun q => if q ≤ i then i - q else i + N - q)
    (fun q => if q ≤ i then i - q else i + N - q)
  · intro q hq
    have hq' := Finset.mem_range.1 hq
    simp only [Finset.mem_range]
    split <;> omega
  · intro q hq
    have hq' := Finset.mem_range.1 hq
    simp only [Finset.mem_range]
    split <;> omega
  · intro q hq
    have hq' := Finset.mem_range.1 hq
    by_cases h : q ≤ i
    · rw [if_pos h, if_pos (by omega)]; omega
    · rw [if_neg h, if_neg (by omega)]; omega
  · intro q hq
    have hq' := Finset.mem_range.1 hq
    by_cases h : q ≤ i
    · rw [if_pos h, if_pos (by omega)]; omega
    · rw [if_neg h, if_neg (by omega)]; omega
  · intro q hq
    rw [hstep q (Finset.mem_range.1 hq)]

/-- The rotate-and-add loop `shift = N / 2, N / 4, ..., 1` on `N = 2^k` slots leaves the sum
of all `N` slots in every slot. -/
theorem rotate_and_add_total (k : Nat) (u : Nat → ℚ) (t : Nat) :
    rotate_and_add ⟨(List.range (2 ^ k)).map u, t⟩ (2 ^ k / 2)
      = .ok ⟨(List.range (2 ^ k)).map fun _ => ∑ q ∈ Finset.range (2 ^ k), u q, t⟩ := by
  rw [rotate_and_add_ok (2 ^ k) (Nat.two_pow_pos k) k (by omega)]
  congr 2
  apply map_range_congr
  intro i hi
  exact sum_cyclic_all (2 ^ k) i hi u

/-- One output neuron of `linear` on one shard: the weighted sum of the shard's slots, scaled,
in slot `r` and zero elsewhere. -/
theorem linear_neuron_general (x : CKKSCiphertext) (k r : Nat) (c : ℚ) (v : Nat → ℚ)
    (hlen : x.slots.length = 2 ^ k) (ht : 4 ≤ x.towers) (hr : r < 2 ^ k) :
    (do
      let res ← mulAssignVector x ((List.range (2 ^ k)).map v)
      let res ← rotate_and_add res (2 ^ k / 2)
      mulAssignVector res ((List.replicate (2 ^ k) 0).set r c))
      = .ok ⟨(List.range (2 ^ k)).map fun i =>
            if i = r then (∑ q ∈ Finset.range (2 ^ k), x.slots.getD q 0 * v q) * c else 0,
          x.towers - 1 - 1⟩ := by
  have hX := eq_map_range_getD x.slots 0
  rw [hlen] at hX
  rw [mulAssignVector_ok x _ (by simp [hlen]) (by omega)]
  simp only [bind, Except.bind]
  have h1 : EvalMultPlain x ((List.range (2 ^ k)).map v)
      = ⟨(List.range (2 ^ k)).map fun i => x.slots.getD i 0 * v i, x.towers - 1⟩ := by
    unfold EvalMultPlain
    congr 1
    conv_lhs => rw [hX]
    rw [zipWith_map_range]
  rw [h1, rotate_and_add_total]
  simp only
  have hmask : (List.replicate (2 ^ k) (0 : ℚ)).set r c
      = (List.range (2 ^ k)).map fun p => if p ∈ [r] then c else 0 :=
    fill_mask_eq (2 ^ k) [r] c
  rw [hmask, mulAssignVector_ok _ _ (by simp) (by simp only; omega)]
  unfold EvalMultPlain
  congr 2
  simp only
  rw [zipWith_map_range]
  apply map_range_congr
  intro i hi
  by_cases hir : i = r
  · simp [hir]
  · simp [hir]

/-- A table built row by row and flattened is the row-major list of its cells. -/
theorem flatten_grid {α : Type} (O S : Nat) (G : Nat → Nat → α) :
    ((List.range O).map fun r => (List.range S).map (G r)).flatten
      = (List.range (O * S)).map fun j => G (j / S) (j % S) := by
  induction O with
  | zero => simp
  | succ O ih =>
    have e : (O + 1) * S = O * S + S := by ring
    rw [List.range_succ, List.map_append, List.flatten_append, ih, e, List.range_add,
      List.map_append]
    congr 1
    simp only [List.map_cons, List.map_nil, List.flatten_cons, List.flatten_nil,
      List.append_nil, List.map_map]
    apply map_range_congr
    intro j hj
    obtain ⟨h1, h2⟩ := grid_div_mod S O j hj
    simp only [Function.comp]
    rw [h1, h2]

/-- A sum over a grid in row-major order is the double sum over rows and columns. -/
theorem sum_grid (O S : Nat) (h : Nat → Nat → ℚ) :
    ∑ j ∈ Finset.range (O * S), h (j / S) (j % S)
      = ∑ r ∈ Finset.range O, ∑ s ∈ Finset.range S, h r s := by
  induction O with
  | zero => simp
  | succ O ih =>
    have e : (O + 1) * S = O * S + S := by ring
    rw [e, Finset.sum_range_add, ih, Finset.sum_range_succ]
    congr 1
    apply Finset.sum_congr rfl
    intro s hs
    obtain ⟨h1, h2⟩ := grid_div_mod S O s (Finset.mem_range.1 hs)
    rw [h1, h2]

/-- The accumulation `enc_sum = parts[0]; for (r = 1; r < n; ++r) enc_sum += parts[r]` over
parts of one width: the slots of the result are the sums of the slots of the parts. -/
theorem accumulate_slots (N n : Nat) (hn : 1 ≤ n) (P : List CKKSCiphertext)
    (f : Nat → Nat → ℚ)
    (hP : ∀ j, j < n → (P.getD j default).slots = (List.range N).map (f j)) :
    ((List.range' 1 (n - 1)).foldl
        (fun enc_sum r => addAssign enc_sum (P.getD r default)) (P.getD 0 default)).slots
      = (List.range N).map fun i => ∑ j ∈ Finset.range n, f j i := by
  rw [range'_one_eq_map, List.foldl_map]
  rw [foldl_range_slots N (fun acc a => addAssign acc (P.getD (a + 1) default))
    (fun a i => f (a + 1) i) (n - 1)
    (fun a ha acc g hacc => addAssign_slots N acc _ g (f (a + 1)) hacc (hP (a + 1) (by omega)))
    (P.getD 0 default) (f 0) (hP 0 (by omega))]
  apply map_range_congr
  intro i _
  have e : n = (n - 1) + 1 := by omega
  conv_rhs => rw [e, Finset.sum_range_succ']
  ring
/-! ### The fully-connected layer: the slots of the result -/

theorem wrapInt32_of_bounds (v : Int) (h1 : -2147483648 ≤ v) (h2 : v < 2147483648) :
    wrapInt32 v = v := by
  unfold wrapInt32
  norm_num
  omega

/-- The divisor `duplication_factor * pool_factor * pool_factor` of `linear` when the product
fits an `int`: neither multiplication overflows and the divisor is not zero. -/
theorem linear_divisor (d : Nat) (p : Int) (hd1 : 1 ≤ d) (hp0 : p ≠ 0)
    (hp32 : (d : Int) * p * p < 2 ^ 31) :
    wrapInt32 (wrapInt32 ((d : Int) * p) * p) = (d : Int) * p * p ∧ (d : Int) * p * p ≠ 0 := by
  have hdZ : (1 : Int) ≤ (d : Int) := by exact_mod_cast hd1
  have hpp : 0 < p * p := by
    rcases lt_or_gt_of_ne hp0 with h | h
    · exact mul_pos_of_neg_of_neg h h
    · exact mul_pos h h
  have hpos : 0 < (d : Int) * p * p := by
    rw [mul_assoc]; exact mul_pos (by omega) hpp
  have habs : -((d : Int) * p * p) ≤ (d : Int) * p ∧ (d : Int) * p ≤ (d : Int) * p * p := by
    rcases lt_or_gt_of_ne hp0 with h | h
    · have h1 : (d : Int) * p ≤ 0 := mul_nonpos_of_nonneg_of_nonpos (by omega) (le_of_lt h)
      have h2 : 0 ≤ ((d : Int) * p) * (p + 1) :=
        mul_nonneg_of_nonpos_of_nonpos h1 (by omega)
      constructor
      · nlinarith
      · omega
    · have h1 : 0 ≤ (d : Int) * p := mul_nonneg (by omega) (le_of_lt h)
      have h2 : 0 ≤ ((d : Int) * p) * (p - 1) := mul_nonneg h1 (by omega)
      constructor
      · omega
      · nlinarith
  have hT : (d : Int) * p * p < 2147483648 := by norm_num at hp32; exact hp32
  have w1 : wrapInt32 ((d : Int) * p) = (d : Int) * p :=
    wrapInt32_of_bounds _ (by omega) (by omega)
  have w2 : wrapInt32 ((d : Int) * p * p) = (d : Int) * p * p :=
    wrapInt32_of_bounds _ (by omega) hT
  exact ⟨by rw [w1, w2], ne_of_gt hpos⟩

theorem foldl_addAssign_towers (l : List Nat) (P : List CKKSCiphertext) (t : Nat) :
    ∀ acc : CKKSCiphertext, acc.towers = t → (∀ r ∈ l, (P.getD r default).towers = t) →
      (l.foldl (fun enc_sum r => addAssign enc_sum (P.getD r default)) acc).towers = t := by
  induction l with
  | nil => intro acc hacc _; exact hacc
  | cons a tl ih =>
    intro acc hacc hl
    rw [List.foldl_cons]
    apply ih
    · simp only [addAssign, EvalAdd, hacc, hl a (List.mem_cons_self _ _), Nat.min_self]
    · intro r hr
      exact hl r (List.mem_cons_of_mem _ hr)

/-- The accumulation over parts of one level stays at that level. -/
theorem accumulate_towers (n : Nat) (hn : 1 ≤ n) (P : List CKKSCiphertext) (t : Nat)
    (hP : ∀ j, j < n → (P.getD j default).towers = t) :
    ((List.range' 1 (n - 1)).foldl
        (fun enc_sum r => addAssign enc_sum (P.getD r default)) (P.getD 0 default)).towers
      = t := by
  apply foldl_addAssign_towers _ P t _ (hP 0 (by omega))
  intro r hr
  rw [List.mem_range'_1] at hr
  exact hP r (by omega)

/-- The layer `linear` on `S ≥ 1` shards of `2^k` slots with at least four towers each,
`1 ≤ num_outputs ≤ 2^k`, indices in range and every `int` quantity within range: it returns one
shard; slot `r < num_outputs` is the sum over the shards of the weighted sums of their slots,
scaled by the `double` quotient `1.0 / (d * p * p)`; the other slots are zero. -/
theorem linear_slots (shards : List CKKSCiphertext) (W : boost_vector2d) (sigma : List Int)
    (k mtx d : Nat) (p : Int) (hS : 1 ≤ shards.length)
    (hU : ∀ s, s < shards.length → (shards.getD s default).slots.length = 2 ^ k ∧
      4 ≤ (shards.getD s default).towers)
    (hmtx : 1 ≤ mtx) (hmtx32 : mtx * mtx < 2 ^ 31)
    (hd : d = if shards.length = 1 then 2 ^ k / W.shape1 else 1) (hd1 : 1 ≤ d)
    (hp0 : p ≠ 0) (hp32 : (d : Int) * p * p < 2 ^ 31)
    (hsize : shards.length * 2 ^ k < 2 ^ 31) (hI : W.shape1 < 2 ^ 31)
    (hO1 : 1 ≤ W.shape0) (hO : W.shape0 ≤ 2 ^ k)
    (hσ : ∀ s i, s < shards.length → i < 2 ^ k →
      (i / (mtx * mtx) + s * (2 ^ k / (mtx * mtx))) / d < sigma.length)
    (hW : ∀ s i, s < shards.length → i < 2 ^ k →
      0 ≤ sigma.getD ((i / (mtx * mtx) + s * (2 ^ k / (mtx * mtx))) / d) 0 ∧
      (sigma.getD ((i / (mtx * mtx) + s * (2 ^ k / (mtx * mtx))) / d) 0
        * ((mtx * mtx : Nat) : Int) + ((i % (mtx * mtx) : Nat) : Int)).toNat < W.shape1) :
    ∃ out, linear shards W mtx sigma p = .ok out ∧
      (out.slots = (List.range (2 ^ k)).map fun r =>
        if r < W.shape0 then
          ∑ s ∈ Finset.range shards.length,
            (∑ i ∈ Finset.range (2 ^ k),
              (shards.getD s default).slots.getD i 0 *
                W.elems r
                  (sigma.getD ((i / (mtx * mtx) + s * (2 ^ k / (mtx * mtx))) / d) 0
                    * ((mtx * mtx : Nat) : Int) + ((i % (mtx * mtx) : Nat) : Int)).toNat)
              * doubleReciprocal ((d : Int) * p * p)
        else 0) ∧
      ∀ t, (∀ s, s < shards.length → (shards.getD s default).towers = t) →
        out.towers = t - 1 - 1 := by
  have hfirst := (hU 0 (by omega)).1
  have hcs0 : ¬ (((mtx * mtx : Nat) : Int) = 0) := by
    have : 0 < mtx * mtx := Nat.mul_pos hmtx hmtx
    omega
  have hS0 : ¬ (shards.length = 0) := by omega
  have hin : ¬ (shards.length = 1 ∧ W.shape1 = 0) := by
    rintro ⟨h1, h2⟩
    rw [if_pos h1, h2, Nat.div_zero] at hd
    omega
  have hdZ : (if shards.length = 1 then ((2 ^ k / W.shape1 : Nat) : Int) else 1) = (d : Int) := by
    rw [hd]; split <;> simp
  have hnp : Int.tdiv ((2 ^ k : Nat) : Int) ((mtx * mtx : Nat) : Int)
      = ((2 ^ k / (mtx * mtx) : Nat) : Int) := rfl
  have hOS : ¬ (W.shape0 * shards.length = 0) := by
    have := Nat.mul_pos hO1 hS
    omega
  have hphys : ∀ s i, s < shards.length → i < 2 ^ k →
      i / (mtx * mtx) + s * (2 ^ k / (mtx * mtx)) < 2 ^ 31 := by
    intro s i hs hi
    have h1 : i / (mtx * mtx) ≤ i := Nat.div_le_self _ _
    have h2 : s * (2 ^ k / (mtx * mtx)) ≤ s * 2 ^ k :=
      Nat.mul_le_mul_left _ (Nat.div_le_self _ _)
    have h3 : (s + 1) * 2 ^ k ≤ shards.length * 2 ^ k := Nat.mul_le_mul_right _ hs
    have h4 : (s + 1) * 2 ^ k = s * 2 ^ k + 2 ^ k := by ring
    omega
  have hcsb : ((mtx * mtx : Nat) : Int) < 2147483648 := by exact_mod_cast hmtx32
  have hcsn : (-2147483648 : Int) ≤ ((mtx * mtx : Nat) : Int) := by omega
  obtain ⟨hdiv, hdiv0⟩ := linear_divisor d p hd1 hp0 hp32
  have hcs : wrapInt32 ((mtx : Int) * (mtx : Int)) = ((mtx * mtx : Nat) : Int) := by
    rw [← Nat.cast_mul]
    exact wrapInt32_of_bounds _ hcsn hcsb
  unfold linear
  simp only [CKKSCiphertext.getBatchSize, hfirst, hcs, if_neg hS0, if_neg hcs0, if_neg hin, hdZ,
    hnp, hdiv, if_neg hdiv0, if_neg hOS]
  rw [mapM_ok _ (fun (r : Nat) => (List.range shards.length).map fun (s : Nat) =>
    (⟨(List.range (2 ^ k)).map fun i =>
        if i = r then
          (∑ q ∈ Finset.range (2 ^ k),
            (shards.getD s default).slots.getD q 0 *
              W.elems r
                (sigma.getD ((q / (mtx * mtx) + s * (2 ^ k / (mtx * mtx))) / d) 0
                  * ((mtx * mtx : Nat) : Int) + ((q % (mtx * mtx) : Nat) : Int)).toNat)
            * doubleReciprocal ((d : Int) * p * p)
        else 0,
      (shards.getD s default).towers - 1 - 1⟩ : CKKSCiphertext))]
  · simp only [bind, Except.bind, pure, Except.pure]
    refine ⟨_, rfl, ?_, ?_⟩
    swap
    · intro t htow
      rw [flatten_grid]
      apply accumulate_towers (W.shape0 * shards.length) (Nat.mul_pos hO1 hS)
      intro j hj
      rw [getD_map_range, if_pos hj]
      simp only
      rw [htow _ (Nat.mod_lt _ (by omega))]
    rw [flatten_grid]
    rw [accumulate_slots (2 ^ k) (W.shape0 * shards.length) (Nat.mul_pos hO1 hS) _
      (fun j i =>
        if i = j / shards.length then
          (∑ q ∈ Finset.range (2 ^ k),
            (shards.getD (j % shards.length) default).slots.getD q 0 *
              W.elems (j / shards.length)
                (sigma.getD ((q / (mtx * mtx) + (j % shards.length) * (2 ^ k / (mtx * mtx)))
                    / d) 0
                  * ((mtx * mtx : Nat) : Int) + ((q % (mtx * mtx) : Nat) : Int)).toNat)
            * doubleReciprocal ((d : Int) * p * p)
        else 0)
      (by
        intro j hj
        rw [getD_map_range, if_pos hj])]
    apply map_range_congr
    intro i hi
    rw [sum_grid W.shape0 shards.length (fun r s =>
        if i = r then
          (∑ q ∈ Finset.range (2 ^ k),
            (shards.getD s default).slots.getD q 0 *
              W.elems r
                (sigma.getD ((q / (mtx * mtx) + s * (2 ^ k / (mtx * mtx))) / d) 0
                  * ((mtx * mtx : Nat) : Int) + ((q % (mtx * mtx) : Nat) : Int)).toNat)
            * doubleReciprocal ((d : Int) * p * p)
        else 0)]
    by_cases hiO : i < W.shape0
    · rw [if_pos hiO, Finset.sum_eq_single i]
      · simp
      · intro r _ hri
        simp [Ne.symm hri]
      · intro hni
        exact absurd (Finset.mem_range.2 hiO) hni
    · rw [if_neg hiO]
      apply Finset.sum_eq_zero
      intro r hr
      have hr' := Finset.mem_range.1 hr
      have hne : i ≠ r := by omega
      simp [hne]
  · intro r hr
    have hr' : r < W.shape0 := List.mem_range.1 hr
    apply mapM_ok
    intro s hs
    have hs' : s < shards.length := List.mem_range.1 hs
    obtain ⟨hl, ht⟩ := hU s hs'
    have hrN : ¬ (2 ^ k ≤ r) := not_le.2 (lt_of_lt_of_le hr' hO)
    rw [mapM_ok _ (fun i => W.elems r
        (sigma.getD ((i / (mtx * mtx) + s * (2 ^ k / (mtx * mtx))) / d) 0
          * ((mtx * mtx : Nat) : Int) + ((i % (mtx * mtx) : Nat) : Int)).toNat)]
    · simp only [if_neg hrN]
      exact linear_neuron_general (shards.getD s default) k r _ _ hl ht
        (lt_of_lt_of_le hr' hO)
    · intro i hi
      have hi' : i < 2 ^ k := List.mem_range.1 hi
      exact linear_weight_ok W sigma (2 ^ k) (mtx * mtx) d r s i hmtx32 hd1
        (hphys s i hs' hi') (hσ s i hs' hi') (hW s i hs' hi').1 (hW s i hs' hi').2 hI
/-! ### The fully-connected layer on a run that does not return -/

/-- One output neuron of `linear` on a shard with at most three towers: one of the two
multiplications throws. -/
theorem linear_neuron_towers (x : CKKSCiphertext) (k r : Nat) (c : ℚ) (v : Nat → ℚ)
    (hlen : x.slots.length = 2 ^ k) (ht : x.towers ≤ 3) :
    (do
      let res ← mulAssignVector x ((List.range (2 ^ k)).map v)
      let res ← rotate_and_add res (2 ^ k / 2)
      mulAssignVector res ((List.replicate (2 ^ k) 0).set r c))
      = .error .insufficientTowers := by
  by_cases h2 : x.towers ≤ 2
  · rw [mulAssignVector_error x _ (by simp [hlen]) h2]
    rfl
  · have hX := eq_map_range_getD x.slots 0
    rw [hlen] at hX
    rw [mulAssignVector_ok x _ (by simp [hlen]) (by omega)]
    simp only [bind, Except.bind]
    have h1 : EvalMultPlain x ((List.range (2 ^ k)).map v)
        = ⟨(List.range (2 ^ k)).map fun i => x.slots.getD i 0 * v i, x.towers - 1⟩ := by
      unfold EvalMultPlain
      congr 1
      conv_lhs => rw [hX]
      rw [zipWith_map_range]
    rw [h1, rotate_and_add_total]
    simp only
    apply mulAssignVector_error
    · simp
    · simp only; omega

/-- One output neuron of `linear` up to the activation mask, on a shard with at least three
towers: the weight multiplication and the rotate-and-add loop return. -/
theorem linear_neuron_start (x : CKKSCiphertext) (k : Nat) (v : Nat → ℚ)
    (hlen : x.slots.length = 2 ^ k) (ht : 3 ≤ x.towers)
    (f : CKKSCiphertext → Except Error CKKSCiphertext) :
    (do
      let res ← mulAssignVector x ((List.range (2 ^ k)).map v)
      let res ← rotate_and_add res (2 ^ k / 2)
      f res)
      = f ⟨(List.range (2 ^ k)).map fun _ =>
          ∑ q ∈ Finset.range (2 ^ k), x.slots.getD q 0 * v q, x.towers - 1⟩ := by
  have hX := eq_map_range_getD x.slots 0
  rw [hlen] at hX
  rw [mulAssignVector_ok x _ (by simp [hlen]) (by omega)]
  simp only [bind, Except.bind]
  have h1 : EvalMultPlain x ((List.range (2 ^ k)).map v)
      = ⟨(List.range (2 ^ k)).map fun i => x.slots.getD i 0 * v i, x.towers - 1⟩ := by
    unfold EvalMultPlain
    congr 1
    conv_lhs => rw [hX]
    rw [zipWith_map_range]
  rw [h1, rotate_and_add_total]

/-- The run of `linear` ends where its first output neuron (output `0` on shard `0`) ends when
that neuron does not return: `body` is the neuron after the weights `v` are computed. -/
theorem linear_first_neuron (shards : List CKKSCiphertext) (W : boost_vector2d)
    (sigma : List Int) (k mtx d : Nat) (p : Int) (e : Error) (hS : 1 ≤ shards.length)
    (hfirst : (shards.getD 0 default).slots.length = 2 ^ k)
    (hmtx : 1 ≤ mtx) (hmtx32 : mtx * mtx < 2 ^ 31)
    (hd : d = if shards.length = 1 then 2 ^ k / W.shape1 else 1) (hd1 : 1 ≤ d)
    (hsize : 2 ^ k < 2 ^ 31) (hI : W.shape1 < 2 ^ 31) (hO1 : 1 ≤ W.shape0)
    (hσ : ∀ i, i < 2 ^ k →
      (i / (mtx * mtx) + 0 * (2 ^ k / (mtx * mtx))) / d < sigma.length)
    (hW : ∀ i, i < 2 ^ k →
      0 ≤ sigma.getD ((i / (mtx * mtx) + 0 * (2 ^ k / (mtx * mtx))) / d) 0 ∧
      (sigma.getD ((i / (mtx * mtx) + 0 * (2 ^ k / (mtx * mtx))) / d) 0
        * ((mtx * mtx : Nat) : Int) + ((i % (mtx * mtx) : Nat) : Int)).toNat < W.shape1)
    (hbody : (do
        let res ← mulAssignVector (shards.getD 0 default)
          ((List.range (2 ^ k)).map fun i => W.elems 0
            (sigma.getD ((i / (mtx * mtx) + 0 * (2 ^ k / (mtx * mtx))) / d) 0
              * ((mtx * mtx : Nat) : Int) + ((i % (mtx * mtx) : Nat) : Int)).toNat)
        let res ← rotate_and_add res (2 ^ k / 2)
        if 2 ^ k ≤ 0 then .error .undefinedBehaviour
        else
          if wrapInt32 (wrapInt32 ((d : Int) * p) * p) = 0 then .error .undefinedBehaviour
          else mulAssignVector res ((List.replicate (2 ^ k) 0).set 0
            (doubleReciprocal (wrapInt32 (wrapInt32 ((d : Int) * p) * p)))))
      = .error e) :
    linear shards W mtx sigma p = .error e := by
  have hcs0 : ¬ (((mtx * mtx : Nat) : Int) = 0) := by
    have : 0 < mtx * mtx := Nat.mul_pos hmtx hmtx
    omega
  have hS0 : ¬ (shards.length = 0) := by omega
  have hin : ¬ (shards.length = 1 ∧ W.shape1 = 0) := by
    rintro ⟨h1, h2⟩
    rw [if_pos h1, h2, Nat.div_zero] at hd
    omega
  have hdZ : (if shards.length = 1 then ((2 ^ k / W.shape1 : Nat) : Int) else 1) = (d : Int) := by
    rw [hd]; split <;> simp
  have hnp : Int.tdiv ((2 ^ k : Nat) : Int) ((mtx * mtx : Nat) : Int)
      = ((2 ^ k / (mtx * mtx) : Nat) : Int) := rfl
  have hphys : ∀ i, i < 2 ^ k → i / (mtx * mtx) + 0 * (2 ^ k / (mtx * mtx)) < 2 ^ 31 := by
    intro i hi
    have h1 : i / (mtx * mtx) ≤ i := Nat.div_le_self _ _
    omega
  obtain ⟨tlO, htlO⟩ := range_eq_zero_cons W.shape0 hO1
  obtain ⟨tlS, htlS⟩ := range_eq_zero_cons shards.length hS
  have hcsb : ((mtx * mtx : Nat) : Int) < 2147483648 := by exact_mod_cast hmtx32
  have hcsn : (-2147483648 : Int) ≤ ((mtx * mtx : Nat) : Int) := by omega
  have hcs : wrapInt32 ((mtx : Int) * (mtx : Int)) = ((mtx * mtx : Nat) : Int) := by
    rw [← Nat.cast_mul]
    exact wrapInt32_of_bounds _ hcsn hcsb
  unfold linear
  simp only [CKKSCiphertext.getBatchSize, hfirst, hcs, if_neg hS0, if_neg hcs0, if_neg hin, hdZ,
    hnp]
  rw [mapM_error_first _ (List.range W.shape0) 0 tlO e htlO]
  · rfl
  · rw [mapM_error_first _ (List.range shards.length) 0 tlS e htlS]
    rw [mapM_ok _ (fun i => W.elems 0
        (sigma.getD ((i / (mtx * mtx) + 0 * (2 ^ k / (mtx * mtx))) / d) 0
          * ((mtx * mtx : Nat) : Int) + ((i % (mtx * mtx) : Nat) : Int)).toNat)]
    · exact hbody
    · intro i hi
      have hi2 : i < 2 ^ k := List.mem_range.1 hi
      exact linear_weight_ok W sigma (2 ^ k) (mtx * mtx) d 0 0 i hmtx32 hd1
        (hphys i hi2) (hσ i hi2) (hW i hi2).1 (hW i hi2).2 hI

/-- Identity weights under the identity permutation satisfy the index conditions of
`linear`. -/
theorem identity_indices (k mtx i : Nat) (hmtx : 1 ≤ mtx) (hdvd : mtx * mtx ∣ 2 ^ k)
    (hi : i < 2 ^ k) :
    (i / (mtx * mtx) + 0 * (2 ^ k / (mtx * mtx))) / 1
        < (identityPermutation (2 ^ k / (mtx * mtx))).length ∧
      0 ≤ (identityPermutation (2 ^ k / (mtx * mtx))).getD
        ((i / (mtx * mtx) + 0 * (2 ^ k / (mtx * mtx))) / 1) 0 ∧
      ((identityPermutation (2 ^ k / (mtx * mtx))).getD
          ((i / (mtx * mtx) + 0 * (2 ^ k / (mtx * mtx))) / 1) 0
        * ((mtx * mtx : Nat) : Int) + ((i % (mtx * mtx) : Nat) : Int)).toNat
        < (identityWeights (2 ^ k)).shape1 := by
  have hcs : 0 < mtx * mtx := Nat.mul_pos hmtx hmtx
  generalize mtx * mtx = cs at hdvd hcs
  have hlt : i / cs < 2 ^ k / cs := Nat.div_lt_div_of_lt_of_dvd hdvd hi
  have hshape1 : (identityWeights (2 ^ k)).shape1 = 2 ^ k := rfl
  unfold identityPermutation
  rw [Nat.zero_mul, Nat.add_zero, Nat.div_one, getD_map_range, if_pos hlt, hshape1]
  have e : ((i / cs : Nat) : Int) * (cs : Int) + ((i % cs : Nat) : Int) = (i : Int) := by
    have := Nat.div_add_mod' i cs
    exact_mod_cast this
  rw [e, Int.toNat_ofNat]
  refine ⟨by simpa using hlt, Int.ofNat_nonneg _, hi⟩
/-! ### The fully-connected layer with identity weights on one shard -/

theorem two_pow_lt_of_le_30 (k : Nat) (hk : k ≤ 30) : 2 ^ k < 2 ^ 31 :=
  Nat.pow_lt_pow_right (by norm_num) (by omega)

/-- The weighted sum of the slots against row `r` of the identity matrix is slot `r`. -/
theorem identity_row_sum (x : CKKSCiphertext) (k mtx r : Nat) (hmtx : 1 ≤ mtx)
    (hdvd : mtx * mtx ∣ 2 ^ k) (hr : r < 2 ^ k) :
    (∑ i ∈ Finset.range (2 ^ k), x.slots.getD i 0 *
        (identityWeights (2 ^ k)).elems r
          ((identityPermutation (2 ^ k / (mtx * mtx))).getD
              ((i / (mtx * mtx) + 0 * (2 ^ k / (mtx * mtx))) / 1) 0
            * ((mtx * mtx : Nat) : Int) + ((i % (mtx * mtx) : Nat) : Int)).toNat)
      = x.slots.getD r 0 := by
  rw [Finset.sum_eq_single r]
  · rw [linear_weight_row _ _ mtx r r hmtx hdvd hr]
    simp [identityWeights]
  · intro i hi hne
    rw [linear_weight_row _ _ mtx r i hmtx hdvd (Finset.mem_range.1 hi)]
    simp [identityWeights, Ne.symm hne]
  · intro h
    exact absurd (Finset.mem_range.2 hr) h

/-- The layer `linear` on one shard of `2^k` slots with identity weights and the identity
permutation: every slot is scaled by the `double` quotient `1.0 / (p * p)`, two levels are
used. -/
theorem linear_identity_slots (x : CKKSCiphertext) (k mtx : Nat) (p : Int)
    (hlen : x.slots.length = 2 ^ k) (ht : 4 ≤ x.towers) (hk : k ≤ 30) (hmtx : 1 ≤ mtx)
    (hdvd : mtx * mtx ∣ 2 ^ k) (hp0 : p ≠ 0) (hp32 : p * p < 2 ^ 31) :
    ∃ out, linear [x] (identityWeights (2 ^ k)) mtx
          (identityPermutation (2 ^ k / (mtx * mtx))) p = .ok out ∧
      out.slots.length = 2 ^ k ∧ out.towers = x.towers - 2 ∧
      ∀ r, r < 2 ^ k → out.slots.getD r 0 = x.slots.getD r 0 * doubleReciprocal (p * p) := by
  have hN := two_pow_lt_of_le_30 k hk
  have hNpos : 0 < 2 ^ k := Nat.two_pow_pos k
  have hcs : mtx * mtx < 2 ^ 31 := lt_of_le_of_lt (Nat.le_of_dvd hNpos hdvd) hN
  obtain ⟨out, hout, hslots, htow⟩ := linear_slots [x] (identityWeights (2 ^ k))
    (identityPermutation (2 ^ k / (mtx * mtx))) k mtx 1 p (by simp)
    (by
      intro s hs
      simp only [List.length_singleton, Nat.lt_one_iff] at hs
      subst hs
      exact ⟨hlen, ht⟩)
    hmtx hcs
    (by
      simp only [List.length_singleton, if_true]
      exact (Nat.div_self hNpos).symm)
    (le_refl _) hp0 (by simpa using hp32) (by simpa using hN) hN hNpos (le_refl _)
    (by
      intro s i hs hi
      simp only [List.length_singleton, Nat.lt_one_iff] at hs
      subst hs
      exact (identity_indices k mtx i hmtx hdvd hi).1)
    (by
      intro s i hs hi
      simp only [List.length_singleton, Nat.lt_one_iff] at hs
      subst hs
      exact (identity_indices k mtx i hmtx hdvd hi).2)
  refine ⟨out, hout, by rw [hslots]; simp, ?_, ?_⟩
  · rw [htow x.towers (by
      intro s hs
      simp only [List.length_singleton, Nat.lt_one_iff] at hs
      subst hs
      rfl)]
    omega
  · intro r hr
    have hr2 : r < (identityWeights (2 ^ k)).shape0 := hr
    rw [hslots, getD_map_range, if_pos hr, if_pos hr2]
    simp only [List.length_singleton, Finset.sum_range_one, List.getD_cons_zero]
    rw [identity_row_sum x k mtx r hmtx hdvd hr]
    simp

/-- With at most three towers left `linear` throws: each neuron needs two multiplications. -/
theorem linear_insufficient_towers (x : CKKSCiphertext) (k mtx : Nat) (p : Int)
    (hlen : x.slots.length = 2 ^ k) (ht : x.towers ≤ 3) (hk : k ≤ 30) (hmtx : 1 ≤ mtx)
    (hdvd : mtx * mtx ∣ 2 ^ k) (hnz : wrapInt32 (wrapInt32 (((1 : Nat) : Int) * p) * p) ≠ 0) :
    linear [x] (identityWeights (2 ^ k)) mtx (identityPermutation (2 ^ k / (mtx * mtx))) p
      = .error .insufficientTowers := by
  have hN := two_pow_lt_of_le_30 k hk
  have hNpos : 0 < 2 ^ k := Nat.two_pow_pos k
  have hcs : mtx * mtx < 2 ^ 31 := lt_of_le_of_lt (Nat.le_of_dvd hNpos hdvd) hN
  have h2k : ¬ (2 ^ k ≤ 0) := by omega
  apply linear_first_neuron [x] (identityWeights (2 ^ k))
    (identityPermutation (2 ^ k / (mtx * mtx))) k mtx 1 p _ (by simp) hlen hmtx hcs
    (by
      simp only [List.length_singleton, if_true]
      exact (Nat.div_self hNpos).symm)
    (le_refl _) hN hN hNpos
    (fun i hi => (identity_indices k mtx i hmtx hdvd hi).1)
    (fun i hi => (identity_indices k mtx i hmtx hdvd hi).2)
  simp only [if_neg h2k, if_neg hnz, List.getD_cons_zero]
  exact linear_neuron_towers x k 0 _ _ hlen ht

/-- When `pool_factor * pool_factor` is `0` on `int`, `linear` reaches the division `1.0 / 0`
of its first output neuron. -/
theorem linear_zero_divisor (x : CKKSCiphertext) (k mtx : Nat) (p : Int)
    (hlen : x.slots.length = 2 ^ k) (ht : 3 ≤ x.towers) (hk : k ≤ 30) (hmtx : 1 ≤ mtx)
    (hdvd : mtx * mtx ∣ 2 ^ k) (hz : wrapInt32 (wrapInt32 (((1 : Nat) : Int) * p) * p) = 0) :
    linear [x] (identityWeights (2 ^ k)) mtx (identityPermutation (2 ^ k / (mtx * mtx))) p
      = .error .undefinedBehaviour := by
  have hN := two_pow_lt_of_le_30 k hk
  have hNpos : 0 < 2 ^ k := Nat.two_pow_pos k
  have hcs : mtx * mtx < 2 ^ 31 := lt_of_le_of_lt (Nat.le_of_dvd hNpos hdvd) hN
  have h2k : ¬ (2 ^ k ≤ 0) := by omega
  apply linear_first_neuron [x] (identityWeights (2 ^ k))
    (identityPermutation (2 ^ k / (mtx * mtx))) k mtx 1 p _ (by simp) hlen hmtx hcs
    (by
      simp only [List.length_singleton, if_true]
      exact (Nat.div_self hNpos).symm)
    (le_refl _) hN hN hNpos
    (fun i hi => (identity_indices k mtx i hmtx hdvd hi).1)
    (fun i hi => (identity_indices k mtx i hmtx hdvd hi).2)
  simp only [List.getD_cons_zero]
  rw [linear_neuron_start x k _ hlen ht, if_neg h2k, if_pos hz]

theorem doubleReciprocal_nine : doubleReciprocal 9 = 8006399337547548 / 72057594037927936 := by
  have hs : Nat.size 9 = 4 :=
    le_antisymm (Nat.size_le.2 (by norm_num)) (Nat.lt_size.2 (by norm_num))
  have ha : (9 : Int).natAbs = 9 := rfl
  unfold doubleReciprocal
  simp only [ha, hs]
  norm_num

theorem wrapInt32_one_mul_one : wrapInt32 (wrapInt32 (((1 : Nat) : Int) * 1) * 1) = 1 := by
  unfold wrapInt32; norm_num

theorem wrapInt32_square_65536 :
    wrapInt32 (wrapInt32 (((1 : Nat) : Int) * 65536) * 65536) = 0 := by
  unfold wrapInt32; norm_num
/-! ## Claim about the fully-connected layer with identity weights -/

/-- C5 (amended): for a single input shard `x` of slot width `N = 2^k` (`k ≤ 30`, the width is
read into an `int`) with at least four towers left, the `N x N` identity weight matrix (so the
duplication factor is 1), `mtx_size ≥ 1` with `mtx_size^2` dividing `N`, `sigma` the identity
permutation on the `N / mtx_size^2` physical channels, and any `pool_factor p ≥ 1` whose square
fits an `int` (`p^2 < 2^31`), `linear` returns one shard (two towers lower) whose slot `r`
equals `x[r] * c` for every `r < N`, where `c` is the `double` quotient `1.0 / (p * p)`; when
`p` is a power of two the quotient is exact and slot `r` equals `x[r] / p^2`. -/
theorem linear_identity (x : CKKSCiphertext) (k mtx : Nat) (p : Int)
    (hlen : x.slots.length = 2 ^ k) (ht : 4 ≤ x.towers) (hk : k ≤ 30) (hmtx : 1 ≤ mtx)
    (hdvd : mtx * mtx ∣ 2 ^ k) (hp : 1 ≤ p) (hp32 : p * p < 2 ^ 31) :
    ∃ out, linear [x] (identityWeights (2 ^ k)) mtx
          (identityPermutation (2 ^ k / (mtx * mtx))) p = .ok out ∧
      out.slots.length = 2 ^ k ∧ out.towers = x.towers - 2 ∧
      (∀ r, r < 2 ^ k → out.slots.getD r 0 = x.slots.getD r 0 * doubleReciprocal (p * p)) ∧
      (∀ j : Nat, p = 2 ^ j → ∀ r, r < 2 ^ k →
        out.slots.getD r 0 = x.slots.getD r 0 / (p : ℚ) ^ 2) := by
  obtain ⟨out, hout, hl, htow, hs⟩ :=
    linear_identity_slots x k mtx p hlen ht hk hmtx hdvd (by omega) hp32
  refine ⟨out, hout, hl, htow, hs, ?_⟩
  intro j hj r hr
  rw [hs r hr, hj, ← pow_add, doubleReciprocal_two_pow]
  push_cast
  rw [pow_add]
  ring

/-- Witness for C5: two slots `[3, 5]`, four towers, `mtx_size = 1`, `pool_factor = 2`. -/
theorem linear_identity_witness :
    ∃ out, linear [⟨[3, 5], 4⟩] (identityWeights (2 ^ 1)) 1
          (identityPermutation (2 ^ 1 / (1 * 1))) 2 = .ok out ∧
      out.slots.length = 2 ^ 1 ∧ out.towers = 4 - 2 ∧
      (∀ r, r < 2 ^ 1 →
        out.slots.getD r 0 = ([3, 5] : List ℚ).getD r 0 * doubleReciprocal (2 * 2)) ∧
      (∀ j : Nat, (2 : Int) = 2 ^ j → ∀ r, r < 2 ^ 1 →
        out.slots.getD r 0 = ([3, 5] : List ℚ).getD r 0 / (((2 : Int) : ℚ)) ^ 2) :=
  linear_identity ⟨[3, 5], 4⟩ 1 1 2 (by decide) (by decide) (by decide) (by decide)
    (by decide) (by decide) (by norm_num)

/-- Counterexample to C5 as stated, on two-slot shards with the `2 x 2` identity matrix,
`mtx_size = 1` and the identity permutation. With three towers left and `pool_factor = 1` the
weight multiplication leaves two towers and the depth guard of the multiplication by the
activation mask throws, so no shard is returned. With `pool_factor = 65536` the `int` product
`pool_factor * pool_factor` is `0` and the source divides `1.0` by zero. With `pool_factor = 3`
the scale is the `double` nearest to `1/9`, and slot `0` of the result for `x[0] = 9` is not
`9 / 3^2`. -/
theorem linear_identity_counterexample :
    linear [⟨[1, 2], 3⟩] (identityWeights (2 ^ 1)) 1 (identityPermutation (2 ^ 1 / (1 * 1))) 1
        = .error .insufficientTowers ∧
      linear [⟨[1, 2], 4⟩] (identityWeights (2 ^ 1)) 1 (identityPermutation (2 ^ 1 / (1 * 1)))
        65536 = .error .undefinedBehaviour ∧
      ∃ out, linear [⟨[9, 18], 4⟩] (identityWeights (2 ^ 1)) 1
          (identityPermutation (2 ^ 1 / (1 * 1))) 3 = .ok out ∧
        out.slots.getD 0 0 ≠ 9 / 3 ^ 2 := by
  refine ⟨linear_insufficient_towers ⟨[1, 2], 3⟩ 1 1 1 (by decide) (by decide) (by decide)
      (by decide) (by decide) (by rw [wrapInt32_one_mul_one]; decide),
    linear_zero_divisor ⟨[1, 2], 4⟩ 1 1 65536 (by decide) (by decide) (by decide)
      (by decide) (by decide) wrapInt32_square_65536, ?_⟩
  obtain ⟨out, hout, _, _, hs⟩ := linear_identity_slots ⟨[9, 18], 4⟩ 1 1 3 (by decide)
    (by decide) (by decide) (by decide) (by decide) (by decide) (by norm_num)
  refine ⟨out, hout, ?_⟩
  rw [hs 0 (by norm_num)]
  have e : (3 : Int) * 3 = 9 := by norm_num
  rw [e, doubleReciprocal_nine]
  norm_num
/-! ## Claim about the fully-connected layer -/

/-- C21 (amended): the fully-connected layer. For slot width `N = 2^k`, `S ≥ 1` input shards
`x_0 .. x_{S-1}` of that width with at least four towers remaining each, `cs = mtx_size^2`
with `mtx_size ≥ 1`, `P = N / cs` physical channels per shard, duplication factor `d ≥ 1`
(`N / num_inputs` when `S = 1`, otherwise `1`), pool factor `p ≠ 0`, `1 ≤ num_outputs ≤ N`,
all weight and `sigma` indices in range, and the `int` quantities of the source within range
(`cs < 2^31`, `S * N < 2^31`, `num_inputs < 2^31`, `d * p^2 < 2^31`): `linear` returns one shard
of `N` slots whose slot `r`, for `r < num_outputs`, is
`c * Σ_{s < S} Σ_{i < N} x_s[i] * W[r][sigma[(i / cs + s * P) / d] * cs + i mod cs]` with `c` the
`double` quotient `1.0 / (d * p * p)`, which is `1 / (d * p^2)` when `d * p^2` is a power of
two, and whose slots `r ≥ num_outputs` are `0`; and the rotate-and-add loop
`shift = N / 2, N / 4, ..., 1` leaves the sum of all `N` slots in every slot. -/
theorem linear_weighted_sum (shards : List CKKSCiphertext) (W : boost_vector2d)
    (sigma : List Int) (k mtx d : Nat) (p : Int) (hS : 1 ≤ shards.length)
    (hU : ∀ s, s < shards.length → (shards.getD s default).getBatchSize = 2 ^ k ∧
      4 ≤ (shards.getD s default).getTowersRemaining)
    (hmtx : 1 ≤ mtx) (hmtx32 : mtx * mtx < 2 ^ 31)
    (hd : d = if shards.length = 1 then 2 ^ k / W.shape1 else 1)
    (hd1 : 1 ≤ d) (hp : p ≠ 0) (hp32 : (d : Int) * p * p < 2 ^ 31)
    (hsize : shards.length * 2 ^ k < 2 ^ 31) (hI : W.shape1 < 2 ^ 31)
    (hO1 : 1 ≤ W.shape0) (hO : W.shape0 ≤ 2 ^ k)
    (hσ : ∀ s i, s < shards.length → i < 2 ^ k →
      (i / (mtx * mtx) + s * (2 ^ k / (mtx * mtx))) / d < sigma.length)
    (hW : ∀ s i, s < shards.length → i < 2 ^ k →
      0 ≤ sigma.getD ((i / (mtx * mtx) + s * (2 ^ k / (mtx * mtx))) / d) 0 ∧
      (sigma.getD ((i / (mtx * mtx) + s * (2 ^ k / (mtx * mtx))) / d) 0
        * ((mtx * mtx : Nat) : Int) + ((i % (mtx * mtx) : Nat) : Int)).toNat < W.shape1) :
    (∃ out, linear shards W mtx sigma p = .ok out ∧ out.slots.length = 2 ^ k ∧
      (∀ r, r < W.shape0 →
        out.slots.getD r 0 = doubleReciprocal ((d : Int) * p * p) *
          ∑ s ∈ Finset.range shards.length, ∑ i ∈ Finset.range (2 ^ k),
            (shards.getD s default).slots.getD i 0 *
              W.elems r
                (sigma.getD ((i / (mtx * mtx) + s * (2 ^ k / (mtx * mtx))) / d) 0
                  * ((mtx * mtx : Nat) : Int) + ((i % (mtx * mtx) : Nat) : Int)).toNat) ∧
      (∀ r, W.shape0 ≤ r → r < 2 ^ k → out.slots.getD r 0 = 0)) ∧
    (∀ j : Nat, (d : Int) * p * p = 2 ^ j →
      doubleReciprocal ((d : Int) * p * p) = 1 / ((d : ℚ) * (p : ℚ) ^ 2)) ∧
    (∀ (u : Nat → ℚ) (t : Nat),
      rotate_and_add ⟨(List.range (2 ^ k)).map u, t⟩ (2 ^ k / 2)
        = .ok ⟨(List.range (2 ^ k)).map fun _ => ∑ q ∈ Finset.range (2 ^ k), u q, t⟩) := by
  refine ⟨?_, ?_, rotate_and_add_total k⟩
  · obtain ⟨out, hout, hslots, _⟩ :=
      linear_slots shards W sigma k mtx d p hS hU hmtx hmtx32 hd hd1 hp hp32 hsize hI hO1 hO hσ hW
    refine ⟨out, hout, by rw [hslots]; simp, ?_, ?_⟩
    · intro r hr
      rw [hslots, getD_map_range, if_pos (by omega), if_pos hr, Finset.mul_sum]
      apply Finset.sum_congr rfl
      intro s _
      ring
    · intro r hr hrN
      rw [hslots, getD_map_range, if_pos hrN, if_neg (by omega)]
  · intro j hj
    rw [hj, doubleReciprocal_two_pow]
    have e : ((d : ℚ) * (p : ℚ) ^ 2) = (((d : Int) * p * p : Int) : ℚ) := by
      push_cast; ring
    rw [e, hj]
    push_cast
    rfl

/-- Witness for C21: two shards of two slots (`N = 2`, `mtx_size = 1`, two physical channels
per shard), four inputs, one output with all weights `1`, the identity permutation on four
channels and pool factor `1`. -/
theorem linear_weighted_sum_witness :
    (∃ out, linear [⟨[1, 2], 4⟩, ⟨[3, 4], 4⟩] ⟨1, 4, fun _ _ => 1⟩ 1 [0, 1, 2, 3] 1 = .ok out ∧
      out.slots.length = 2 ^ 1 ∧
      (∀ r, r < (⟨1, 4, fun _ _ => 1⟩ : boost_vector2d).shape0 →
        out.slots.getD r 0 = doubleReciprocal (((1 : Nat) : Int) * 1 * 1) *
          ∑ s ∈ Finset.range ([⟨[1, 2], 4⟩, ⟨[3, 4], 4⟩] : List CKKSCiphertext).length,
            ∑ i ∈ Finset.range (2 ^ 1),
              (([⟨[1, 2], 4⟩, ⟨[3, 4], 4⟩] : List CKKSCiphertext).getD s default).slots.getD i 0 *
                (⟨1, 4, fun _ _ => 1⟩ : boost_vector2d).elems r
                  (([0, 1, 2, 3] : List Int).getD
                      ((i / (1 * 1) + s * (2 ^ 1 / (1 * 1))) / 1) 0
                    * ((1 * 1 : Nat) : Int) + ((i % (1 * 1) : Nat) : Int)).toNat) ∧
      (∀ r, (⟨1, 4, fun _ _ => 1⟩ : boost_vector2d).shape0 ≤ r → r < 2 ^ 1 →
        out.slots.getD r 0 = 0)) ∧
    (∀ j : Nat, (((1 : Nat) : Int) * 1 * 1) = 2 ^ j →
      doubleReciprocal (((1 : Nat) : Int) * 1 * 1) = 1 / (((1 : Nat) : ℚ) * ((1 : Int) : ℚ) ^ 2)) ∧
    (∀ (u : Nat → ℚ) (t : Nat),
      rotate_and_add ⟨(List.range (2 ^ 1)).map u, t⟩ (2 ^ 1 / 2)
        = .ok ⟨(List.range (2 ^ 1)).map fun _ => ∑ q ∈ Finset.range (2 ^ 1), u q, t⟩) :=
  linear_weighted_sum [⟨[1, 2], 4⟩, ⟨[3, 4], 4⟩] ⟨1, 4, fun _ _ => 1⟩ [0, 1, 2, 3] 1 1 1 1
    (by decide)
    (by intro s hs; simp only [List.length_cons, List.length_nil] at hs
        interval_cases s <;> exact ⟨rfl, by decide⟩)
    (by decide) (by decide) rfl (by decide) (by decide) (by decide) (by decide) (by decide)
    (by decide) (by decide)
    (by intro s i hs hi; simp only [List.length_cons, List.length_nil] at hs
        norm_num at hi
        interval_cases s <;> interval_cases i <;> decide)
    (by intro s i hs hi; simp only [List.length_cons, List.length_nil] at hs
        norm_num at hi
        interval_cases s <;> interval_cases i <;> decide)

/-- Counterexample to C21 as stated, on one shard of four slots with the `4 x 4` identity
matrix, `mtx_size = 1` and the identity permutation. With three towers left and pool factor
`1` the weight multiplication leaves two towers and the depth guard of the multiplication by
the activation mask throws: no shard is returned. With pool factor `65536` the `int` product
`d * p * p` is `0` and the source divides `1.0` by zero. With pool factor `3` the scale is the
`double` nearest to `1/9`, and slot `0` of the result for `x = [9, 0, 0, 0]` is not
`(1 / (1 * 3^2)) * 9`. -/
theorem linear_weighted_sum_counterexample :
    linear [⟨[3, 5, 7, 9], 3⟩] (identityWeights (2 ^ 2)) 1
        (identityPermutation (2 ^ 2 / (1 * 1))) 1 = .error .insufficientTowers ∧
      linear [⟨[3, 5, 7, 9], 4⟩] (identityWeights (2 ^ 2)) 1
        (identityPermutation (2 ^ 2 / (1 * 1))) 65536 = .error .undefinedBehaviour ∧
      ∃ out, linear [⟨[9, 0, 0, 0], 4⟩] (identityWeights (2 ^ 2)) 1
          (identityPermutation (2 ^ 2 / (1 * 1))) 3 = .ok out ∧
        out.slots.getD 0 0 ≠ (1 / ((1 : ℚ) * 3 ^ 2)) * 9 := by
  refine ⟨linear_insufficient_towers ⟨[3, 5, 7, 9], 3⟩ 2 1 1 (by decide) (by decide)
      (by decide) (by decide) (by decide) (by rw [wrapInt32_one_mul_one]; decide),
    linear_zero_divisor ⟨[3, 5, 7, 9], 4⟩ 2 1 65536 (by decide) (by decide) (by decide)
      (by decide) (by decide) wrapInt32_square_65536, ?_⟩
  obtain ⟨out, hout, _, _, hs⟩ := linear_identity_slots ⟨[9, 0, 0, 0], 4⟩ 2 1 3 (by decide)
    (by decide) (by decide) (by decide) (by decide) (by decide) (by norm_num)
  refine ⟨out, hout, ?_⟩
  rw [hs 0 (by norm_num)]
  have e : (3 : Int) * 3 = 9 := by norm_num
  rw [e, doubleReciprocal_nine]
  norm_num
/-! ## The 32-bit decomposition against the decomposition on mathematical integers -/

theorem num_bits_le_of_lt_pow (x j : Nat) (h1 : 1 ≤ x) (h2 : x < 2 ^ j) : num_bits x ≤ j := by
  obtain ⟨hl, _⟩ := num_bits_bounds x h1
  have hp := num_bits_pos x
  have : num_bits x - 1 < j :=
    (Nat.pow_lt_pow_iff_right (by norm_num : 1 < 2)).1 (lt_of_le_of_lt hl h2)
  omega

/-- Negating the elements of a decomposition of a number of absolute value at most `2^30`
never leaves the `int` range. -/
theorem map_wrap_neg_of_small (num : Int) (hb : |num| ≤ 2 ^ 30) :
    (po2Decompose num).map (fun elt => wrapInt32 (-elt)) =
      (po2Decompose num).map (fun elt => -elt) := by
  apply List.map_congr_left
  intro e he
  have h := abs_le.1 (po2Decompose_abs_le 30 num hb e he)
  norm_num at h
  exact wrapInt32_of_range _ (by norm_num; omega) (by norm_num; omega)

/-- On arguments of absolute value at most `2^30` no `int` operation of the source overflows:
the 32-bit function returns, within `num_bits |num| + 2` nested calls, the list of
`po2Decompose` on mathematical integers. -/
theorem po2Decompose_int32_agrees (fuel : Nat) : ∀ num : Int, |num| ≤ 2 ^ 30 →
    num_bits num.natAbs + (if num < 0 then 1 else 0) < fuel →
    po2Decompose_int32 fuel num = some (po2Decompose num) := by
  induction fuel with
  | zero => intro num _ h; omega
  | succ f ih =>
    intro num hb hf
    have hb2 := abs_le.1 hb
    norm_num at hb2
    by_cases h0 : num = 0
    · subst h0; simp [po2Decompose_int32, po2Decompose_zero]
    by_cases hneg : num < 0
    · have hw : wrapInt32 (-num) = -num :=
        wrapInt32_of_range _ (by norm_num; omega) (by norm_num; omega)
      have hrec := ih (-num) (by rwa [abs_neg]) (by
        have : ¬ (-num < 0) := by omega
        simp only [Int.natAbs_neg, this, if_false]
        simp only [hneg, if_true] at hf
        omega)
      rw [po2Decompose_int32]
      simp only [h0, hneg, if_false, if_true, hw, hrec, Option.map_some']
      rw [po2Decompose_of_neg num hneg, map_wrap_neg_of_small _ (by rwa [abs_neg])]
    by_cases hp : is_power_of_two num = true
    · rw [po2Decompose_int32]
      simp only [h0, hneg, hp, if_false, if_true]
      rw [po2Decompose_of_pow num (by omega) hp]
    · obtain ⟨h1, h2, h3, h4⟩ := po2_bounds num h0 hneg hp
      have hup : next_power_of_two_int32 num = next_power_of_two num := by
        unfold next_power_of_two_int32
        exact wrapInt32_of_range _ (by
          show -2 ^ 31 ≤ next_power_of_two num
          norm_num; omega) (by
          show next_power_of_two num < 2 ^ 31
          norm_num; omega)
      have hld : wrapInt32 (num - last_power_of_two num) = num - last_power_of_two num :=
        wrapInt32_of_range _ (by norm_num; omega) (by norm_num; omega)
      have hud : wrapInt32 (next_power_of_two num - num) = next_power_of_two num - num :=
        wrapInt32_of_range _ (by norm_num; omega) (by norm_num; omega)
      have hnb : ∀ x : Int, 1 ≤ x → x < last_power_of_two num → |x| ≤ 2 ^ 30 ∧
          num_bits x.natAbs + (if x < 0 then 1 else 0) < f := by
        intro x hx1 hx2
        refine ⟨by rw [abs_of_nonneg (by omega)]; norm_num; omega, ?_⟩
        have hxn : ¬ x < 0 := by omega
        simp only [hxn, hneg, if_false] at hf ⊢
        have hnn : num.natAbs = num.toNat := by omega
        rw [hnn] at hf
        have hlt : x.natAbs < 2 ^ (num_bits num.toNat - 1) := by
          unfold last_power_of_two at hx2
          have : ((x.natAbs : Nat) : Int) < ((2 ^ (num_bits num.toNat - 1) : Nat) : Int) := by
            have e : ((x.natAbs : Nat) : Int) = x := by omega
            rw [e]; push_cast; exact hx2
          exact_mod_cast this
        have := num_bits_le_of_lt_pow x.natAbs _ (by omega) hlt
        have hp1 := num_bits_pos num.toNat
        omega
      obtain ⟨hl1, hl2⟩ := hnb (num - last_power_of_two num) (by omega) (by omega)
      obtain ⟨hu1, hu2⟩ := hnb (next_power_of_two num - num) (by omega) (by omega)
      rw [po2Decompose_int32]
      simp only [h0, hneg, if_false, hup, hld, hud]
      rw [if_neg hp]
      simp only [ih _ hl1 hl2, ih _ hu1 hu2]
      rw [po2Decompose_of_not_pow num (by omega) hp]
      split
      · rfl
      · rw [map_wrap_neg_of_small _ hu1]
theorem num_bits_natAbs_le (num : Int) (hb : |num| ≤ 2 ^ 30) : num_bits num.natAbs ≤ 31 := by
  have hb2 := abs_le.1 hb
  norm_num at hb2
  rcases Nat.eq_zero_or_pos num.natAbs with h | h
  · rw [h, num_bits]; simp
  · exact num_bits_le_of_lt_pow _ 31 h (by norm_num; omega)

/-- Below `2^30` in absolute value the 32-bit function is the function on mathematical
integers, for every depth bound of at least 33 nested calls. -/
theorem po2Decompose_int32_small (fuel : Nat) (num : Int) (hb : |num| ≤ 2 ^ 30)
    (hf : 33 ≤ fuel) : po2Decompose_int32 fuel num = some (po2Decompose num) := by
  apply po2Decompose_int32_agrees fuel num hb
  have := num_bits_natAbs_le num hb
  split <;> omega

theorem map_wrap_of_small (num : Int) (hb : |num| ≤ 2 ^ 30) :
    (po2Decompose num).map wrapInt32 = po2Decompose num := by
  conv_rhs => rw [← List.map_id (po2Decompose num)]
  apply List.map_congr_left
  intro e he
  have h := abs_le.1 (po2Decompose_abs_le 30 num hb e he)
  norm_num at h
  exact wrapInt32_of_range _ (by norm_num; omega) (by norm_num; omega)

theorem wrapInt32_neg_wrap (e : Int) : wrapInt32 (-(wrapInt32 e)) = wrapInt32 (-e) := by
  apply wrapInt32_congr
  have := wrapInt32_emod e
  norm_num at this ⊢
  omega

/-- The shape of a number strictly between `2^30` and `2^31`: 31 bits, not a power of two. -/
theorem int32_top_range (num : Int) (h1 : 2 ^ 30 < num) (h2 : num < 2 ^ 31) :
    ¬ is_power_of_two num = true ∧ last_power_of_two num = 2 ^ 30 ∧
      next_power_of_two num = 2 ^ 31 := by
  have hc : ((num.toNat : Nat) : Int) = num := by
    have : (0 : Int) < 2 ^ 30 := by norm_num
    omega
  have hl : 2 ^ 30 ≤ num.toNat := by
    have : ((2 ^ 30 : Nat) : Int) ≤ (num.toNat : Int) := by rw [hc]; push_cast; omega
    exact_mod_cast this
  have hu : num.toNat < 2 ^ (30 + 1) := by
    have : (num.toNat : Int) < ((2 ^ (30 + 1) : Nat) : Int) := by rw [hc]; push_cast; exact h2
    exact_mod_cast this
  have hnb := num_bits_unique num.toNat 30 hl hu
  refine ⟨?_, ?_, ?_⟩
  · intro hp
    rw [← hc] at hp
    have := (is_power_of_two_iff num.toNat (by omega)).1 hp
    rw [hnb] at this
    have h3 : ((num.toNat : Nat) : Int) = ((2 ^ (30 + 1 - 1) : Nat) : Int) := by rw [← this]
    rw [hc] at h3
    norm_num at h3 h1
    omega
  · unfold last_power_of_two; rw [hnb]
  · unfold next_power_of_two; rw [hnb]

/-- The 32-bit decomposition of a number strictly between `2^30` and `2^31`: the list on
mathematical integers, except that the pushed upper power `1 << 31` is `INT_MIN`. -/
theorem po2Decompose_int32_top (fuel : Nat) (num : Int) (h1 : 2 ^ 30 < num) (h2 : num < 2 ^ 31)
    (hf : 34 ≤ fuel) :
    po2Decompose_int32 fuel num = some ((po2Decompose num).map wrapInt32) := by
  obtain ⟨f, rfl⟩ : ∃ f, fuel = f + 1 := ⟨fuel - 1, by omega⟩
  obtain ⟨hp, hlo, hup⟩ := int32_top_range num h1 h2
  norm_num at h1 h2
  have h0 : ¬ num = 0 := by omega
  have hneg : ¬ num < 0 := by omega
  have hup32 : next_power_of_two_int32 num = -2 ^ 31 := by
    have : next_power_of_two_int32 num = wrapInt32 (next_power_of_two num) := rfl
    rw [this, hup, wrapInt32_two_pow_31]
  have hld : wrapInt32 (num - 2 ^ 30) = num - 2 ^ 30 :=
    wrapInt32_of_range _ (by norm_num; omega) (by norm_num; omega)
  have hud : wrapInt32 (-2 ^ 31 - num) = 2 ^ 31 - num := by
    rw [wrapInt32_congr (-2 ^ 31 - num) (2 ^ 31 - num) (by norm_num)]
    exact wrapInt32_of_range _ (by norm_num; omega) (by norm_num; omega)
  have hlb : |num - 2 ^ 30| ≤ 2 ^ 30 := by
    rw [abs_of_nonneg (by norm_num; omega)]; norm_num; omega
  have hub : |2 ^ 31 - num| ≤ 2 ^ 30 := by
    rw [abs_of_nonneg (by norm_num; omega)]; norm_num; omega
  rw [po2Decompose_int32]
  simp only [h0, hneg, if_false, hlo, hup32, hld, hud]
  rw [if_neg hp]
  simp only [po2Decompose_int32_small f _ hlb (by omega),
    po2Decompose_int32_small f _ hub (by omega)]
  rw [po2Decompose_of_not_pow num (by omega) hp, hlo, hup]
  split
  · rw [List.map_append, map_wrap_of_small _ hlb]
    rfl
  · rw [List.map_append, List.map_map, map_wrap_neg_of_small _ hub]
    have e : (po2Decompose (2 ^ 31 - num)).map (wrapInt32 ∘ fun elt => -elt) =
        (po2Decompose (2 ^ 31 - num)).map (fun elt => -elt) := by
      have := map_wrap_neg_of_small _ hub
      exact this
    rw [e]
    simp only [List.map_cons, List.map_nil, wrapInt32_two_pow_31]

/-- The 32-bit function on every `int` other than `INT_MIN`: it returns, within 64 nested
calls, the list of `po2Decompose` on mathematical integers with each element reduced to `int`
(only an element `2^31` changes, to `-2^31`). -/
theorem po2Decompose_int32_eq (fuel : Nat) (num : Int) (h1 : -2 ^ 31 < num) (h2 : num < 2 ^ 31)
    (hf : 64 ≤ fuel) :
    po2Decompose_int32 fuel num = some ((po2Decompose num).map wrapInt32) := by
  by_cases hs : |num| ≤ 2 ^ 30
  · rw [po2Decompose_int32_small fuel num hs (by omega), map_wrap_of_small num hs]
  · rcases lt_or_le 0 num with hpos | hneg
    · rw [abs_of_pos hpos] at hs
      exact po2Decompose_int32_top fuel num (by omega) h2 (by omega)
    · rw [abs_of_nonpos hneg] at hs
      obtain ⟨f, rfl⟩ : ∃ f, fuel = f + 1 := ⟨fuel - 1, by omega⟩
      have hn0 : ¬ num = 0 := by
        intro h; subst h; norm_num at hs
      have hn : num < 0 := by omega
      have hw : wrapInt32 (-num) = -num :=
        wrapInt32_of_range _ (by norm_num at h1 h2 ⊢; omega) (by norm_num at h1 h2 ⊢; omega)
      rw [po2Decompose_int32]
      simp only [hn0, hn, if_false, if_true, hw]
      rw [po2Decompose_int32_top f (-num) (by omega) (by omega) (by omega)]
      simp only [Option.map_some', List.map_map]
      rw [po2Decompose_of_neg num hn, List.map_map]
      congr 1
      apply List.map_congr_left
      intro e _
      exact wrapInt32_neg_wrap e

/-- `INT_MIN`: `-num` is `INT_MIN` again, so the call `po2Decompose(-num)` repeats without end
and no depth bound yields a list. -/
theorem po2Decompose_int32_int_min (fuel : Nat) :
    po2Decompose_int32 fuel (-2147483648) = none := by
  induction fuel with
  | zero => rfl
  | succ f ih =>
    rw [po2Decompose_int32]
    have hw : wrapInt32 (- -2147483648) = -2147483648 := by
      unfold wrapInt32; norm_num
    simp only [hw, ih]
    norm_num
/-- One step of the decomposition of a number strictly between `2^k` and `2^(k+1)`. -/
theorem po2Decompose_step (n : Int) (k : Nat) (h1 : (2 : Int) ^ k < n) (h2 : n < 2 ^ (k + 1)) :
    po2Decompose n =
      if (po2Decompose (n - 2 ^ k)).length ≤ (po2Decompose (2 ^ (k + 1) - n)).length then
        po2Decompose (n - 2 ^ k) ++ [2 ^ k]
      else (po2Decompose (2 ^ (k + 1) - n)).map (fun elt => -elt) ++ [2 ^ (k + 1)] := by
  have hpos : 0 < n := lt_trans (by positivity) h1
  have hc : ((n.toNat : Nat) : Int) = n := by omega
  have h1n : 2 ^ k < n.toNat := by
    have : ((2 ^ k : Nat) : Int) < (n.toNat : Int) := by rw [hc]; exact_mod_cast h1
    exact_mod_cast this
  have h2n : n.toNat < 2 ^ (k + 1) := by
    have : (n.toNat : Int) < ((2 ^ (k + 1) : Nat) : Int) := by rw [hc]; exact_mod_cast h2
    exact_mod_cast this
  have hb := num_bits_unique n.toNat k (le_of_lt h1n) h2n
  have hnp : ¬ is_power_of_two n = true := by
    intro h
    rw [← hc] at h
    have := (is_power_of_two_iff n.toNat (by omega)).1 h
    rw [hb] at this
    simp at this
    omega
  have hl : last_power_of_two n = 2 ^ k := by
    unfold last_power_of_two; rw [hb]; simp
  have hu : next_power_of_two n = 2 ^ (k + 1) := by
    unfold next_power_of_two; rw [hb]
  rw [po2Decompose_of_not_pow n hpos hnp, hl, hu]

theorem po2Decompose_one : po2Decompose 1 = [1] :=
  po2Decompose_of_pow 1 (by norm_num) (by simpa using is_power_of_two_two_pow 0)

theorem po2Decompose_three : po2Decompose 3 = [1, 2] := by
  have h := po2Decompose_step 3 1 (by norm_num) (by norm_num)
  have e1 : (3 : Int) - 2 ^ 1 = 1 := by norm_num
  have e2 : (2 : Int) ^ (1 + 1) - 3 = 1 := by norm_num
  rw [e1, e2, po2Decompose_one] at h
  simpa using h

/-- The decomposition of `2^k - 1` for `k ≥ 3` is the next power minus one. -/
theorem po2Decompose_pow_pred (k : Nat) : po2Decompose (2 ^ (k + 3) - 1) = [-1, 2 ^ (k + 3)] := by
  induction k with
  | zero =>
    have h := po2Decompose_step 7 2 (by norm_num) (by norm_num)
    have e1 : (7 : Int) - 2 ^ 2 = 3 := by norm_num
    have e2 : (2 : Int) ^ (2 + 1) - 7 = 1 := by norm_num
    rw [e1, e2, po2Decompose_one, po2Decompose_three] at h
    have e3 : (2 : Int) ^ (0 + 3) - 1 = 7 := by norm_num
    rw [e3, h]
    simp
  | succ k ih =>
    have hp : (2 : Int) ^ (k + 3) ≥ 8 := by
      have : (2 : Int) ^ 3 ≤ 2 ^ (k + 3) := pow_le_pow_right (by norm_num) (by omega)
      norm_num at this
      exact this
    have e0 : (2 : Int) ^ (k + 1 + 3) = 2 * 2 ^ (k + 3) := by
      rw [show k + 1 + 3 = (k + 3) + 1 by omega, pow_succ]; ring
    have h := po2Decompose_step (2 ^ (k + 1 + 3) - 1) (k + 3) (by rw [e0]; omega)
      (by rw [show k + 1 + 3 = (k + 3) + 1 by omega]; omega)
    have e1 : (2 : Int) ^ (k + 1 + 3) - 1 - 2 ^ (k + 3) = 2 ^ (k + 3) - 1 := by rw [e0]; ring
    have e2 : (2 : Int) ^ (k + 3 + 1) - (2 ^ (k + 1 + 3) - 1) = 1 := by
      rw [show k + 3 + 1 = k + 1 + 3 by omega]; ring
    rw [e1, e2, ih, po2Decompose_one] at h
    rw [h]
    simp

theorem po2Decompose_fifteen : po2Decompose 15 = [-1, 16] := by
  have := po2Decompose_pow_pred 1
  norm_num at this
  exact this

theorem po2Decompose_int_max : po2Decompose 2147483647 = [-1, 2147483648] := by
  have := po2Decompose_pow_pred 28
  norm_num at this
  exact this

/-- At `INT_MAX` the source pushes `upper = 1 << 31 = INT_MIN`. -/
theorem po2Decompose_int32_int_max :
    po2Decompose_int32 64 2147483647 = some [-1, -2147483648] := by
  rw [po2Decompose_int32_eq 64 2147483647 (by norm_num) (by norm_num) (le_refl _),
    po2Decompose_int_max]
  simp only [List.map_cons, List.map_nil]
  have a : wrapInt32 (-1) = -1 := by unfold wrapInt32; norm_num
  have b : wrapInt32 2147483648 = -2147483648 := by unfold wrapInt32; norm_num
  rw [a, b]

theorem po2Decompose_int32_neg_int_max :
    po2Decompose_int32 64 (-2147483647) = some [1, -2147483648] := by
  rw [po2Decompose_int32_eq 64 (-2147483647) (by norm_num) (by norm_num) (le_refl _),
    po2Decompose_neg_eq, po2Decompose_int_max]
  simp only [List.map_cons, List.map_nil]
  have a : wrapInt32 (- -1) = 1 := by unfold wrapInt32; norm_num
  have b : wrapInt32 (-2147483648) = -2147483648 := by unfold wrapInt32; norm_num
  rw [a, b]

theorem isSignedPo2_wrapInt32 (e : Int) (he : IsSignedPo2 e) (hb : |e| ≤ 2 ^ 31) :
    IsSignedPo2 (wrapInt32 e) := by
  have hb2 := abs_le.1 hb
  by_cases h1 : e = 2 ^ 31
  · rw [h1, wrapInt32_two_pow_31]; exact ⟨31, Or.inr rfl⟩
  · by_cases h2 : e = -2 ^ 31
    · rw [h2]
      have : wrapInt32 (-2 ^ 31) = -2 ^ 31 := by unfold wrapInt32; norm_num
      rw [this]; exact ⟨31, Or.inr rfl⟩
    · rw [wrapInt32_of_range e (by norm_num at hb2 h2 ⊢; omega) (by norm_num at hb2 h1 ⊢; omega)]
      exact he

theorem sum_map_wrapInt32 (l : List Int) : ((l.map wrapInt32).sum - l.sum) % 2 ^ 32 = 0 := by
  induction l with
  | nil => simp
  | cons a t ih =>
    simp only [List.map_cons, List.sum_cons]
    have := wrapInt32_emod a
    norm_num at this ih ⊢
    omega

/-- What the 32-bit function returns on every `int` other than `INT_MIN`: signed powers of two
that sum to the argument modulo `2^32`, and exactly when the argument is at most `2^30` in
absolute value. -/
theorem po2Decompose_int32_spec (fuel : Nat) (r : Int) (hf : 64 ≤ fuel)
    (h1 : -2 ^ 31 < r) (h2 : r < 2 ^ 31) :
    ∃ l, po2Decompose_int32 fuel r = some l ∧ (∀ e ∈ l, IsSignedPo2 e) ∧
      (l.sum - r) % 2 ^ 32 = 0 ∧ (|r| ≤ 2 ^ 30 → l.sum = r) := by
  refine ⟨_, po2Decompose_int32_eq fuel r h1 h2 hf, ?_, ?_, ?_⟩
  · intro e he
    rw [List.mem_map] at he
    obtain ⟨a, ha, rfl⟩ := he
    have hr : |r| ≤ 2 ^ 31 := abs_le.2 ⟨by omega, by omega⟩
    exact isSignedPo2_wrapInt32 a ((po2Decompose_spec r).1 a ha) (po2Decompose_abs_le 31 r hr a ha)
  · have := sum_map_wrapInt32 (po2Decompose r)
    rw [(po2Decompose_spec r).2] at this
    exact this
  · intro hs
    rw [map_wrap_of_small r hs]
    exact (po2Decompose_spec r).2

/-- The 32-bit function at `r` and at `-r`, for every `int` `r` other than `INT_MIN`. -/
theorem po2Decompose_int32_neg (fuel : Nat) (r : Int) (hf : 64 ≤ fuel)
    (h1 : -2 ^ 31 < r) (h2 : r < 2 ^ 31) :
    ∃ l l2, po2Decompose_int32 fuel r = some l ∧ po2Decompose_int32 fuel (-r) = some l2 ∧
      l2 = l.map (fun elt => wrapInt32 (-elt)) ∧ (|r| ≤ 2 ^ 30 → l2 = l.map (fun elt => -elt)) := by
  refine ⟨_, _, po2Decompose_int32_eq fuel r h1 h2 hf,
    po2Decompose_int32_eq fuel (-r) (by omega) (by omega) hf, ?_, ?_⟩
  · rw [po2Decompose_neg_eq, List.map_map, List.map_map]
    apply List.map_congr_left
    intro e _
    exact (wrapInt32_neg_wrap e).symm
  · intro hs
    rw [map_wrap_of_small r hs, map_wrap_of_small (-r) (by rwa [abs_neg]), po2Decompose_neg_eq]

/-- The 32-bit function returns a list as long as the decomposition on mathematical
integers. -/
theorem po2Decompose_int32_length (fuel : Nat) (r : Int) (hf : 64 ≤ fuel)
    (h1 : -2 ^ 31 < r) (h2 : r < 2 ^ 31) :
    ∃ l, po2Decompose_int32 fuel r = some l ∧ l.length = (po2Decompose r).length :=
  ⟨_, po2Decompose_int32_eq fuel r h1 h2 hf, List.length_map _ _⟩

theorem po2Len_le_sumOfPo2s (r : Int) : (po2Decompose r).length ≤ (sumOfPo2s |r|).length := by
  have habs : |r| = ((r.natAbs : Nat) : Int) := by
    rw [Int.natCast_natAbs]
  rw [habs]
  rcases le_total 0 r with h | h
  · have hr : ((r.natAbs : Nat) : Int) = r := by omega
    have := po2Len_le_sumOfPo2s_nat r.natAbs
    rw [hr] at this ⊢
    exact this
  · have hr : ((r.natAbs : Nat) : Int) = -r := by omega
    have := po2Len_le_sumOfPo2s_nat r.natAbs
    rw [hr, po2Len_neg] at this
    rw [hr]
    exact this

theorem sumOfPo2s_abs_length (r : Int) : (sumOfPo2s |r|).length = popcount r.natAbs := by
  have habs : |r| = ((r.natAbs : Nat) : Int) := by
    rw [Int.natCast_natAbs]
  rw [habs]; exact sumOfPo2s_length_eq_popcount _
/-! ## Claims about the rotation decomposition on 32-bit `int` -/

/-- C6 (amended): on the 32-bit `int` of the source, for every `r` with `-2^31 < r < 2^31` the call
`po2Decompose(r)` returns (64 nested calls suffice) a list whose every element is `+2^j` or
`-2^j` for some `j ≥ 0`; its elements sum to `r` modulo `2^32`, and to `r` itself when
`|r| ≤ 2^30`; `po2Decompose(0)` is the empty list. -/
theorem po2Decompose_int32_signed_powers_sum (fuel : Nat) (r : Int) (hf : 64 ≤ fuel)
    (h1 : -2 ^ 31 < r) (h2 : r < 2 ^ 31) :
    ∃ l, po2Decompose_int32 fuel r = some l ∧
      (∀ e ∈ l, ∃ j : Nat, e = 2 ^ j ∨ e = -(2 ^ j)) ∧
      (l.sum - r) % 2 ^ 32 = 0 ∧ (|r| ≤ 2 ^ 30 → l.sum = r) ∧
      po2Decompose_int32 fuel 0 = some [] := by
  obtain ⟨l, hl, he, hm, hs⟩ := po2Decompose_int32_spec fuel r hf h1 h2
  refine ⟨l, hl, he, hm, hs, ?_⟩
  rw [po2Decompose_int32_small fuel 0 (by norm_num) (by omega), po2Decompose_zero]

/-- Witness for C6 at `r = 15` with 64 nested calls. -/
theorem po2Decompose_int32_signed_powers_sum_witness :
    ∃ l, po2Decompose_int32 64 15 = some l ∧
      (∀ e ∈ l, ∃ j : Nat, e = 2 ^ j ∨ e = -(2 ^ j)) ∧
      (l.sum - 15) % 2 ^ 32 = 0 ∧ (|(15 : Int)| ≤ 2 ^ 30 → l.sum = 15) ∧
      po2Decompose_int32 64 0 = some [] :=
  po2Decompose_int32_signed_powers_sum 64 15 (by decide) (by norm_num) (by norm_num)

/-- Counterexample to C6 as stated for every integer: at `r = INT_MAX = 2147483647` the source
returns `[-1, -2147483648]` (`upper = 1 << 31` is `INT_MIN`), whose elements do not sum
to `r`. -/
theorem po2Decompose_int32_signed_powers_sum_counterexample :
    po2Decompose_int32 64 2147483647 = some [-1, -2147483648] ∧
      ([-1, -2147483648] : List Int).sum ≠ 2147483647 :=
  ⟨po2Decompose_int32_int_max, by decide⟩

/-- C7 (amended): on the 32-bit `int` of the source, for every `r` with `-2^31 < r < 2^31` both
`po2Decompose(r)` and `po2Decompose(-r)` return, the two lists have the same length, and the
`i`-th element of `po2Decompose(-r)` is the `int` negation of the `i`-th element of
`po2Decompose(r)`: its negation for every element other than `-2^31` (which stays `-2^31`), and
so for every element when `|r| ≤ 2^30`. -/
theorem po2Decompose_int32_neg_elementwise (fuel : Nat) (r : Int) (hf : 64 ≤ fuel)
    (h1 : -2 ^ 31 < r) (h2 : r < 2 ^ 31) :
    ∃ l l2, po2Decompose_int32 fuel r = some l ∧ po2Decompose_int32 fuel (-r) = some l2 ∧
      l2.length = l.length ∧
      (∀ i : Nat, l2[i]? = (l[i]?).map (fun elt => wrapInt32 (-elt))) ∧
      (∀ (i : Nat) (e : Int), l[i]? = some e → e ≠ -2 ^ 31 → l2[i]? = some (-e)) ∧
      (|r| ≤ 2 ^ 30 → ∀ i : Nat, l2[i]? = (l[i]?).map (fun elt => -elt)) := by
  obtain ⟨l, l2, hl, hl2, hw, hs⟩ := po2Decompose_int32_neg fuel r hf h1 h2
  have hspec := po2Decompose_int32_eq fuel r h1 h2 hf
  refine ⟨l, l2, hl, hl2, ?_, ?_, ?_, ?_⟩
  · rw [hw, List.length_map]
  · intro i; rw [hw, List.getElem?_map]
  · intro i e hi hne
    rw [hw, List.getElem?_map, hi, Option.map_some']
    have hmem : e ∈ l := List.getElem?_mem hi
    rw [hl] at hspec
    rw [Option.some.inj hspec, List.mem_map] at hmem
    obtain ⟨a, _, rfl⟩ := hmem
    have hr := wrapInt32_range a
    rw [wrapInt32_of_range (-(wrapInt32 a)) (by omega)
      (by norm_num at hr hne ⊢; omega)]
  · intro hb i; rw [hs hb, List.getElem?_map]

/-- Witness for C7 at `r = 15` with 64 nested calls. -/
theorem po2Decompose_int32_neg_elementwise_witness :
    ∃ l l2, po2Decompose_int32 64 15 = some l ∧ po2Decompose_int32 64 (-15) = some l2 ∧
      l2.length = l.length ∧
      (∀ i : Nat, l2[i]? = (l[i]?).map (fun elt => wrapInt32 (-elt))) ∧
      (∀ (i : Nat) (e : Int), l[i]? = some e → e ≠ -2 ^ 31 → l2[i]? = some (-e)) ∧
      (|(15 : Int)| ≤ 2 ^ 30 → ∀ i : Nat, l2[i]? = (l[i]?).map (fun elt => -elt)) :=
  po2Decompose_int32_neg_elementwise 64 15 (by decide) (by norm_num) (by norm_num)

/-- Counterexample to C7 as stated for every integer: at `r = INT_MAX` the source returns
`[-1, -2147483648]` for `r` and `[1, -2147483648]` for `-r`; the second elements are equal, not
negations of each other. -/
theorem po2Decompose_int32_neg_elementwise_counterexample :
    po2Decompose_int32 64 2147483647 = some [-1, -2147483648] ∧
      po2Decompose_int32 64 (-2147483647) = some [1, -2147483648] ∧
      (-2147483648 : Int) ≠ -(-2147483648) :=
  ⟨po2Decompose_int32_int_max, po2Decompose_int32_neg_int_max, by decide⟩

/-- C8 (amended): on the 32-bit `int` of the source, for every `r` with `-2^31 < r < 2^31` the call
`po2Decompose(r)` returns a list no longer than the non-negative binary representation
`sumOfPo2s |r|`, whose length is the number of one bits of `|r|`; at `r = 15` the signed
decomposition is `[-1, 16]`, 2 elements against `[8, 4, 2, 1]`. -/
theorem po2Decompose_int32_length_le_sumOfPo2s (fuel : Nat) (r : Int) (hf : 64 ≤ fuel)
    (h1 : -2 ^ 31 < r) (h2 : r < 2 ^ 31) :
    ∃ l, po2Decompose_int32 fuel r = some l ∧
      l.length ≤ (sumOfPo2s |r|).length ∧
      (sumOfPo2s |r|).length = popcount r.natAbs ∧
      po2Decompose_int32 fuel 15 = some [-1, 16] ∧ sumOfPo2s 15 = [8, 4, 2, 1] := by
  obtain ⟨l, hl, hlen⟩ := po2Decompose_int32_length fuel r hf h1 h2
  refine ⟨l, hl, ?_, sumOfPo2s_abs_length r, ?_, ?_⟩
  · rw [hlen]; exact po2Len_le_sumOfPo2s r
  · rw [po2Decompose_int32_small fuel 15 (by norm_num) (by omega), po2Decompose_fifteen]
  · simp [sumOfPo2s, Nat.log2]

/-- Witness for C8 at `r = -15` with 64 nested calls. -/
theorem po2Decompose_int32_length_le_sumOfPo2s_witness :
    ∃ l, po2Decompose_int32 64 (-15) = some l ∧
      l.length ≤ (sumOfPo2s |(-15 : Int)|).length ∧
      (sumOfPo2s |(-15 : Int)|).length = popcount (-15 : Int).natAbs ∧
      po2Decompose_int32 64 15 = some [-1, 16] ∧ sumOfPo2s 15 = [8, 4, 2, 1] :=
  po2Decompose_int32_length_le_sumOfPo2s 64 (-15) (by decide) (by norm_num) (by norm_num)

/-- Counterexample to C8 as stated for every integer: `r = INT_MIN = -2147483648` is a value
of `int` and the source's `-num` is `INT_MIN` again; the call `po2Decompose(-num)` repeats
without end, and no list is returned whatever the depth bound. -/
theorem po2Decompose_int32_length_le_sumOfPo2s_counterexample :
    wrapInt32 (-2147483648) = -2147483648 ∧ wrapInt32 (- -2147483648) = -2147483648 ∧
      ∀ fuel : Nat, po2Decompose_int32 fuel (-2147483648) = none :=
  ⟨by unfold wrapInt32; norm_num, by unfold wrapInt32; norm_num, po2Decompose_int32_int_min⟩

/-- C9 (amended): on the 32-bit `int` of the source, `po2Decompose` minimises the rotation count for
every `r` with `-2^31 < r < 2^31`: the call returns, and for every list `L` of signed powers of
two (each element `+2^j` or `-2^j`) whose elements sum to `r`, the returned list is no longer
than `L`. -/
theorem po2Decompose_int32_minimal (fuel : Nat) (r : Int) (L : List Int) (hf : 64 ≤ fuel)
    (h1 : -2 ^ 31 < r) (h2 : r < 2 ^ 31)
    (hL : ∀ e ∈ L, ∃ j : Nat, e = 2 ^ j ∨ e = -(2 ^ j)) (hsum : L.sum = r) :
    ∃ l, po2Decompose_int32 fuel r = some l ∧ l.length ≤ L.length := by
  obtain ⟨l, hl, hlen⟩ := po2Decompose_int32_length fuel r hf h1 h2
  refine ⟨l, hl, ?_⟩
  rw [hlen]
  subst hsum
  exact po2Decompose_minimal_aux _ L (le_refl _) hL

/-- Witness for C9 at `r = 15` and the binary representation `[8, 4, 2, 1]`. -/
theorem po2Decompose_int32_minimal_witness :
    ∃ l, po2Decompose_int32 64 15 = some l ∧ l.length ≤ ([8, 4, 2, 1] : List Int).length :=
  po2Decompose_int32_minimal 64 15 [8, 4, 2, 1] (by decide) (by norm_num) (by norm_num)
    (by
      intro e he
      simp only [List.mem_cons, List.mem_singleton, List.not_mem_nil, or_false] at he
      rcases he with rfl | rfl | rfl | rfl
      · exact ⟨3, Or.inl (by norm_num)⟩
      · exact ⟨2, Or.inl (by norm_num)⟩
      · exact ⟨1, Or.inl (by norm_num)⟩
      · exact ⟨0, Or.inl (by norm_num)⟩)
    (by decide)

/-- Counterexample to C9 as stated for every integer: `r = INT_MIN = -2147483648` is itself
the signed power `-(2^31)`, so the one-element list `[r]` sums to `r`, while the source's call
`po2Decompose(r)` returns no list whatever the depth bound. -/
theorem po2Decompose_int32_minimal_counterexample :
    (∀ fuel : Nat, po2Decompose_int32 fuel (-2147483648) = none) ∧
      (∃ j : Nat, (-2147483648 : Int) = -(2 ^ j)) ∧
      ([-2147483648] : List Int).sum = -2147483648 :=
  ⟨po2Decompose_int32_int_min, ⟨31, by norm_num⟩, by decide⟩

end pyOpenFHE
